import Mathlib

/-!
# libtrie: a double-array trie and Aoe's two-trie

A shallow embedding of `src/trie.cc`, `src/src/trie_impl.h` and
`src/include/trie.h`, followed by theorems about the embedded code.

Conventions of the embedding.

* `size_type`, `char_type` and `value_type` are all `int32_t`; they are
  modelled by `Int` (no operation relevant here depends on wrap-around).
* The state array `states_` is a pair of total functions `base`, `check`
  together with the header field `size`.  Growth zero-fills the new cells
  exactly as `resize` does with `memset`.
* A zero-terminated `char_type` array (`targets`, `inputs`) is a `List Int`;
  `cstr` cuts a list at its first zero, which is what every C loop of the
  form `for (p = inputs; *p; p++)` sees.
* An input buffer `(const char *inputs, size_t length)` is a `List Nat` of
  bytes; a pointer into it is represented by the part of the buffer that
  is still to be read.
* Loops whose trip count is not bounded syntactically carry a fuel
  argument; running out of fuel is the error `Err.fuel`.  A failed `assert`
  is `Err.assertion`, a thrown `std::runtime_error` is `Err.invalid`.
* The relocation observer (`trie_relocator_interface::relocate`) is a
  function argument `cb` acting on an observer state `σ`.
* `class trie` of `trie.cc` is the class that `trie_impl.h` declares as
  `double_trie`; the embedding uses the latter name.
* The walkers that `trie.cc` calls with four arguments keep the plain names
  `go_forward`, `go_forward_reverse` and `go_backward`; the three-argument
  walkers of `trie_impl.h`, which read a terminated key, are in the namespace
  `trie_impl`.
* The namespace `guarded` holds the array operations once more, with the
  bounds of the array asserted at every access of a cell.
-/

namespace libtrie

/-- Outcomes other than a normal return. -/
inductive Err where
  | fuel
  | assertion
  | invalid
deriving DecidableEq

/-- Result of a computation that may stop abnormally. -/
abbrev Res (α : Type) := Except Err α

/-- `key_type::kCharsetSize`. -/
def kCharsetSize : Int := 257

/-- `key_type::kTerminator`. -/
def kTerminator : Int := kCharsetSize

/-- `key_type::char_in`: `static_cast<unsigned char>(ch + 1)`.  The byte is
given by its unsigned value; the result of the cast does not depend on the
signedness of `char`. -/
def char_in (b : Nat) : Int := ((b + 1) % 256 : Nat)

/-- `key_type::char_out`: `static_cast<char>(ch - 1)`, as an unsigned byte. -/
def char_out (ch : Int) : Nat := ((ch - 1) % 256).toNat

/-- A zero-terminated array as the C loops read it. -/
def cstr : List Int → List Int
  | [] => []
  | c :: rest => if c = 0 then [] else c :: cstr rest

/-- `basic_trie::extremum_type`. -/
structure extremum_type where
  max : Int
  min : Int

/-- `class basic_trie`: header size, the state cells, the relocation cursor
and the high-water mark kept by `set_base`. -/
structure basic_trie where
  size : Int
  base : Int → Int
  check : Int → Int
  last_base : Int
  max_state : Int

/-- The relocation observer: it sees the array at the moment of the call,
the old and the new position, and updates its own state. -/
abbrev relocator (σ : Type) := basic_trie → Int → Int → σ → Res σ

/-- A trie without observer (`relocator_ == NULL`). -/
def no_relocator : relocator Unit := fun _ _ _ u => .ok u

namespace basic_trie

/-- `basic_trie::set_base`. -/
def set_base (a : basic_trie) (s val : Int) : basic_trie :=
  { a with
    base := fun i => if i = s then val else a.base i
    max_state := if s > a.max_state then s else a.max_state }

/-- `basic_trie::set_check`. -/
def set_check (a : basic_trie) (s val : Int) : basic_trie :=
  { a with check := fun i => if i = s then val else a.check i }

/-- `basic_trie::next`. -/
def next (a : basic_trie) (s ch : Int) : Int := a.base s + ch

/-- `basic_trie::prev`. -/
def prev (a : basic_trie) (s : Int) : Int := a.check s

/-- `basic_trie::check_transition`. -/
def check_transition (a : basic_trie) (s t : Int) : Prop :=
  s > 0 ∧ t > 0 ∧ t < a.size ∧ a.check t = s

instance (a : basic_trie) (s t : Int) : Decidable (a.check_transition s t) := by
  unfold check_transition; infer_instance

/-- `basic_trie::check_reverse_transition`. -/
def check_reverse_transition (a : basic_trie) (s ch : Int) : Prop :=
  a.next (a.prev s) ch = s ∧ a.check_transition (a.prev s) (a.next (a.prev s) ch)

instance (a : basic_trie) (s ch : Int) : Decidable (a.check_reverse_transition s ch) := by
  unfold check_reverse_transition; infer_instance

/-- `basic_trie::resize_state` with `resize`: the new size is aligned to
4096 cells and the cells past the old size are zero-filled. -/
def resize_state (a : basic_trie) (n : Int) : basic_trie :=
  { a with
    size := ((a.size * 2 + n) / 4096 + 1) * 4096
    base := fun i =>
      if a.size ≤ i ∧ i < ((a.size * 2 + n) / 4096 + 1) * 4096 then 0 else a.base i
    check := fun i =>
      if a.size ≤ i ∧ i < ((a.size * 2 + n) / 4096 + 1) * 4096 then 0 else a.check i }

/-- Modelled from the spec: `inflate`, which `trie.cc` calls to grow the state
array and which is declared nowhere under `src/`.  It is given the growth
policy that the spec states and that `resize_state` of `trie_impl.h`
implements. -/
def inflate (a : basic_trie) (n : Int) : basic_trie := a.resize_state n

/-- The constructor `basic_trie(size, relocator)`: an all-zero array.  The
constructor does not mention `max_state_`; the model starts it at zero. -/
def init (size : Int) : basic_trie :=
  inflate ⟨0, fun _ => 0, fun _ => 0, 0, 0⟩ (if size < kCharsetSize then kCharsetSize else size)

/-- The loop of `basic_trie::find_exist_target`: `n` symbols are still to be
tried, starting at `ch`. -/
def find_exist_target_loop (a : basic_trie) (s : Int) :
    Nat → Int → extremum_type → List Int × extremum_type
  | 0, _, e => ([], e)
  | n + 1, ch, e =>
    if a.next s ch ≥ a.size then ([], e)
    else if a.check_transition s (a.next s ch) then
      let r := find_exist_target_loop a s n (ch + 1)
        ⟨if ch > e.max then ch else e.max, if ch < e.min then ch else e.min⟩
      (ch :: r.1, r.2)
    else find_exist_target_loop a s n (ch + 1) e

/-- `basic_trie::find_exist_target`: the symbols of the existing arcs out of
`s` (without the closing zero) and the updated extremum.  The returned count
is the length of the list. -/
def find_exist_target (a : basic_trie) (s : Int) (e : extremum_type) :
    List Int × extremum_type :=
  find_exist_target_loop a s 257 1 e

/-- The scan of `basic_trie::find_base`, entered with the candidate `i` that
was tried last. -/
def find_base_loop (inputs : List Int) (e : extremum_type) :
    Nat → basic_trie → Int → Res (Int × basic_trie)
  | 0, _, _ => .error .fuel
  | n + 1, a, i =>
    let a1 := if i + 1 + e.max ≥ a.size then a.inflate e.max else a
    if a1.check (i + 1 + e.min) ≤ 0 ∧ a1.check (i + 1 + e.max) ≤ 0
        ∧ ∀ p ∈ inputs, ¬ a1.check (i + 1 + p) > 0 then
      .ok (i + 1, a1)
    else find_base_loop inputs e n a1 (i + 1)

/-- `basic_trie::find_base`.  The fuel covers every candidate up to the size
on entry, where all the cells examined are fresh. -/
def find_base (a : basic_trie) (inputs : List Int) (e : extremum_type) :
    Res (Int × basic_trie) :=
  match find_base_loop inputs e ((a.size - a.last_base).toNat + 1) a a.last_base with
  | .ok (i, a1) => .ok (i, { a1 with last_base := i })
  | .error err => .error err

/-- The first half of a round of the loop of `basic_trie::relocate` on the
child symbol `c`: the old cell is copied to its new place and the
grandchildren found by `find_exist_target` are re-parented. -/
def move_child (a : basic_trie) (obase nbase c : Int) : basic_trie :=
  let a1 := a.set_base (nbase + c) (a.base (obase + c))
  let a2 := a1.set_check (nbase + c) (a1.check (obase + c))
  (a2.find_exist_target (obase + c) ⟨0, 0⟩).1.foldl
    (fun acc p => acc.set_check (acc.base (obase + c) + p) (nbase + c)) a2

/-- One round of the loop of `basic_trie::relocate` on the child symbol `c`
whose old cell is still owned by `s`: copy the cell and re-parent the
grandchildren, move `stand`, tell the observer, free the old cell. -/
def relocate_step {σ : Type} (cb : relocator σ) (obase nbase c : Int)
    (stand : Int) (a : basic_trie) (o : σ) : Res (Int × basic_trie × σ) :=
  match cb (a.move_child obase nbase c) (obase + c) (nbase + c) o with
  | .error err => .error err
  | .ok o1 =>
    .ok (if stand = obase + c then nbase + c else stand,
      ((a.move_child obase nbase c).set_base (obase + c) 0).set_check (obase + c) 0, o1)

/-- The loop of `basic_trie::relocate` over the zero-terminated `inputs`. -/
def relocate_loop {σ : Type} (cb : relocator σ) (s obase nbase : Int) :
    List Int → Int → basic_trie → σ → Res (Int × basic_trie × σ)
  | [], stand, a, o => .ok (stand, a, o)
  | c :: rest, stand, a, o =>
    if a.check (obase + c) ≠ s then relocate_loop cb s obase nbase rest stand a o
    else
      match relocate_step cb obase nbase c stand a o with
      | .error err => .error err
      | .ok (stand1, a1, o1) => relocate_loop cb s obase nbase rest stand1 a1 o1

/-- `basic_trie::relocate`. -/
def relocate {σ : Type} (cb : relocator σ) (a : basic_trie) (o : σ)
    (stand s : Int) (inputs : List Int) (e : extremum_type) :
    Res (Int × basic_trie × σ) :=
  match a.find_base inputs e with
  | .error err => .error err
  | .ok (nbase, a1) =>
    match relocate_loop cb s (a.base s) nbase inputs stand a1 o with
    | .error err => .error err
    | .ok (stand1, a2, o1) => .ok (stand1, a2.set_base s nbase, o1)

/-- The growth step `if (t >= header_->size) inflate(t - header_->size + 1)`. -/
def grow_to (a : basic_trie) (t : Int) : basic_trie :=
  if t ≥ a.size then a.inflate (t - a.size + 1) else a

/-- `basic_trie::create_transition`, returning also the final value of the
local `s` (the source state after a possible move). -/
def create_transition_aux {σ : Type} (cb : relocator σ) (a : basic_trie) (o : σ)
    (s ch : Int) : Res (Int × Int × basic_trie × σ) :=
  let a0 := a.grow_to (a.next s ch)
  let t := a0.next s ch
  if a0.base s > 0 ∧ a0.check t ≤ 0 then
    .ok (s, t, a0.set_check t s, o)
  else
    let r := a0.find_exist_target s ⟨0, 0⟩
    let rp := if a0.check t ≠ 0 then a0.find_exist_target (a0.check t) ⟨0, 0⟩
              else ([], ⟨0, 0⟩)
    let moved :=
      if (rp.1.length : Int) > 0 ∧ (r.1.length : Int) + 1 > rp.1.length then
        relocate cb a0 o s (a0.check t) (cstr rp.1) rp.2
      else
        relocate cb a0 o s s (cstr (r.1 ++ [ch]))
          ⟨if ch > r.2.max ∨ r.2.max = 0 then ch else r.2.max,
           if ch < r.2.min ∨ r.2.min = 0 then ch else r.2.min⟩
    match moved with
    | .error err => .error err
    | .ok (s1, a1, o1) =>
      let a2 := a1.grow_to (a1.next s1 ch)
      .ok (s1, a2.next s1 ch, a2.set_check (a2.next s1 ch) s1, o1)

/-- `basic_trie::create_transition`. -/
def create_transition {σ : Type} (cb : relocator σ) (a : basic_trie) (o : σ)
    (s ch : Int) : Res (Int × basic_trie × σ) :=
  match create_transition_aux cb a o s ch with
  | .error err => .error err
  | .ok (_, t, a1, o1) => .ok (t, a1, o1)

/-- Modelled from the spec: the four-argument walker
`go_forward(s, inputs, length, &mismatch)` that `trie.cc` calls; only its
successor on terminated keys is under `src/`.  It follows the arcs of the
input bytes greedily and stops on the first absent arc, as the spec says and
with the loop body of the later version.  Its callers fix that it does not
consume a terminator.  The unread rest of the input stands for `mismatch`. -/
def go_forward (a : basic_trie) : Int → List Nat → Int × List Nat
  | s, [] => (s, [])
  | s, b :: rest =>
    if a.check_transition s (a.next s (char_in b)) then
      go_forward a (a.next s (char_in b)) rest
    else (s, b :: rest)

/-- The loop `for (; p < inputs + length; p++) s = create_transition(s, char_in(*p))`. -/
def create_path {σ : Type} (cb : relocator σ) :
    List Int → Int → basic_trie → σ → Res (Int × basic_trie × σ)
  | [], s, a, o => .ok (s, a, o)
  | c :: rest, s, a, o =>
    match a.create_transition cb o s c with
    | .error err => .error err
    | .ok (t, a1, o1) => create_path cb rest t a1 o1

/-- `basic_trie::insert`; `none` stands for a null `inputs` pointer. -/
def insert {σ : Type} (cb : relocator σ) (a : basic_trie) (o : σ)
    (inputs : Option (List Nat)) (val : Int) : Res (basic_trie × σ) :=
  if val < 1 then .error .invalid
  else
    match inputs with
    | none => .error .invalid
    | some bytes =>
      let w := a.go_forward 1 bytes
      match create_path cb (w.2.map char_in ++ [kTerminator]) w.1 a o with
      | .error err => .error err
      | .ok (s, a1, o1) => .ok (a1.set_base s val, o1)

/-- `basic_trie::search`. -/
def search (a : basic_trie) (bytes : List Nat) : Int :=
  let s := (a.go_forward 1 bytes).1
  if ¬ a.check_transition s (a.next s kTerminator) then 0
  else a.base (a.next s kTerminator)

/-- Modelled from the spec: the four-argument `go_forward_reverse(s, inputs,
length, &mismatch)` called by `trie::rhs_append`: the greedy walk of
`go_forward` over the input bytes taken from right to left, without a
terminator.  The second component is the prefix of the input that is still
unread (it is empty exactly when `mismatch < inputs`). -/
def go_forward_reverse (a : basic_trie) (s : Int) (bytes : List Nat) : Int × List Nat :=
  ((a.go_forward s bytes.reverse).1, (a.go_forward s bytes.reverse).2.reverse)

/-- Modelled from the spec: the four-argument `go_backward(s, inputs, length,
mismatch)` called by `trie::search`: it follows `prev` pointers, comparing
each transition symbol against the input bytes in order.  The arc from
`prev(s)` into `s` carries the next input byte exactly when
`check_reverse_transition(s, char_in(b))` holds, which is the test that
`trie::insert` makes on the same path; the walk steps to `prev(s)` while it
holds.  The first component is the state where the walk stopped, the second
the input from the first byte that did not match. -/
def go_backward (a : basic_trie) : Int → List Nat → Int × List Nat
  | s, [] => (s, [])
  | s, b :: rest =>
    if a.check_reverse_transition s (char_in b) then
      go_backward a (a.prev s) rest
    else (s, b :: rest)

end basic_trie

/-- `double_trie::index_type`. -/
structure index_type where
  data : Int
  index : Int

/-- `double_trie::refer_type`; the `std::set` is a strictly increasing list. -/
structure refer_type where
  accept_index : Int
  referer : List Int

/-- Insertion into a `std::set<size_type>`. -/
def set_insert (x : Int) : List Int → List Int
  | [] => [x]
  | y :: rest => if x < y then x :: y :: rest else if x = y then y :: rest
                 else y :: set_insert x rest

/-- Removal from a `std::set<size_type>`. -/
def set_erase (x : Int) (l : List Int) : List Int := l.filter (fun y => y ≠ x)

/-- `class trie` of `trie.cc` (`double_trie` in `trie_impl.h`): the front and
rear arrays, the index and accept tables with their header sizes, the refer
map, the scratch string `exists_`, the allocation counters, `stand_` and the
two free lists. -/
structure double_trie where
  lhs : basic_trie
  rhs : basic_trie
  index_size : Int
  accept_size : Int
  index : Int → index_type
  accept : Int → Int
  refer : Int → Option refer_type
  exists_ : List Nat
  next_accept : Int
  next_index : Int
  stand : Int
  free_accept : List Int
  free_index : List Int

namespace double_trie

/-- The constructor `trie::trie()`: two default arrays, tables of 1024 zeroed
records, counters at 1. -/
def init : double_trie :=
  { lhs := basic_trie.init 4096
    rhs := basic_trie.init 4096
    index_size := 1024
    accept_size := 1024
    index := fun _ => ⟨0, 0⟩
    accept := fun _ => 0
    refer := fun _ => none
    exists_ := []
    next_accept := 1
    next_index := 1
    stand := 0
    free_accept := []
    free_index := [] }

/-- Assignment `index_[i].data = v`. -/
def set_index_data (d : double_trie) (i v : Int) : double_trie :=
  { d with index := fun j => if j = i then ⟨v, (d.index j).index⟩ else d.index j }

/-- Assignment `index_[i].index = v`. -/
def set_index_index (d : double_trie) (i v : Int) : double_trie :=
  { d with index := fun j => if j = i then ⟨(d.index j).data, v⟩ else d.index j }

/-- Assignment `accept_[i].accept = v`. -/
def set_accept (d : double_trie) (i v : Int) : double_trie :=
  { d with accept := fun j => if j = i then v else d.accept j }

/-- Assignment `refer_[r] = rec`. -/
def set_refer (d : double_trie) (r : Int) (rec : refer_type) : double_trie :=
  { d with refer := fun j => if j = r then some rec else d.refer j }

/-- The record `refer_[r]` as `operator[]` yields it: a missing record is
created value-initialised. -/
def refer_at (d : double_trie) (r : Int) : refer_type :=
  match d.refer r with
  | some rec => rec
  | none => ⟨0, []⟩

/-- `double_trie::check_separator`. -/
def check_separator (d : double_trie) (s : Int) : Prop := d.lhs.base s < 0

instance (d : double_trie) (s : Int) : Decidable (d.check_separator s) := by
  unfold check_separator; infer_instance

/-- `double_trie::link_state`. -/
def link_state (d : double_trie) (s : Int) : Int :=
  d.accept (d.index (-d.lhs.base s)).index

/-- `double_trie::count_referer`. -/
def count_referer (d : double_trie) (s : Int) : Nat :=
  match d.refer s with
  | none => 0
  | some rec => rec.referer.length

/-- `double_trie::free_accept_entry`. -/
def free_accept_entry (d : double_trie) (s : Int) : double_trie :=
  match d.refer s with
  | none => d
  | some rec =>
    let d1 :=
      if s > 0 ∧ d.count_referer s = 0 ∧ rec.accept_index < d.accept_size
          ∧ rec.accept_index > 0 then
        { d.set_accept rec.accept_index 0 with
          free_accept := d.free_accept ++ [rec.accept_index] }
      else d
    { d1 with refer := fun j => if j = s then none else d1.refer j }

/-- `double_trie::remove_accept_state`. -/
def remove_accept_state (d : double_trie) (s : Int) : Res double_trie :=
  if ¬ s > 0 then .error .assertion
  else .ok (free_accept_entry { d with rhs := (d.rhs.set_base s 0).set_check s 0 } s)

/-- `double_trie::find_index_entry`. -/
def find_index_entry (d : double_trie) (s : Int) : Res (Int × double_trie) :=
  if d.lhs.base s ≥ 0 then
    let nx := match d.free_index with
      | [] => d.next_index
      | i :: _ => i
    let d1 : double_trie := match d.free_index with
      | [] => { d with next_index := d.next_index + 1 }
      | _ :: rest => { d with free_index := rest }
    if nx ≥ d1.index_size then
      let nsize := ((nx * 2) / 4096 + 1) * 4096
      let d2 : double_trie :=
        { d1 with index := fun j => if d1.index_size ≤ j ∧ j < nsize then ⟨0, 0⟩
                                    else d1.index j }
      if (d2.index nx).index ≠ 0 then .error .assertion
      else .ok (nx, { d2 with index_size := nsize, lhs := d2.lhs.set_base s (-nx) })
    else .ok (nx, { d1 with lhs := d1.lhs.set_base s (-nx) })
  else .ok (-d.lhs.base s, d)

/-- `double_trie::find_accept_entry`. -/
def find_accept_entry (d : double_trie) (i : Int) : Int × double_trie :=
  if (d.index i).index = 0 then
    let nx := match d.free_accept with
      | [] => d.next_accept
      | j :: _ => j
    let d1 : double_trie := match d.free_accept with
      | [] => { d with next_accept := d.next_accept + 1 }
      | _ :: rest => { d with free_accept := rest }
    let d2 : double_trie :=
      if nx ≥ d1.accept_size then
        { d1 with
          accept := fun j => if d1.accept_size ≤ j ∧ j < ((nx * 2) / 4096 + 1) * 4096 then 0
                             else d1.accept j
          accept_size := ((nx * 2) / 4096 + 1) * 4096 }
      else d1
    (nx, d2.set_index_index i nx)
  else ((d.index i).index, d)

/-- `double_trie::set_link`. -/
def set_link (d : double_trie) (s t : Int) : Res (Int × double_trie) :=
  match d.find_index_entry s with
  | .error err => .error err
  | .ok (i, d1) =>
    let d2 : double_trie :=
      if (d.refer t).isSome ∧ (d.refer_at t).referer.length ≠ 0 then
        d1.set_index_index i (d1.refer_at t).accept_index
      else
        let r := d1.find_accept_entry i
        (r.2.set_accept r.1 t).set_refer t ⟨r.1, (r.2.refer_at t).referer⟩
    if ¬ d2.lhs.base s < 0 then .error .assertion
    else .ok (i, d2.set_refer t ⟨(d2.refer_at t).accept_index,
                                  set_insert s (d2.refer_at t).referer⟩)

/-- The loop of `double_trie::outdegree`. -/
def outdegree_loop (a : basic_trie) (s : Int) : Nat → Int → Nat
  | 0, _ => 0
  | n + 1, ch =>
    if a.next s ch ≥ a.size then 0
    else if a.check_transition s (a.next s ch) then outdegree_loop a s n (ch + 1) + 1
    else outdegree_loop a s n (ch + 1)

/-- `double_trie::outdegree`: the number of arcs out of the rear state `s`. -/
def outdegree (d : double_trie) (s : Int) : Nat := outdegree_loop d.rhs s 257 1

/-- `double_trie::relocate_front`, the observer of the front array. -/
def relocate_front : relocator double_trie := fun a s t d =>
  if a.base s < 0 ∧ (d.index (-a.base s)).index > 0 then
    let r := d.accept (d.index (-a.base s)).index
    match d.refer r with
    | none => .ok d
    | some rec =>
      if ¬ a.base t < 0 then .error .assertion
      else .ok (d.set_refer r ⟨rec.accept_index, set_insert t (set_erase s rec.referer)⟩)
  else .ok d

/-- `double_trie::relocate_rear`, the observer of the rear array. -/
def relocate_rear : relocator double_trie := fun _ s t d =>
  match d.refer s with
  | some rec => .ok (free_accept_entry ((d.set_accept rec.accept_index t).set_refer t rec) s)
  | none => if d.stand = s then .ok { d with stand := t } else .ok d

/-- The call `lhs_->create_transition(s, ch)`. -/
def lhs_create_transition (d : double_trie) (s ch : Int) : Res (Int × double_trie) :=
  match d.lhs.create_transition relocate_front d s ch with
  | .error err => .error err
  | .ok (t, a, d1) => .ok (t, { d1 with lhs := a })

/-- The call `rhs_->create_transition(s, ch)`. -/
def rhs_create_transition (d : double_trie) (s ch : Int) : Res (Int × double_trie) :=
  match d.rhs.create_transition relocate_rear d s ch with
  | .error err => .error err
  | .ok (t, a, d1) => .ok (t, { d1 with rhs := a })

/-- The loop `for (it = refer_[s].referer.begin(); ...) set_link(*it, t)`
over the referers found on entry. -/
def relink_all (t : Int) : List Int → double_trie → Res double_trie
  | [], d => .ok d
  | f :: rest, d =>
    match d.set_link f t with
    | .error err => .error err
    | .ok (_, d1) => relink_all t rest d1

/-- The loop `for (; p >= inputs; p--) { t = rhs_->create_transition(s,
char_in(*p)); s = t; }` of `rhs_append`; the bytes are given in the order in
which they are read (right to left). -/
def rhs_create_path : List Nat → Int → double_trie → Res (Int × double_trie)
  | [], s, d => .ok (s, d)
  | b :: rest, s, d =>
    match d.rhs_create_transition s (char_in b) with
    | .error err => .error err
    | .ok (t, d1) => rhs_create_path rest t d1

/-- The part of `trie::rhs_append` after the attempt to reuse an existing
path: `s` is the rear state reached and `rest` the unread prefix of the
suffix. -/
def rhs_append_tail (d : double_trie) (s : Int) (rest inputs : List Nat) :
    Res (Int × double_trie) :=
  let step1 : Res double_trie :=
    if d.outdegree s = 0 then
      match d.rhs_create_transition s kTerminator with
      | .error err => .error err
      | .ok (t, d1) =>
        match relink_all t (d1.refer_at s).referer
            (match d1.refer s with
             | some _ => d1
             | none => d1.set_refer s ⟨0, []⟩) with
        | .error err => .error err
        | .ok d2 => .ok (d2.free_accept_entry s)
    else .ok d
  match step1 with
  | .error err => .error err
  | .ok d3 =>
    if s = 1 then
      match d3.rhs_create_transition s kTerminator with
      | .error err => .error err
      | .ok (t, d4) => rhs_create_path inputs.reverse t d4
    else rhs_create_path rest.reverse s d3

/-- `trie::rhs_append`. -/
def rhs_append (d : double_trie) (inputs : List Nat) : Res (Int × double_trie) :=
  if d.rhs.check_transition 1 (d.rhs.next 1 kTerminator) then
    let w := d.rhs.go_forward_reverse (d.rhs.next 1 kTerminator) inputs
    if w.2 = [] then
      if d.outdegree w.1 = 0 then .ok (w.1, d)
      else if d.rhs.check_transition w.1 (d.rhs.next w.1 kTerminator) then
        .ok (d.rhs.next w.1 kTerminator, d)
      else d.rhs_create_transition w.1 kTerminator
    else rhs_append_tail d w.1 w.2 inputs
  else rhs_append_tail d 1 [] inputs

/-- `trie::lhs_insert` on the non-empty input `b :: rest`. -/
def lhs_insert (d : double_trie) (s : Int) (b : Nat) (rest : List Nat) :
    Res (Int × double_trie) :=
  match d.lhs_create_transition s (char_in b) with
  | .error err => .error err
  | .ok (t, d1) =>
    match d1.rhs_append rest with
    | .error err => .error err
    | .ok (r, d2) => d2.set_link t r

/-- `double_trie::rhs_clean_one`. -/
def rhs_clean_one (d : double_trie) (t : Int) : Res (Bool × double_trie) :=
  if d.rhs.prev t > 0 ∧ t = d.rhs.next (d.rhs.prev t) kTerminator ∧ d.count_referer t = 0 then
    match d.remove_accept_state t with
    | .error err => .error err
    | .ok d1 => .ok (true, d1)
  else .ok (false, d)

/-- `trie::rhs_clean_more`; the recursion climbs towards the rear root and is
bounded by the fuel. -/
def rhs_clean_more : Nat → double_trie → Int → Res double_trie
  | 0, _, _ => .error .fuel
  | n + 1, d, t =>
    if ¬ t > 0 then .error .assertion
    else if d.outdegree t = 0 ∧ d.count_referer t = 0 then
      match d.remove_accept_state t with
      | .error err => .error err
      | .ok d1 => if d.rhs.prev t > 0 then rhs_clean_more n d1 (d.rhs.prev t) else .ok d1
    else if d.outdegree t = 1 then
      if d.rhs.check_transition t (d.rhs.next t kTerminator) then
        match relink_all t (d.refer_at (d.rhs.next t kTerminator)).referer
            (match d.refer (d.rhs.next t kTerminator) with
             | some _ => d
             | none => d.set_refer (d.rhs.next t kTerminator) ⟨0, []⟩) with
        | .error err => .error err
        | .ok d1 =>
          remove_accept_state
            ((match d1.refer t with
              | some _ => d1
              | none => d1.set_refer t ⟨0, []⟩).set_accept (d1.refer_at t).accept_index t)
            (d.rhs.next t kTerminator)
      else .ok d
    else .ok d

/-- `trie::rhs_insert`, the rearrangement R-1 … R-4; `b :: rest` is the
non-empty remainder of the key. -/
def rhs_insert (d : double_trie) (s r : Int) (mtch : List Nat) (b : Nat) (rest : List Nat)
    (ch : Nat) (terminator : Bool) (value : Int) : Res double_trie :=
  -- R-1
  let u := d.link_state s
  let oval := (d.index (-d.lhs.base s)).data
  let d1 := (d.set_index_index (-d.lhs.base s) 0).set_index_data (-d.lhs.base s) 0
  let d2 : double_trie :=
    { d1 with free_index := d1.free_index ++ [-d.lhs.base s]
              lhs := d1.lhs.set_base s 0
              stand := r }
  let d3 : double_trie :=
    if u > 0 then
      let d2a := d2.set_refer u ⟨(d2.refer_at u).accept_index, set_erase s (d2.refer_at u).referer⟩
      if (d2a.refer_at u).referer.length = 0 then d2a.free_accept_entry u else d2a
    else d2
  -- R-2
  match basic_trie.create_path relocate_front (mtch.map char_in) s d3.lhs d3 with
  | .error err => .error err
  | .ok (s1, a1, d4) =>
    match lhs_create_transition { d4 with lhs := a1 } s1 (char_in b) with
    | .error err => .error err
    | .ok (t, d5) =>
      match d5.rhs_append rest with
      | .error err => .error err
      | .ok (ra, d6) =>
        match d6.set_link t ra with
        | .error err => .error err
        | .ok (i, d7) =>
          -- R-3
          match (d7.set_index_data i value).lhs_create_transition s1
              (if terminator then kTerminator else char_in ch) with
          | .error err => .error err
          | .ok (t2, d8) =>
            let v := d8.rhs.prev d8.stand
            let linked : Res (Int × double_trie) :=
              if ¬ d8.rhs.check_transition v (d8.rhs.next v kTerminator) then
                d8.rhs_create_transition v kTerminator
              else .ok (d8.rhs.next v kTerminator, d8)
            match linked with
            | .error err => .error err
            | .ok (r2, d9) =>
              match d9.set_link t2 r2 with
              | .error err => .error err
              | .ok (i2, d10) =>
                -- R-4
                if u > 0 then
                  match (d10.set_index_data i2 oval).rhs_clean_one u with
                  | .error err => .error err
                  | .ok (true, d11) => .ok d11
                  | .ok (false, d11) => rhs_clean_more (d11.rhs.size.toNat + 1) d11 u
                else .ok (d10.set_index_data i2 oval)

/-- The matching loop of `trie::insert`: climb the rear trie from `r` while
the arc into the current state carries the next byte; the bytes matched are
appended to `exists_`. -/
def insert_match (a : basic_trie) : Int → List Nat → List Nat → Int × List Nat × List Nat
  | r, ex, [] => (r, ex, [])
  | r, ex, b :: rest =>
    if a.check_reverse_transition r (char_in b) then
      insert_match a (a.prev r) (ex ++ [b]) rest
    else (r, ex, b :: rest)

/-- `trie::insert`. -/
def insert (d : double_trie) (inputs : List Nat) (value : Int) : Res double_trie :=
  let w := d.lhs.go_forward 1 inputs
  match w.2 with
  | [] => .ok d
  | b :: rest =>
    if ¬ d.check_separator w.1 then
      match d.lhs_insert w.1 b rest with
      | .error err => .error err
      | .ok (i, d1) => .ok (d1.set_index_data i value)
    else
      let r0 := d.link_state w.1
      let r := if d.rhs.check_reverse_transition r0 kTerminator then d.rhs.prev r0 else r0
      let m := insert_match d.rhs r [] (b :: rest)
      let d1 : double_trie := { d with exists_ := m.2.1 }
      match m.2.2 with
      | [] => .ok d1
      | b2 :: rest2 =>
        rhs_insert d1 w.1 m.1 m.2.1 b2 rest2
          (char_out (m.1 - d.rhs.base (d.rhs.prev m.1)))
          (decide (m.1 - d.rhs.base (d.rhs.prev m.1) = kTerminator)) value

/-- `trie::search`: `-1` and `-2` are the two miss codes, any other result is
the `data` field read from the index table. -/
def search (d : double_trie) (inputs : List Nat) : Int :=
  let w := d.lhs.go_forward 1 inputs
  if w.2 ≠ [] ∧ ¬ d.check_separator w.1 then -1
  else if w.2 = [] then (d.index (-d.lhs.base w.1)).data
  else
    let r0 := d.link_state w.1
    let r := if d.rhs.check_reverse_transition r0 kTerminator then d.rhs.prev r0 else r0
    if d.rhs.prev (d.rhs.go_backward r w.2).1 = 1 then (d.index (-d.lhs.base w.1)).data
    else -2

end double_trie

/-- `key_type::char_in` on a platform whose `char` is signed: the argument is
the value of the `char`, in `-128..127`; `ch + 1` is computed in `int` and
cast to `unsigned char`. -/
def char_in_signed (ch : Int) : Int := (ch + 1) % 256

/-! ## The walkers of `trie_impl.h`

The three-argument walkers read a key array that ends with the terminator
symbol.  The array is the list `inputs`; a pointer into it is the index of
the cell it points to, and `none` stands for the null pointer that
`*mismatch` receives when every arc was found.  A read past the end of the
array is reported as `Err.assertion`. -/

namespace trie_impl

/-- `basic_trie::go_forward` of `trie_impl.h`, entered with `p` at index
`pos` and the cells from `*p` on in `inputs`. -/
def go_forward (a : basic_trie) : Int → List Int → Nat → Res (Int × Option Nat)
  | _, [], _ => .error .assertion
  | s, c :: rest, pos =>
    if ¬ a.check_transition s (a.next s c) then .ok (s, some pos)
    else if c ≠ kTerminator then go_forward a (a.next s c) rest (pos + 1)
    else .ok (a.next s c, none)

/-- The loop `while (*p != key_type::kTerminator) p++` that opens
`go_forward_reverse`: the index of the first terminator. -/
def seek_terminator : List Int → Nat → Res Nat
  | [], _ => .error .assertion
  | c :: rest, pos => if c ≠ kTerminator then seek_terminator rest (pos + 1) else .ok pos

/-- The `do ... while (p-- > inputs)` loop of `go_forward_reverse`, entered
with `p` at index `pos` of the array `inputs`. -/
def go_forward_reverse_loop (a : basic_trie) (inputs : List Int) :
    Int → Nat → Res (Int × Option Nat)
  | s, 0 =>
    match inputs.get? 0 with
    | none => .error .assertion
    | some c =>
      if ¬ a.check_transition s (a.next s c) then .ok (s, some 0)
      else .ok (a.next s c, none)
  | s, pos + 1 =>
    match inputs.get? (pos + 1) with
    | none => .error .assertion
    | some c =>
      if ¬ a.check_transition s (a.next s c) then .ok (s, some (pos + 1))
      else go_forward_reverse_loop a inputs (a.next s c) pos

/-- `basic_trie::go_forward_reverse` of `trie_impl.h`. -/
def go_forward_reverse (a : basic_trie) (s : Int) (inputs : List Int) :
    Res (Int × Option Nat) :=
  match seek_terminator inputs 0 with
  | .error err => .error err
  | .ok pos => go_forward_reverse_loop a inputs s pos

/-- `basic_trie::go_backward` of `trie_impl.h`, entered with `p` at index
`pos` and the cells from `*p` on in `inputs`. -/
def go_backward (a : basic_trie) : Int → List Int → Nat → Res (Int × Option Nat)
  | _, [], _ => .error .assertion
  | s, c :: rest, pos =>
    if ¬ a.check_transition (a.prev s) (a.next (a.prev s) c) then .ok (s, some pos)
    else if c ≠ kTerminator then go_backward a (a.prev s) rest (pos + 1)
    else .ok (a.prev s, none)

end trie_impl

/-! ## Machine arithmetic of `resize_state` -/

/-- The value that an `int32_t` holds after an operation whose exact result
is `x`: the result wrapped into `[-2^31, 2^31)`. -/
def int32 (x : Int) : Int := (x + 2147483648) % 4294967296 - 2147483648

/-- The new size that `resize_state(n)` computes from the header size in
`int32_t` arithmetic: `(((header_->size * 2 + size) >> 12) + 1) << 12`. -/
def resize_state_nsize (size n : Int) : Int :=
  int32 (int32 ((int32 (int32 (size * 2) + n) >>> (12 : Nat)) + 1) <<< (12 : Int))

namespace basic_trie

/-- `basic_trie::resize_state` with `resize`, the size computed in `int32_t`
arithmetic: `realloc` keeps the old cells and `memset` zero-fills the cells
from the old size to the new one. -/
def resize_state_int32 (a : basic_trie) (n : Int) : basic_trie :=
  { a with
    size := resize_state_nsize a.size n
    base := fun i =>
      if a.size ≤ i ∧ i < resize_state_nsize a.size n then 0 else a.base i
    check := fun i =>
      if a.size ≤ i ∧ i < resize_state_nsize a.size n then 0 else a.check i }

end basic_trie

/-! ## The double-array with every access asserted

The functions of `basic_trie` once more, with each read and write of
`states_[i]` preceded by the test `0 <= i && i < header_->size` for the size
that is current at that moment.  A failed test is `Err.assertion`.  The tests
are in the order in which the C++ code evaluates its operands, `&&` and `?:`
being short-circuit. -/

namespace guarded

/-- The read `states_[s].base`. -/
def base (a : basic_trie) (s : Int) : Res Int :=
  if 0 ≤ s ∧ s < a.size then .ok (a.base s) else .error .assertion

/-- The read `states_[s].check`. -/
def check (a : basic_trie) (s : Int) : Res Int :=
  if 0 ≤ s ∧ s < a.size then .ok (a.check s) else .error .assertion

/-- `basic_trie::set_base`. -/
def set_base (a : basic_trie) (s val : Int) : Res basic_trie :=
  if 0 ≤ s ∧ s < a.size then .ok (a.set_base s val) else .error .assertion

/-- `basic_trie::set_check`. -/
def set_check (a : basic_trie) (s val : Int) : Res basic_trie :=
  if 0 ≤ s ∧ s < a.size then .ok (a.set_check s val) else .error .assertion

/-- `basic_trie::next`. -/
def next (a : basic_trie) (s ch : Int) : Res Int :=
  match base a s with
  | .error err => .error err
  | .ok b => .ok (b + ch)

/-- `basic_trie::check_transition`: `check(t)` is read after the three
comparisons have succeeded. -/
def check_transition (a : basic_trie) (s t : Int) : Res Bool :=
  if s > 0 ∧ t > 0 ∧ t < a.size then
    match check a t with
    | .error err => .error err
    | .ok c => .ok (decide (c = s))
  else .ok false

/-- The loop of `basic_trie::find_exist_target`. -/
def find_exist_target_loop (a : basic_trie) (s : Int) :
    Nat → Int → extremum_type → Res (List Int × extremum_type)
  | 0, _, e => .ok ([], e)
  | n + 1, ch, e =>
    match next a s ch with
    | .error err => .error err
    | .ok t =>
      if t ≥ a.size then .ok ([], e)
      else
        match check_transition a s t with
        | .error err => .error err
        | .ok true =>
          match find_exist_target_loop a s n (ch + 1)
              ⟨if ch > e.max then ch else e.max, if ch < e.min then ch else e.min⟩ with
          | .error err => .error err
          | .ok r => .ok (ch :: r.1, r.2)
        | .ok false => find_exist_target_loop a s n (ch + 1) e

/-- `basic_trie::find_exist_target`. -/
def find_exist_target (a : basic_trie) (s : Int) (e : extremum_type) :
    Res (List Int × extremum_type) :=
  find_exist_target_loop a s 257 1 e

/-- The inner loop of `basic_trie::find_base` over the zero-terminated
`inputs`: it leaves at the first cell `i + *p` that is taken. -/
def all_free (a : basic_trie) (i : Int) : List Int → Res Bool
  | [] => .ok true
  | p :: rest =>
    match check a (i + p) with
    | .error err => .error err
    | .ok c => if c > 0 then .ok false else all_free a i rest

/-- The test of the candidate `i` in `basic_trie::find_base`:
`check(i + extremum.min) <= 0 && check(i + extremum.max) <= 0` and then the
inner loop. -/
def candidate_free (a : basic_trie) (inputs : List Int) (e : extremum_type) (i : Int) :
    Res Bool :=
  match check a (i + e.min) with
  | .error err => .error err
  | .ok cmin =>
    if cmin ≤ 0 then
      match check a (i + e.max) with
      | .error err => .error err
      | .ok cmax => if cmax ≤ 0 then all_free a i inputs else .ok false
    else .ok false

/-- The scan of `basic_trie::find_base`. -/
def find_base_loop (inputs : List Int) (e : extremum_type) :
    Nat → basic_trie → Int → Res (Int × basic_trie)
  | 0, _, _ => .error .fuel
  | n + 1, a, i =>
    match candidate_free (if i + 1 + e.max ≥ a.size then a.inflate e.max else a)
        inputs e (i + 1) with
    | .error err => .error err
    | .ok true => .ok (i + 1, if i + 1 + e.max ≥ a.size then a.inflate e.max else a)
    | .ok false =>
      find_base_loop inputs e n (if i + 1 + e.max ≥ a.size then a.inflate e.max else a) (i + 1)

/-- `basic_trie::find_base`. -/
def find_base (a : basic_trie) (inputs : List Int) (e : extremum_type) :
    Res (Int × basic_trie) :=
  match find_base_loop inputs e ((a.size - a.last_base).toNat + 1) a a.last_base with
  | .ok (i, a1) => .ok (i, { a1 with last_base := i })
  | .error err => .error err

/-- The loop `for (p = targets; *p; p++) set_check(base(obase + c) + *p,
nbase + c)` of `basic_trie::relocate`. -/
def reparent (obase nbase c : Int) : List Int → basic_trie → Res basic_trie
  | [], a => .ok a
  | p :: rest, a =>
    match base a (obase + c) with
    | .error err => .error err
    | .ok b =>
      match set_check a (b + p) (nbase + c) with
      | .error err => .error err
      | .ok a1 => reparent obase nbase c rest a1

/-- The first half of a round of the loop of `basic_trie::relocate`. -/
def move_child (a : basic_trie) (obase nbase c : Int) : Res basic_trie :=
  match base a (obase + c) with
  | .error err => .error err
  | .ok b0 =>
    match set_base a (nbase + c) b0 with
    | .error err => .error err
    | .ok a1 =>
      match check a1 (obase + c) with
      | .error err => .error err
      | .ok c0 =>
        match set_check a1 (nbase + c) c0 with
        | .error err => .error err
        | .ok a2 =>
          match find_exist_target a2 (obase + c) ⟨0, 0⟩ with
          | .error err => .error err
          | .ok r => reparent obase nbase c r.1 a2

/-- One round of the loop of `basic_trie::relocate` for a child that is
moved. -/
def relocate_step {σ : Type} (cb : relocator σ) (obase nbase c : Int)
    (stand : Int) (a : basic_trie) (o : σ) : Res (Int × basic_trie × σ) :=
  match move_child a obase nbase c with
  | .error err => .error err
  | .ok a1 =>
    match cb a1 (obase + c) (nbase + c) o with
    | .error err => .error err
    | .ok o1 =>
      match set_base a1 (obase + c) 0 with
      | .error err => .error err
      | .ok a2 =>
        match set_check a2 (obase + c) 0 with
        | .error err => .error err
        | .ok a3 => .ok (if stand = obase + c then nbase + c else stand, a3, o1)

/-- The loop of `basic_trie::relocate`. -/
def relocate_loop {σ : Type} (cb : relocator σ) (s obase nbase : Int) :
    List Int → Int → basic_trie → σ → Res (Int × basic_trie × σ)
  | [], stand, a, o => .ok (stand, a, o)
  | c :: rest, stand, a, o =>
    match check a (obase + c) with
    | .error err => .error err
    | .ok k =>
      if k ≠ s then relocate_loop cb s obase nbase rest stand a o
      else
        match relocate_step cb obase nbase c stand a o with
        | .error err => .error err
        | .ok (stand1, a1, o1) => relocate_loop cb s obase nbase rest stand1 a1 o1

/-- `basic_trie::relocate`. -/
def relocate {σ : Type} (cb : relocator σ) (a : basic_trie) (o : σ)
    (stand s : Int) (inputs : List Int) (e : extremum_type) :
    Res (Int × basic_trie × σ) :=
  match base a s with
  | .error err => .error err
  | .ok obase =>
    match find_base a inputs e with
    | .error err => .error err
    | .ok (nbase, a1) =>
      match relocate_loop cb s obase nbase inputs stand a1 o with
      | .error err => .error err
      | .ok (stand1, a2, o1) =>
        match set_base a2 s nbase with
        | .error err => .error err
        | .ok a3 => .ok (stand1, a3, o1)

/-- The end of `basic_trie::create_transition`: `t = next(s, ch)`, the growth
step and `set_check(t, s)`. -/
def finish (a : basic_trie) (s ch : Int) : Res (Int × basic_trie) :=
  match next a s ch with
  | .error err => .error err
  | .ok t =>
    match set_check (a.grow_to t) t s with
    | .error err => .error err
    | .ok a1 => .ok (t, a1)

/-- The branch of `basic_trie::create_transition` that relocates, on the
array `a` that holds the cell `t`.  The code reads `check(t)` up to three
times at the same index; it is asserted once. -/
def make_room {σ : Type} (cb : relocator σ) (a : basic_trie) (o : σ) (s ch t : Int) :
    Res (Int × basic_trie × σ) :=
  match find_exist_target a s ⟨0, 0⟩ with
  | .error err => .error err
  | .ok r =>
    match check a t with
    | .error err => .error err
    | .ok k =>
      match (if k ≠ 0 then find_exist_target a k ⟨0, 0⟩ else .ok ([], ⟨0, 0⟩)) with
      | .error err => .error err
      | .ok rp =>
        if (rp.1.length : Int) > 0 ∧ (r.1.length : Int) + 1 > rp.1.length then
          relocate cb a o s k (cstr rp.1) rp.2
        else
          relocate cb a o s s (cstr (r.1 ++ [ch]))
            ⟨if ch > r.2.max ∨ r.2.max = 0 then ch else r.2.max,
             if ch < r.2.min ∨ r.2.min = 0 then ch else r.2.min⟩

/-- The test `base(s) > 0 && check(t) <= 0` of `basic_trie::create_transition`. -/
def cell_free (a : basic_trie) (s t : Int) : Res Bool :=
  match base a s with
  | .error err => .error err
  | .ok b =>
    if b > 0 then
      match check a t with
      | .error err => .error err
      | .ok k => .ok (decide (k ≤ 0))
    else .ok false

/-- `basic_trie::create_transition`, returning also the final value of the
local `s`. -/
def create_transition_aux {σ : Type} (cb : relocator σ) (a : basic_trie) (o : σ)
    (s ch : Int) : Res (Int × Int × basic_trie × σ) :=
  match next a s ch with
  | .error err => .error err
  | .ok t =>
    match cell_free (a.grow_to t) s t with
    | .error err => .error err
    | .ok true =>
      match set_check (a.grow_to t) t s with
      | .error err => .error err
      | .ok a1 => .ok (s, t, a1, o)
    | .ok false =>
      match make_room cb (a.grow_to t) o s ch t with
      | .error err => .error err
      | .ok (s1, a1, o1) =>
        match finish a1 s1 ch with
        | .error err => .error err
        | .ok (t1, a2) => .ok (s1, t1, a2, o1)

/-- `basic_trie::create_transition`. -/
def create_transition {σ : Type} (cb : relocator σ) (a : basic_trie) (o : σ)
    (s ch : Int) : Res (Int × basic_trie × σ) :=
  match create_transition_aux cb a o s ch with
  | .error err => .error err
  | .ok (_, t, a1, o1) => .ok (t, a1, o1)

end guarded


/-! ## The key of `trie.h`

`class key_type` owns two heap buffers.  A buffer is modelled by a function of
the cell index together with its capacity; `realloc` keeps the cells and the
cells that were never written hold whatever the function gives.  Every read
and write of a buffer asserts that the index is below the capacity; a failed
test is `Err.assertion`.  A `size_t` is a natural number (no buffer reaches
`2^64` cells); only the decrement of `pop` can leave the range, and at 0 it
wraps to `2^64 - 1`. -/

/-- `class key_type`. -/
structure key_type where
  cstr_ : Nat → Nat
  cstr_capacity_ : Nat
  data_ : Nat → Int
  data_capacity_ : Nat
  length_ : Nat

namespace key_type

/-- The constructor `key_type()`: null buffers of capacity 0. -/
def empty : key_type := ⟨fun _ => 0, 0, fun _ => 0, 0, 0⟩

/-- `key_type::data`, the cell `data()[i]`. -/
def data (k : key_type) (i : Nat) : Res Int :=
  if i < k.data_capacity_ then .ok (k.data_ i) else .error .assertion

/-- `key_type::length`. -/
def length (k : key_type) : Nat := k.length_

/-- The assignment `data_[i] = v`. -/
def set_data (k : key_type) (i : Nat) (v : Int) : Res key_type :=
  if i < k.data_capacity_ then
    .ok { k with data_ := fun j => if j = i then v else k.data_ j }
  else .error .assertion

/-- The assignment `cstr_[i] = v`. -/
def set_cstr (k : key_type) (i : Nat) (v : Nat) : Res key_type :=
  if i < k.cstr_capacity_ then
    .ok { k with cstr_ := fun j => if j = i then v else k.cstr_ j }
  else .error .assertion

/-- `key_type::resize_data`. -/
def resize_data (k : key_type) (size : Nat) : key_type :=
  { k with data_capacity_ := (k.data_capacity_ + size + 1) * 2 }

/-- `key_type::resize_cstr`. -/
def resize_cstr (k : key_type) : key_type :=
  { k with cstr_capacity_ := k.data_capacity_ }

/-- The loop `for (i = 0; i < length; i++) data_[i] = ...` of `assign`, entered
at index `i` with the symbols still to be stored. -/
def store : List Int → Nat → key_type → Res key_type
  | [], _, k => .ok k
  | c :: rest, i, k =>
    match k.set_data i c with
    | .error err => .error err
    | .ok k1 => store rest (i + 1) k1

/-- `key_type::assign(const char_type *, size_t)`. -/
def assign_symbols (k : key_type) (syms : List Int) : Res key_type :=
  match store syms 0
      (if syms.length + 1 ≥ k.data_capacity_ then k.resize_data syms.length else k) with
  | .error err => .error err
  | .ok k1 =>
    match k1.set_data syms.length kTerminator with
    | .error err => .error err
    | .ok k2 => .ok { k2 with length_ := syms.length }

/-- `key_type::assign(const char *, size_t)`: every byte goes through
`char_in`. -/
def assign (k : key_type) (bytes : List Nat) : Res key_type :=
  match store (bytes.map char_in) 0
      (if bytes.length + 1 ≥ k.data_capacity_ then k.resize_data bytes.length else k) with
  | .error err => .error err
  | .ok k1 =>
    match k1.set_data bytes.length kTerminator with
    | .error err => .error err
    | .ok k2 => .ok { k2 with length_ := bytes.length }

/-- `key_type::push`. -/
def push (k : key_type) (ch : Int) : Res key_type :=
  match (if k.length_ + 1 ≥ k.data_capacity_ then k.resize_data 1 else k).set_data
      k.length_ ch with
  | .error err => .error err
  | .ok k1 =>
    match k1.set_data (k.length_ + 1) kTerminator with
    | .error err => .error err
    | .ok k2 => .ok { k2 with length_ := k.length_ + 1 }

/-- `key_type::pop`: `ch = data_[length_--]; data_[length_] = kTerminator;
return ch;`. -/
def pop (k : key_type) : Res (Int × key_type) :=
  match k.data k.length_ with
  | .error err => .error err
  | .ok ch =>
    match k.set_data (if k.length_ = 0 then 2 ^ 64 - 1 else k.length_ - 1) kTerminator with
    | .error err => .error err
    | .ok k1 =>
      .ok (ch, { k1 with length_ := if k.length_ = 0 then 2 ^ 64 - 1 else k.length_ - 1 })

/-- The loop `for (i = 0; data_[i] != kTerminator; i++) cstr_[i] =
char_out(data_[i])` of `c_str`; the fuel bounds the cells read by the
capacity of `data_`.  The result is the final `i`. -/
def unbias : Nat → Nat → key_type → Res (Nat × key_type)
  | 0, _, _ => .error .assertion
  | n + 1, i, k =>
    match k.data i with
    | .error err => .error err
    | .ok c =>
      if c ≠ kTerminator then
        match k.set_cstr i (char_out c) with
        | .error err => .error err
        | .ok k1 => unbias n (i + 1) k1
      else .ok (i, k)

/-- `key_type::c_str`: the key with its `cstr_` buffer filled, and the index
of the closing NUL byte in it. -/
def c_str (k : key_type) : Res (Nat × key_type) :=
  match unbias ((if k.cstr_capacity_ < k.data_capacity_ then k.resize_cstr else k).data_capacity_ + 1)
      0 (if k.cstr_capacity_ < k.data_capacity_ then k.resize_cstr else k) with
  | .error err => .error err
  | .ok (i, k1) =>
    match k1.set_cstr i 0 with
    | .error err => .error err
    | .ok k2 => .ok (i, k2)

end key_type

namespace basic_trie

/-- `basic_trie::header`: the `size` field of the header. -/
def header (a : basic_trie) : Int := a.size

/-- `basic_trie::compact_header`: the `size` field of the copy of the header
that it returns. -/
def compact_header (a : basic_trie) : Int := a.max_state

end basic_trie

/-! ## Vocabulary of the specification -/

namespace basic_trie

/-- The state reached from `s` by reading the symbols of `w` along existing
arcs, if every arc exists. -/
def walk (a : basic_trie) : Int → List Int → Option Int
  | s, [] => some s
  | s, c :: w => if a.check_transition s (a.next s c) then walk a (a.next s c) w else none

/-- A state is allocated when it is the root or its cell is owned. -/
def allocated (a : basic_trie) (s : Int) : Prop := s = 1 ∨ a.check s ≠ 0

/-- Well-formed double-array: a positive size with the cursor inside, a root
without owner, invariant I1 with the symbol range and the array bounds for
every owned cell (the owner of a cell has a positive base), and every owned
cell is reached from the root. -/
structure WF (a : basic_trie) : Prop where
  size_gt : 1 < a.size
  cursor : 0 ≤ a.last_base ∧ a.last_base < a.size
  root : a.check 1 = 0
  cell : ∀ t, a.check t ≠ 0 →
    0 < a.check t ∧ 0 < a.base (a.check t) ∧ 1 ≤ t - a.base (a.check t)
      ∧ t - a.base (a.check t) ≤ 257 ∧ t < a.size
  reach : ∀ t, a.check t ≠ 0 → ∃ w, a.walk 1 w = some t

/-- The array `a1` is `a` after growth: the size did not shrink, the cells
added are zero and every other cell is unchanged. -/
structure Ext (a a1 : basic_trie) : Prop where
  size_le : a.size ≤ a1.size
  check_eq : ∀ x, a1.check x = if a.size ≤ x ∧ x < a1.size then 0 else a.check x
  base_eq : ∀ x, a1.base x = if a.size ≤ x ∧ x < a1.size then 0 else a.base x

/-- The cell `x` is owned by `P` and its symbol under the base `obase` is
listed in `L`: the loop of `relocate` over `L` will move it. -/
def is_moved (b : basic_trie) (P obase : Int) (L : List Int) (x : Int) : Prop :=
  b.check x = P ∧ (x - obase) ∈ L

instance (b : basic_trie) (P obase : Int) (L : List Int) (x : Int) :
    Decidable (b.is_moved P obase L x) := by
  unfold is_moved; infer_instance

/-- What the loop of `relocate` over `L` needs of the array it starts from:
the new cell of every child to be moved is free, is not one of the cells
`obase + c'` of the list and is not `P`; a child to be moved is a positive
state other than `P`, and the cells it owns obey I1 inside the array. -/
structure RelocPre (b : basic_trie) (P obase nbase : Int) (L : List Int) : Prop where
  free : ∀ c ∈ L, b.check (obase + c) = P → b.check (nbase + c) = 0
  apart : ∀ c ∈ L, ∀ c' ∈ L, b.check (obase + c) = P → nbase + c ≠ obase + c'
  notP : ∀ c ∈ L, b.check (obase + c) = P → obase + c ≠ P ∧ nbase + c ≠ P
  kids : ∀ c ∈ L, b.check (obase + c) = P → 0 < obase + c ∧ ∀ y, b.check y = obase + c →
    1 ≤ y - b.base (obase + c) ∧ y - b.base (obase + c) ≤ 257 ∧ 0 < y ∧ y < b.size

/-- The place of the cell `x` after the children of `P` have moved from the
base of `P` to `nbase`. -/
def new_place (b : basic_trie) (P nbase x : Int) : Int :=
  if b.check x = P then x - b.base P + nbase else x

/-- The array `a2` is `b` after all the children of `P` have been moved to
`nbase` and `base(P)` has been set to `nbase`. -/
structure Relocated (b a2 : basic_trie) (P nbase : Int) : Prop where
  size_eq : a2.size = b.size
  last_base_eq : a2.last_base = b.last_base
  check_eq : ∀ x, a2.check x =
    if b.check (x - nbase + b.base P) = P then P
    else if b.check x = P then 0
    else if b.check (b.check x) = P then b.check x - b.base P + nbase
    else b.check x
  base_eq : ∀ x, a2.base x =
    if x = P then nbase
    else if b.check (x - nbase + b.base P) = P then b.base (x - nbase + b.base P)
    else if b.check x = P then 0 else b.base x

/-- The hypotheses under which a relocation is analysed: a well-formed array,
an allocated parent `P`, a positive new base, and free new cells inside the
array for all the children of `P`. -/
structure RelocCtx (b : basic_trie) (P nbase : Int) : Prop where
  wf : b.WF
  alloc : b.allocated P
  nbase_pos : 1 ≤ nbase
  fresh : ∀ x, b.check x = P → b.check (x - b.base P + nbase) = 0 ∧ x - b.base P + nbase < b.size


/-- What `create_transition(s, c)` guarantees when it turns the array `a`
into `a1`, ends with the source state at `s1` and returns `t`. -/
structure CreateSpec (a : basic_trie) (s c s1 t : Int) (a1 : basic_trie) : Prop where
  wf : a1.WF
  size_le : a.size ≤ a1.size
  t_pos : 0 < t
  t_lt : t < a1.size
  check_t : a1.check t = s1
  next_t : a1.base s1 + c = t
  src : s1 = s ∨ (a.check s ≠ 0 ∧ a.check (a.base s + c) = a.check s
    ∧ s1 - a1.base (a.check s) = s - a.base (a.check s))
  old : ∃ φ : Int → Int, φ 1 = 1 ∧ φ s = s1
    ∧ (∀ w x, a.walk 1 w = some x → a1.walk 1 w = some (φ x))
    ∧ (∀ x, a.allocated x → x ≠ s → x ≠ a.check (a.base s + c) → a1.base (φ x) = a.base x)
  new : ∀ w x, a1.walk 1 w = some x →
    (∃ x0, a.walk 1 w = some x0) ∨ (x = t ∧ ∃ ws, w = ws ++ [c] ∧ a.walk 1 ws = some s)
  walk_t : ∀ ws, a.walk 1 ws = some s → a1.walk 1 (ws ++ [c]) = some t

/-- The arrays obtained from an empty double-array by `create_transition`
calls on allocated states with symbols of the alphabet. -/
inductive Built : basic_trie → Prop
  | init (size : Int) : Built (basic_trie.init size)
  | step (a a1 : basic_trie) (s c t : Int) : Built a → (s = 1 ∨ a.check s > 0) →
      1 ≤ c → c ≤ 257 → a.create_transition no_relocator () s c = .ok (t, a1, ()) → Built a1

end basic_trie

/-! ## Concrete arrays and observations used in the examples -/

/-- The base of cell `x` in the array returned by `create_transition`. -/
def base_after (r : Res (Int × basic_trie × Unit)) (x : Int) : Option Int :=
  match r with
  | .ok (_, a1, _) => some (a1.base x)
  | .error _ => none

/-- The array after the arc on symbol 98 has been created from the root of the
empty array. -/
def one_arc : basic_trie :=
  match (basic_trie.init 4096).create_transition no_relocator () 1 98 with
  | .ok (_, a1, _) => a1
  | .error _ => basic_trie.init 4096

/-- The inserts of `basic_trie::insert` for a list of keys with their values,
in order, on a trie without observer. -/
def basic_insert_all : List (List Nat × Int) → basic_trie → Res basic_trie
  | [], a => .ok a
  | (k, v) :: rest, a =>
    match a.insert no_relocator () (some k) v with
    | .error err => .error err
    | .ok (a1, _) => basic_insert_all rest a1

/-- The answer of `basic_trie::search` in the trie that a run has produced. -/
def basic_search_after (r : Res basic_trie) (k : List Nat) : Option Int :=
  match r with
  | .ok a => some (a.search k)
  | .error _ => none

/-- The inserts of `trie::insert` for a list of keys with their values, in
order. -/
def insert_all : List (List Nat × Int) → double_trie → Res double_trie
  | [], d => .ok d
  | (k, v) :: rest, d =>
    match d.insert k v with
    | .error err => .error err
    | .ok d1 => insert_all rest d1

/-- The answer of `trie::search` in the two-trie that a run has produced. -/
def search_after (r : Res double_trie) (k : List Nat) : Option Int :=
  match r with
  | .ok d => some (d.search k)
  | .error _ => none

/-- The front state `s` is an allocated separator whose index record names an
accept slot, and the rear state in that slot is not allocated. -/
def dangling_link (d : double_trie) (s : Int) : Prop :=
  d.lhs.check s > 0 ∧ d.lhs.base s < 0 ∧ (d.index (-d.lhs.base s)).index ≠ 0
    ∧ ¬ d.rhs.check (d.accept (d.index (-d.lhs.base s)).index) > 0

instance (d : double_trie) (s : Int) : Decidable (dangling_link d s) := by
  unfold dangling_link; infer_instance

/-- A property of the two-trie that a run has produced. -/
def holds_after (r : Res double_trie) (p : double_trie → Prop) : Prop :=
  match r with
  | .ok d => p d
  | .error _ => False

instance (r : Res double_trie) (p : double_trie → Prop) [DecidablePred p] :
    Decidable (holds_after r p) := by
  unfold holds_after
  cases r with
  | error e => exact instDecidableFalse
  | ok d => exact inferInstanceAs (Decidable (p d))

/-- The greedy walk of the specification: follow the arcs labelled by the
symbols of `w` from `s` and stop on the first absent arc.  The result is the
last state reached and the number of symbols read before the absent arc,
counted from `k`; it is `none` when no arc is absent. -/
def greedy (a : basic_trie) : Int → List Int → Nat → Int × Option Nat
  | s, [], _ => (s, none)
  | s, c :: w, k =>
    if a.check_transition s (a.next s c) then greedy a (a.next s c) w (k + 1)
    else (s, some k)

/-- The arc of the data model: a transition from `s` on `c` to `t` exists when
`t = next(s, c)`, `t` is within the state array, `t > 0` and `check(t) = s`. -/
def arc (a : basic_trie) (s c t : Int) : Prop :=
  t = a.next s c ∧ (0 ≤ t ∧ t < a.size) ∧ t > 0 ∧ a.check t = s

namespace basic_trie

/-- The branch of `basic_trie::create_transition` that relocates, cut out of
`create_transition_aux`: the call of `relocate` that the array `a` holding the
cell `t` leads to. -/
def make_room {σ : Type} (cb : relocator σ) (a : basic_trie) (o : σ) (s ch t : Int) :
    Res (Int × basic_trie × σ) :=
  if (((if a.check t ≠ 0 then a.find_exist_target (a.check t) ⟨0, 0⟩
        else ([], ⟨0, 0⟩)).1.length : Nat) : Int) > 0 ∧
      (((a.find_exist_target s ⟨0, 0⟩).1.length : Nat) : Int) + 1 >
        (if a.check t ≠ 0 then a.find_exist_target (a.check t) ⟨0, 0⟩
          else ([], ⟨0, 0⟩)).1.length then
    relocate cb a o s (a.check t)
      (cstr (if a.check t ≠ 0 then a.find_exist_target (a.check t) ⟨0, 0⟩
        else ([], ⟨0, 0⟩)).1)
      (if a.check t ≠ 0 then a.find_exist_target (a.check t) ⟨0, 0⟩ else ([], ⟨0, 0⟩)).2
  else
    relocate cb a o s s (cstr ((a.find_exist_target s ⟨0, 0⟩).1 ++ [ch]))
      ⟨if ch > (a.find_exist_target s ⟨0, 0⟩).2.max ∨ (a.find_exist_target s ⟨0, 0⟩).2.max = 0
        then ch else (a.find_exist_target s ⟨0, 0⟩).2.max,
       if ch < (a.find_exist_target s ⟨0, 0⟩).2.min ∨ (a.find_exist_target s ⟨0, 0⟩).2.min = 0
        then ch else (a.find_exist_target s ⟨0, 0⟩).2.min⟩

end basic_trie

/-- The observer that records the relocation events: the old and the new
position of every state that is moved, the latest event first. -/
def record : relocator (List (Int × Int)) := fun _ x y evs => .ok ((x, y) :: evs)

/-- The calls `create_transition(s, c)` for a list of pairs, in order, on a
trie without observer. -/
def create_all : List (Int × Int) → basic_trie → Res basic_trie
  | [], a => .ok a
  | (s, c) :: rest, a =>
    match a.create_transition no_relocator () s c with
    | .error err => .error err
    | .ok (_, a1, _) => create_all rest a1

/-- The array of a run of `create_all`; the empty array if the run failed. -/
def array_of (r : Res basic_trie) : basic_trie :=
  match r with
  | .ok a => a
  | .error _ => basic_trie.init 4096

/-- A rear trie with a fork: the root has the arc on the terminator to state
258, which has the arcs on 98 to state 100 and on 99 to state 101. -/
def rear_fork : basic_trie :=
  array_of (create_all [(1, 257), (258, 98), (258, 99)] (basic_trie.init 4096))

/-- The array after `create_transition(1, 2)` and `create_transition(3, 1)` on
the empty array: the root owns cell 3, state 3 owns cell 4 and the cursor
stands at 3. -/
def chain_array : basic_trie :=
  array_of (create_all [(1, 2), (3, 1)] (basic_trie.init 4096))

/-- The base that a run of `find_base` has returned and the size of the array
afterwards. -/
def base_and_size (r : Res (Int × basic_trie)) : Option (Int × Int) :=
  match r with
  | .ok (b, a1) => some (b, a1.size)
  | .error _ => none


/-- The state array cut down to its first `n` cells, as a reader of an archive
with the header size `n` sees it. -/
def truncate (a : basic_trie) (n : Int) : basic_trie := { a with size := n }

/-- The array after `basic_trie::insert("a", 1)` on the empty array. -/
def one_key : basic_trie :=
  array_of (basic_insert_all [([97], 1)] (basic_trie.init 4096))

/-- The two-trie after the inserts `"ab"`:1, `"cb"`:2, `"ac"`:3; the empty
two-trie if the run failed. -/
def three_keys : double_trie :=
  match insert_all [([97, 98], 1), ([99, 98], 2), ([97, 99], 3)] double_trie.init with
  | .ok d => d
  | .error _ => double_trie.init

/-- The observer state that an observer call has returned. -/
def observed (r : Res double_trie) : Option double_trie :=
  match r with
  | .ok d => some d
  | .error _ => none

/-- The array after `create_transition(1, 2)`, `create_transition(3, 1)` and
`create_transition(3, 2)` on the empty array: the root, with base 1, owns cell
3, and state 3, with base 3, owns the cells 4 and 5. -/
def fork_array : basic_trie :=
  array_of (create_all [(1, 2), (3, 1), (3, 2)] (basic_trie.init 4096))

/-- The check of cell `x` in the array returned by `relocate` or
`create_transition`. -/
def check_after (r : Res (Int × basic_trie × Unit)) (x : Int) : Option Int :=
  match r with
  | .ok (_, a1, _) => some (a1.check x)
  | .error _ => none

namespace basic_trie

/-- The calls that the loop of `relocate` over `L` makes to the observer when
it starts from the array `a`: for each call the array at the moment of the
call and the symbol of the child that is moved, in the order of the calls. -/
def relocate_calls (s obase nbase : Int) : List Int → basic_trie → List (basic_trie × Int)
  | [], _ => []
  | c :: rest, a =>
    if a.check (obase + c) ≠ s then relocate_calls s obase nbase rest a
    else (a.move_child obase nbase c, c) ::
      relocate_calls s obase nbase rest
        (((a.move_child obase nbase c).set_base (obase + c) 0).set_check (obase + c) 0)

end basic_trie

/-- The observer run over a list of calls: the call for `(b, c)` is
`cb(obase + c, nbase + c)` on the array `b`. -/
def replay {σ : Type} (cb : relocator σ) (obase nbase : Int) :
    List (basic_trie × Int) → σ → Res σ
  | [], o => .ok o
  | (b, c) :: rest, o =>
    match cb b (obase + c) (nbase + c) o with
    | .error err => .error err
    | .ok o1 => replay cb obase nbase rest o1

/-- The state of the observer after a run of `relocate`. -/
def observer_of {σ : Type} (r : Res (Int × basic_trie × σ)) : Res σ :=
  match r with
  | .ok (_, _, o) => .ok o
  | .error err => .error err

namespace basic_trie

/-- The index slots held by the cells of the front array `a`, with the
counter `nxt` and the free list `fr`: a negative base `-i` names the slot `i`;
no two cells name the same slot, every slot named lies in `1..nxt-1` and is
not in the free list, the free list has no repetition and holds slots of
`1..nxt-1`, the counter is at least 1 and the cursor is not negative. -/
structure SlotInv (a : basic_trie) (nxt : Int) (fr : List Int) : Prop where
  inj : ∀ x y, a.base x < 0 → a.base x = a.base y → x = y
  range : ∀ x, a.base x < 0 → 1 ≤ -a.base x ∧ -a.base x < nxt
  not_free : ∀ x, a.base x < 0 → -a.base x ∉ fr
  nodup : fr.Nodup
  free_range : ∀ i ∈ fr, 1 ≤ i ∧ i < nxt
  next_pos : 1 ≤ nxt
  cursor : 0 ≤ a.last_base

end basic_trie

namespace double_trie

/-- The two-trie states reachable from the empty two-trie by inserts that
return. -/
inductive Reachable : double_trie → Prop
  | init : Reachable double_trie.init
  | step (d d1 : double_trie) (k : List Nat) (v : Int) :
      Reachable d → d.insert k v = .ok d1 → Reachable d1

/-- The two-tries `d` and `d1` have the same front array, index counter and
free index list. -/
def same_slots (d d1 : double_trie) : Prop :=
  d1.lhs = d.lhs ∧ d1.next_index = d.next_index ∧ d1.free_index = d.free_index

end double_trie

namespace double_trie

/-- The index slots of the two-trie `d` are in order. -/
def slots_ok (d : double_trie) : Prop :=
  basic_trie.SlotInv d.lhs d.next_index d.free_index

/-- Every refer record without a referer names the accept slot 0: it is the
value-initialised record that `operator[]` has created. -/
def dead_ok (d : double_trie) : Prop :=
  ∀ r rec, d.refer r = some rec → rec.referer = [] → rec.accept_index = 0

end double_trie

namespace double_trie

/-- The step R-1 of `trie::rhs_insert`, cut out of `rhs_insert`: the two-trie
after the separator `s` has given back its index slot and its link. -/
def rhs_insert_first (d : double_trie) (s r : Int) : double_trie :=
  let u := d.link_state s
  let d1 := (d.set_index_index (-d.lhs.base s) 0).set_index_data (-d.lhs.base s) 0
  let d2 : double_trie :=
    { d1 with free_index := d1.free_index ++ [-d.lhs.base s]
              lhs := d1.lhs.set_base s 0
              stand := r }
  if u > 0 then
    let d2a := d2.set_refer u ⟨(d2.refer_at u).accept_index, set_erase s (d2.refer_at u).referer⟩
    if (d2a.refer_at u).referer.length = 0 then d2a.free_accept_entry u else d2a
  else d2

/-- The steps R-2 to R-4 of `trie::rhs_insert`, cut out of `rhs_insert`: `d3`
is the two-trie after R-1, `u` the former link of `s` and `oval` the former
value. -/
def rhs_insert_rest (d3 : double_trie) (u oval s : Int) (mtch : List Nat) (b : Nat)
    (rest : List Nat) (ch : Nat) (terminator : Bool) (value : Int) : Res double_trie :=
  match basic_trie.create_path relocate_front (mtch.map char_in) s d3.lhs d3 with
  | .error err => .error err
  | .ok (s1, a1, d4) =>
    match lhs_create_transition { d4 with lhs := a1 } s1 (char_in b) with
    | .error err => .error err
    | .ok (t, d5) =>
      match d5.rhs_append rest with
      | .error err => .error err
      | .ok (ra, d6) =>
        match d6.set_link t ra with
        | .error err => .error err
        | .ok (i, d7) =>
          match (d7.set_index_data i value).lhs_create_transition s1
              (if terminator then kTerminator else char_in ch) with
          | .error err => .error err
          | .ok (t2, d8) =>
            let v := d8.rhs.prev d8.stand
            let linked : Res (Int × double_trie) :=
              if ¬ d8.rhs.check_transition v (d8.rhs.next v kTerminator) then
                d8.rhs_create_transition v kTerminator
              else .ok (d8.rhs.next v kTerminator, d8)
            match linked with
            | .error err => .error err
            | .ok (r2, d9) =>
              match d9.set_link t2 r2 with
              | .error err => .error err
              | .ok (i2, d10) =>
                if u > 0 then
                  match (d10.set_index_data i2 oval).rhs_clean_one u with
                  | .error err => .error err
                  | .ok (true, d11) => .ok d11
                  | .ok (false, d11) => rhs_clean_more (d11.rhs.size.toNat + 1) d11 u
                else .ok (d10.set_index_data i2 oval)

end double_trie

/-- The two-trie after the insert `"ab"`:1 into the empty two-trie; the empty
two-trie if the insert failed. -/
def first_key : double_trie :=
  match double_trie.init.insert [97, 98] 1 with
  | .ok d => d
  | .error _ => double_trie.init

/-- The two-trie after the inserts `"da"`:1 and `"ex\xFF"`:2 into the empty
two-trie; the empty two-trie if the run failed. -/
def zero_arc_trie : double_trie :=
  match insert_all [([100, 97], 1), ([101, 120, 255], 2)] double_trie.init with
  | .ok d => d
  | .error _ => double_trie.init

/-- The state that `rhs_append` has returned and the rear array afterwards. -/
def appended (r : Res (Int × double_trie)) : Option (Int × basic_trie) :=
  match r with
  | .ok (s, d) => some (s, d.rhs)
  | .error _ => none

/-! ## Lemmas on the double-array core -/

namespace basic_trie

@[simp] theorem set_base_base (a : basic_trie) (s v x : Int) :
    (a.set_base s v).base x = if x = s then v else a.base x := rfl
@[simp] theorem set_base_check (a : basic_trie) (s v : Int) : (a.set_base s v).check = a.check := rfl
@[simp] theorem set_base_size (a : basic_trie) (s v : Int) : (a.set_base s v).size = a.size := rfl
@[simp] theorem set_base_last_base (a : basic_trie) (s v : Int) :
    (a.set_base s v).last_base = a.last_base := rfl
@[simp] theorem set_check_check (a : basic_trie) (s v x : Int) :
    (a.set_check s v).check x = if x = s then v else a.check x := rfl
@[simp] theorem set_check_base (a : basic_trie) (s v : Int) : (a.set_check s v).base = a.base := rfl
@[simp] theorem set_check_size (a : basic_trie) (s v : Int) : (a.set_check s v).size = a.size := rfl
@[simp] theorem set_check_last_base (a : basic_trie) (s v : Int) :
    (a.set_check s v).last_base = a.last_base := rfl

theorem mem_find_exist_target_loop (a : basic_trie) (s : Int) :
    ∀ (n : Nat) (ch : Int) (e : extremum_type) (c : Int),
      c ∈ (a.find_exist_target_loop s n ch e).1 ↔
        ch ≤ c ∧ c < ch + n ∧ a.check_transition s (a.next s c) := by
  intro n
  induction n with
  | zero =>
    intro ch e c
    simp only [find_exist_target_loop, List.not_mem_nil, false_iff]
    intro h; omega
  | succ n ih =>
    intro ch e c
    unfold find_exist_target_loop
    by_cases h1 : a.next s ch ≥ a.size
    · simp only [h1, if_true, List.not_mem_nil, false_iff]
      rintro ⟨h2, _, h4⟩
      have := h4.2.2.1
      simp only [next] at h1 this
      omega
    · simp only [h1, if_false]
      by_cases h2 : a.check_transition s (a.next s ch)
      · simp only [h2, if_true, List.mem_cons, ih]
        constructor
        · rintro (rfl | ⟨h3, h4, h5⟩)
          · exact ⟨le_refl _, by omega, h2⟩
          · exact ⟨by omega, by push_cast; omega, h5⟩
        · rintro ⟨h3, h4, h5⟩
          by_cases h6 : c = ch
          · exact Or.inl h6
          · exact Or.inr ⟨by omega, by push_cast at h4; omega, h5⟩
      · simp only [h2, if_false, ih]
        constructor
        · rintro ⟨h3, h4, h5⟩
          exact ⟨by omega, by push_cast; omega, h5⟩
        · rintro ⟨h3, h4, h5⟩
          have : c ≠ ch := by rintro rfl; exact h2 h5
          exact ⟨by omega, by push_cast at h4; omega, h5⟩

theorem mem_find_exist_target (a : basic_trie) (s : Int) (e : extremum_type) (c : Int) :
    c ∈ (a.find_exist_target s e).1 ↔
      1 ≤ c ∧ c ≤ 257 ∧ a.check_transition s (a.next s c) := by
  unfold find_exist_target
  rw [mem_find_exist_target_loop]
  constructor
  · rintro ⟨h1, h2, h3⟩; exact ⟨h1, by omega, h3⟩
  · rintro ⟨h1, h2, h3⟩; exact ⟨h1, by omega, h3⟩

theorem find_exist_target_loop_max (a : basic_trie) (s : Int) :
    ∀ (n : Nat) (ch : Int) (e : extremum_type),
      e.max ≤ (a.find_exist_target_loop s n ch e).2.max ∧
      (∀ c ∈ (a.find_exist_target_loop s n ch e).1, c ≤ (a.find_exist_target_loop s n ch e).2.max) ∧
      (0 ≤ e.min → e.min ≤ ch → (a.find_exist_target_loop s n ch e).2.min = e.min) := by
  intro n
  induction n with
  | zero => intro ch e; simp [find_exist_target_loop]
  | succ n ih =>
    intro ch e
    unfold find_exist_target_loop
    by_cases h1 : a.next s ch ≥ a.size
    · simp [h1]
    · simp only [h1, if_false]
      by_cases h2 : a.check_transition s (a.next s ch)
      · simp only [h2, if_true]
        obtain ⟨i1, i2, i3⟩ := ih (ch + 1)
          ⟨if ch > e.max then ch else e.max, if ch < e.min then ch else e.min⟩
        simp only at i1 i2 i3
        have hmax : e.max ≤ (if ch > e.max then ch else e.max) ∧
            ch ≤ (if ch > e.max then ch else e.max) := by
          split_ifs <;> omega
        refine ⟨by omega, ?_, ?_⟩
        · intro c hc
          rcases List.mem_cons.1 hc with rfl | hc
          · omega
          · exact i2 c hc
        · intro h3 h4
          have h5 : ¬ ch < e.min := by omega
          simp only [h5, if_false] at i3 ⊢
          exact i3 h3 (by omega)
      · simp only [h2, if_false]
        obtain ⟨i1, i2, i3⟩ := ih (ch + 1) e
        exact ⟨i1, i2, fun h3 h4 => i3 h3 (by omega)⟩

theorem cstr_of_pos : ∀ (l : List Int), (∀ c ∈ l, c ≠ 0) → cstr l = l := by
  intro l
  induction l with
  | nil => intro _; rfl
  | cons c rest ih =>
    intro h
    have h1 : c ≠ 0 := h c (List.mem_cons_self _ _)
    simp only [cstr, h1, if_false]
    rw [ih (fun x hx => h x (List.mem_cons_of_mem _ hx))]

theorem Ext.refl (a : basic_trie) : Ext a a :=
  ⟨le_refl _, fun x => by
      have : ¬ (a.size ≤ x ∧ x < a.size) := by omega
      simp [this],
    fun x => by
      have : ¬ (a.size ≤ x ∧ x < a.size) := by omega
      simp [this]⟩

theorem Ext.trans {a b c : basic_trie} (h1 : Ext a b) (h2 : Ext b c) : Ext a c := by
  have s1 := h1.size_le
  have s2 := h2.size_le
  refine ⟨by omega, fun x => ?_, fun x => ?_⟩
  · rw [h2.check_eq, h1.check_eq]
    by_cases h3 : b.size ≤ x ∧ x < c.size
    · have : a.size ≤ x ∧ x < c.size := by omega
      simp [h3, this]
    · simp only [h3, if_false]
      by_cases h4 : a.size ≤ x ∧ x < b.size
      · have : a.size ≤ x ∧ x < c.size := by omega
        simp [h4, this]
      · have : ¬ (a.size ≤ x ∧ x < c.size) := by omega
        simp [h4, this]
  · rw [h2.base_eq, h1.base_eq]
    by_cases h3 : b.size ≤ x ∧ x < c.size
    · have : a.size ≤ x ∧ x < c.size := by omega
      simp [h3, this]
    · simp only [h3, if_false]
      by_cases h4 : a.size ≤ x ∧ x < b.size
      · have : a.size ≤ x ∧ x < c.size := by omega
        simp [h4, this]
      · have : ¬ (a.size ≤ x ∧ x < c.size) := by omega
        simp [h4, this]

theorem inflate_size (a : basic_trie) (n : Int) :
    (a.inflate n).size = ((a.size * 2 + n) / 4096 + 1) * 4096 := rfl

theorem inflate_last_base (a : basic_trie) (n : Int) : (a.inflate n).last_base = a.last_base := rfl

theorem inflate_size_gt (a : basic_trie) (n : Int) : a.size * 2 + n < (a.inflate n).size := by
  rw [inflate_size]; omega

theorem inflate_ext (a : basic_trie) (n : Int) (h : 0 ≤ a.size + n) :
    Ext a (a.inflate n) := by
  have hs := inflate_size_gt a n
  refine ⟨by omega, fun x => rfl, fun x => rfl⟩

theorem find_base_loop_spec (inputs : List Int) (e : extremum_type) (z : Int)
    (hin : ∀ p ∈ inputs, 0 ≤ p ∧ p ≤ e.max) (hmin : 0 ≤ e.min ∧ e.min ≤ e.max) :
    ∀ (n : Nat) (a : basic_trie) (i : Int),
      0 ≤ a.size → i < a.size →
      (∀ x, z ≤ x → x < a.size → a.check x = 0) → z ≤ i + n → 1 ≤ n →
      ∃ j a1, find_base_loop inputs e n a i = .ok (j, a1) ∧ i < j ∧ j + e.max < a1.size ∧
        (∀ p ∈ inputs, a1.check (j + p) ≤ 0) ∧ a1.check (j + e.min) ≤ 0 ∧ Ext a a1 ∧
        a1.last_base = a.last_base := by
  intro n
  induction n with
  | zero => intro a i _ _ _ _ h; omega
  | succ n ih =>
    intro a i h0 hi hz hfuel _
    unfold find_base_loop
    -- the array after the growth test
    have key : ∃ a1 : basic_trie,
        (if i + 1 + e.max ≥ a.size then a.inflate e.max else a) = a1 ∧
        i + 1 + e.max < a1.size ∧ Ext a a1 ∧ a1.last_base = a.last_base := by
      by_cases hg : i + 1 + e.max ≥ a.size
      · refine ⟨a.inflate e.max, by simp [hg], ?_, inflate_ext a _ (by omega), rfl⟩
        have := inflate_size_gt a e.max
        omega
      · exact ⟨a, by simp [hg], by omega, Ext.refl a, rfl⟩
    obtain ⟨a1, ha1, hlt, hext, hlb⟩ := key
    simp only [ha1]
    have hz1 : ∀ x, z ≤ x → x < a1.size → a1.check x = 0 := by
      intro x hx1 hx2
      rw [hext.check_eq]
      by_cases h3 : a.size ≤ x ∧ x < a1.size
      · simp [h3]
      · simp only [h3, if_false]
        exact hz x hx1 (by omega)
    by_cases hfound : a1.check (i + 1 + e.min) ≤ 0 ∧ a1.check (i + 1 + e.max) ≤ 0
        ∧ ∀ p ∈ inputs, ¬ a1.check (i + 1 + p) > 0
    · rw [if_pos hfound]
      refine ⟨i + 1, a1, rfl, by omega, hlt, ?_, hfound.1, hext, hlb⟩
      · intro p hp
        have := hfound.2.2 p hp
        omega
    · rw [if_neg hfound]
      have hsmall : i + 1 < z := by
        by_contra hge
        apply hfound
        refine ⟨?_, ?_, ?_⟩
        · rw [hz1 _ (by omega) (by omega)]
        · rw [hz1 _ (by omega) (by omega)]
        · intro p hp
          have := hin p hp
          rw [hz1 _ (by omega) (by omega)]
          omega
      have hs1 := hext.size_le
      obtain ⟨j, a2, h1, h2, h3, h4, h5, h6, h7⟩ :=
        ih a1 (i + 1) (by omega) (by omega) hz1 (by push_cast at hfuel; omega)
          (by push_cast at hfuel; omega)
      exact ⟨j, a2, h1, by omega, h3, h4, h5, hext.trans h6, by rw [h7, hlb]⟩

theorem find_base_spec (a : basic_trie) (inputs : List Int) (e : extremum_type)
    (hin : ∀ p ∈ inputs, 0 ≤ p ∧ p ≤ e.max) (hmin : 0 ≤ e.min ∧ e.min ≤ e.max)
    (h0 : 0 ≤ a.size) (hlb : a.last_base < a.size) :
    ∃ j a1, a.find_base inputs e = .ok (j, a1) ∧ a.last_base < j ∧ j + e.max < a1.size ∧
      (∀ p ∈ inputs, a1.check (j + p) ≤ 0) ∧ a1.check (j + e.min) ≤ 0 ∧ Ext a a1 ∧
      a1.last_base = j := by
  obtain ⟨j, a1, h1, h2, h3, h4, h5, h6, _⟩ :=
    find_base_loop_spec inputs e a.size hin hmin ((a.size - a.last_base).toNat + 1) a a.last_base
      h0 hlb (fun x h1 h2 => by omega) (by push_cast; omega) (by omega)
  refine ⟨j, { a1 with last_base := j }, ?_, h2, h3, h4, h5, ⟨h6.size_le, h6.check_eq, h6.base_eq⟩, rfl⟩
  unfold find_base
  rw [h1]

end basic_trie

namespace basic_trie

theorem reparent_foldl (o n : Int) : ∀ (targets : List Int) (b : basic_trie),
    (targets.foldl (fun acc p => acc.set_check (acc.base o + p) n) b).base = b.base ∧
    (targets.foldl (fun acc p => acc.set_check (acc.base o + p) n) b).size = b.size ∧
    (targets.foldl (fun acc p => acc.set_check (acc.base o + p) n) b).last_base = b.last_base ∧
    ∀ x, (targets.foldl (fun acc p => acc.set_check (acc.base o + p) n) b).check x =
      if (x - b.base o) ∈ targets then n else b.check x := by
  intro targets
  induction targets with
  | nil => intro b; simp
  | cons p rest ih =>
    intro b
    obtain ⟨h1, h2, h3, h4⟩ := ih (b.set_check (b.base o + p) n)
    simp only [List.foldl_cons]
    refine ⟨by rw [h1]; rfl, by rw [h2]; rfl, by rw [h3]; rfl, fun x => ?_⟩
    rw [h4]
    simp only [set_check_base, set_check_check, List.mem_cons]
    by_cases h5 : x - b.base o ∈ rest
    · simp [h5]
    · simp only [h5, if_false, or_false]
      by_cases h6 : x = b.base o + p
      · have : x - b.base o = p := by omega
        simp [h6, this]
      · have : ¬ x - b.base o = p := by omega
        simp [h6, this]

theorem move_child_spec (b : basic_trie) (obase nbase c P : Int)
    (hc : b.check (obase + c) = P) (hn : b.check (nbase + c) ≠ P)
    (hoP : obase + c ≠ P) (ho : 0 < obase + c)
    (h5 : ∀ y, b.check y = obase + c →
      1 ≤ y - b.base (obase + c) ∧ y - b.base (obase + c) ≤ 257 ∧ 0 < y ∧ y < b.size) :
    (b.move_child obase nbase c).size = b.size ∧
    (b.move_child obase nbase c).last_base = b.last_base ∧
    (∀ x, (b.move_child obase nbase c).check x =
      if x = nbase + c then P
      else if b.check x = obase + c then nbase + c else b.check x) ∧
    (∀ x, (b.move_child obase nbase c).base x =
      if x = nbase + c then b.base (obase + c) else b.base x) := by
  have hne : nbase + c ≠ obase + c := by
    intro h; rw [h] at hn; exact hn hc
  unfold move_child
  simp only
  generalize ha2 : (b.set_base (nbase + c) (b.base (obase + c))).set_check (nbase + c)
          ((b.set_base (nbase + c) (b.base (obase + c))).check (obase + c)) = a2
  have g1 : a2.size = b.size := by rw [← ha2]; rfl
  have g2 : a2.last_base = b.last_base := by rw [← ha2]; rfl
  have g3 : ∀ x, a2.check x = if x = nbase + c then P else b.check x := by
    intro x; rw [← ha2]; simp [hc]
  have g4 : ∀ x, a2.base x = if x = nbase + c then b.base (obase + c) else b.base x := by
    intro x; rw [← ha2]; simp
  have g5 : a2.base (obase + c) = b.base (obase + c) := by
    rw [g4]; simp [hne.symm]
  obtain ⟨f1, f2, f3, f4⟩ := reparent_foldl (obase + c) (nbase + c)
    (a2.find_exist_target (obase + c) ⟨0, 0⟩).1 a2
  refine ⟨by rw [f2, g1], by rw [f3, g2], fun x => ?_, fun x => by rw [f1, g4]⟩
  rw [f4, g5]
  simp only [mem_find_exist_target, check_transition, next, g1, g3, g5]
  have e1 : b.base (obase + c) + (x - b.base (obase + c)) = x := by omega
  simp only [e1]
  by_cases hx2 : x = nbase + c
  · have : ¬ (P = obase + c) := fun h => hoP h.symm
    simp [hx2, this]
  · simp only [hx2, if_false]
    by_cases hx3 : b.check x = obase + c
    · have := h5 x hx3
      simp only [hx3, and_true, if_true]
      rw [if_pos]
      exact ⟨this.1, this.2.1, ho, this.2.2.1, this.2.2.2⟩
    · simp only [hx3, and_false, if_false]

theorem relocate_step_spec {σ : Type} (cb : relocator σ) (obase nbase c stand : Int)
    (b : basic_trie) (o : σ) (r : Int × basic_trie × σ) (P : Int)
    (hc : b.check (obase + c) = P) (hn : b.check (nbase + c) ≠ P)
    (hoP : obase + c ≠ P) (ho : 0 < obase + c)
    (h5 : ∀ y, b.check y = obase + c →
      1 ≤ y - b.base (obase + c) ∧ y - b.base (obase + c) ≤ 257 ∧ 0 < y ∧ y < b.size)
    (h : relocate_step cb obase nbase c stand b o = .ok r) :
    r.1 = (if stand = obase + c then nbase + c else stand) ∧
    r.2.1.size = b.size ∧ r.2.1.last_base = b.last_base ∧
    (∀ x, r.2.1.check x =
      if x = obase + c then 0 else if x = nbase + c then P
      else if b.check x = obase + c then nbase + c else b.check x) ∧
    (∀ x, r.2.1.base x =
      if x = obase + c then 0 else if x = nbase + c then b.base (obase + c) else b.base x) := by
  obtain ⟨m1, m2, m3, m4⟩ := move_child_spec b obase nbase c P hc hn hoP ho h5
  unfold relocate_step at h
  split at h
  · cases h
  · cases h
    refine ⟨rfl, ?_, ?_, fun x => ?_, fun x => ?_⟩
    · simp only [set_check_size, set_base_size, m1]
    · simp only [set_check_last_base, set_base_last_base, m2]
    · simp only [set_check_check, set_base_check, m3]
    · simp only [set_check_base, set_base_base, m4]

end basic_trie

namespace basic_trie

theorem is_moved_cons_skip (b : basic_trie) (P obase c : Int) (rest : List Int)
    (hc : b.check (obase + c) ≠ P) (z : Int) :
    b.is_moved P obase (c :: rest) z ↔ b.is_moved P obase rest z := by
  unfold is_moved
  constructor
  · rintro ⟨h1, h2⟩
    rcases List.mem_cons.1 h2 with h3 | h3
    · exfalso; apply hc
      have : obase + c = z := by omega
      rw [this]; exact h1
    · exact ⟨h1, h3⟩
  · rintro ⟨h1, h2⟩
    exact ⟨h1, List.mem_cons_of_mem _ h2⟩

theorem RelocPre.tail {b : basic_trie} {P obase nbase c : Int} {rest : List Int}
    (h : RelocPre b P obase nbase (c :: rest)) : RelocPre b P obase nbase rest :=
  ⟨fun x hx => h.free x (List.mem_cons_of_mem _ hx),
   fun x hx y hy => h.apart x (List.mem_cons_of_mem _ hx) y (List.mem_cons_of_mem _ hy),
   fun x hx => h.notP x (List.mem_cons_of_mem _ hx),
   fun x hx => h.kids x (List.mem_cons_of_mem _ hx)⟩

/-- The effect of one round on the array, as established by `relocate_step_spec`. -/
theorem step_check_eq_P {b b1 : basic_trie} {P obase nbase c : Int} {rest : List Int}
    (hP : P ≠ 0) (hpre : RelocPre b P obase nbase (c :: rest)) (hc : b.check (obase + c) = P)
    (hchk : ∀ x, b1.check x =
      if x = obase + c then 0 else if x = nbase + c then P
      else if b.check x = obase + c then nbase + c else b.check x)
    (z : Int) (hz : (z - obase) ∈ rest) :
    b1.check z = P ↔ z ≠ obase + c ∧ b.check z = P := by
  have hmem : c ∈ c :: rest := List.mem_cons_self _ _
  have hn := (hpre.notP c hmem hc).2
  rw [hchk]
  by_cases h1 : z = obase + c
  · simp only [h1, if_true, ne_eq, not_true, false_and, iff_false]
    exact fun h => hP h.symm
  · simp only [h1, if_false, ne_eq, not_false_iff, true_and]
    have h2 : z ≠ nbase + c := by
      intro h
      have := hpre.apart c hmem (z - obase) (List.mem_cons_of_mem _ hz) hc
      omega
    simp only [h2, if_false]
    by_cases h3 : b.check z = obase + c
    · simp only [h3, if_true]
      have := (hpre.notP c hmem hc).1
      constructor
      · intro h; exact absurd h hn
      · intro h; exact absurd h this
    · simp only [h3, if_false]

theorem is_moved_step {b b1 : basic_trie} {P obase nbase c : Int} {rest : List Int}
    (hP : P ≠ 0) (hpre : RelocPre b P obase nbase (c :: rest)) (hc : b.check (obase + c) = P)
    (hchk : ∀ x, b1.check x =
      if x = obase + c then 0 else if x = nbase + c then P
      else if b.check x = obase + c then nbase + c else b.check x)
    (z : Int) :
    b.is_moved P obase (c :: rest) z ↔ (z = obase + c ∨ b1.is_moved P obase rest z) := by
  unfold is_moved
  constructor
  · rintro ⟨h1, h2⟩
    by_cases h3 : z = obase + c
    · exact Or.inl h3
    · right
      have h4 : z - obase ∈ rest := by
        rcases List.mem_cons.1 h2 with h | h
        · omega
        · exact h
      exact ⟨(step_check_eq_P hP hpre hc hchk z h4).2 ⟨h3, h1⟩, h4⟩
  · rintro (h | ⟨h1, h2⟩)
    · subst h
      refine ⟨hc, ?_⟩
      have : obase + c - obase = c := by omega
      rw [this]; exact List.mem_cons_self _ _
    · exact ⟨((step_check_eq_P hP hpre hc hchk z h2).1 h1).2, List.mem_cons_of_mem _ h2⟩

theorem RelocPre.step {b b1 : basic_trie} {P obase nbase c : Int} {rest : List Int}
    (hP : P ≠ 0) (hpre : RelocPre b P obase nbase (c :: rest)) (hc : b.check (obase + c) = P)
    (hsize : b1.size = b.size)
    (hchk : ∀ x, b1.check x =
      if x = obase + c then 0 else if x = nbase + c then P
      else if b.check x = obase + c then nbase + c else b.check x)
    (hbase : ∀ x, b1.base x =
      if x = obase + c then 0 else if x = nbase + c then b.base (obase + c) else b.base x) :
    RelocPre b1 P obase nbase rest := by
  have hmem : c ∈ c :: rest := List.mem_cons_self _ _
  have hfree := hpre.free c hmem hc
  have hkids := hpre.kids c hmem hc
  have hnotP := hpre.notP c hmem hc
  -- a cell of the rest that is owned by P afterwards was owned by P before
  have back : ∀ c1 ∈ rest, b1.check (obase + c1) = P →
      obase + c1 ≠ obase + c ∧ b.check (obase + c1) = P := by
    intro c1 h1 h2
    have : obase + c1 - obase ∈ rest := by
      have : obase + c1 - obase = c1 := by omega
      rw [this]; exact h1
    exact (step_check_eq_P hP hpre hc hchk (obase + c1) this).1 h2
  refine ⟨?_, ?_, ?_, ?_⟩
  · intro c1 h1 h2
    obtain ⟨g1, g2⟩ := back c1 h1 h2
    have m1 : c1 ∈ c :: rest := List.mem_cons_of_mem _ h1
    have f1 := hpre.free c1 m1 g2
    have a1 := hpre.apart c1 m1 c hmem g2
    rw [hchk]
    have e1 : nbase + c1 ≠ nbase + c := by omega
    have e2 : ¬ b.check (nbase + c1) = obase + c := by rw [f1]; omega
    rw [if_neg a1, if_neg e1, if_neg e2]; exact f1
  · intro c1 h1 c2 h2 h3
    obtain ⟨_, g2⟩ := back c1 h1 h3
    exact hpre.apart c1 (List.mem_cons_of_mem _ h1) c2 (List.mem_cons_of_mem _ h2) g2
  · intro c1 h1 h2
    obtain ⟨_, g2⟩ := back c1 h1 h2
    exact hpre.notP c1 (List.mem_cons_of_mem _ h1) g2
  · intro c1 h1 h2
    obtain ⟨g1, g2⟩ := back c1 h1 h2
    have m1 : c1 ∈ c :: rest := List.mem_cons_of_mem _ h1
    obtain ⟨k1, k2⟩ := hpre.kids c1 m1 g2
    have a1 := hpre.apart c hmem c1 m1 hc
    have nP := (hpre.notP c1 m1 g2).1
    refine ⟨k1, ?_⟩
    intro y hy
    have hb : b1.base (obase + c1) = b.base (obase + c1) := by
      rw [hbase]; simp only [g1, if_false, a1.symm]
    rw [hb, hsize]
    apply k2
    rw [hchk] at hy
    by_cases y1 : y = obase + c
    · simp only [y1, if_true] at hy; omega
    · simp only [y1, if_false] at hy
      by_cases y2 : y = nbase + c
      · simp only [y2, if_true] at hy; exact absurd hy.symm nP
      · simp only [y2, if_false] at hy
        by_cases y3 : b.check y = obase + c
        · simp only [y3, if_true] at hy; exact absurd hy a1
        · simp only [y3, if_false] at hy; exact hy

end basic_trie

namespace basic_trie

theorem not_is_moved_of {b : basic_trie} {P obase nbase : Int} {L : List Int}
    (hpre : RelocPre b P obase nbase L) :
    ¬ b.is_moved P obase L P ∧ ¬ b.is_moved P obase L 0 ∧
      ∀ z, b.is_moved P obase L z → ¬ b.is_moved P obase L (z - obase + nbase) := by
  refine ⟨?_, ?_, ?_⟩
  · rintro ⟨h1, h2⟩
    have e : obase + (P - obase) = P := by omega
    have := (hpre.notP (P - obase) h2 (by rw [e]; exact h1)).1
    omega
  · rintro ⟨h1, h2⟩
    have e : obase + (0 - obase) = 0 := by omega
    have := (hpre.kids (0 - obase) h2 (by rw [e]; exact h1)).1
    omega
  · rintro z ⟨h1, h2⟩ ⟨h3, h4⟩
    have e : obase + (z - obase) = z := by omega
    have := hpre.apart (z - obase) h2 (z - obase + nbase - obase) h4 (by rw [e]; exact h1)
    omega

theorem relocate_loop_spec {σ : Type} (cb : relocator σ) (P obase nbase : Int) (hP : P ≠ 0) :
    ∀ (L : List Int) (stand : Int) (b : basic_trie) (o : σ) (r : Int × basic_trie × σ),
      RelocPre b P obase nbase L →
      relocate_loop cb P obase nbase L stand b o = .ok r →
      r.1 = (if b.is_moved P obase L stand then stand - obase + nbase else stand) ∧
      r.2.1.size = b.size ∧ r.2.1.last_base = b.last_base ∧
      (∀ x, r.2.1.check x =
        if b.is_moved P obase L (x - nbase + obase) then P
        else if b.is_moved P obase L x then 0
        else if b.is_moved P obase L (b.check x) then b.check x - obase + nbase
        else b.check x) ∧
      (∀ x, r.2.1.base x =
        if b.is_moved P obase L (x - nbase + obase) then b.base (x - nbase + obase)
        else if b.is_moved P obase L x then 0 else b.base x) := by
  intro L
  induction L with
  | nil =>
    intro stand b o r _ h
    simp only [relocate_loop] at h
    cases h
    simp [is_moved]
  | cons c rest ih =>
    intro stand b o r hpre h
    unfold relocate_loop at h
    by_cases hc : b.check (obase + c) ≠ P
    · rw [if_pos hc] at h
      have := ih stand b o r hpre.tail h
      simp only [is_moved_cons_skip b P obase c rest hc]
      exact this
    · rw [if_neg hc] at h
      have hc : b.check (obase + c) = P := not_not.1 hc
      have hmem : c ∈ c :: rest := List.mem_cons_self _ _
      have hfree := hpre.free c hmem hc
      have hkids := hpre.kids c hmem hc
      have hnotP := hpre.notP c hmem hc
      cases hrs : relocate_step cb obase nbase c stand b o with
      | error e => rw [hrs] at h; cases h
      | ok r1 =>
        rw [hrs] at h
        obtain ⟨stand1, b1, o1⟩ := r1
        simp only at h
        obtain ⟨s1, s2, s3, s4, s5⟩ := relocate_step_spec cb obase nbase c stand b o
          (stand1, b1, o1) P hc (by rw [hfree]; exact fun h => hP h.symm) hnotP.1 hkids.1
          hkids.2 hrs
        simp only at s1 s2 s3 s4 s5
        have hpre1 : RelocPre b1 P obase nbase rest := hpre.step hP hc s2 s4 s5
        obtain ⟨i1, i2, i3, i4, i5⟩ := ih stand1 b1 o1 r hpre1 h
        have hmv := is_moved_step hP hpre hc s4
        obtain ⟨nP, n0, nN⟩ := not_is_moved_of hpre
        -- facts on the cells o and n in the array after the round
        have mo : ¬ b1.is_moved P obase rest (obase + c) := by
          rintro ⟨h1, _⟩
          rw [s4] at h1; simp only [if_true] at h1; exact hP h1.symm
        have mn : ¬ b1.is_moved P obase rest (nbase + c) := by
          intro h1
          have h2 : b.is_moved P obase (c :: rest) (nbase + c) := (hmv _).2 (Or.inr h1)
          have h3 : b.is_moved P obase (c :: rest) (obase + c) := (hmv _).2 (Or.inl rfl)
          have := nN _ h3
          have e : obase + c - obase + nbase = nbase + c := by omega
          rw [e] at this
          exact this h2
        have mP : ¬ b1.is_moved P obase rest P := fun h1 => nP ((hmv _).2 (Or.inr h1))
        have m0 : ¬ b1.is_moved P obase rest 0 := fun h1 => n0 ((hmv _).2 (Or.inr h1))
        have hne : nbase + c ≠ obase + c := by
          intro h1; rw [h1, hc] at hfree; exact hP hfree
        refine ⟨?_, by rw [i2, s2], by rw [i3, s3], fun x => ?_, fun x => ?_⟩
        · rw [i1, s1]
          simp only [hmv]
          by_cases h1 : stand = obase + c
          · subst h1
            simp only [if_true, mn, if_false, true_or]
            omega
          · simp only [h1, if_false, false_or]
        · rw [i4]
          simp only [hmv]
          by_cases h1 : b1.is_moved P obase rest (x - nbase + obase)
          · simp [h1]
          · simp only [h1, if_false, or_false]
            by_cases h2 : x = nbase + c
            · have e : x - nbase + obase = obase + c := by omega
              have e2 : b1.check x = P := by rw [s4]; simp [h2, hne]
              subst h2
              simp only [e, if_true, mn, if_false, e2, mP]
            · have e : ¬ (x - nbase + obase = obase + c) := by omega
              simp only [e, if_false]
              by_cases h3 : x = obase + c
              · have e2 : b1.check x = 0 := by rw [s4]; simp [h3]
                subst h3
                simp only [mo, if_false, e2, m0, true_or, if_true]
              · simp only [h3, false_or]
                by_cases h4 : b1.is_moved P obase rest x
                · simp [h4]
                · simp only [h4, if_false]
                  have e2 : b1.check x = if b.check x = obase + c then nbase + c else b.check x := by
                    rw [s4]; simp only [h3, h2, if_false]
                  rw [e2]
                  by_cases h5 : b.check x = obase + c
                  · have e3 : obase + c - obase + nbase = nbase + c := by omega
                    simp only [h5, if_true, mn, if_false, true_or, e3]
                  · simp only [h5, if_false, false_or]
        · rw [i5]
          simp only [hmv]
          by_cases h1 : b1.is_moved P obase rest (x - nbase + obase)
          · have e1 : x - nbase + obase ≠ obase + c := by
              intro h2; rw [h2] at h1; exact mo h1
            have e2 : x - nbase + obase ≠ nbase + c := by
              intro h2; rw [h2] at h1; exact mn h1
            simp only [h1, if_true, or_true]
            rw [s5]; simp only [e1, e2, if_false]
          · simp only [h1, if_false, or_false]
            by_cases h2 : x = nbase + c
            · have e : x - nbase + obase = obase + c := by omega
              have e2 : b1.base x = b.base (obase + c) := by rw [s5]; simp [h2, hne]
              subst h2
              simp only [e, if_true, mn, if_false, e2]
            · have e : ¬ (x - nbase + obase = obase + c) := by omega
              simp only [e, if_false]
              by_cases h3 : x = obase + c
              · have e2 : b1.base x = 0 := by rw [s5]; simp [h3]
                subst h3
                simp only [mo, if_false, e2, true_or, if_true]
              · simp only [h3, false_or]
                by_cases h4 : b1.is_moved P obase rest x
                · simp [h4]
                · simp only [h4, if_false]
                  rw [s5]; simp only [h3, h2, if_false]

end basic_trie

namespace basic_trie

theorem walk_nil (a : basic_trie) (s : Int) : a.walk s [] = some s := rfl

theorem walk_cons (a : basic_trie) (s c : Int) (w : List Int) :
    a.walk s (c :: w) =
      if a.check_transition s (a.next s c) then a.walk (a.next s c) w else none := rfl

theorem walk_append (a : basic_trie) : ∀ (w1 w2 : List Int) (s : Int),
    a.walk s (w1 ++ w2) = (a.walk s w1).bind (fun x => a.walk x w2) := by
  intro w1
  induction w1 with
  | nil => intro w2 s; simp [walk_nil]
  | cons c w ih =>
    intro w2 s
    simp only [List.cons_append, walk_cons]
    by_cases h : a.check_transition s (a.next s c)
    · simp only [h, if_true]; exact ih w2 _
    · simp [h]

theorem walk_snoc (a : basic_trie) (w : List Int) (s c t : Int) :
    a.walk s (w ++ [c]) = some t ↔
      ∃ p, a.walk s w = some p ∧ a.check_transition p (a.next p c) ∧ a.next p c = t := by
  rw [walk_append]
  constructor
  · intro h
    cases hw : a.walk s w with
    | none => rw [hw] at h; simp at h
    | some p =>
      rw [hw] at h
      simp only [Option.some_bind, walk_cons, walk_nil] at h
      by_cases h1 : a.check_transition p (a.next p c)
      · simp only [h1, if_true, Option.some.injEq] at h
        exact ⟨p, rfl, h1, h⟩
      · simp [h1] at h
  · rintro ⟨p, h1, h2, h3⟩
    rw [h1]
    subst h3
    simp only [Option.some_bind, walk_cons, walk_nil, h2, if_true]

/-- A state reached by a non-empty word is owned. -/
theorem walk_check_ne_zero (a : basic_trie) : ∀ (w : List Int) (s t : Int),
    w ≠ [] → a.walk s w = some t → a.check t ≠ 0 := by
  intro w s t hw h
  rcases List.eq_nil_or_concat w with h1 | ⟨w', c, h1⟩
  · exact absurd h1 hw
  · rw [h1, List.concat_eq_append] at h
    obtain ⟨p, _, h3, h4⟩ := (walk_snoc a w' s c t).1 h
    have := h3.2.2.2
    rw [h4] at this
    have := h3.1
    omega

theorem WF.check_nonneg {a : basic_trie} (h : a.WF) (t : Int) : 0 ≤ a.check t := by
  by_cases h1 : a.check t = 0
  · omega
  · have := (h.cell t h1).1; omega

theorem WF.check_zero {a : basic_trie} (h : a.WF) : a.check 0 = 0 := by
  by_contra h1
  have := h.cell 0 h1
  omega

theorem WF.cell_ge {a : basic_trie} (h : a.WF) (t : Int) (ht : a.check t ≠ 0) : 2 ≤ t := by
  have := h.cell t ht; omega

theorem WF.parent {a : basic_trie} (h : a.WF) (t : Int) (ht : a.check t ≠ 0) :
    a.allocated (a.check t) := by
  obtain ⟨w, hw⟩ := h.reach t ht
  rcases List.eq_nil_or_concat w with h1 | ⟨w', c, h1⟩
  · subst h1
    simp only [walk_nil, Option.some.injEq] at hw
    subst hw
    exact absurd h.root ht
  · rw [h1, List.concat_eq_append] at hw
    obtain ⟨p, h2, h3, h4⟩ := (walk_snoc a w' 1 c t).1 hw
    have hp : a.check t = p := by rw [← h4]; exact h3.2.2.2
    rw [hp]
    by_cases h5 : w' = []
    · subst h5
      simp only [walk_nil, Option.some.injEq] at h2
      exact Or.inl h2.symm
    · exact Or.inr (walk_check_ne_zero a w' 1 p h5 h2)

theorem WF.noloop {a : basic_trie} (h : a.WF) (t : Int) (ht : a.check t ≠ 0) :
    a.check t ≠ t := by
  intro hl
  have key : ∀ (n : Nat) (w : List Int), w.length = n → a.walk 1 w ≠ some t := by
    intro n
    induction n with
    | zero =>
      intro w hw hwalk
      have : w = [] := List.length_eq_zero.1 hw
      subst this
      simp only [walk_nil, Option.some.injEq] at hwalk
      subst hwalk
      exact ht h.root
    | succ n ih =>
      intro w hw hwalk
      rcases List.eq_nil_or_concat w with h1 | ⟨w', c, h1⟩
      · subst h1; simp at hw
      · rw [h1, List.concat_eq_append] at hwalk
        obtain ⟨p, h2, h3, h4⟩ := (walk_snoc a w' 1 c t).1 hwalk
        have hp : a.check t = p := by rw [← h4]; exact h3.2.2.2
        rw [hl] at hp
        subst hp
        apply ih w' _ h2
        rw [h1] at hw
        simp at hw
        exact hw
  obtain ⟨w, hw⟩ := h.reach t ht
  exact key w.length w rfl hw

theorem WF.allocated_lt {a : basic_trie} (h : a.WF) (s : Int) (hs : a.allocated s) :
    0 < s ∧ s < a.size := by
  rcases hs with rfl | hs
  · exact ⟨by omega, h.size_gt⟩
  · have := h.cell s hs; omega

/-- Growth does not change which arcs exist. -/
theorem Ext.check_transition_iff {a a1 : basic_trie} (h : a.WF) (he : Ext a a1) (s t : Int) :
    a1.check_transition s t ↔ a.check_transition s t := by
  have hs := he.size_le
  unfold check_transition
  rw [he.check_eq]
  constructor
  · rintro ⟨h1, h2, h3, h4⟩
    by_cases h5 : a.size ≤ t ∧ t < a1.size
    · simp only [h5, and_self, if_true] at h4; omega
    · simp only [h5, if_false] at h4
      have : a.check t ≠ 0 := by omega
      have := h.cell t this
      exact ⟨h1, h2, by omega, h4⟩
  · rintro ⟨h1, h2, h3, h4⟩
    have h5 : ¬ (a.size ≤ t ∧ t < a1.size) := by omega
    simp only [h5, if_false]
    exact ⟨h1, h2, by omega, h4⟩

theorem Ext.base_of_lt {a a1 : basic_trie} (he : Ext a a1) (s : Int) (hs : s < a.size) :
    a1.base s = a.base s := by
  rw [he.base_eq]
  have : ¬ (a.size ≤ s ∧ s < a1.size) := by omega
  simp [this]

theorem Ext.check_of_lt {a a1 : basic_trie} (he : Ext a a1) (s : Int) (hs : s < a.size) :
    a1.check s = a.check s := by
  rw [he.check_eq]
  have : ¬ (a.size ≤ s ∧ s < a1.size) := by omega
  simp [this]

theorem Ext.check_of_wf {a a1 : basic_trie} (h : a.WF) (he : Ext a a1) (t : Int) :
    a1.check t = a.check t := by
  rw [he.check_eq]
  by_cases h5 : a.size ≤ t ∧ t < a1.size
  · simp only [h5, and_self, if_true]
    by_contra h6
    have := h.cell t (fun h7 => h6 h7.symm)
    omega
  · simp [h5]

theorem Ext.walk_same {a a1 : basic_trie} (h : a.WF) (he : Ext a a1) :
    ∀ (w : List Int) (s : Int), a.allocated s → a1.walk s w = a.walk s w := by
  intro w
  induction w with
  | nil => intro s _; rfl
  | cons c w ih =>
    intro s hs
    have hb : a1.base s = a.base s := he.base_of_lt s (h.allocated_lt s hs).2
    have hn : a1.next s c = a.next s c := by simp only [next, hb]
    simp only [walk_cons, hn, he.check_transition_iff h]
    by_cases h1 : a.check_transition s (a.next s c)
    · simp only [h1, if_true]
      apply ih
      right
      rw [h1.2.2.2]
      have := h1.1; omega
    · simp [h1]

theorem Ext.preserves_wf {a a1 : basic_trie} (h : a.WF) (he : Ext a a1)
    (hlb : 0 ≤ a1.last_base ∧ a1.last_base < a1.size) : a1.WF := by
  have hs := he.size_le
  refine ⟨by have := h.size_gt; omega, hlb, ?_, ?_, ?_⟩
  · rw [he.check_of_wf h]; exact h.root
  · intro t ht
    rw [he.check_of_wf h] at ht ⊢
    obtain ⟨c1, c2, c3, c4, c5⟩ := h.cell t ht
    have hp := (h.allocated_lt _ (h.parent t ht)).2
    rw [he.base_of_lt _ hp]
    exact ⟨c1, c2, c3, c4, by omega⟩
  · intro t ht
    rw [he.check_of_wf h] at ht
    obtain ⟨w, hw⟩ := h.reach t ht
    exact ⟨w, by rw [he.walk_same h w 1 (Or.inl rfl)]; exact hw⟩

end basic_trie

namespace basic_trie

section reloc

variable {b a2 : basic_trie} {P nbase : Int}

theorem new_place_of_ne (x : Int) (h : b.check x ≠ P) : b.new_place P nbase x = x := by
  unfold new_place; simp [h]

theorem new_place_of_eq (x : Int) (h : b.check x = P) :
    b.new_place P nbase x = x - b.base P + nbase := by
  unfold new_place; simp [h]

theorem RelocCtx.P_pos (h : RelocCtx b P nbase) : 0 < P := (h.wf.allocated_lt P h.alloc).1

theorem RelocCtx.P_not_kid (h : RelocCtx b P nbase) : b.check P ≠ P := by
  by_cases h1 : b.check P = 0
  · have := h.P_pos; omega
  · exact h.wf.noloop P h1

theorem RelocCtx.kid_label (h : RelocCtx b P nbase) (x : Int) (hx : b.check x = P) :
    1 ≤ x - b.base P ∧ x - b.base P ≤ 257 ∧ 0 < b.base P ∧ x < b.size := by
  have := h.P_pos
  have := h.wf.cell x (by omega)
  rw [hx] at this
  omega

/-- A new cell is neither the root nor owned. -/
theorem RelocCtx.new_not_alloc (h : RelocCtx b P nbase) (x : Int)
    (hx : b.check (x - nbase + b.base P) = P) : ¬ b.allocated x := by
  have h1 := h.fresh _ hx
  have h2 := h.kid_label _ hx
  have e : x - nbase + b.base P - b.base P + nbase = x := by omega
  rw [e] at h1
  have := h.nbase_pos
  rintro (h3 | h3)
  · omega
  · exact h3 h1.1

theorem RelocCtx.new_place_P (h : RelocCtx b P nbase) : b.new_place P nbase P = P :=
  new_place_of_ne P h.P_not_kid

theorem RelocCtx.new_place_zero (h : RelocCtx b P nbase) : b.new_place P nbase 0 = 0 := by
  apply new_place_of_ne
  rw [h.wf.check_zero]
  have := h.P_pos; omega

theorem RelocCtx.new_place_one (h : RelocCtx b P nbase) : b.new_place P nbase 1 = 1 := by
  apply new_place_of_ne
  rw [h.wf.root]
  have := h.P_pos; omega

theorem Relocated.check_new_place (hr : Relocated b a2 P nbase) (h : RelocCtx b P nbase)
    (x : Int) (hx : b.allocated x) :
    a2.check (b.new_place P nbase x) = b.new_place P nbase (b.check x) := by
  have hPpos := h.P_pos
  by_cases h1 : b.check x = P
  · rw [new_place_of_eq x h1, h1, h.new_place_P, hr.check_eq]
    have e : x - b.base P + nbase - nbase + b.base P = x := by omega
    simp only [e, h1, if_true]
  · rw [new_place_of_ne x h1, hr.check_eq]
    have h2 : ¬ b.check (x - nbase + b.base P) = P := fun h2 => h.new_not_alloc x h2 hx
    simp only [h2, if_false, h1]
    unfold new_place
    rfl

theorem Relocated.base_P (hr : Relocated b a2 P nbase) : a2.base P = nbase := by
  rw [hr.base_eq]; simp

theorem Relocated.base_new_place (hr : Relocated b a2 P nbase) (h : RelocCtx b P nbase)
    (x : Int) (hx : b.allocated x) (hxP : x ≠ P) :
    a2.base (b.new_place P nbase x) = b.base x := by
  by_cases h1 : b.check x = P
  · rw [new_place_of_eq x h1, hr.base_eq]
    have e : x - b.base P + nbase - nbase + b.base P = x := by omega
    have h3 : x - b.base P + nbase ≠ P := by
      intro h3
      apply h.new_not_alloc (x - b.base P + nbase) (by rw [e]; exact h1)
      rw [h3]; exact h.alloc
    simp only [h3, if_false, e, h1, if_true]
  · rw [new_place_of_ne x h1, hr.base_eq]
    have h2 : ¬ b.check (x - nbase + b.base P) = P := fun h2 => h.new_not_alloc x h2 hx
    simp only [hxP, if_false, h2, h1]

theorem Relocated.preimage (hr : Relocated b a2 P nbase) (h : RelocCtx b P nbase)
    (y : Int) (hy : a2.check y ≠ 0) :
    ∃ x, b.check x ≠ 0 ∧ y = b.new_place P nbase x := by
  have hPpos := h.P_pos
  rw [hr.check_eq] at hy
  by_cases h1 : b.check (y - nbase + b.base P) = P
  · refine ⟨y - nbase + b.base P, by omega, ?_⟩
    rw [new_place_of_eq _ h1]; omega
  · simp only [h1, if_false] at hy
    by_cases h2 : b.check y = P
    · simp [h2] at hy
    · simp only [h2, if_false] at hy
      refine ⟨y, ?_, (new_place_of_ne y h2).symm⟩
      by_cases h3 : b.check (b.check y) = P
      · intro h4
        rw [h4, h.wf.check_zero] at h3
        omega
      · simp only [h3, if_false] at hy
        exact hy

theorem RelocCtx.new_place_inj (h : RelocCtx b P nbase) (x y : Int)
    (hx : b.allocated x) (hy : b.allocated y)
    (he : b.new_place P nbase x = b.new_place P nbase y) : x = y := by
  by_cases h1 : b.check x = P
  · by_cases h2 : b.check y = P
    · rw [new_place_of_eq x h1, new_place_of_eq y h2] at he; omega
    · rw [new_place_of_eq x h1, new_place_of_ne y h2] at he
      exfalso
      apply h.new_not_alloc y _ hy
      have : y - nbase + b.base P = x := by omega
      rw [this]; exact h1
  · by_cases h2 : b.check y = P
    · rw [new_place_of_ne x h1, new_place_of_eq y h2] at he
      exfalso
      apply h.new_not_alloc x _ hx
      have : x - nbase + b.base P = y := by omega
      rw [this]; exact h2
    · rw [new_place_of_ne x h1, new_place_of_ne y h2] at he; exact he

theorem RelocCtx.new_place_bounds (h : RelocCtx b P nbase) (x : Int) (hx : b.allocated x) :
    0 < b.new_place P nbase x ∧ b.new_place P nbase x < b.size := by
  by_cases h1 : b.check x = P
  · rw [new_place_of_eq x h1]
    have := h.kid_label x h1
    have := h.fresh x h1
    have := h.nbase_pos
    omega
  · rw [new_place_of_ne x h1]
    exact h.wf.allocated_lt x hx

/-- The base of the new place of an allocated state. -/
theorem Relocated.base_new_place' (hr : Relocated b a2 P nbase) (h : RelocCtx b P nbase)
    (x : Int) (hx : b.allocated x) :
    a2.base (b.new_place P nbase x) = if x = P then nbase else b.base x := by
  by_cases h1 : x = P
  · subst h1; rw [h.new_place_P, hr.base_P]; simp
  · rw [hr.base_new_place h x hx h1]; simp [h1]

/-- The target of an arc moves with its source. -/
theorem Relocated.next_new_place (hr : Relocated b a2 P nbase) (h : RelocCtx b P nbase)
    (s c : Int) (hs : b.allocated s) (harc : b.check (b.next s c) = s) :
    a2.next (b.new_place P nbase s) c = b.new_place P nbase (b.next s c) := by
  unfold next at harc ⊢
  rw [hr.base_new_place' h s hs]
  by_cases h1 : s = P
  · subst h1
    rw [new_place_of_eq _ harc]
    simp only [if_true]; omega
  · have : b.check (b.base s + c) ≠ P := by rw [harc]; exact h1
    rw [new_place_of_ne _ this]
    simp only [h1, if_false]

theorem Relocated.arc_iff (hr : Relocated b a2 P nbase) (h : RelocCtx b P nbase)
    (s c : Int) (hs : b.allocated s) :
    a2.check_transition (b.new_place P nbase s) (a2.next (b.new_place P nbase s) c) ↔
      b.check_transition s (b.next s c) := by
  constructor
  · intro harc
    obtain ⟨g1, g2, g3, g4⟩ := harc
    have hne : a2.check (a2.next (b.new_place P nbase s) c) ≠ 0 := by omega
    obtain ⟨y, hy1, hy2⟩ := hr.preimage h _ hne
    have hya : b.allocated y := Or.inr hy1
    rw [hy2, hr.check_new_place h y hya] at g4
    have hpar : b.check y = s := h.new_place_inj _ _ (h.wf.parent y hy1) hs g4
    obtain ⟨c1, c2, c3, c4, c5⟩ := h.wf.cell y hy1
    rw [hpar] at c1 c2 c3 c4
    -- the symbol of `y` under `s` is `c`
    have hsym : y = b.base s + c := by
      have e := hy2
      unfold next at e
      rw [hr.base_new_place' h s hs] at e
      by_cases h1 : s = P
      · subst h1
        rw [new_place_of_eq y hpar] at e
        simp only [if_true] at e
        omega
      · have : b.check y ≠ P := by rw [hpar]; exact h1
        rw [new_place_of_ne y this] at e
        simp only [h1, if_false] at e
        omega
    unfold next
    rw [← hsym]
    exact ⟨c1, by omega, c5, hpar⟩
  · intro harc
    obtain ⟨g1, g2, g3, g4⟩ := harc
    have hta : b.allocated (b.next s c) := Or.inr (by rw [g4]; omega)
    rw [hr.next_new_place h s c hs g4]
    have hb := h.new_place_bounds _ hta
    refine ⟨(h.new_place_bounds s hs).1, hb.1, by rw [hr.size_eq]; exact hb.2, ?_⟩
    rw [hr.check_new_place h _ hta, g4]

theorem Relocated.walk_map (hr : Relocated b a2 P nbase) (h : RelocCtx b P nbase) :
    ∀ (w : List Int) (s : Int), b.allocated s →
      a2.walk (b.new_place P nbase s) w = (b.walk s w).map (b.new_place P nbase) := by
  intro w
  induction w with
  | nil => intro s _; rfl
  | cons c w ih =>
    intro s hs
    simp only [walk_cons, hr.arc_iff h s c hs]
    by_cases h1 : b.check_transition s (b.next s c)
    · simp only [h1, if_true]
      rw [hr.next_new_place h s c hs h1.2.2.2]
      apply ih
      right
      rw [h1.2.2.2]
      have := h1.1; omega
    · simp [h1]

theorem Relocated.wf_after (hr : Relocated b a2 P nbase) (h : RelocCtx b P nbase) : a2.WF := by
  have hPpos := h.P_pos
  refine ⟨by rw [hr.size_eq]; exact h.wf.size_gt,
    by rw [hr.size_eq, hr.last_base_eq]; exact h.wf.cursor, ?_, ?_, ?_⟩
  · have := hr.check_new_place h 1 (Or.inl rfl)
    rw [h.new_place_one, h.wf.root, h.new_place_zero] at this
    exact this
  · intro t ht
    obtain ⟨x, hx1, hx2⟩ := hr.preimage h t ht
    have hxa : b.allocated x := Or.inr hx1
    have hpa := h.wf.parent x hx1
    obtain ⟨c1, c2, c3, c4, c5⟩ := h.wf.cell x hx1
    rw [hx2, hr.check_new_place h x hxa, hr.base_new_place' h _ hpa, hr.size_eq]
    refine ⟨(h.new_place_bounds _ hpa).1, ?_, ?_, ?_, (h.new_place_bounds x hxa).2⟩
    · split_ifs
      · exact h.nbase_pos
      · exact c2
    · by_cases h1 : b.check x = P
      · rw [new_place_of_eq x h1]; simp only [h1, if_true]
        have := h.kid_label x h1; omega
      · rw [new_place_of_ne x h1]; simp only [h1, if_false]; exact c3
    · by_cases h1 : b.check x = P
      · rw [new_place_of_eq x h1]; simp only [h1, if_true]
        have := h.kid_label x h1; omega
      · rw [new_place_of_ne x h1]; simp only [h1, if_false]; exact c4
  · intro t ht
    obtain ⟨x, hx1, hx2⟩ := hr.preimage h t ht
    obtain ⟨w, hw⟩ := h.wf.reach x hx1
    refine ⟨w, ?_⟩
    have := hr.walk_map h w 1 (Or.inl rfl)
    rw [h.new_place_one, hw] at this
    rw [this, hx2]; rfl

end reloc

end basic_trie

namespace basic_trie

theorem relocate_loop_total {σ : Type} (cb : relocator σ)
    (hcb : ∀ b x y o, ∃ o1, cb b x y o = .ok o1) (P obase nbase : Int) :
    ∀ (L : List Int) (stand : Int) (b : basic_trie) (o : σ),
      ∃ r, relocate_loop cb P obase nbase L stand b o = .ok r := by
  intro L
  induction L with
  | nil => intro stand b o; exact ⟨_, rfl⟩
  | cons c rest ih =>
    intro stand b o
    unfold relocate_loop
    by_cases hc : b.check (obase + c) ≠ P
    · rw [if_pos hc]; exact ih stand b o
    · rw [if_neg hc]
      obtain ⟨o1, ho1⟩ := hcb (b.move_child obase nbase c) (obase + c) (nbase + c) o
      simp only [relocate_step, ho1]
      exact ih _ _ _

/-- What `relocate` does to a well-formed array when the list covers all the
children of `P`. -/
theorem relocate_spec {σ : Type} (cb : relocator σ) (a : basic_trie) (o : σ)
    (stand P : Int) (L : List Int) (e : extremum_type)
    (hwf : a.WF) (hP : a.allocated P)
    (hL1 : ∀ p ∈ L, 1 ≤ p ∧ p ≤ e.max) (hmin : 0 ≤ e.min ∧ e.min ≤ e.max)
    (hL2 : ∀ x, a.check x = P → (x - a.base P) ∈ L)
    (hL3 : (∀ p ∈ L, a.check (a.base P + p) ≠ 0) ∨ ∀ x, a.check x ≠ P)
    (r : Int × basic_trie × σ) (h : relocate cb a o stand P L e = .ok r) :
    ∃ (b : basic_trie) (nbase : Int), Ext a b ∧ b.WF ∧ RelocCtx b P nbase ∧
      Relocated b r.2.1 P nbase ∧ r.1 = b.new_place P nbase stand ∧
      a.last_base < nbase ∧ b.last_base = nbase ∧
      (∀ p ∈ L, b.check (nbase + p) = 0 ∧ nbase + p < b.size) := by
  have hPlt := hwf.allocated_lt P hP
  obtain ⟨nbase, b, f1, f2, f3, f4, f5, f6, f7⟩ := find_base_spec a L e
    (fun p hp => ⟨by have := (hL1 p hp).1; omega, (hL1 p hp).2⟩) hmin
    (by have := hwf.size_gt; omega) hwf.cursor.2
  have hbwf : b.WF := f6.preserves_wf hwf (by rw [f7]; have := hwf.cursor.1; omega)
  have hchk : ∀ x, b.check x = a.check x := f6.check_of_wf hwf
  have hbaseP : b.base P = a.base P := f6.base_of_lt P hPlt.2
  have hfree : ∀ p ∈ L, b.check (nbase + p) = 0 ∧ nbase + p < b.size := by
    intro p hp
    have := f4 p hp
    have := hbwf.check_nonneg (nbase + p)
    have := (hL1 p hp).2
    exact ⟨by omega, by omega⟩
  have hbP : b.allocated P := by
    rcases hP with h1 | h1
    · exact Or.inl h1
    · exact Or.inr (by rw [hchk]; exact h1)
  have hctx : RelocCtx b P nbase := by
    refine ⟨hbwf, hbP, by have := hwf.cursor.1; omega, ?_⟩
    intro x hx
    have hm : (x - b.base P) ∈ L := by rw [hbaseP]; exact hL2 x (by rw [← hchk]; exact hx)
    have := hfree _ hm
    have e1 : nbase + (x - b.base P) = x - b.base P + nbase := by omega
    rw [e1] at this
    exact this
  have hpre : RelocPre b P (a.base P) nbase L := by
    refine ⟨?_, ?_, ?_, ?_⟩
    · intro c hc _; exact (hfree c hc).1
    · intro c hc c' hc' hk
      rcases hL3 with h3 | h3
      · have h4 := h3 c' hc'
        rw [← hchk] at h4
        intro h5
        rw [← h5, (hfree c hc).1] at h4
        exact h4 rfl
      · exact absurd (by rw [← hchk]; exact hk) (h3 _)
    · intro c hc hk
      constructor
      · intro h5
        rw [h5] at hk
        exact hctx.P_not_kid hk
      · intro h5
        have e1 : nbase + c - nbase + b.base P = a.base P + c := by rw [hbaseP]; omega
        apply hctx.new_not_alloc (nbase + c) (by rw [e1]; exact hk)
        rw [h5]; exact hbP
    · intro c _ hk
      have hk0 : b.check (a.base P + c) ≠ 0 := by rw [hk]; omega
      refine ⟨by have := hbwf.cell_ge _ hk0; omega, ?_⟩
      intro y hy
      have hy0 : b.check y ≠ 0 := by
        rw [hy]; have := hbwf.cell_ge _ hk0; omega
      have := hbwf.cell y hy0
      rw [hy] at this
      omega
  unfold relocate at h
  rw [f1] at h
  simp only at h
  cases hl : relocate_loop cb P (a.base P) nbase L stand b o with
  | error err => rw [hl] at h; cases h
  | ok r1 =>
    rw [hl] at h
    obtain ⟨st, a2, o1⟩ := r1
    simp only at h
    cases h
    obtain ⟨l1, l2, l3, l4, l5⟩ := relocate_loop_spec cb P (a.base P) nbase (by omega) L stand b o
      (st, a2, o1) hpre hl
    simp only at l1 l2 l3 l4 l5
    have hmv : ∀ z, b.is_moved P (a.base P) L z ↔ b.check z = P := by
      intro z
      unfold is_moved
      constructor
      · exact fun h => h.1
      · intro h; exact ⟨h, hL2 z (by rw [← hchk]; exact h)⟩
    simp only [hmv] at l1 l4 l5
    refine ⟨b, nbase, f6, hbwf, hctx, ⟨?_, ?_, ?_, ?_⟩, ?_, f2, f7, hfree⟩
    · simp only [set_base_size, l2]
    · simp only [set_base_last_base, l3]
    · intro x; simp only [set_base_check, l4, hbaseP]
    · intro x; simp only [set_base_base, l5, hbaseP]
    · simp only [l1, new_place, hbaseP]

theorem relocate_total {σ : Type} (cb : relocator σ)
    (hcb : ∀ b x y o, ∃ o1, cb b x y o = .ok o1) (a : basic_trie) (o : σ)
    (stand P : Int) (L : List Int) (e : extremum_type)
    (hwf : a.WF) (hL1 : ∀ p ∈ L, 1 ≤ p ∧ p ≤ e.max) (hmin : 0 ≤ e.min ∧ e.min ≤ e.max) :
    ∃ r, relocate cb a o stand P L e = .ok r := by
  obtain ⟨nbase, b, f1, _⟩ := find_base_spec a L e
    (fun p hp => ⟨by have := (hL1 p hp).1; omega, (hL1 p hp).2⟩) hmin
    (by have := hwf.size_gt; omega) hwf.cursor.2
  obtain ⟨r1, hr1⟩ := relocate_loop_total cb hcb P (a.base P) nbase L stand b o
  unfold relocate
  rw [f1]
  simp only [hr1]
  exact ⟨_, rfl⟩

end basic_trie

namespace basic_trie

section leaf

variable {a : basic_trie} {s c : Int}

/-- The arcs after a free cell `t = base(s) + c` has been given to `s`. -/
theorem leaf_arc_iff (hwf : a.WF) (hs : a.allocated s) (ht : a.check (a.base s + c) = 0)
    (htlt : a.base s + c < a.size) (htpos : 0 < a.base s + c) (p y : Int) :
    (a.set_check (a.base s + c) s).check_transition p y ↔
      a.check_transition p y ∨ (p = s ∧ y = a.base s + c) := by
  unfold check_transition
  simp only [set_check_check, set_check_size]
  have hspos := (hwf.allocated_lt s hs).1
  by_cases h1 : y = a.base s + c
  · subst h1
    simp only [if_true, ht, and_true]
    constructor
    · rintro ⟨g1, g2, g3, g4⟩; exact Or.inr g4.symm
    · rintro (⟨g1, _, _, g4⟩ | g)
      · omega
      · subst g; exact ⟨hspos, htpos, htlt, rfl⟩
  · simp only [h1, if_false, and_false, or_false]

theorem leaf_no_kids (hwf : a.WF) (hs : a.allocated s) (ht : a.check (a.base s + c) = 0)
    (hge : 2 ≤ a.base s + c) (y : Int) :
    (a.set_check (a.base s + c) s).check y ≠ a.base s + c := by
  simp only [set_check_check]
  by_cases h1 : y = a.base s + c
  · simp only [h1, if_true]
    intro h2
    rcases hs with h3 | h3
    · omega
    · rw [h2] at h3; exact h3 ht
  · simp only [h1, if_false]
    intro h2
    have h3 : a.check y ≠ 0 := by omega
    rcases hwf.parent y h3 with h4 | h4
    · omega
    · rw [h2] at h4; exact h4 ht

theorem leaf_walk_mono (hwf : a.WF) (hs : a.allocated s) (ht : a.check (a.base s + c) = 0)
    (htlt : a.base s + c < a.size) (htpos : 0 < a.base s + c) :
    ∀ (w : List Int) (x y : Int), a.walk x w = some y →
      (a.set_check (a.base s + c) s).walk x w = some y := by
  intro w
  induction w with
  | nil => intro x y h; exact h
  | cons c0 w ih =>
    intro x y h
    rw [walk_cons] at h ⊢
    have hn : (a.set_check (a.base s + c) s).next x c0 = a.next x c0 := rfl
    rw [hn]
    by_cases h1 : a.check_transition x (a.next x c0)
    · rw [if_pos h1] at h
      rw [if_pos ((leaf_arc_iff hwf hs ht htlt htpos _ _).2 (Or.inl h1))]
      exact ih _ _ h
    · rw [if_neg h1] at h; cases h

theorem leaf_walk_new (hwf : a.WF) (hs : a.allocated s) (ht : a.check (a.base s + c) = 0)
    (htlt : a.base s + c < a.size) (hge : 2 ≤ a.base s + c) :
    ∀ (w : List Int) (x y : Int), (a.set_check (a.base s + c) s).walk x w = some y →
      a.walk x w = some y ∨
        (y = a.base s + c ∧ ∃ ws, w = ws ++ [c] ∧ a.walk x ws = some s) := by
  intro w
  induction w with
  | nil => intro x y h; exact Or.inl h
  | cons c0 w ih =>
    intro x y h
    rw [walk_cons] at h
    have hn : (a.set_check (a.base s + c) s).next x c0 = a.next x c0 := rfl
    rw [hn] at h
    by_cases h1 : (a.set_check (a.base s + c) s).check_transition x (a.next x c0)
    · rw [if_pos h1] at h
      rcases (leaf_arc_iff hwf hs ht htlt (by omega) _ _).1 h1 with h2 | ⟨h2, h3⟩
      · rcases ih _ _ h with h4 | ⟨h4, ws, h5, h6⟩
        · left; rw [walk_cons, if_pos h2]; exact h4
        · right
          refine ⟨h4, c0 :: ws, by rw [h5]; rfl, ?_⟩
          rw [walk_cons, if_pos h2]; exact h6
      · -- the new arc: the walk has reached the fresh leaf
        right
        subst h2
        have hc0 : c0 = c := by unfold next at h3; omega
        subst hc0
        cases w with
        | nil =>
          simp only [walk_nil, Option.some.injEq] at h
          exact ⟨by rw [← h]; rfl, [], rfl, rfl⟩
        | cons c1 w1 =>
          rw [walk_cons] at h
          have : ¬ (a.set_check (a.base x + c0) x).check_transition (a.next x c0)
              ((a.set_check (a.base x + c0) x).next (a.next x c0) c1) := by
            intro h4
            exact leaf_no_kids hwf hs ht hge _ h4.2.2.2
          rw [if_neg this] at h; cases h
    · rw [if_neg h1] at h; cases h

theorem leaf_wf (hwf : a.WF) (hs : a.allocated s) (hb : 0 < a.base s)
    (hc : 1 ≤ c ∧ c ≤ 257) (ht : a.check (a.base s + c) = 0)
    (htlt : a.base s + c < a.size) : (a.set_check (a.base s + c) s).WF := by
  have hspos := (hwf.allocated_lt s hs).1
  refine ⟨hwf.size_gt, hwf.cursor, ?_, ?_, ?_⟩
  · simp only [set_check_check]
    have : (1 : Int) ≠ a.base s + c := by omega
    simp only [this, if_false]; exact hwf.root
  · intro t h
    simp only [set_check_check, set_check_base, set_check_size] at h ⊢
    by_cases h1 : t = a.base s + c
    · subst h1
      simp only [if_true]
      exact ⟨hspos, hb, by omega, by omega, htlt⟩
    · simp only [h1, if_false] at h ⊢
      exact hwf.cell t h
  · intro t h
    simp only [set_check_check] at h
    by_cases h1 : t = a.base s + c
    · subst h1
      have hws : ∃ ws, a.walk 1 ws = some s := by
        rcases hs with h2 | h2
        · exact ⟨[], by rw [h2]; rfl⟩
        · exact hwf.reach s h2
      obtain ⟨ws, hws⟩ := hws
      refine ⟨ws ++ [c], ?_⟩
      rw [walk_snoc]
      refine ⟨s, leaf_walk_mono hwf hs ht htlt (by omega) ws 1 s hws, ?_, rfl⟩
      exact (leaf_arc_iff hwf hs ht htlt (by omega) _ _).2 (Or.inr ⟨rfl, rfl⟩)
    · simp only [h1, if_false] at h
      obtain ⟨w, hw⟩ := hwf.reach t h
      exact ⟨w, leaf_walk_mono hwf hs ht htlt (by omega) w 1 t hw⟩

end leaf

end basic_trie

namespace basic_trie

theorem set_check_self (a : basic_trie) (t v : Int) (h : a.check t = v) :
    a.set_check t v = a := by
  cases a with
  | mk size base check last_base max_state =>
    simp only [set_check, mk.injEq, true_and, and_true]
    funext i
    by_cases h1 : i = t
    · subst h1; simp only [if_true]; exact h.symm
    · simp [h1]

theorem grow_to_of_lt (a : basic_trie) (t : Int) (h : t < a.size) : a.grow_to t = a := by
  unfold grow_to
  rw [if_neg (by omega)]

theorem grow_to_spec (a : basic_trie) (t : Int) (h0 : 0 ≤ a.size) :
    Ext a (a.grow_to t) ∧ (a.grow_to t).last_base = a.last_base ∧ t < (a.grow_to t).size := by
  unfold grow_to
  by_cases h : t ≥ a.size
  · rw [if_pos h]
    have := inflate_size_gt a (t - a.size + 1)
    exact ⟨inflate_ext a _ (by omega), rfl, by omega⟩
  · rw [if_neg h]
    exact ⟨Ext.refl a, rfl, by omega⟩

theorem walk_allocated (a : basic_trie) (w : List Int) (x : Int) (h : a.walk 1 w = some x) :
    a.allocated x := by
  by_cases hw : w = []
  · subst hw
    simp only [walk_nil, Option.some.injEq] at h
    exact Or.inl h.symm
  · exact Or.inr (walk_check_ne_zero a w 1 x hw h)

theorem WF.reach_alloc {a : basic_trie} (h : a.WF) (s : Int) (hs : a.allocated s) :
    ∃ ws, a.walk 1 ws = some s := by
  rcases hs with h2 | h2
  · exact ⟨[], by rw [h2]; rfl⟩
  · exact h.reach s h2

/-- The last step of `create_transition`: the cell `t = base(s1) + c` is
either free or already the child of `s1`, and it is given to `s1`. -/
theorem finish_spec (a2 : basic_trie) (s1 c : Int) (hwf : a2.WF) (hs : a2.allocated s1)
    (hb : 0 < a2.base s1) (hc : 1 ≤ c ∧ c ≤ 257) (htlt : a2.base s1 + c < a2.size)
    (ht : a2.check (a2.base s1 + c) = 0 ∨ a2.check (a2.base s1 + c) = s1) :
    (a2.grow_to (a2.next s1 c)).set_check ((a2.grow_to (a2.next s1 c)).next s1 c) s1
        = a2.set_check (a2.base s1 + c) s1 ∧
      (a2.grow_to (a2.next s1 c)).next s1 c = a2.base s1 + c ∧
      (a2.set_check (a2.base s1 + c) s1).WF ∧
      (∀ w x, a2.walk 1 w = some x → (a2.set_check (a2.base s1 + c) s1).walk 1 w = some x) ∧
      (∀ w x, (a2.set_check (a2.base s1 + c) s1).walk 1 w = some x →
        a2.walk 1 w = some x ∨
          (x = a2.base s1 + c ∧ ∃ ws, w = ws ++ [c] ∧ a2.walk 1 ws = some s1)) ∧
      (∀ ws, a2.walk 1 ws = some s1 →
        (a2.set_check (a2.base s1 + c) s1).walk 1 (ws ++ [c]) = some (a2.base s1 + c)) := by
  have hg : a2.grow_to (a2.next s1 c) = a2 := grow_to_of_lt a2 _ htlt
  have hspos := (hwf.allocated_lt s1 hs).1
  rw [hg]
  refine ⟨rfl, rfl, ?_⟩
  rcases ht with ht | ht
  · refine ⟨leaf_wf hwf hs hb hc ht htlt,
      fun w x => leaf_walk_mono hwf hs ht htlt (by omega) w 1 x,
      fun w x => leaf_walk_new hwf hs ht htlt (by omega) w 1 x, ?_⟩
    intro ws hws
    rw [walk_snoc]
    exact ⟨s1, leaf_walk_mono hwf hs ht htlt (by omega) ws 1 s1 hws,
      (leaf_arc_iff hwf hs ht htlt (by omega) _ _).2 (Or.inr ⟨rfl, rfl⟩), rfl⟩
  · rw [set_check_self a2 _ _ ht]
    refine ⟨hwf, fun _ _ h => h, fun _ _ h => Or.inl h, ?_⟩
    intro ws hws
    rw [walk_snoc]
    exact ⟨s1, hws, ⟨hspos, by unfold next; omega, htlt, ht⟩, rfl⟩

end basic_trie

namespace basic_trie

/-- Wrap-up of the two relocating branches of `create_transition`. -/
theorem reloc_finish (a b a2 : basic_trie) (s c P nbase s1 : Int)
    (hwf : a.WF) (hs : a.allocated s) (hc : 1 ≤ c ∧ c ≤ 257)
    (hext : Ext a b) (hctx : RelocCtx b P nbase) (hrel : Relocated b a2 P nbase)
    (hs1 : s1 = b.new_place P nbase s)
    (hP : P = s ∨ P = a.check (a.base s + c))
    (hb : 0 < a2.base s1) (htlt : a2.base s1 + c < a2.size)
    (ht : a2.check (a2.base s1 + c) = 0 ∨ a2.check (a2.base s1 + c) = s1)
    (hsrc : s1 = s ∨ (a.check s ≠ 0 ∧ a.check (a.base s + c) = a.check s
      ∧ s1 - a2.base (a.check s) = s - a.base (a.check s))) :
    CreateSpec a s c s1 (a2.base s1 + c) (a2.set_check (a2.base s1 + c) s1) := by
  have hbwf := hctx.wf
  have hchk : ∀ x, b.check x = a.check x := hext.check_of_wf hwf
  have halloc : ∀ x, a.allocated x → b.allocated x := by
    intro x hx
    rcases hx with h1 | h1
    · exact Or.inl h1
    · exact Or.inr (by rw [hchk]; exact h1)
  have hbase : ∀ x, a.allocated x → b.base x = a.base x :=
    fun x hx => hext.base_of_lt x (hwf.allocated_lt x hx).2
  have hwalk : ∀ w, a2.walk 1 w = (a.walk 1 w).map (b.new_place P nbase) := by
    intro w
    have := hrel.walk_map hctx w 1 (Or.inl rfl)
    rw [hctx.new_place_one, hext.walk_same hwf w 1 (Or.inl rfl)] at this
    exact this
  have ha2wf : a2.WF := hrel.wf_after hctx
  have hs1a : a2.allocated s1 := by
    obtain ⟨ws, hws⟩ := hwf.reach_alloc s hs
    have := hwalk ws
    rw [hws] at this
    simp only [Option.map_some'] at this
    rw [← hs1] at this
    exact walk_allocated a2 ws s1 this
  obtain ⟨_, _, f3, f4, f5, f6⟩ := finish_spec a2 s1 c ha2wf hs1a hb hc htlt ht
  refine ⟨f3, ?_, by omega, htlt, by simp, rfl, hsrc, ?_, ?_, ?_⟩
  · have := hext.size_le
    have := hrel.size_eq
    simp only [set_check_size]; omega
  · refine ⟨b.new_place P nbase, hctx.new_place_one, hs1.symm, ?_, ?_⟩
    · intro w x hx
      apply f4
      rw [hwalk w, hx]; rfl
    · intro x hx h1 h2
      have hxP : x ≠ P := by
        rcases hP with h | h
        · rw [h]; exact h1
        · rw [h]; exact h2
      simp only [set_check_base]
      rw [hrel.base_new_place hctx x (halloc x hx) hxP, hbase x hx]
  · intro w x hx
    rcases f5 w x hx with h1 | ⟨h1, ws, h2, h3⟩
    · left
      rw [hwalk w] at h1
      cases hw : a.walk 1 w with
      | none => rw [hw] at h1; simp at h1
      | some x0 => exact ⟨x0, rfl⟩
    · right
      refine ⟨h1, ws, h2, ?_⟩
      rw [hwalk ws] at h3
      cases hw : a.walk 1 ws with
      | none => rw [hw] at h3; simp at h3
      | some x0 =>
        rw [hw] at h3
        simp only [Option.map_some', Option.some.injEq] at h3
        rw [hs1] at h3
        have := hctx.new_place_inj x0 s (halloc x0 (walk_allocated a ws x0 hw)) (halloc s hs) h3
        rw [this]
  · intro ws hws
    apply f6
    rw [hwalk ws, hws, hs1]; rfl

end basic_trie

namespace basic_trie

/-- The symbols found by `find_exist_target` from the extremum `{0, 0}`. -/
theorem find_exist_target_facts (a : basic_trie) (s : Int) :
    (∀ p ∈ (a.find_exist_target s ⟨0, 0⟩).1,
      1 ≤ p ∧ p ≤ (a.find_exist_target s ⟨0, 0⟩).2.max ∧ p ≠ 0) ∧
    0 ≤ (a.find_exist_target s ⟨0, 0⟩).2.max ∧ (a.find_exist_target s ⟨0, 0⟩).2.min = 0 := by
  obtain ⟨h1, h2, h3⟩ := find_exist_target_loop_max a s 257 1 ⟨0, 0⟩
  refine ⟨?_, h1, h3 (le_refl _) (by norm_num)⟩
  intro p hp
  have := (mem_find_exist_target a s ⟨0, 0⟩ p).1 hp
  exact ⟨this.1, h2 p hp, by omega⟩

theorem WF.kid_mem {a : basic_trie} (hwf : a.WF) (P x : Int) (hP : P ≠ 0)
    (hx : a.check x = P) : (x - a.base P) ∈ (a.find_exist_target P ⟨0, 0⟩).1 := by
  have := hwf.cell x (by rw [hx]; exact hP)
  rw [hx] at this
  rw [mem_find_exist_target]
  refine ⟨this.2.2.1, this.2.2.2.1, this.1, ?_, ?_, ?_⟩
  · unfold next; omega
  · unfold next; omega
  · unfold next
    have e : a.base P + (x - a.base P) = x := by omega
    rw [e]; exact hx

theorem create_transition_aux_core {σ : Type} (cb : relocator σ)
    (hcb : ∀ b x y o, ∃ o1, cb b x y o = .ok o1)
    (a : basic_trie) (o : σ) (s c : Int) (hwf : a.WF) (hs : a.allocated s)
    (hc : 1 ≤ c ∧ c ≤ 257) (ht0 : a.base s + c < a.size) :
    ∃ s1 t a1 o1, a.create_transition_aux cb o s c = .ok (s1, t, a1, o1) ∧
      CreateSpec a s c s1 t a1 := by
  have hg : a.grow_to (a.next s c) = a := grow_to_of_lt a _ ht0
  have hspos := (hwf.allocated_lt s hs).1
  unfold create_transition_aux
  simp only [hg]
  by_cases hA : a.base s > 0 ∧ a.check (a.next s c) ≤ 0
  · -- the cell is free
    rw [if_pos hA]
    have hfree : a.check (a.base s + c) = 0 := by
      have := hwf.check_nonneg (a.base s + c)
      have := hA.2
      unfold next at this
      omega
    obtain ⟨_, _, f3, f4, f5, f6⟩ := finish_spec a s c hwf hs hA.1 hc ht0 (Or.inl hfree)
    refine ⟨s, a.next s c, a.set_check (a.next s c) s, o, rfl, ?_⟩
    refine ⟨f3, le_refl _, by unfold next; omega, ht0, by simp, rfl, Or.inl rfl, ?_, ?_, f6⟩
    · exact ⟨id, rfl, rfl, f4, fun x _ _ _ => rfl⟩
    · intro w x hx
      rcases f5 w x hx with h1 | h1
      · exact Or.inl ⟨x, h1⟩
      · exact Or.inr h1
  · rw [if_neg hA]
    have hAlloc : ∀ x, a.check x = s → 0 < a.base s := by
      intro x hx
      have := hwf.cell x (by rw [hx]; omega)
      rw [hx] at this
      exact this.2.1
    by_cases hB : ((if a.check (a.next s c) ≠ 0 then
            a.find_exist_target (a.check (a.next s c)) ⟨0, 0⟩
          else ([], ⟨0, 0⟩)).1.length : Int) > 0 ∧
        ((a.find_exist_target s ⟨0, 0⟩).1.length : Int) + 1 >
          (if a.check (a.next s c) ≠ 0 then
              a.find_exist_target (a.check (a.next s c)) ⟨0, 0⟩
            else ([], ⟨0, 0⟩)).1.length
    · -- the children of the owner of the cell are moved
      rw [if_pos hB]
      have hP0 : a.check (a.next s c) ≠ 0 := by
        intro h0
        rw [if_neg (by simp [h0])] at hB
        simp at hB
      rw [if_pos hP0] at hB ⊢
      generalize hPdef : a.check (a.next s c) = P at hB hP0 ⊢
      have hPdef' : a.check (a.base s + c) = P := hPdef
      have hPa : a.allocated P := by
        rw [← hPdef]; exact hwf.parent _ (by rw [hPdef]; exact hP0)
      obtain ⟨f1, f2, f3⟩ := find_exist_target_facts a P
      rw [cstr_of_pos _ (fun p hp => (f1 p hp).2.2)]
      have hL1 : ∀ p ∈ (a.find_exist_target P ⟨0, 0⟩).1,
          1 ≤ p ∧ p ≤ (a.find_exist_target P ⟨0, 0⟩).2.max :=
        fun p hp => ⟨(f1 p hp).1, (f1 p hp).2.1⟩
      have hmin : 0 ≤ (a.find_exist_target P ⟨0, 0⟩).2.min ∧
          (a.find_exist_target P ⟨0, 0⟩).2.min ≤ (a.find_exist_target P ⟨0, 0⟩).2.max := by
        rw [f3]; exact ⟨le_refl _, f2⟩
      obtain ⟨r, hr⟩ := relocate_total cb hcb a o s P _ _ hwf hL1 hmin
      obtain ⟨b, nbase, e1, e2, e3, e4, e5, e6, e7, e8⟩ := relocate_spec cb a o s P _ _ hwf hPa
        hL1 hmin (fun x hx => hwf.kid_mem P x hP0 hx)
        (Or.inl (fun p hp => by
          have := ((mem_find_exist_target a P ⟨0, 0⟩ p).1 hp).2.2.2.2.2
          unfold next at this
          rw [this]; exact hP0)) r hr
      rw [hr]
      obtain ⟨s1, a2, o1⟩ := r
      simp only at e4 e5 ⊢
      have hchk : ∀ x, b.check x = a.check x := e1.check_of_wf hwf
      have hbs : b.allocated s := by
        rcases hs with h | h
        · exact Or.inl h
        · exact Or.inr (by rw [hchk]; exact h)
      have hbaseP : b.base P = a.base P := e1.base_of_lt P (hwf.allocated_lt P hPa).2
      have hkid : b.check (a.base s + c) = P := by rw [hchk]; exact hPdef'
      -- the source state has a child, hence a positive base
      have hsb : 0 < a.base s := by
        have hlen : 0 < (a.find_exist_target s ⟨0, 0⟩).1.length := by
          have := hB.1; have := hB.2; omega
        obtain ⟨p, hp⟩ := List.exists_mem_of_length_pos hlen
        have := ((mem_find_exist_target a s ⟨0, 0⟩ p).1 hp).2.2.2.2.2
        exact hAlloc _ this
      have key : 0 < a2.base s1 ∧ a2.base s1 + c < a2.size ∧
          (a2.check (a2.base s1 + c) = 0 ∨ a2.check (a2.base s1 + c) = s1) ∧
          (s1 = s ∨ (a.check s ≠ 0 ∧ a.check (a.base s + c) = a.check s
            ∧ s1 - a2.base (a.check s) = s - a.base (a.check s))) := by
        by_cases hsP : s = P
        · -- the arc exists already
          subst hsP
          have h1 : s1 = s := by rw [e5]; exact e3.new_place_P
          have h2 : a2.base s1 = nbase := by rw [h1]; exact e4.base_P
          have h3 := e4.check_new_place e3 (a.base s + c) (Or.inr (by rw [hkid]; exact hP0))
          rw [new_place_of_eq _ hkid, hkid, e3.new_place_P, hbaseP] at h3
          have h4 := e3.fresh _ hkid
          rw [hbaseP] at h4
          have e : a.base s + c - a.base s + nbase = nbase + c := by omega
          rw [e] at h3 h4
          refine ⟨by rw [h2]; exact e3.nbase_pos, by rw [h2, e4.size_eq]; exact h4.2,
            Or.inr (by rw [h2, h3, h1]), Or.inl h1⟩
        · have h2 : a2.base s1 = a.base s := by
            rw [e5, e4.base_new_place e3 s hbs hsP]
            exact e1.base_of_lt s (hwf.allocated_lt s hs).2
          have h3 : a2.check (a.base s + c) = 0 := by
            rw [e4.check_eq]
            have : ¬ b.check (a.base s + c - nbase + b.base P) = P := by
              intro h
              exact e3.new_not_alloc _ h (Or.inr (by rw [hkid]; exact hP0))
            simp only [this, if_false, hkid, if_true]
          refine ⟨by rw [h2]; exact hsb, ?_, Or.inl (by rw [h2]; exact h3), ?_⟩
          · rw [h2, e4.size_eq]; have := e1.size_le; omega
          · by_cases h4 : b.check s = P
            · right
              have h5 : a.check s = P := by rw [← hchk]; exact h4
              refine ⟨by rw [h5]; exact hP0, by rw [h5]; exact hPdef', ?_⟩
              rw [h5, e4.base_P, e5, new_place_of_eq s h4, hbaseP]
              omega
            · left; rw [e5, new_place_of_ne s h4]
      obtain ⟨k1, k2, k3, k4⟩ := key
      obtain ⟨g1, g2, _⟩ := finish_spec a2 s1 c (e4.wf_after e3)
        (by
          obtain ⟨ws, hws⟩ := hwf.reach_alloc s hs
          have := e4.walk_map e3 ws 1 (Or.inl rfl)
          rw [e3.new_place_one, e1.walk_same hwf ws 1 (Or.inl rfl), hws] at this
          simp only [Option.map_some'] at this
          rw [← e5] at this
          exact walk_allocated a2 ws s1 this) k1 hc k2 k3
      refine ⟨s1, a2.base s1 + c, a2.set_check (a2.base s1 + c) s1, o1, ?_, ?_⟩
      · rw [g1, g2]
      · exact reloc_finish a b a2 s c P nbase s1 hwf hs hc e1 e3 e4 e5 (Or.inr hPdef'.symm)
          k1 k2 k3 k4
    · -- the children of `s` itself are moved, together with the pending symbol
      rw [if_neg hB]
      have hnot : a.check (a.base s + c) ≠ s := by
        intro h
        apply hB
        have h0 : a.check (a.next s c) ≠ 0 := by unfold next; rw [h]; omega
        rw [if_pos h0]
        have h1 : a.check (a.next s c) = s := h
        rw [h1]
        have hmem := hwf.kid_mem s (a.base s + c) (by omega) h
        have := List.length_pos_of_mem hmem
        omega
      obtain ⟨f1, f2, f3⟩ := find_exist_target_facts a s
      rw [cstr_of_pos _ (fun p hp => by
        rcases List.mem_append.1 hp with h | h
        · exact (f1 p h).2.2
        · simp only [List.mem_singleton] at h; omega)]
      rw [f3]
      simp only [or_true, if_true]
      generalize hmax : (if c > (a.find_exist_target s ⟨0, 0⟩).2.max ∨
          (a.find_exist_target s ⟨0, 0⟩).2.max = 0 then c
          else (a.find_exist_target s ⟨0, 0⟩).2.max) = emax
      have hL1 : ∀ p ∈ (a.find_exist_target s ⟨0, 0⟩).1 ++ [c],
          1 ≤ p ∧ p ≤ (⟨emax, c⟩ : extremum_type).max := by
        intro p hp
        simp only
        rcases List.mem_append.1 hp with h | h
        · have := f1 p h
          rw [← hmax]
          split_ifs <;> omega
        · simp only [List.mem_singleton] at h
          rw [← hmax, h]
          split_ifs with h1
          · omega
          · push_neg at h1; omega
      have hmin : 0 ≤ (⟨emax, c⟩ : extremum_type).min ∧
          (⟨emax, c⟩ : extremum_type).min ≤ (⟨emax, c⟩ : extremum_type).max := by
        have := hL1 c (List.mem_append.2 (Or.inr (List.mem_singleton.2 rfl)))
        simp only at this ⊢
        omega
      have hL2 : ∀ x, a.check x = s →
          (x - a.base s) ∈ (a.find_exist_target s ⟨0, 0⟩).1 ++ [c] :=
        fun x hx => List.mem_append.2 (Or.inl (hwf.kid_mem s x (by omega) hx))
      have hL3 : (∀ p ∈ (a.find_exist_target s ⟨0, 0⟩).1 ++ [c], a.check (a.base s + p) ≠ 0) ∨
          ∀ x, a.check x ≠ s := by
        by_cases hk : ∃ x, a.check x = s
        · left
          obtain ⟨x, hx⟩ := hk
          have hb := hAlloc x hx
          intro p hp
          rcases List.mem_append.1 hp with h | h
          · have := ((mem_find_exist_target a s ⟨0, 0⟩ p).1 h).2.2.2.2.2
            unfold next at this
            rw [this]; omega
          · simp only [List.mem_singleton] at h
            rw [h]
            intro h0
            apply hA
            exact ⟨hb, by unfold next; rw [h0]⟩
        · right
          push_neg at hk
          exact hk
      obtain ⟨r, hr⟩ := relocate_total cb hcb a o s s _ _ hwf hL1 hmin
      obtain ⟨b, nbase, e1, e2, e3, e4, e5, e6, e7, e8⟩ := relocate_spec cb a o s s _ _ hwf hs
        hL1 hmin hL2 hL3 r hr
      rw [hr]
      obtain ⟨s1, a2, o1⟩ := r
      simp only at e4 e5 ⊢
      have hchk : ∀ x, b.check x = a.check x := e1.check_of_wf hwf
      have hbaseP : b.base s = a.base s := e1.base_of_lt s (hwf.allocated_lt s hs).2
      have h1 : s1 = s := by rw [e5]; exact e3.new_place_P
      have h2 : a2.base s1 = nbase := by rw [h1]; exact e4.base_P
      have h3 := e8 c (List.mem_append.2 (Or.inr (List.mem_singleton.2 rfl)))
      have h4 : a2.check (nbase + c) = 0 := by
        rw [e4.check_eq]
        have t1 : ¬ b.check (nbase + c - nbase + b.base s) = s := by
          have e : nbase + c - nbase + b.base s = a.base s + c := by rw [hbaseP]; omega
          rw [e, hchk]; exact hnot
        have t2 : ¬ b.check (nbase + c) = s := by rw [h3.1]; omega
        have t3 : ¬ b.check (b.check (nbase + c)) = s := by
          rw [h3.1, e2.check_zero]; omega
        simp only [t1, t2, t3, if_false]
        exact h3.1
      have k1 : 0 < a2.base s1 := by rw [h2]; exact e3.nbase_pos
      have k2 : a2.base s1 + c < a2.size := by rw [h2, e4.size_eq]; exact h3.2
      have k3 : a2.check (a2.base s1 + c) = 0 ∨ a2.check (a2.base s1 + c) = s1 :=
        Or.inl (by rw [h2]; exact h4)
      obtain ⟨g1, g2, _⟩ := finish_spec a2 s1 c (e4.wf_after e3)
        (by
          obtain ⟨ws, hws⟩ := hwf.reach_alloc s hs
          have := e4.walk_map e3 ws 1 (Or.inl rfl)
          rw [e3.new_place_one, e1.walk_same hwf ws 1 (Or.inl rfl), hws] at this
          simp only [Option.map_some'] at this
          rw [← e5] at this
          exact walk_allocated a2 ws s1 this) k1 hc k2 k3
      refine ⟨s1, a2.base s1 + c, a2.set_check (a2.base s1 + c) s1, o1, ?_, ?_⟩
      · rw [g1, g2]
      · exact reloc_finish a b a2 s c s nbase s1 hwf hs hc e1 e3 e4 e5 (Or.inl rfl)
          k1 k2 k3 (Or.inl h1)

end basic_trie

namespace basic_trie

theorem create_transition_aux_grow {σ : Type} (cb : relocator σ) (a : basic_trie) (o : σ)
    (s c : Int) (h0 : 0 ≤ a.size) (hs : s < a.size) :
    a.create_transition_aux cb o s c =
      (a.grow_to (a.next s c)).create_transition_aux cb o s c := by
  obtain ⟨g1, _, g3⟩ := grow_to_spec a (a.next s c) h0
  have hb : (a.grow_to (a.next s c)).base s = a.base s := g1.base_of_lt s hs
  have hn : (a.grow_to (a.next s c)).next s c = a.next s c := by
    show (a.grow_to (a.next s c)).base s + c = a.base s + c
    rw [hb]
  have hidem : (a.grow_to (a.next s c)).grow_to ((a.grow_to (a.next s c)).next s c)
      = a.grow_to (a.next s c) := by
    apply grow_to_of_lt; rw [hn]; exact g3
  conv_rhs => unfold create_transition_aux
  rw [hidem]
  rfl

theorem CreateSpec.of_ext {a a0 a1 : basic_trie} {s c s1 t : Int} (hwf : a.WF)
    (hs : a.allocated s) (hext : Ext a a0) (h : CreateSpec a0 s c s1 t a1) :
    CreateSpec a s c s1 t a1 := by
  have hchk : ∀ x, a0.check x = a.check x := hext.check_of_wf hwf
  have hbase : ∀ x, a.allocated x → a0.base x = a.base x :=
    fun x hx => hext.base_of_lt x (hwf.allocated_lt x hx).2
  have hwalk : ∀ w, a0.walk 1 w = a.walk 1 w := fun w => hext.walk_same hwf w 1 (Or.inl rfl)
  have halloc : ∀ x, a.allocated x → a0.allocated x := by
    intro x hx
    rcases hx with h1 | h1
    · exact Or.inl h1
    · exact Or.inr (by rw [hchk]; exact h1)
  refine ⟨h.wf, by have := hext.size_le; have := h.size_le; omega, h.t_pos, h.t_lt, h.check_t,
    h.next_t, ?_, ?_, ?_, ?_⟩
  · rcases h.src with h1 | ⟨h1, h2, h3⟩
    · exact Or.inl h1
    · right
      simp only [hchk, hbase s hs] at h1 h2 h3
      rw [hbase _ (hwf.parent s h1)] at h3
      exact ⟨h1, h2, h3⟩
  · obtain ⟨φ, p1, p2, p3, p4⟩ := h.old
    refine ⟨φ, p1, p2, fun w x hx => p3 w x (by rw [hwalk]; exact hx), ?_⟩
    intro x hx g1 g2
    rw [← hbase x hx]
    apply p4 x (halloc x hx) g1
    rw [hchk, hbase s hs]; exact g2
  · intro w x hx
    rcases h.new w x hx with ⟨x0, h1⟩ | ⟨h1, ws, h2, h3⟩
    · exact Or.inl ⟨x0, by rw [← hwalk]; exact h1⟩
    · exact Or.inr ⟨h1, ws, h2, by rw [← hwalk]; exact h3⟩
  · intro ws hws
    exact h.walk_t ws (by rw [hwalk]; exact hws)

/-- `create_transition` on a well-formed array, an allocated state and a
symbol of the alphabet: it returns, and the result obeys `CreateSpec`. -/
theorem create_transition_aux_spec {σ : Type} (cb : relocator σ)
    (hcb : ∀ b x y o, ∃ o1, cb b x y o = .ok o1)
    (a : basic_trie) (o : σ) (s c : Int) (hwf : a.WF) (hs : a.allocated s)
    (hc : 1 ≤ c ∧ c ≤ 257) :
    ∃ s1 t a1 o1, a.create_transition_aux cb o s c = .ok (s1, t, a1, o1) ∧
      CreateSpec a s c s1 t a1 := by
  have h0 : 0 ≤ a.size := by have := hwf.size_gt; omega
  have hslt := (hwf.allocated_lt s hs).2
  obtain ⟨g1, g2, g3⟩ := grow_to_spec a (a.next s c) h0
  have hwf0 : (a.grow_to (a.next s c)).WF :=
    g1.preserves_wf hwf (by rw [g2]; have := hwf.cursor; have := g1.size_le; omega)
  have hs0 : (a.grow_to (a.next s c)).allocated s := by
    rcases hs with h1 | h1
    · exact Or.inl h1
    · exact Or.inr (by rw [g1.check_of_wf hwf]; exact h1)
  have hb : (a.grow_to (a.next s c)).base s = a.base s := g1.base_of_lt s hslt
  obtain ⟨s1, t, a1, o1, e1, e2⟩ := create_transition_aux_core cb hcb
    (a.grow_to (a.next s c)) o s c hwf0 hs0 hc (by rw [hb]; exact g3)
  exact ⟨s1, t, a1, o1, by rw [create_transition_aux_grow cb a o s c h0 hslt]; exact e1,
    e2.of_ext hwf hs g1⟩

theorem create_transition_eq {σ : Type} (cb : relocator σ) (a : basic_trie) (o : σ)
    (s c s1 t : Int) (a1 : basic_trie) (o1 : σ)
    (h : a.create_transition_aux cb o s c = .ok (s1, t, a1, o1)) :
    a.create_transition cb o s c = .ok (t, a1, o1) := by
  unfold create_transition
  rw [h]

end basic_trie

namespace basic_trie

theorem init_check (size x : Int) : (init size).check x = 0 := by
  unfold init inflate resize_state
  simp

theorem init_size (size : Int) : 4096 ≤ (init size).size := by
  unfold init inflate resize_state kCharsetSize
  simp only
  split_ifs <;> omega

theorem init_wf (size : Int) : (init size).WF := by
  refine ⟨by have := init_size size; omega, ⟨le_refl _, ?_⟩, init_check _ _, ?_, ?_⟩
  · have := init_size size
    have : (init size).last_base = 0 := rfl
    omega
  · intro t ht; exact absurd (init_check size t) ht
  · intro t ht; exact absurd (init_check size t) ht

theorem no_relocator_total : ∀ (b : basic_trie) (x y : Int) (o : Unit),
    ∃ o1, no_relocator b x y o = .ok o1 := fun _ _ _ o => ⟨o, rfl⟩

theorem Built.well_formed {a : basic_trie} (h : Built a) : a.WF := by
  induction h with
  | init size => exact init_wf size
  | step a a1 s c t _ hs hc1 hc2 hct ih =>
    have hsa : a.allocated s := by
      rcases hs with h1 | h1
      · exact Or.inl h1
      · exact Or.inr (by omega)
    obtain ⟨s1, t1, a2, o1, e1, e2⟩ :=
      create_transition_aux_spec no_relocator no_relocator_total a () s c ih hsa ⟨hc1, hc2⟩
    rw [create_transition_eq no_relocator a () s c s1 t1 a2 o1 e1] at hct
    cases hct
    exact e2.wf

end basic_trie

namespace basic_trie

theorem find_base_loop_error (inputs : List Int) (e : extremum_type) :
    ∀ (n : Nat) (a : basic_trie) (i : Int) (err : Err),
      find_base_loop inputs e n a i = .error err → err = .fuel := by
  intro n
  induction n with
  | zero => intro a i err h; simp only [find_base_loop] at h; cases h; rfl
  | succ n ih =>
    intro a i err h
    unfold find_base_loop at h
    simp only at h
    split_ifs at h <;> first | cases h | exact ih _ _ _ h

theorem find_base_error (a : basic_trie) (inputs : List Int) (e : extremum_type) (err : Err)
    (h : a.find_base inputs e = .error err) : err = .fuel := by
  unfold find_base at h
  split at h
  · cases h
  · rename_i err1 h1
    cases h
    exact find_base_loop_error inputs e _ _ _ _ h1

theorem relocate_error {σ : Type} (cb : relocator σ)
    (hcb : ∀ b x y o, ∃ o1, cb b x y o = .ok o1) (a : basic_trie) (o : σ)
    (stand s : Int) (L : List Int) (e : extremum_type) (err : Err)
    (h : relocate cb a o stand s L e = .error err) : err = .fuel := by
  unfold relocate at h
  split at h
  · rename_i err1 h1
    cases h
    exact find_base_error a L e _ h1
  · rename_i nbase a1 h1
    obtain ⟨r, hr⟩ := relocate_loop_total cb hcb s (a.base s) nbase L stand a1 o
    rw [hr] at h
    cases h

theorem create_transition_aux_error {σ : Type} (cb : relocator σ)
    (hcb : ∀ b x y o, ∃ o1, cb b x y o = .ok o1) (a : basic_trie) (o : σ)
    (s ch : Int) (err : Err)
    (h : a.create_transition_aux cb o s ch = .error err) : err = .fuel := by
  unfold create_transition_aux at h
  simp only at h
  split at h
  · cases h
  · split at h
    · rename_i err1 h1
      cases h
      split_ifs at h1 <;> exact relocate_error cb hcb _ _ _ _ _ _ _ h1
    · cases h

theorem create_transition_error {σ : Type} (cb : relocator σ)
    (hcb : ∀ b x y o, ∃ o1, cb b x y o = .ok o1) (a : basic_trie) (o : σ)
    (s ch : Int) (err : Err)
    (h : a.create_transition cb o s ch = .error err) : err = .fuel := by
  unfold create_transition at h
  split at h
  · rename_i err1 h1
    cases h
    exact create_transition_aux_error cb hcb a o s ch _ h1
  · cases h

theorem create_path_error {σ : Type} (cb : relocator σ)
    (hcb : ∀ b x y o, ∃ o1, cb b x y o = .ok o1) :
    ∀ (cs : List Int) (s : Int) (a : basic_trie) (o : σ) (err : Err),
      create_path cb cs s a o = .error err → err = .fuel := by
  intro cs
  induction cs with
  | nil => intro s a o err h; simp only [create_path] at h; cases h
  | cons c rest ih =>
    intro s a o err h
    unfold create_path at h
    split at h
    · rename_i err1 h1
      cases h
      exact create_transition_error cb hcb a o s c _ h1
    · exact ih _ _ _ _ h

theorem go_forward_spec (a : basic_trie) : ∀ (bytes : List Nat) (s : Int),
    ∃ pre, bytes = pre ++ (a.go_forward s bytes).2 ∧
      a.walk s (pre.map char_in) = some (a.go_forward s bytes).1 := by
  intro bytes
  induction bytes with
  | nil => intro s; exact ⟨[], rfl, rfl⟩
  | cons b rest ih =>
    intro s
    unfold go_forward
    by_cases h : a.check_transition s (a.next s (char_in b))
    · rw [if_pos h]
      obtain ⟨pre, h1, h2⟩ := ih (a.next s (char_in b))
      refine ⟨b :: pre, by rw [List.cons_append, ← h1], ?_⟩
      simp only [List.map_cons, walk_cons, h, if_true]
      exact h2
    · rw [if_neg h]
      exact ⟨[], rfl, rfl⟩

theorem go_forward_of_walk (a : basic_trie) : ∀ (bytes : List Nat) (s p : Int),
    a.walk s (bytes.map char_in) = some p → a.go_forward s bytes = (p, []) := by
  intro bytes
  induction bytes with
  | nil =>
    intro s p h
    simp only [List.map_nil, walk_nil, Option.some.injEq] at h
    rw [← h]; rfl
  | cons b rest ih =>
    intro s p h
    simp only [List.map_cons, walk_cons] at h
    unfold go_forward
    by_cases h1 : a.check_transition s (a.next s (char_in b))
    · rw [if_pos h1] at h ⊢
      exact ih _ _ h
    · rw [if_neg h1] at h; cases h

/-- The loop of `insert` creates the path of the remaining symbols. -/
theorem create_path_spec {σ : Type} (cb : relocator σ)
    (hcb : ∀ b x y o, ∃ o1, cb b x y o = .ok o1) :
    ∀ (cs : List Int) (w : List Int) (s : Int) (a : basic_trie) (o : σ),
      a.WF → a.walk 1 w = some s → (∀ c ∈ cs, 1 ≤ c ∧ c ≤ 257) →
      ∃ t a1 o1, create_path cb cs s a o = .ok (t, a1, o1) ∧ a1.WF ∧
        a1.walk 1 (w ++ cs) = some t := by
  intro cs
  induction cs with
  | nil =>
    intro w s a o hwf hw _
    exact ⟨s, a, o, rfl, hwf, by rw [List.append_nil]; exact hw⟩
  | cons c rest ih =>
    intro w s a o hwf hw hcs
    obtain ⟨s1, t, a1, o1, e1, e2⟩ := create_transition_aux_spec cb hcb a o s c hwf
      (walk_allocated a w s hw) (hcs c (List.mem_cons_self _ _))
    have e3 := create_transition_eq cb a o s c s1 t a1 o1 e1
    obtain ⟨t2, a2, o2, f1, f2, f3⟩ := ih (w ++ [c]) t a1 o1 e2.wf (e2.walk_t w hw)
      (fun x hx => hcs x (List.mem_cons_of_mem _ hx))
    refine ⟨t2, a2, o2, ?_, f2, by rw [List.append_assoc] at f3; exact f3⟩
    unfold create_path
    rw [e3]
    exact f1

theorem WF.walk_unique {a : basic_trie} (hwf : a.WF) :
    ∀ (n : Nat) (w1 w2 : List Int) (x : Int), w1.length = n →
      a.walk 1 w1 = some x → a.walk 1 w2 = some x → w1 = w2 := by
  intro n
  induction n with
  | zero =>
    intro w1 w2 x hl h1 h2
    have : w1 = [] := List.length_eq_zero.1 hl
    subst this
    simp only [walk_nil, Option.some.injEq] at h1
    subst h1
    by_contra hne
    exact walk_check_ne_zero a w2 1 1 (fun h => hne h.symm) h2 hwf.root
  | succ n ih =>
    intro w1 w2 x hl h1 h2
    rcases List.eq_nil_or_concat w1 with e1 | ⟨u1, c1, e1⟩
    · subst e1; simp at hl
    · rw [List.concat_eq_append] at e1
      subst e1
      have hx : a.check x ≠ 0 := walk_check_ne_zero a _ 1 x (by simp) h1
      rcases List.eq_nil_or_concat w2 with e2 | ⟨u2, c2, e2⟩
      · subst e2
        simp only [walk_nil, Option.some.injEq] at h2
        subst h2
        exact absurd hwf.root hx
      · rw [List.concat_eq_append] at e2
        subst e2
        obtain ⟨p1, g1, g2, g3⟩ := (walk_snoc a u1 1 c1 x).1 h1
        obtain ⟨p2, k1, k2, k3⟩ := (walk_snoc a u2 1 c2 x).1 h2
        have hp1 : a.check x = p1 := by rw [← g3]; exact g2.2.2.2
        have hp2 : a.check x = p2 := by rw [← k3]; exact k2.2.2.2
        have hp : p1 = p2 := by rw [← hp1, ← hp2]
        subst hp
        have hc : c1 = c2 := by unfold next at g3 k3; omega
        subst hc
        have hlen : u1.length = n := by simp at hl; exact hl
        rw [ih u1 u2 p1 hlen g1 k1]

/-- Writing the base of a state does not change a walk that never leaves that
state. -/
theorem walk_set_base (a : basic_trie) (t v : Int) :
    ∀ (w : List Int) (s : Int),
      (∀ w1 c w2, w = w1 ++ c :: w2 → a.walk s w1 ≠ some t) →
      (a.set_base t v).walk s w = a.walk s w := by
  intro w
  induction w with
  | nil => intro s _; rfl
  | cons c rest ih =>
    intro s h
    have hs : s ≠ t := by
      intro e
      exact h [] c rest rfl (by rw [e]; rfl)
    have hn : (a.set_base t v).next s c = a.next s c := by
      unfold next; simp only [set_base_base, hs, if_false]
    have hct : ∀ y, (a.set_base t v).check_transition s y ↔ a.check_transition s y :=
      fun y => Iff.rfl
    simp only [walk_cons, hn, hct]
    by_cases h1 : a.check_transition s (a.next s c)
    · simp only [h1, if_true]
      apply ih
      intro w1 c1 w2 e hw
      apply h (c :: w1) c1 w2 (by rw [e]; rfl)
      rw [walk_cons, if_pos h1]
      exact hw
    · simp [h1]

end basic_trie

namespace basic_trie

theorem char_in_range (b : Nat) (h : b < 255) : 1 ≤ char_in b ∧ char_in b ≤ 257 := by
  unfold char_in
  omega

theorem insert_invalid_iff {σ : Type} (cb : relocator σ)
    (hcb : ∀ b x y o, ∃ o1, cb b x y o = .ok o1) (a : basic_trie) (o : σ)
    (inputs : Option (List Nat)) (val : Int) :
    a.insert cb o inputs val = .error .invalid ↔ (val < 1 ∨ inputs = none) := by
  unfold insert
  by_cases hv : val < 1
  · simp [hv]
  · rw [if_neg hv]
    cases inputs with
    | none => simp
    | some bytes =>
      simp only [hv, false_or]
      constructor
      · intro h
        split at h
        · rename_i err h1
          have := create_path_error cb hcb _ _ _ _ _ h1
          rw [this] at h
          cases h
        · cases h
      · intro h; cases h

theorem insert_stores {σ : Type} (cb : relocator σ)
    (hcb : ∀ b x y o, ∃ o1, cb b x y o = .ok o1) (a : basic_trie) (o : σ)
    (bytes : List Nat) (val : Int) (hwf : a.WF) (hval : 1 ≤ val)
    (hb : ∀ b ∈ bytes, b < 255) :
    ∃ a1 o1, a.insert cb o (some bytes) val = .ok (a1, o1) ∧ a1.search bytes = val := by
  obtain ⟨pre, h1, h2⟩ := go_forward_spec a bytes 1
  have hcs : ∀ c ∈ (a.go_forward 1 bytes).2.map char_in ++ [kTerminator], 1 ≤ c ∧ c ≤ 257 := by
    intro c hc
    rcases List.mem_append.1 hc with h | h
    · obtain ⟨b, hb1, hb2⟩ := List.mem_map.1 h
      rw [← hb2]
      apply char_in_range
      apply hb
      rw [h1]
      exact List.mem_append.2 (Or.inr hb1)
    · simp only [List.mem_singleton] at h
      rw [h]; unfold kTerminator kCharsetSize; omega
  obtain ⟨t, a1, o1, f1, f2, f3⟩ := create_path_spec cb hcb _ (pre.map char_in)
    (a.go_forward 1 bytes).1 a o hwf h2 hcs
  have hword : pre.map char_in ++ ((a.go_forward 1 bytes).2.map char_in ++ [kTerminator])
      = bytes.map char_in ++ [kTerminator] := by
    rw [← List.append_assoc, ← List.map_append, ← h1]
  rw [hword] at f3
  obtain ⟨p, g1, g2, g3⟩ := (walk_snoc a1 _ 1 kTerminator t).1 f3
  have hpt : p ≠ t := by
    intro e
    have hck : a1.check t = p := by rw [← g3]; exact g2.2.2.2
    have hp := g2.1
    rw [e] at hck hp
    exact f2.noloop t (by omega) hck
  have hwalk : (a1.set_base t val).walk 1 (bytes.map char_in) = some p := by
    rw [walk_set_base a1 t val _ 1]
    · exact g1
    · intro w1 c w2 e hw
      have := f2.walk_unique w1.length w1 _ t rfl hw f3
      have hl := congrArg List.length e
      rw [this] at hl
      simp at hl
  refine ⟨a1.set_base t val, o1, ?_, ?_⟩
  · unfold insert
    rw [if_neg (by omega)]
    simp only [f1]
  · unfold search
    simp only [go_forward_of_walk _ bytes 1 p hwalk]
    have hn : (a1.set_base t val).next p kTerminator = t := by
      unfold next; simp only [set_base_base, hpt, if_false]; exact g3
    rw [hn]
    have hct : (a1.set_base t val).check_transition p t := by
      rw [← g3]; exact g2
    simp only [hct, not_true_eq_false, if_false, set_base_base, if_true]

end basic_trie
namespace trie_impl

theorem go_forward_eq_greedy (a : basic_trie) :
    ∀ (w : List Int) (s : Int) (k : Nat), (∀ c ∈ w, c ≠ kTerminator) →
      go_forward a s (w ++ [kTerminator]) k = .ok (greedy a s (w ++ [kTerminator]) k) := by
  intro w
  induction w with
  | nil =>
    intro s k _
    simp only [List.nil_append, go_forward, greedy]
    by_cases h : a.check_transition s (a.next s kTerminator)
    · simp [h]
    · simp [h]
  | cons c w ih =>
    intro s k hw
    have hc : c ≠ kTerminator := hw c (List.mem_cons_self _ _)
    simp only [List.cons_append, go_forward, greedy]
    by_cases h : a.check_transition s (a.next s c)
    · simp only [h, not_true_eq_false, if_false, if_true, hc, ne_eq, not_false_eq_true]
      exact ih _ _ (fun x hx => hw x (List.mem_cons_of_mem _ hx))
    · simp [h]

/-- The greedy walk ends without mismatch exactly when every arc exists, and
then in the state that `walk` reaches. -/
theorem greedy_none_iff (a : basic_trie) :
    ∀ (w : List Int) (s : Int) (k : Nat) (s1 : Int),
      greedy a s w k = (s1, none) ↔ a.walk s w = some s1 := by
  intro w
  induction w with
  | nil => intro s k s1; simp [greedy, basic_trie.walk]
  | cons c w ih =>
    intro s k s1
    simp only [greedy, basic_trie.walk]
    by_cases h : a.check_transition s (a.next s c)
    · simp only [h, if_true]; exact ih _ _ _
    · simp [h]

/-- The greedy walk stops at position `j` exactly when the arcs of the first
`j - k` symbols exist and the next one does not. -/
theorem greedy_some_iff (a : basic_trie) :
    ∀ (w : List Int) (s : Int) (k : Nat) (s1 : Int) (j : Nat),
      greedy a s w k = (s1, some j) ↔
        k ≤ j ∧ j - k < w.length ∧ a.walk s (w.take (j - k)) = some s1 ∧
          ∃ c, w.get? (j - k) = some c ∧ ¬ a.check_transition s1 (a.next s1 c) := by
  intro w
  induction w with
  | nil => intro s k s1 j; simp [greedy]
  | cons c w ih =>
    intro s k s1 j
    simp only [greedy]
    by_cases h : a.check_transition s (a.next s c)
    · simp only [h, if_true]
      rw [ih]
      constructor
      · rintro ⟨h1, h2, h3, c1, h4, h5⟩
        have e : j - k = (j - (k + 1)) + 1 := by omega
        refine ⟨by omega, by simp only [List.length_cons]; omega, ?_, c1, ?_, h5⟩
        · rw [e, List.take_succ_cons, basic_trie.walk, if_pos h]; exact h3
        · rw [e, List.get?_cons_succ]; exact h4
      · rintro ⟨h1, h2, h3, c1, h4, h5⟩
        by_cases hjk : j = k
        · subst hjk
          simp only [Nat.sub_self, List.take_zero, basic_trie.walk, Option.some.injEq,
            List.get?_cons_zero] at h3 h4
          subst h3; subst h4
          exact absurd h h5
        · have e : j - k = (j - (k + 1)) + 1 := by omega
          rw [e, List.take_succ_cons, basic_trie.walk, if_pos h] at h3
          rw [e, List.get?_cons_succ] at h4
          simp only [List.length_cons] at h2
          exact ⟨by omega, by omega, h3, c1, h4, h5⟩
    · simp only [h, if_false, Prod.mk.injEq, Option.some.injEq]
      constructor
      · rintro ⟨h1, h2⟩
        subst h1; subst h2
        simp [basic_trie.walk, h]
      · rintro ⟨h1, h2, h3, c1, h4, h5⟩
        by_cases hjk : j = k
        · subst hjk
          simp only [Nat.sub_self, List.take_zero, basic_trie.walk, Option.some.injEq] at h3
          exact ⟨h3, rfl⟩
        · have e : j - k = (j - (k + 1)) + 1 := by omega
          rw [e, List.take_succ_cons, basic_trie.walk, if_neg h] at h3
          cases h3

end trie_impl

namespace trie_impl

/-- The walker stops at the first absent arc whatever follows it in the
array. -/
theorem go_forward_stops (a : basic_trie) :
    ∀ (pre : List Int) (s : Int) (k : Nat) (s1 c : Int) (v : List Int),
      (∀ x ∈ pre, x ≠ kTerminator) → a.walk s pre = some s1 →
      ¬ a.check_transition s1 (a.next s1 c) →
      go_forward a s (pre ++ c :: v) k = .ok (s1, some (k + pre.length)) := by
  intro pre
  induction pre with
  | nil =>
    intro s k s1 c v _ hw hc
    simp only [basic_trie.walk, Option.some.injEq] at hw
    subst hw
    simp [go_forward, hc]
  | cons x pre ih =>
    intro s k s1 c v hT hw hc
    have hx : x ≠ kTerminator := hT x (List.mem_cons_self _ _)
    simp only [basic_trie.walk] at hw
    by_cases h : a.check_transition s (a.next s x)
    · rw [if_pos h] at hw
      simp only [List.cons_append, go_forward, h, not_true_eq_false, if_false, hx, ne_eq,
        not_false_eq_true, if_true]
      have e := ih (a.next s x) (k + 1) s1 c v
        (fun y hy => hT y (List.mem_cons_of_mem _ hy)) hw hc
      show go_forward a (a.next s x) (pre ++ c :: v) (k + 1) = _
      rw [e]
      simp only [List.length_cons]
      congr 3
      omega
    · rw [if_neg h] at hw
      cases hw

end trie_impl

namespace trie_impl

theorem seek_terminator_spec :
    ∀ (w : List Int) (rest : List Int) (k : Nat), (∀ c ∈ w, c ≠ kTerminator) →
      seek_terminator (w ++ kTerminator :: rest) k = .ok (k + w.length) := by
  intro w
  induction w with
  | nil => intro rest k _; simp [seek_terminator]
  | cons c w ih =>
    intro rest k hw
    have hc : c ≠ kTerminator := hw c (List.mem_cons_self _ _)
    simp only [List.cons_append, seek_terminator, hc, ne_eq, not_false_eq_true, if_true]
    have e := ih rest (k + 1) (fun x hx => hw x (List.mem_cons_of_mem _ hx))
    show seek_terminator (w ++ kTerminator :: rest) (k + 1) = _
    rw [e]
    simp only [List.length_cons]
    congr 1
    omega

theorem take_succ_reverse (l : List Int) (n : Nat) (c : Int) (h : l.get? n = some c) :
    (l.take (n + 1)).reverse = c :: (l.take n).reverse := by
  rw [List.take_succ, ← List.get?_eq_getElem?, h]
  simp

/-- The downward loop reads the cells `inputs[pos], …, inputs[0]` as the
greedy walk reads the reversed list. -/
theorem go_forward_reverse_loop_spec (a : basic_trie) (inputs : List Int) :
    ∀ (pos : Nat) (s : Int) (k : Nat), pos < inputs.length →
      go_forward_reverse_loop a inputs s pos =
        .ok ((greedy a s (inputs.take (pos + 1)).reverse k).1,
          (greedy a s (inputs.take (pos + 1)).reverse k).2.map (fun j => pos + k - j)) := by
  intro pos
  induction pos with
  | zero =>
    intro s k hlt
    obtain ⟨c, hc⟩ : ∃ c, inputs.get? 0 = some c := by
      cases inputs with
      | nil => simp at hlt
      | cons c r => exact ⟨c, rfl⟩
    rw [take_succ_reverse inputs 0 c hc]
    simp only [go_forward_reverse_loop, hc, List.take_zero, List.reverse_nil, greedy]
    by_cases h : a.check_transition s (a.next s c)
    · simp [h]
    · simp [h]
  | succ pos ih =>
    intro s k hlt
    obtain ⟨c, hc⟩ : ∃ c, inputs.get? (pos + 1) = some c :=
      ⟨inputs.get ⟨pos + 1, hlt⟩, List.get?_eq_get hlt⟩
    rw [take_succ_reverse inputs (pos + 1) c hc]
    simp only [go_forward_reverse_loop, hc, greedy]
    by_cases h : a.check_transition s (a.next s c)
    · simp only [h, not_true_eq_false, if_false, if_true]
      rw [ih (a.next s c) (k + 1) (by omega)]
      have e : (fun j => pos + (k + 1) - j) = (fun j => pos + 1 + k - j) := by
        funext j; omega
      rw [e]
    · simp [h]

end trie_impl

namespace guarded

theorem base_ok (a : basic_trie) (s : Int) (h : 0 ≤ s ∧ s < a.size) :
    base a s = .ok (a.base s) := by
  unfold base; rw [if_pos h]

theorem check_ok (a : basic_trie) (s : Int) (h : 0 ≤ s ∧ s < a.size) :
    check a s = .ok (a.check s) := by
  unfold check; rw [if_pos h]

theorem set_base_ok (a : basic_trie) (s val : Int) (h : 0 ≤ s ∧ s < a.size) :
    set_base a s val = .ok (a.set_base s val) := by
  unfold set_base; rw [if_pos h]

theorem set_check_ok (a : basic_trie) (s val : Int) (h : 0 ≤ s ∧ s < a.size) :
    set_check a s val = .ok (a.set_check s val) := by
  unfold set_check; rw [if_pos h]

theorem next_ok (a : basic_trie) (s ch : Int) (h : 0 ≤ s ∧ s < a.size) :
    next a s ch = .ok (a.next s ch) := by
  unfold next; rw [base_ok a s h]; rfl

/-- The asserted `check_transition` never fails: the three comparisons keep
the read inside the array. -/
theorem check_transition_ok (a : basic_trie) (s t : Int) :
    check_transition a s t = .ok (decide (a.check_transition s t)) := by
  unfold check_transition
  by_cases h : s > 0 ∧ t > 0 ∧ t < a.size
  · rw [if_pos h, check_ok a t ⟨by omega, h.2.2⟩]
    simp only [basic_trie.check_transition, h, true_and]
  · rw [if_neg h]
    have : ¬ a.check_transition s t := by
      intro hc
      exact h ⟨hc.1, hc.2.1, hc.2.2.1⟩
    simp [this]

theorem find_exist_target_loop_ok (a : basic_trie) (s : Int) (hs : 0 ≤ s ∧ s < a.size) :
    ∀ (n : Nat) (ch : Int) (e : extremum_type),
      find_exist_target_loop a s n ch e = .ok (a.find_exist_target_loop s n ch e) := by
  intro n
  induction n with
  | zero => intro ch e; rfl
  | succ n ih =>
    intro ch e
    unfold find_exist_target_loop basic_trie.find_exist_target_loop
    rw [next_ok a s ch hs]
    simp only
    by_cases h1 : a.next s ch ≥ a.size
    · rw [if_pos h1, if_pos h1]
    · rw [if_neg h1, if_neg h1, check_transition_ok]
      by_cases h2 : a.check_transition s (a.next s ch)
      · simp only [h2, decide_True, if_true]
        rw [ih]
      · simp only [h2, decide_False, if_false]
        rw [ih]

theorem find_exist_target_ok (a : basic_trie) (s : Int) (hs : 0 ≤ s ∧ s < a.size)
    (e : extremum_type) :
    find_exist_target a s e = .ok (a.find_exist_target s e) :=
  find_exist_target_loop_ok a s hs 257 1 e

end guarded

namespace guarded

theorem all_free_ok (a : basic_trie) (i : Int) :
    ∀ (inputs : List Int), (∀ p ∈ inputs, 0 ≤ i + p ∧ i + p < a.size) →
      all_free a i inputs = .ok (decide (∀ p ∈ inputs, ¬ a.check (i + p) > 0)) := by
  intro inputs
  induction inputs with
  | nil => intro _; simp [all_free]
  | cons p rest ih =>
    intro h
    unfold all_free
    rw [check_ok a (i + p) (h p (List.mem_cons_self _ _))]
    simp only
    have ih1 := ih (fun q hq => h q (List.mem_cons_of_mem _ hq))
    by_cases hp : a.check (i + p) > 0
    · rw [if_pos hp]
      simp [hp]
    · rw [if_neg hp, ih1]
      congr 1
      apply decide_eq_decide.2
      constructor
      · intro h1 q hq
        rcases List.mem_cons.1 hq with h2 | h2
        · rw [h2]; exact hp
        · exact h1 q h2
      · intro h1 q hq
        exact h1 q (List.mem_cons_of_mem _ hq)

theorem candidate_free_ok (a : basic_trie) (inputs : List Int) (e : extremum_type) (i : Int)
    (hmin : 0 ≤ i + e.min ∧ i + e.min < a.size) (hmax : 0 ≤ i + e.max ∧ i + e.max < a.size)
    (hin : ∀ p ∈ inputs, 0 ≤ i + p ∧ i + p < a.size) :
    candidate_free a inputs e i = .ok (decide (a.check (i + e.min) ≤ 0 ∧ a.check (i + e.max) ≤ 0
        ∧ ∀ p ∈ inputs, ¬ a.check (i + p) > 0)) := by
  unfold candidate_free
  rw [check_ok a _ hmin]
  simp only
  by_cases h1 : a.check (i + e.min) ≤ 0
  · rw [if_pos h1, check_ok a _ hmax]
    simp only
    by_cases h2 : a.check (i + e.max) ≤ 0
    · rw [if_pos h2, all_free_ok a i inputs hin]
      simp [h1, h2]
    · rw [if_neg h2]
      simp [h2]
  · rw [if_neg h1]
    simp [h1]

theorem find_base_loop_ok (inputs : List Int) (e : extremum_type)
    (hin : ∀ p ∈ inputs, 0 ≤ p ∧ p ≤ e.max) (hmin : 0 ≤ e.min ∧ e.min ≤ e.max) :
    ∀ (n : Nat) (a : basic_trie) (i : Int), 0 ≤ a.size → -1 ≤ i → i < a.size →
      find_base_loop inputs e n a i = basic_trie.find_base_loop inputs e n a i := by
  intro n
  induction n with
  | zero => intro a i _ _ _; rfl
  | succ n ih =>
    intro a i h0 hi1 hi2
    unfold find_base_loop basic_trie.find_base_loop
    have key : ∃ a1 : basic_trie,
        (if i + 1 + e.max ≥ a.size then a.inflate e.max else a) = a1 ∧
        i + 1 + e.max < a1.size ∧ a.size ≤ a1.size := by
      by_cases hg : i + 1 + e.max ≥ a.size
      · refine ⟨a.inflate e.max, by simp [hg], ?_, ?_⟩
        · have := basic_trie.inflate_size_gt a e.max
          omega
        · have := basic_trie.inflate_size_gt a e.max
          omega
      · exact ⟨a, by simp [hg], by omega, le_refl _⟩
    obtain ⟨a1, ha1, hlt, hle⟩ := key
    simp only [ha1]
    rw [candidate_free_ok a1 inputs e (i + 1) ⟨by omega, by omega⟩ ⟨by omega, by omega⟩
      (fun p hp => by have := hin p hp; exact ⟨by omega, by omega⟩)]
    by_cases hf : a1.check (i + 1 + e.min) ≤ 0 ∧ a1.check (i + 1 + e.max) ≤ 0
        ∧ ∀ p ∈ inputs, ¬ a1.check (i + 1 + p) > 0
    · rw [decide_eq_true hf, if_pos hf]
    · rw [decide_eq_false hf, if_neg hf]
      exact ih a1 (i + 1) (by omega) (by omega) (by omega)

theorem find_base_ok (a : basic_trie) (inputs : List Int) (e : extremum_type)
    (hin : ∀ p ∈ inputs, 0 ≤ p ∧ p ≤ e.max) (hmin : 0 ≤ e.min ∧ e.min ≤ e.max)
    (h0 : 0 ≤ a.size) (hlb : 0 ≤ a.last_base ∧ a.last_base < a.size) :
    find_base a inputs e = a.find_base inputs e := by
  unfold find_base basic_trie.find_base
  rw [find_base_loop_ok inputs e hin hmin _ a a.last_base h0 (by omega) hlb.2]
  try rfl

end guarded

namespace basic_trie

theorem move_child_size (a : basic_trie) (obase nbase c : Int) :
    (a.move_child obase nbase c).size = a.size := by
  unfold move_child
  simp only
  rw [(reparent_foldl (obase + c) (nbase + c) _ _).2.1]
  rfl

theorem relocate_step_size {σ : Type} (cb : relocator σ) (obase nbase c stand : Int)
    (a : basic_trie) (o : σ) (r : Int × basic_trie × σ)
    (h : relocate_step cb obase nbase c stand a o = .ok r) : r.2.1.size = a.size := by
  unfold relocate_step at h
  split at h
  · cases h
  · cases h
    simp only [set_check_size, set_base_size, move_child_size]

theorem relocate_loop_size {σ : Type} (cb : relocator σ) (s obase nbase : Int) :
    ∀ (L : List Int) (stand : Int) (a : basic_trie) (o : σ) (r : Int × basic_trie × σ),
      relocate_loop cb s obase nbase L stand a o = .ok r → r.2.1.size = a.size := by
  intro L
  induction L with
  | nil =>
    intro stand a o r h
    simp only [relocate_loop] at h
    cases h
    rfl
  | cons c rest ih =>
    intro stand a o r h
    unfold relocate_loop at h
    by_cases hc : a.check (obase + c) ≠ s
    · rw [if_pos hc] at h
      exact ih _ _ _ _ h
    · rw [if_neg hc] at h
      cases hstep : relocate_step cb obase nbase c stand a o with
      | error err => rw [hstep] at h; cases h
      | ok r1 =>
        rw [hstep] at h
        obtain ⟨st1, a1, o1⟩ := r1
        simp only at h
        rw [ih _ _ _ _ h]
        exact relocate_step_size cb obase nbase c stand a o _ hstep

end basic_trie

namespace guarded

theorem reparent_ok (obase nbase c : Int) :
    ∀ (targets : List Int) (a : basic_trie), (0 ≤ obase + c ∧ obase + c < a.size) →
      (∀ p ∈ targets, 0 ≤ a.base (obase + c) + p ∧ a.base (obase + c) + p < a.size) →
      reparent obase nbase c targets a =
        .ok (targets.foldl (fun acc p => acc.set_check (acc.base (obase + c) + p) (nbase + c)) a) := by
  intro targets
  induction targets with
  | nil => intro a _ _; rfl
  | cons p rest ih =>
    intro a h1 h2
    unfold reparent
    rw [base_ok a _ h1]
    simp only
    rw [set_check_ok a _ _ (h2 p (List.mem_cons_self _ _))]
    simp only [List.foldl_cons]
    exact ih _ h1 (fun q hq => h2 q (List.mem_cons_of_mem _ hq))

theorem move_child_ok (a : basic_trie) (obase nbase c : Int)
    (ho : 0 ≤ obase + c ∧ obase + c < a.size) (hn : 0 ≤ nbase + c ∧ nbase + c < a.size) :
    move_child a obase nbase c = .ok (a.move_child obase nbase c) := by
  unfold move_child basic_trie.move_child
  rw [base_ok a _ ho]
  simp only
  rw [set_base_ok a _ _ hn]
  simp only
  rw [check_ok _ _ (by exact ho)]
  simp only
  rw [set_check_ok _ _ _ (by exact hn)]
  simp only
  rw [find_exist_target_ok _ _ (by exact ho)]
  simp only
  apply reparent_ok
  · exact ho
  · intro p hp
    have := ((basic_trie.mem_find_exist_target _ _ _ p).1 hp).2.2
    obtain ⟨_, h2, h3, _⟩ := this
    unfold basic_trie.next at h2 h3
    exact ⟨by omega, h3⟩

theorem relocate_step_ok {σ : Type} (cb : relocator σ) (obase nbase c stand : Int)
    (a : basic_trie) (o : σ)
    (ho : 0 ≤ obase + c ∧ obase + c < a.size) (hn : 0 ≤ nbase + c ∧ nbase + c < a.size) :
    relocate_step cb obase nbase c stand a o
      = basic_trie.relocate_step cb obase nbase c stand a o := by
  unfold relocate_step basic_trie.relocate_step
  rw [move_child_ok a obase nbase c ho hn]
  simp only
  cases hcb : cb (a.move_child obase nbase c) (obase + c) (nbase + c) o with
  | error err => rfl
  | ok o1 =>
    simp only
    rw [set_base_ok _ _ _ (by rw [basic_trie.move_child_size]; exact ho)]
    simp only
    rw [set_check_ok _ _ _ (by
      rw [basic_trie.set_base_size, basic_trie.move_child_size]; exact ho)]

theorem relocate_loop_ok {σ : Type} (cb : relocator σ) (s obase nbase : Int) :
    ∀ (L : List Int) (stand : Int) (a : basic_trie) (o : σ),
      (∀ c ∈ L, (0 ≤ obase + c ∧ obase + c < a.size) ∧ (0 ≤ nbase + c ∧ nbase + c < a.size)) →
      relocate_loop cb s obase nbase L stand a o
        = basic_trie.relocate_loop cb s obase nbase L stand a o := by
  intro L
  induction L with
  | nil => intro stand a o _; rfl
  | cons c rest ih =>
    intro stand a o h
    have hc := h c (List.mem_cons_self _ _)
    unfold relocate_loop basic_trie.relocate_loop
    rw [check_ok a _ hc.1]
    simp only
    by_cases hk : a.check (obase + c) ≠ s
    · rw [if_pos hk, if_pos hk]
      exact ih _ _ _ (fun q hq => h q (List.mem_cons_of_mem _ hq))
    · rw [if_neg hk, if_neg hk, relocate_step_ok cb obase nbase c stand a o hc.1 hc.2]
      cases hstep : basic_trie.relocate_step cb obase nbase c stand a o with
      | error err => rfl
      | ok r1 =>
        obtain ⟨st1, a1, o1⟩ := r1
        simp only
        have hsz := basic_trie.relocate_step_size cb obase nbase c stand a o _ hstep
        simp only at hsz
        exact ih _ _ _ (fun q hq => by rw [hsz]; exact h q (List.mem_cons_of_mem _ hq))

theorem relocate_ok {σ : Type} (cb : relocator σ) (a : basic_trie) (o : σ)
    (stand s : Int) (inputs : List Int) (e : extremum_type)
    (hs : 0 ≤ s ∧ s < a.size)
    (hin : ∀ p ∈ inputs, 0 ≤ p ∧ p ≤ e.max) (hmin : 0 ≤ e.min ∧ e.min ≤ e.max)
    (hlb : 0 ≤ a.last_base ∧ a.last_base < a.size)
    (hold : ∀ p ∈ inputs, 0 ≤ a.base s + p ∧ a.base s + p < a.size) :
    relocate cb a o stand s inputs e = a.relocate cb o stand s inputs e := by
  unfold relocate basic_trie.relocate
  rw [base_ok a s hs]
  simp only
  rw [find_base_ok a inputs e hin hmin (by omega) hlb]
  obtain ⟨nbase, a1, f1, f2, f3, _, _, f6, _⟩ :=
    basic_trie.find_base_spec a inputs e hin hmin (by omega) hlb.2
  rw [f1]
  simp only
  have hsz := f6.size_le
  rw [relocate_loop_ok cb s (a.base s) nbase inputs stand a1 o (fun c hc => by
    have h1 := hold c hc
    have h2 := hin c hc
    exact ⟨⟨h1.1, by omega⟩, ⟨by omega, by omega⟩⟩)]
  cases hloop : basic_trie.relocate_loop cb s (a.base s) nbase inputs stand a1 o with
  | error err => rfl
  | ok r1 =>
    obtain ⟨st1, a2, o1⟩ := r1
    simp only
    have := basic_trie.relocate_loop_size cb s (a.base s) nbase inputs stand a1 o _ hloop
    simp only at this
    rw [set_base_ok a2 s nbase ⟨hs.1, by omega⟩]

end guarded

namespace basic_trie

theorem create_transition_aux_def {σ : Type} (cb : relocator σ) (a : basic_trie) (o : σ)
    (s ch : Int) :
    a.create_transition_aux cb o s ch =
      if (a.grow_to (a.next s ch)).base s > 0 ∧
          (a.grow_to (a.next s ch)).check ((a.grow_to (a.next s ch)).next s ch) ≤ 0 then
        .ok (s, (a.grow_to (a.next s ch)).next s ch,
          (a.grow_to (a.next s ch)).set_check ((a.grow_to (a.next s ch)).next s ch) s, o)
      else
        match (a.grow_to (a.next s ch)).make_room cb o s ch
            ((a.grow_to (a.next s ch)).next s ch) with
        | .error err => .error err
        | .ok (s1, a1, o1) =>
          .ok (s1, (a1.grow_to (a1.next s1 ch)).next s1 ch,
            (a1.grow_to (a1.next s1 ch)).set_check ((a1.grow_to (a1.next s1 ch)).next s1 ch) s1,
            o1) := by
  rfl

end basic_trie

namespace basic_trie

theorem relocate_loop_stand {σ : Type} (cb : relocator σ) (s obase nbase : Int) :
    ∀ (L : List Int) (stand : Int) (a : basic_trie) (o : σ) (r : Int × basic_trie × σ),
      relocate_loop cb s obase nbase L stand a o = .ok r →
      r.1 = stand ∨ ∃ c ∈ L, r.1 = nbase + c := by
  intro L
  induction L with
  | nil =>
    intro stand a o r h
    simp only [relocate_loop] at h
    cases h
    exact Or.inl rfl
  | cons c rest ih =>
    intro stand a o r h
    unfold relocate_loop at h
    by_cases hc : a.check (obase + c) ≠ s
    · rw [if_pos hc] at h
      rcases ih _ _ _ _ h with h1 | ⟨c1, h1, h2⟩
      · exact Or.inl h1
      · exact Or.inr ⟨c1, List.mem_cons_of_mem _ h1, h2⟩
    · rw [if_neg hc] at h
      cases hstep : relocate_step cb obase nbase c stand a o with
      | error err => rw [hstep] at h; cases h
      | ok r1 =>
        rw [hstep] at h
        obtain ⟨st1, a1, o1⟩ := r1
        simp only at h
        have hst : st1 = if stand = obase + c then nbase + c else stand := by
          unfold relocate_step at hstep
          split at hstep
          · cases hstep
          · cases hstep; rfl
        rcases ih _ _ _ _ h with h1 | ⟨c1, h1, h2⟩
        · rw [h1, hst]
          by_cases h3 : stand = obase + c
          · rw [if_pos h3]; exact Or.inr ⟨c, List.mem_cons_self _ _, rfl⟩
          · rw [if_neg h3]; exact Or.inl rfl
        · exact Or.inr ⟨c1, List.mem_cons_of_mem _ h1, h2⟩

/-- The state where the caller stands after `relocate` is inside the array. -/
theorem relocate_stand_lt {σ : Type} (cb : relocator σ) (a : basic_trie) (o : σ)
    (stand s : Int) (inputs : List Int) (e : extremum_type)
    (hin : ∀ p ∈ inputs, 0 ≤ p ∧ p ≤ e.max) (hmin : 0 ≤ e.min ∧ e.min ≤ e.max)
    (hlb : 0 ≤ a.last_base ∧ a.last_base < a.size)
    (hst : 0 ≤ stand ∧ stand < a.size)
    (r : Int × basic_trie × σ) (h : a.relocate cb o stand s inputs e = .ok r) :
    0 ≤ r.1 ∧ r.1 < r.2.1.size := by
  obtain ⟨nbase, a1, f1, f2, f3, _, _, f6, _⟩ :=
    find_base_spec a inputs e hin hmin (by omega) hlb.2
  unfold relocate at h
  rw [f1] at h
  simp only at h
  cases hloop : relocate_loop cb s (a.base s) nbase inputs stand a1 o with
  | error err => rw [hloop] at h; cases h
  | ok r1 =>
    rw [hloop] at h
    obtain ⟨st1, a2, o1⟩ := r1
    simp only at h
    cases h
    have hsz := relocate_loop_size cb s (a.base s) nbase inputs stand a1 o _ hloop
    simp only at hsz
    have hle := f6.size_le
    simp only [set_base_size, hsz]
    rcases relocate_loop_stand cb s (a.base s) nbase inputs stand a1 o _ hloop with h1 | ⟨c, h1, h2⟩
    · simp only at h1
      rw [h1]; exact ⟨hst.1, by omega⟩
    · simp only at h2
      have := hin c h1
      rw [h2]; exact ⟨by omega, by omega⟩

end basic_trie

namespace guarded

theorem make_room_ok {σ : Type} (cb : relocator σ) (a : basic_trie) (o : σ) (s c : Int)
    (hwf : a.WF) (hs : a.allocated s) (hb : 0 ≤ a.base s) (hc : 1 ≤ c ∧ c ≤ 257)
    (ht0 : a.base s + c < a.size) :
    make_room cb a o s c (a.base s + c) = a.make_room cb o s c (a.base s + c) ∧
    ∀ r, a.make_room cb o s c (a.base s + c) = .ok r → 0 ≤ r.1 ∧ r.1 < r.2.1.size := by
  have hsb := hwf.allocated_lt s hs
  have hsr : 0 ≤ s ∧ s < a.size := ⟨by omega, hsb.2⟩
  have hcur := hwf.cursor
  obtain ⟨f1, f2, f3⟩ := basic_trie.find_exist_target_facts a s
  -- the two argument lists of `relocate`
  have own : ∀ st, relocate cb a o st s
        (cstr ((a.find_exist_target s ⟨0, 0⟩).1 ++ [c]))
        ⟨if c > (a.find_exist_target s ⟨0, 0⟩).2.max ∨ (a.find_exist_target s ⟨0, 0⟩).2.max = 0
          then c else (a.find_exist_target s ⟨0, 0⟩).2.max,
         if c < (a.find_exist_target s ⟨0, 0⟩).2.min ∨ (a.find_exist_target s ⟨0, 0⟩).2.min = 0
          then c else (a.find_exist_target s ⟨0, 0⟩).2.min⟩
      = a.relocate cb o st s
        (cstr ((a.find_exist_target s ⟨0, 0⟩).1 ++ [c]))
        ⟨if c > (a.find_exist_target s ⟨0, 0⟩).2.max ∨ (a.find_exist_target s ⟨0, 0⟩).2.max = 0
          then c else (a.find_exist_target s ⟨0, 0⟩).2.max,
         if c < (a.find_exist_target s ⟨0, 0⟩).2.min ∨ (a.find_exist_target s ⟨0, 0⟩).2.min = 0
          then c else (a.find_exist_target s ⟨0, 0⟩).2.min⟩ ∧
      (0 ≤ st ∧ st < a.size → ∀ r, a.relocate cb o st s
        (cstr ((a.find_exist_target s ⟨0, 0⟩).1 ++ [c]))
        ⟨if c > (a.find_exist_target s ⟨0, 0⟩).2.max ∨ (a.find_exist_target s ⟨0, 0⟩).2.max = 0
          then c else (a.find_exist_target s ⟨0, 0⟩).2.max,
         if c < (a.find_exist_target s ⟨0, 0⟩).2.min ∨ (a.find_exist_target s ⟨0, 0⟩).2.min = 0
          then c else (a.find_exist_target s ⟨0, 0⟩).2.min⟩ = .ok r →
        0 ≤ r.1 ∧ r.1 < r.2.1.size) := by
    intro st
    rw [basic_trie.cstr_of_pos _ (fun p hp => by
      rcases List.mem_append.1 hp with h | h
      · exact (f1 p h).2.2
      · simp only [List.mem_singleton] at h; omega)]
    rw [f3]
    simp only [or_true, if_true]
    generalize hmax : (if c > (a.find_exist_target s ⟨0, 0⟩).2.max ∨
        (a.find_exist_target s ⟨0, 0⟩).2.max = 0 then c
        else (a.find_exist_target s ⟨0, 0⟩).2.max) = emax
    have hL1 : ∀ p ∈ (a.find_exist_target s ⟨0, 0⟩).1 ++ [c],
        0 ≤ p ∧ p ≤ (⟨emax, c⟩ : extremum_type).max := by
      intro p hp
      simp only
      rcases List.mem_append.1 hp with h | h
      · have := f1 p h
        rw [← hmax]
        split_ifs <;> omega
      · simp only [List.mem_singleton] at h
        rw [← hmax, h]
        split_ifs with h1
        · omega
        · push_neg at h1; omega
    have hmin : 0 ≤ (⟨emax, c⟩ : extremum_type).min ∧
        (⟨emax, c⟩ : extremum_type).min ≤ (⟨emax, c⟩ : extremum_type).max := by
      have := hL1 c (List.mem_append.2 (Or.inr (List.mem_singleton.2 rfl)))
      simp only at this ⊢
      omega
    have hold : ∀ p ∈ (a.find_exist_target s ⟨0, 0⟩).1 ++ [c],
        0 ≤ a.base s + p ∧ a.base s + p < a.size := by
      intro p hp
      rcases List.mem_append.1 hp with h | h
      · obtain ⟨_, h2, h3, _⟩ := ((basic_trie.mem_find_exist_target a s ⟨0, 0⟩ p).1 h).2.2
        unfold basic_trie.next at h2 h3
        exact ⟨by omega, h3⟩
      · simp only [List.mem_singleton] at h
        rw [h]; exact ⟨by omega, ht0⟩
    exact ⟨relocate_ok cb a o st s _ _ hsr hL1 hmin hcur hold,
      fun hst r hr => basic_trie.relocate_stand_lt cb a o st s _ _ hL1 hmin hcur hst r hr⟩
  unfold make_room basic_trie.make_room
  rw [find_exist_target_ok a s hsr]
  simp only
  rw [check_ok a _ ⟨by omega, ht0⟩]
  simp only
  by_cases hP0 : a.check (a.base s + c) ≠ 0
  · simp only [hP0, ne_eq, not_false_eq_true, if_true]
    generalize hPdef : a.check (a.base s + c) = P at hP0 ⊢
    have hPa : a.allocated P := by
      rw [← hPdef]; exact hwf.parent _ (by rw [hPdef]; exact hP0)
    have hPb := hwf.allocated_lt P hPa
    have hPr : 0 ≤ P ∧ P < a.size := ⟨by omega, hPb.2⟩
    rw [find_exist_target_ok a P hPr]
    simp only
    obtain ⟨g1, g2, g3⟩ := basic_trie.find_exist_target_facts a P
    by_cases hB : ((a.find_exist_target P ⟨0, 0⟩).1.length : Int) > 0 ∧
        ((a.find_exist_target s ⟨0, 0⟩).1.length : Int) + 1 >
          (a.find_exist_target P ⟨0, 0⟩).1.length
    · rw [if_pos hB, if_pos hB]
      rw [basic_trie.cstr_of_pos _ (fun p hp => (g1 p hp).2.2)]
      have hL1 : ∀ p ∈ (a.find_exist_target P ⟨0, 0⟩).1,
          0 ≤ p ∧ p ≤ (a.find_exist_target P ⟨0, 0⟩).2.max :=
        fun p hp => ⟨by have := (g1 p hp).1; omega, (g1 p hp).2.1⟩
      have hmin : 0 ≤ (a.find_exist_target P ⟨0, 0⟩).2.min ∧
          (a.find_exist_target P ⟨0, 0⟩).2.min ≤ (a.find_exist_target P ⟨0, 0⟩).2.max := by
        rw [g3]; exact ⟨le_refl _, g2⟩
      have hold : ∀ p ∈ (a.find_exist_target P ⟨0, 0⟩).1,
          0 ≤ a.base P + p ∧ a.base P + p < a.size := by
        intro p hp
        obtain ⟨_, h2, h3, _⟩ := ((basic_trie.mem_find_exist_target a P ⟨0, 0⟩ p).1 hp).2.2
        unfold basic_trie.next at h2 h3
        exact ⟨by omega, h3⟩
      exact ⟨relocate_ok cb a o s P _ _ hPr hL1 hmin hcur hold,
        fun r hr => basic_trie.relocate_stand_lt cb a o s P _ _ hL1 hmin hcur hsr r hr⟩
    · rw [if_neg hB, if_neg hB]
      exact ⟨(own s).1, (own s).2 hsr⟩
  · have hP1 : a.check (a.base s + c) = 0 := by
      by_contra h; exact hP0 h
    simp only [hP1, ne_eq, not_true_eq_false, if_false, List.length_nil, Nat.cast_zero,
      gt_iff_lt, lt_self_iff_false, false_and]
    exact ⟨(own s).1, (own s).2 hsr⟩

end guarded

namespace guarded

theorem cell_free_ok (a : basic_trie) (s t : Int) (hs : 0 ≤ s ∧ s < a.size)
    (ht : 0 ≤ t ∧ t < a.size) :
    cell_free a s t = .ok (decide (a.base s > 0 ∧ a.check t ≤ 0)) := by
  unfold cell_free
  rw [base_ok a s hs]
  simp only
  by_cases h1 : a.base s > 0
  · rw [if_pos h1, check_ok a t ht]
    simp [h1]
  · rw [if_neg h1]
    simp [h1]

theorem finish_ok (a : basic_trie) (s ch : Int) (hs : 0 ≤ s ∧ s < a.size)
    (ht : 0 ≤ a.next s ch) :
    finish a s ch = .ok ((a.grow_to (a.next s ch)).next s ch,
      (a.grow_to (a.next s ch)).set_check ((a.grow_to (a.next s ch)).next s ch) s) := by
  obtain ⟨g1, _, g3⟩ := basic_trie.grow_to_spec a (a.next s ch) (by omega)
  have hb : (a.grow_to (a.next s ch)).base s = a.base s := g1.base_of_lt s hs.2
  have hn : (a.grow_to (a.next s ch)).next s ch = a.next s ch := by
    show (a.grow_to (a.next s ch)).base s + ch = a.base s + ch
    rw [hb]
  unfold finish
  rw [next_ok a s ch hs]
  simp only
  rw [set_check_ok _ _ _ ⟨ht, g3⟩, hn]

/-- With every access asserted, `create_transition` runs as without the
assertions: none of them fails. -/
theorem create_transition_aux_ok {σ : Type} (cb : relocator σ)
    (hcb : ∀ b x y o, ∃ o1, cb b x y o = .ok o1)
    (a : basic_trie) (o : σ) (s c : Int) (hwf : a.WF) (hs : a.allocated s)
    (hb : 0 ≤ a.base s) (hc : 1 ≤ c ∧ c ≤ 257) :
    create_transition_aux cb a o s c = a.create_transition_aux cb o s c := by
  have hsb := hwf.allocated_lt s hs
  have hsr : 0 ≤ s ∧ s < a.size := ⟨by omega, hsb.2⟩
  have h0 : 0 ≤ a.size := by omega
  obtain ⟨s1', t', a3, o1', hrun, hspec⟩ :=
    basic_trie.create_transition_aux_spec cb hcb a o s c hwf hs hc
  obtain ⟨g1, g2, g3⟩ := basic_trie.grow_to_spec a (a.next s c) h0
  have hwf0 : (a.grow_to (a.next s c)).WF :=
    g1.preserves_wf hwf (by rw [g2]; have := hwf.cursor; have := g1.size_le; omega)
  have hs0 : (a.grow_to (a.next s c)).allocated s := by
    rcases hs with h1 | h1
    · exact Or.inl h1
    · exact Or.inr (by rw [g1.check_of_wf hwf]; exact h1)
  have hb0 : (a.grow_to (a.next s c)).base s = a.base s := g1.base_of_lt s hsb.2
  have hn : (a.grow_to (a.next s c)).next s c = a.next s c := by
    show (a.grow_to (a.next s c)).base s + c = a.base s + c
    rw [hb0]
  have hsr0 : 0 ≤ s ∧ s < (a.grow_to (a.next s c)).size := by
    have := g1.size_le
    exact ⟨hsr.1, by omega⟩
  have htpos : 0 ≤ a.next s c := by unfold basic_trie.next; omega
  rw [basic_trie.create_transition_aux_def] at hrun ⊢
  rw [hn] at hrun ⊢
  unfold create_transition_aux
  rw [next_ok a s c hsr]
  simp only
  rw [cell_free_ok _ s _ hsr0 ⟨htpos, g3⟩]
  by_cases hA : (a.grow_to (a.next s c)).base s > 0 ∧
      (a.grow_to (a.next s c)).check (a.next s c) ≤ 0
  · rw [decide_eq_true hA, if_pos hA]
    simp only
    rw [set_check_ok _ _ _ ⟨htpos, g3⟩]
  · rw [decide_eq_false hA, if_neg hA]
    rw [if_neg hA] at hrun
    simp only
    have hte : a.next s c = (a.grow_to (a.next s c)).base s + c := by
      rw [hb0]; rfl
    obtain ⟨m1, m2⟩ := make_room_ok cb (a.grow_to (a.next s c)) o s c hwf0 hs0
      (by rw [hb0]; exact hb) hc (by rw [← hte]; exact g3)
    rw [← hte] at m1 m2
    rw [m1]
    cases hm : (a.grow_to (a.next s c)).make_room cb o s c (a.next s c) with
    | error err => rfl
    | ok r =>
      obtain ⟨s1, a1, o1⟩ := r
      rw [hm] at hrun
      simp only at hrun ⊢
      have hst := m2 _ hm
      simp only at hst
      obtain ⟨k1, k2, _⟩ := basic_trie.grow_to_spec a1 (a1.next s1 c) (by omega)
      have hb1 : (a1.grow_to (a1.next s1 c)).base s1 = a1.base s1 := k1.base_of_lt s1 hst.2
      have hpos : 0 ≤ a1.next s1 c := by
        have e1 : s1' = s1 := by
          have := congrArg (fun x => match x with
            | Except.ok (z : Int × Int × basic_trie × σ) => z.1
            | Except.error _ => 0) hrun
          simp only at this
          exact this.symm
        have e2 : t' = (a1.grow_to (a1.next s1 c)).next s1 c := by
          have := congrArg (fun x => match x with
            | Except.ok (z : Int × Int × basic_trie × σ) => z.2.1
            | Except.error _ => 0) hrun
          simp only at this
          exact this.symm
        have := hspec.t_pos
        rw [e2] at this
        have e3 : (a1.grow_to (a1.next s1 c)).next s1 c = a1.next s1 c := by
          show (a1.grow_to (a1.next s1 c)).base s1 + c = a1.base s1 + c
          rw [hb1]
        rw [e3] at this
        omega
      rw [finish_ok a1 s1 c hst hpos]

end guarded

namespace basic_trie

theorem move_child_check_one (b : basic_trie) (obase nbase c : Int)
    (h1 : b.check 1 = 0) (hn : nbase + c ≠ 1) :
    (b.move_child obase nbase c).check 1 = 0 := by
  unfold move_child
  simp only
  rw [(reparent_foldl (obase + c) (nbase + c) _ _).2.2.2 1]
  have hchk : ((b.set_base (nbase + c) (b.base (obase + c))).set_check (nbase + c)
      ((b.set_base (nbase + c) (b.base (obase + c))).check (obase + c))).check 1 = 0 := by
    simp only [set_check_check, set_base_check]
    rw [if_neg (fun h => hn h.symm)]
    exact h1
  rw [if_neg, hchk]
  intro hmem
  obtain ⟨_, _, h3, _, _, h6⟩ := (mem_find_exist_target _ _ _ _).1 hmem
  unfold next at h6
  have e : ∀ z : Int, z + (1 - z) = 1 := fun z => by omega
  rw [e, hchk] at h6
  omega

/-- The events that `relocate` reports never name state 1, and the root stays
without owner. -/
theorem relocate_loop_record (P obase nbase : Int) (hP : P ≠ 0) :
    ∀ (L : List Int) (stand : Int) (b : basic_trie) (evs : List (Int × Int))
      (r : Int × basic_trie × List (Int × Int)),
      b.check 1 = 0 → (∀ c ∈ L, nbase + c ≠ 1) →
      relocate_loop record P obase nbase L stand b evs = .ok r →
      r.2.1.check 1 = 0 ∧ ∀ ev ∈ r.2.2, ev ∈ evs ∨ (ev.1 ≠ 1 ∧ ev.2 ≠ 1) := by
  intro L
  induction L with
  | nil =>
    intro stand b evs r h1 _ h
    simp only [relocate_loop] at h
    cases h
    exact ⟨h1, fun ev hev => Or.inl hev⟩
  | cons c rest ih =>
    intro stand b evs r h1 hL h
    have hrest : ∀ c ∈ rest, nbase + c ≠ 1 := fun q hq => hL q (List.mem_cons_of_mem _ hq)
    unfold relocate_loop at h
    by_cases hc : b.check (obase + c) ≠ P
    · rw [if_pos hc] at h
      exact ih _ _ _ _ h1 hrest h
    · rw [if_neg hc] at h
      push_neg at hc
      have hstep : relocate_step record obase nbase c stand b evs =
          .ok (if stand = obase + c then nbase + c else stand,
            ((b.move_child obase nbase c).set_base (obase + c) 0).set_check (obase + c) 0,
            (obase + c, nbase + c) :: evs) := rfl
      rw [hstep] at h
      simp only at h
      have hnc := hL c (List.mem_cons_self _ _)
      have h1' : (((b.move_child obase nbase c).set_base (obase + c) 0).set_check
          (obase + c) 0).check 1 = 0 := by
        simp only [set_check_check, set_base_check]
        split_ifs
        · rfl
        · exact move_child_check_one b obase nbase c h1 hnc
      obtain ⟨k1, k2⟩ := ih _ _ _ _ h1' hrest h
      refine ⟨k1, fun ev hev => ?_⟩
      rcases k2 ev hev with h2 | h2
      · rcases List.mem_cons.1 h2 with h3 | h3
        · right
          rw [h3]
          refine ⟨?_, hnc⟩
          intro h4
          simp only at h4
          rw [h4, h1] at hc
          exact hP hc.symm
        · exact Or.inl h3
      · exact Or.inr h2

theorem relocate_record (a : basic_trie) (evs : List (Int × Int)) (stand P : Int)
    (L : List Int) (e : extremum_type) (hP : P ≠ 0) (h1 : a.check 1 = 0)
    (hin : ∀ p ∈ L, 1 ≤ p ∧ p ≤ e.max) (hmin : 0 ≤ e.min ∧ e.min ≤ e.max)
    (hlb : 0 ≤ a.last_base ∧ a.last_base < a.size)
    (r : Int × basic_trie × List (Int × Int))
    (h : a.relocate record evs stand P L e = .ok r) :
    ∀ ev ∈ r.2.2, ev ∈ evs ∨ (ev.1 ≠ 1 ∧ ev.2 ≠ 1) := by
  obtain ⟨nbase, a1, f1, f2, _, _, _, f6, _⟩ :=
    find_base_spec a L e (fun p hp => ⟨by have := (hin p hp).1; omega, (hin p hp).2⟩) hmin
      (by omega) hlb.2
  unfold relocate at h
  rw [f1] at h
  simp only at h
  cases hloop : relocate_loop record P (a.base P) nbase L stand a1 evs with
  | error err => rw [hloop] at h; cases h
  | ok r1 =>
    rw [hloop] at h
    obtain ⟨st1, a2, o1⟩ := r1
    simp only at h
    cases h
    have h1' : a1.check 1 = 0 := by
      rw [f6.check_eq]
      split_ifs
      · rfl
      · exact h1
    exact (relocate_loop_record P (a.base P) nbase hP L stand a1 evs _ h1'
      (fun c hc => by have := (hin c hc).1; omega) hloop).2

theorem make_room_record (a : basic_trie) (evs : List (Int × Int)) (s c : Int)
    (hwf : a.WF) (hs : a.allocated s) (hc : 1 ≤ c ∧ c ≤ 257)
    (r : Int × basic_trie × List (Int × Int))
    (h : a.make_room record evs s c (a.base s + c) = .ok r) :
    ∀ ev ∈ r.2.2, ev ∈ evs ∨ (ev.1 ≠ 1 ∧ ev.2 ≠ 1) := by
  have hsb := hwf.allocated_lt s hs
  have hcur := hwf.cursor
  obtain ⟨f1, f2, f3⟩ := find_exist_target_facts a s
  unfold make_room at h
  have own : ∀ r, a.relocate record evs s s
        (cstr ((a.find_exist_target s ⟨0, 0⟩).1 ++ [c]))
        ⟨if c > (a.find_exist_target s ⟨0, 0⟩).2.max ∨ (a.find_exist_target s ⟨0, 0⟩).2.max = 0
          then c else (a.find_exist_target s ⟨0, 0⟩).2.max,
         if c < (a.find_exist_target s ⟨0, 0⟩).2.min ∨ (a.find_exist_target s ⟨0, 0⟩).2.min = 0
          then c else (a.find_exist_target s ⟨0, 0⟩).2.min⟩ = .ok r →
        ∀ ev ∈ r.2.2, ev ∈ evs ∨ (ev.1 ≠ 1 ∧ ev.2 ≠ 1) := by
    intro r hr
    rw [cstr_of_pos _ (fun p hp => by
      rcases List.mem_append.1 hp with h | h
      · exact (f1 p h).2.2
      · simp only [List.mem_singleton] at h; omega)] at hr
    rw [f3] at hr
    simp only [or_true, if_true] at hr
    generalize hmax : (if c > (a.find_exist_target s ⟨0, 0⟩).2.max ∨
        (a.find_exist_target s ⟨0, 0⟩).2.max = 0 then c
        else (a.find_exist_target s ⟨0, 0⟩).2.max) = emax at hr
    have hL1 : ∀ p ∈ (a.find_exist_target s ⟨0, 0⟩).1 ++ [c],
        1 ≤ p ∧ p ≤ (⟨emax, c⟩ : extremum_type).max := by
      intro p hp
      simp only
      rcases List.mem_append.1 hp with h | h
      · have := f1 p h
        rw [← hmax]
        split_ifs <;> omega
      · simp only [List.mem_singleton] at h
        rw [← hmax, h]
        split_ifs with h1
        · omega
        · push_neg at h1; omega
    have hmin : 0 ≤ (⟨emax, c⟩ : extremum_type).min ∧
        (⟨emax, c⟩ : extremum_type).min ≤ (⟨emax, c⟩ : extremum_type).max := by
      have := hL1 c (List.mem_append.2 (Or.inr (List.mem_singleton.2 rfl)))
      simp only at this ⊢
      omega
    exact relocate_record a evs s s _ _ (by omega) hwf.root hL1 hmin hcur r hr
  by_cases hP0 : a.check (a.base s + c) ≠ 0
  · simp only [hP0, ne_eq, not_false_eq_true, if_true] at h
    generalize hPdef : a.check (a.base s + c) = P at hP0 h
    obtain ⟨g1, g2, g3⟩ := find_exist_target_facts a P
    by_cases hB : ((a.find_exist_target P ⟨0, 0⟩).1.length : Int) > 0 ∧
        ((a.find_exist_target s ⟨0, 0⟩).1.length : Int) + 1 >
          (a.find_exist_target P ⟨0, 0⟩).1.length
    · rw [if_pos hB] at h
      rw [cstr_of_pos _ (fun p hp => (g1 p hp).2.2)] at h
      exact relocate_record a evs s _ _ _ hP0 hwf.root
        (fun p hp => ⟨(g1 p hp).1, (g1 p hp).2.1⟩) (by rw [g3]; exact ⟨le_refl _, g2⟩) hcur r h
    · rw [if_neg hB] at h
      exact own r h
  · have hP1 : a.check (a.base s + c) = 0 := by
      by_contra h; exact hP0 h
    simp only [hP1, ne_eq, not_true_eq_false, if_false, List.length_nil, Nat.cast_zero,
      gt_iff_lt, lt_self_iff_false, false_and] at h
    exact own r h

end basic_trie

namespace basic_trie

theorem record_total :
    ∀ (b : basic_trie) (x y : Int) (o : List (Int × Int)), ∃ o1, record b x y o = .ok o1 :=
  fun _ x y o => ⟨(x, y) :: o, rfl⟩

theorem ite_ok_transfer {α β : Type} (p : Prop) [Decidable p] (x y : Res α) (x1 y1 : Res β)
    (f : α → β) (hx : ∀ r, x = .ok r → x1 = .ok (f r)) (hy : ∀ r, y = .ok r → y1 = .ok (f r))
    (r : α) (h : (if p then x else y) = .ok r) : (if p then x1 else y1) = .ok (f r) := by
  by_cases hp : p
  · rw [if_pos hp] at h ⊢; exact hx r h
  · rw [if_neg hp] at h ⊢; exact hy r h

/-- The array that `relocate` produces does not depend on the observer. -/
theorem relocate_loop_indep {σ : Type} (cb : relocator σ) (s obase nbase : Int) :
    ∀ (L : List Int) (stand : Int) (a : basic_trie) (o : σ) (r : Int × basic_trie × σ),
      relocate_loop cb s obase nbase L stand a o = .ok r →
      relocate_loop no_relocator s obase nbase L stand a () = .ok (r.1, r.2.1, ()) := by
  intro L
  induction L with
  | nil =>
    intro stand a o r h
    simp only [relocate_loop] at h ⊢
    cases h
    rfl
  | cons c rest ih =>
    intro stand a o r h
    unfold relocate_loop at h ⊢
    by_cases hc : a.check (obase + c) ≠ s
    · rw [if_pos hc] at h ⊢
      exact ih _ _ _ _ h
    · rw [if_neg hc] at h ⊢
      have hstep : relocate_step no_relocator obase nbase c stand a () =
          .ok (if stand = obase + c then nbase + c else stand,
            ((a.move_child obase nbase c).set_base (obase + c) 0).set_check (obase + c) 0,
            ()) := rfl
      rw [hstep]
      simp only
      unfold relocate_step at h
      cases hcb : cb (a.move_child obase nbase c) (obase + c) (nbase + c) o with
      | error err => rw [hcb] at h; cases h
      | ok o1 =>
        rw [hcb] at h
        simp only at h
        exact ih _ _ _ _ h

theorem relocate_indep {σ : Type} (cb : relocator σ) (a : basic_trie) (o : σ)
    (stand s : Int) (inputs : List Int) (e : extremum_type) (r : Int × basic_trie × σ)
    (h : a.relocate cb o stand s inputs e = .ok r) :
    a.relocate no_relocator () stand s inputs e = .ok (r.1, r.2.1, ()) := by
  unfold relocate at h ⊢
  cases hfb : a.find_base inputs e with
  | error err => rw [hfb] at h; cases h
  | ok p =>
    obtain ⟨nbase, a1⟩ := p
    rw [hfb] at h
    simp only at h ⊢
    cases hloop : relocate_loop cb s (a.base s) nbase inputs stand a1 o with
    | error err => rw [hloop] at h; cases h
    | ok r1 =>
      rw [hloop] at h
      obtain ⟨st1, a2, o1⟩ := r1
      simp only at h
      cases h
      rw [relocate_loop_indep cb s (a.base s) nbase inputs stand a1 o _ hloop]

theorem make_room_indep {σ : Type} (cb : relocator σ) (a : basic_trie) (o : σ)
    (s ch t : Int) (r : Int × basic_trie × σ) (h : a.make_room cb o s ch t = .ok r) :
    a.make_room no_relocator () s ch t = .ok (r.1, r.2.1, ()) := by
  unfold make_room at h ⊢
  exact ite_ok_transfer _ _ _ _ _ (fun r => (r.1, r.2.1, ()))
    (fun r hr => relocate_indep cb a o _ _ _ _ r hr)
    (fun r hr => relocate_indep cb a o _ _ _ _ r hr) r h

theorem create_transition_aux_indep {σ : Type} (cb : relocator σ) (a : basic_trie) (o : σ)
    (s ch : Int) (r : Int × Int × basic_trie × σ)
    (h : a.create_transition_aux cb o s ch = .ok r) :
    a.create_transition_aux no_relocator () s ch = .ok (r.1, r.2.1, r.2.2.1, ()) := by
  rw [create_transition_aux_def] at h ⊢
  by_cases hA : (a.grow_to (a.next s ch)).base s > 0 ∧
      (a.grow_to (a.next s ch)).check ((a.grow_to (a.next s ch)).next s ch) ≤ 0
  · rw [if_pos hA] at h ⊢
    cases h
    rfl
  · rw [if_neg hA] at h ⊢
    cases hm : (a.grow_to (a.next s ch)).make_room cb o s ch
        ((a.grow_to (a.next s ch)).next s ch) with
    | error err => rw [hm] at h; cases h
    | ok r1 =>
      rw [hm] at h
      rw [make_room_indep cb _ o s ch _ r1 hm]
      obtain ⟨s1, a1, o1⟩ := r1
      simp only at h ⊢
      cases h
      rfl

theorem create_transition_aux_record (a : basic_trie) (s c : Int)
    (hwf : a.WF) (hs : a.allocated s) (hc : 1 ≤ c ∧ c ≤ 257)
    (r : Int × Int × basic_trie × List (Int × Int))
    (h : a.create_transition_aux record [] s c = .ok r) :
    ∀ ev ∈ r.2.2.2, ev.1 ≠ 1 ∧ ev.2 ≠ 1 := by
  have hsb := hwf.allocated_lt s hs
  obtain ⟨g1, g2, g3⟩ := grow_to_spec a (a.next s c) (by omega)
  have hwf0 : (a.grow_to (a.next s c)).WF :=
    g1.preserves_wf hwf (by rw [g2]; have := hwf.cursor; have := g1.size_le; omega)
  have hs0 : (a.grow_to (a.next s c)).allocated s := by
    rcases hs with h1 | h1
    · exact Or.inl h1
    · exact Or.inr (by rw [g1.check_of_wf hwf]; exact h1)
  rw [create_transition_aux_def] at h
  by_cases hA : (a.grow_to (a.next s c)).base s > 0 ∧
      (a.grow_to (a.next s c)).check ((a.grow_to (a.next s c)).next s c) ≤ 0
  · rw [if_pos hA] at h
    cases h
    intro ev hev
    cases hev
  · rw [if_neg hA] at h
    cases hm : (a.grow_to (a.next s c)).make_room record [] s c
        ((a.grow_to (a.next s c)).next s c) with
    | error err => rw [hm] at h; cases h
    | ok r1 =>
      rw [hm] at h
      have := make_room_record _ [] s c hwf0 hs0 hc r1 hm
      obtain ⟨s1, a1, o1⟩ := r1
      simp only at h this
      cases h
      intro ev hev
      rcases this ev hev with h2 | h2
      · cases h2
      · exact h2

end basic_trie

theorem int32_of_range (x : Int) (h1 : -2147483648 ≤ x) (h2 : x < 2147483648) :
    int32 x = x := by
  unfold int32
  omega

theorem resize_state_nsize_eq (size n : Int) (h0 : 0 ≤ size) (hn : 0 ≤ n)
    (hlt : size * 2 + n < 2147483648 - 4096) :
    resize_state_nsize size n = ((size * 2 + n) / 4096 + 1) * 4096 := by
  unfold resize_state_nsize
  rw [int32_of_range (size * 2) (by omega) (by omega),
    int32_of_range (size * 2 + n) (by omega) (by omega),
    Int.shiftRight_eq_div_pow]
  have e1 : ((2 ^ 12 : Nat) : Int) = 4096 := by norm_num
  rw [e1, int32_of_range ((size * 2 + n) / 4096 + 1) (by omega) (by omega)]
  have e2 : ((size * 2 + n) / 4096 + 1) <<< (12 : Int) = ((size * 2 + n) / 4096 + 1) * 4096 := by
    have := Int.shiftLeft_eq_mul_pow ((size * 2 + n) / 4096 + 1) 12
    rw [e1] at this
    exact this
  rw [e2, int32_of_range _ (by omega) (by omega)]


/-! ## The key -/

namespace key_type

theorem char_out_char_in (b : Nat) (h : b < 256) : char_out (char_in b) = b := by
  unfold char_out char_in
  omega

theorem char_in_ne_terminator (b : Nat) : char_in b ≠ kTerminator := by
  unfold char_in kTerminator kCharsetSize
  omega

theorem store_spec :
    ∀ (syms : List Int) (i : Nat) (k : key_type), i + syms.length ≤ k.data_capacity_ →
      ∃ k1, store syms i k = .ok k1 ∧ k1.data_capacity_ = k.data_capacity_ ∧
        k1.cstr_ = k.cstr_ ∧ k1.cstr_capacity_ = k.cstr_capacity_ ∧ k1.length_ = k.length_ ∧
        (∀ j, j < i ∨ i + syms.length ≤ j → k1.data_ j = k.data_ j) ∧
        (∀ j c, syms.get? j = some c → k1.data_ (i + j) = c) := by
  intro syms
  induction syms with
  | nil =>
    intro i k _
    exact ⟨k, rfl, rfl, rfl, rfl, rfl, fun _ _ => rfl, fun j c h => by simp at h⟩
  | cons c rest ih =>
    intro i k hcap
    simp only [List.length_cons] at hcap
    have hi : i < k.data_capacity_ := by omega
    obtain ⟨k1, h1, h2, h3, h4, h5, h6, h7⟩ :=
      ih (i + 1) { k with data_ := fun j => if j = i then c else k.data_ j } (by simp only; omega)
    refine ⟨k1, ?_, h2, h3, h4, h5, ?_, ?_⟩
    · simp only [store, set_data, hi, if_true]
      exact h1
    · intro j hj
      simp only [List.length_cons] at hj
      rw [h6 j (by omega)]
      simp only
      rw [if_neg (by omega)]
    · intro j x hx
      cases j with
      | zero =>
        simp only [List.get?_cons_zero, Option.some.injEq] at hx
        rw [h6 (i + 0) (by omega)]
        simp [hx]
      | succ j =>
        simp only [List.get?_cons_succ] at hx
        have := h7 j x hx
        have e : i + (j + 1) = i + 1 + j := by omega
        rw [e]; exact this

theorem assign_symbols_spec (k : key_type) (syms : List Int) :
    ∃ k1, k.assign_symbols syms = .ok k1 ∧ k1.length_ = syms.length ∧
      syms.length + 1 < k1.data_capacity_ ∧
      k1.cstr_ = k.cstr_ ∧ k1.cstr_capacity_ = k.cstr_capacity_ ∧
      (∀ j c, syms.get? j = some c → k1.data_ j = c) ∧
      k1.data_ syms.length = kTerminator := by
  unfold assign_symbols
  have key : ∃ k0 : key_type,
      (if syms.length + 1 ≥ k.data_capacity_ then k.resize_data syms.length else k) = k0 ∧
      syms.length + 1 < k0.data_capacity_ ∧ k0.cstr_ = k.cstr_ ∧
      k0.cstr_capacity_ = k.cstr_capacity_ := by
    by_cases h : syms.length + 1 ≥ k.data_capacity_
    · refine ⟨k.resize_data syms.length, by simp [h], ?_, rfl, rfl⟩
      simp only [resize_data]
      omega
    · exact ⟨k, by simp [h], by omega, rfl, rfl⟩
  obtain ⟨k0, hk0, hcap, hc1, hc2⟩ := key
  rw [hk0]
  obtain ⟨k1, h1, h2, h3, h4, _, h6, h7⟩ := store_spec syms 0 k0 (by omega)
  rw [h1]
  have hn : syms.length < k1.data_capacity_ := by omega
  simp only [set_data, hn, if_true]
  refine ⟨_, rfl, rfl, by simp only; omega, by simp only; rw [h3, hc1],
    by simp only; rw [h4, hc2], ?_, by simp⟩
  intro j c hj
  have hlt : j < syms.length := by
    by_contra hge
    rw [List.get?_eq_none.2 (by omega)] at hj
    cases hj
  have := h7 j c hj
  simp only [Nat.zero_add] at this
  simp only
  rw [if_neg (by omega)]
  exact this

theorem assign_eq (k : key_type) (bytes : List Nat) :
    k.assign bytes = k.assign_symbols (bytes.map char_in) := by
  unfold assign assign_symbols
  simp only [List.length_map]

theorem unbias_spec (n : Nat) (syms : List Int) (hs : ∀ c ∈ syms, c ≠ kTerminator) :
    ∀ (fuel i : Nat) (k : key_type), i ≤ n → n - i < fuel → n < k.data_capacity_ →
      n < k.cstr_capacity_ → syms.length = n → (∀ j c, syms.get? j = some c → k.data_ j = c) →
      k.data_ n = kTerminator →
      ∃ k1, unbias fuel i k = .ok (n, k1) ∧ k1.data_ = k.data_ ∧ k1.length_ = k.length_ ∧
        k1.data_capacity_ = k.data_capacity_ ∧ k1.cstr_capacity_ = k.cstr_capacity_ ∧
        (∀ j, j < i → k1.cstr_ j = k.cstr_ j) ∧
        (∀ j c, i ≤ j → syms.get? j = some c → k1.cstr_ j = char_out c) := by
  intro fuel
  induction fuel with
  | zero => intro i k _ h; omega
  | succ fuel ih =>
    intro i k hi hfuel hcap hccap hlen hdata hT
    unfold unbias
    have hic : i < k.data_capacity_ := by omega
    simp only [data, hic, if_true]
    by_cases hin : i = n
    · subst hin
      rw [hT]
      simp only [ne_eq, not_true_eq_false, if_false]
      refine ⟨k, rfl, rfl, rfl, rfl, rfl, fun _ _ => rfl, fun j c hj hc => ?_⟩
      have : j < syms.length := by
        by_contra hge
        rw [List.get?_eq_none.2 (by omega)] at hc
        cases hc
      omega
    · have hlt : i < syms.length := by omega
      have hget : syms.get? i = some (syms.get ⟨i, hlt⟩) := List.get?_eq_get hlt
      have hdi := hdata i _ hget
      have hne : k.data_ i ≠ kTerminator := by
        rw [hdi]; exact hs _ (List.get_mem syms i hlt)
      simp only [hne, ne_eq, not_false_eq_true, if_true]
      have hicc : i < k.cstr_capacity_ := by omega
      simp only [set_cstr, hicc, if_true]
      obtain ⟨k1, h1, h2, h3, h4, h5, h6, h7⟩ :=
        ih (i + 1) { k with cstr_ := fun j => if j = i then char_out (k.data_ i) else k.cstr_ j }
          (by omega) (by omega) hcap hccap hlen hdata hT
      refine ⟨k1, h1, h2, h3, h4, h5, ?_, ?_⟩
      · intro j hj
        rw [h6 j (by omega)]
        simp only
        rw [if_neg (by omega)]
      · intro j c hj hc
        by_cases hji : j = i
        · subst hji
          rw [h6 j (by omega)]
          simp only [if_true]
          rw [hdata j c hc]
        · exact h7 j c (by omega) hc

theorem c_str_spec (k : key_type) (syms : List Int) (hs : ∀ c ∈ syms, c ≠ kTerminator)
    (hcap : syms.length < k.data_capacity_)
    (hdata : ∀ j c, syms.get? j = some c → k.data_ j = c)
    (hT : k.data_ syms.length = kTerminator) :
    ∃ k1, k.c_str = .ok (syms.length, k1) ∧ k1.data_ = k.data_ ∧ k1.length_ = k.length_ ∧
      k1.data_capacity_ = k.data_capacity_ ∧ syms.length < k1.cstr_capacity_ ∧
      (∀ j c, syms.get? j = some c → k1.cstr_ j = char_out c) ∧
      k1.cstr_ syms.length = 0 := by
  unfold c_str
  have key : ∃ k0 : key_type,
      (if k.cstr_capacity_ < k.data_capacity_ then k.resize_cstr else k) = k0 ∧
      k0.data_ = k.data_ ∧ k0.length_ = k.length_ ∧ k0.data_capacity_ = k.data_capacity_ ∧
      k.data_capacity_ ≤ k0.cstr_capacity_ := by
    by_cases h : k.cstr_capacity_ < k.data_capacity_
    · exact ⟨k.resize_cstr, by simp [h], rfl, rfl, rfl, le_refl _⟩
    · exact ⟨k, by simp [h], rfl, rfl, rfl, by omega⟩
  obtain ⟨k0, hk0, e1, e2, e3, e4⟩ := key
  rw [hk0]
  obtain ⟨k1, h1, h2, h3, h4, h5, _, h7⟩ :=
    unbias_spec syms.length syms hs (k0.data_capacity_ + 1) 0 k0 (by omega) (by omega)
      (by omega) (by omega) rfl (by rw [e1]; exact hdata) (by rw [e1]; exact hT)
  rw [h1]
  have hn : syms.length < k1.cstr_capacity_ := by omega
  simp only [set_cstr, hn, if_true]
  refine ⟨_, rfl, by simp only; rw [h2, e1], by simp only; rw [h3, e2],
    by simp only; rw [h4, e3], hn, ?_, by simp⟩
  intro j c hc
  have hlt : j < syms.length := by
    by_contra hge
    rw [List.get?_eq_none.2 (by omega)] at hc
    cases hc
  simp only
  rw [if_neg (by omega)]
  exact h7 j c (by omega) hc

end key_type

/-! ## The link tables of the two-trie -/

theorem mem_set_insert (x t : Int) : ∀ l : List Int, x ∈ set_insert t l ↔ x = t ∨ x ∈ l := by
  intro l
  induction l with
  | nil => simp [set_insert]
  | cons y rest ih =>
    unfold set_insert
    by_cases h1 : t < y
    · simp [h1]
    · rw [if_neg h1]
      by_cases h2 : t = y
      · rw [if_pos h2]
        subst h2
        simp
      · rw [if_neg h2]
        simp only [List.mem_cons, ih]
        tauto

theorem mem_set_erase (x s : Int) (l : List Int) : x ∈ set_erase s l ↔ x ∈ l ∧ x ≠ s := by
  unfold set_erase
  simp

namespace double_trie

theorem relocate_front_spec (d : double_trie) (old new : Int)
    (hnew : d.lhs.base old < 0 → d.lhs.base new < 0) :
    relocate_front d.lhs old new d = .ok
      (if d.lhs.base old < 0 ∧ (d.index (-d.lhs.base old)).index > 0 then
        match d.refer (d.link_state old) with
        | none => d
        | some rec => d.set_refer (d.link_state old)
            ⟨rec.accept_index, set_insert new (set_erase old rec.referer)⟩
      else d) := by
  unfold relocate_front link_state
  by_cases h1 : d.lhs.base old < 0 ∧ (d.index (-d.lhs.base old)).index > 0
  · rw [if_pos h1, if_pos h1]
    simp only
    cases h2 : d.refer (d.accept (d.index (-d.lhs.base old)).index) with
    | none => rfl
    | some rec =>
      simp only [hnew h1.1, not_true_eq_false, if_false]
  · rw [if_neg h1, if_neg h1]

end double_trie

namespace double_trie

theorem find_index_entry_spec (d : double_trie) (s : Int)
    (hs : d.lhs.base s < 0 → -d.lhs.base s < d.index_size)
    (hnext : 1 ≤ d.next_index) (hfree : ∀ x ∈ d.free_index, 1 ≤ x) :
    ∃ i d1, d.find_index_entry s = .ok (i, d1) ∧ 1 ≤ i ∧ i < d1.index_size ∧
      d1.lhs.base s = -i ∧ d1.accept = d.accept ∧ d1.refer = d.refer ∧
      d1.rhs = d.rhs ∧ d.index_size ≤ d1.index_size ∧
      (∀ j, j < d.index_size → d1.index j = d.index j) ∧
      (∀ j, d.index_size ≤ j → j < d1.index_size → d1.index j = ⟨0, 0⟩) := by
  unfold find_index_entry
  by_cases hb : d.lhs.base s ≥ 0
  · rw [if_pos hb]
    cases hfi : d.free_index with
    | nil =>
      simp only
      by_cases hg : d.next_index ≥ d.index_size
      · rw [if_pos hg]
        have hlt : d.next_index < (d.next_index * 2 / 4096 + 1) * 4096 := by omega
        have hz : d.index_size ≤ d.next_index ∧
            d.next_index < (d.next_index * 2 / 4096 + 1) * 4096 := ⟨hg, hlt⟩
        simp only [hz, and_self, if_true, ne_eq, not_true_eq_false, if_false]
        refine ⟨_, _, rfl, hnext, hlt, by simp [basic_trie.set_base], rfl, rfl, rfl,
          by simp only; omega, ?_, ?_⟩
        · intro j hj
          simp only
          rw [if_neg (by omega)]
        · intro j h1 h2
          simp only at h2 ⊢
          rw [if_pos ⟨by omega, h2⟩]
      · rw [if_neg hg]
        refine ⟨_, _, rfl, hnext, by simp only; omega, by simp [basic_trie.set_base],
          rfl, rfl, rfl, le_refl _, fun j _ => rfl, ?_⟩
        intro j h1 h2
        simp only at h2
        omega
    | cons x rest =>
      have hx : 1 ≤ x := hfree x (by rw [hfi]; exact List.mem_cons_self _ _)
      simp only
      by_cases hg : x ≥ d.index_size
      · rw [if_pos hg]
        have hlt : x < (x * 2 / 4096 + 1) * 4096 := by omega
        have hz : d.index_size ≤ x ∧ x < (x * 2 / 4096 + 1) * 4096 := ⟨hg, hlt⟩
        simp only [hz, and_self, if_true, ne_eq, not_true_eq_false, if_false]
        refine ⟨_, _, rfl, hx, hlt, by simp [basic_trie.set_base], rfl, rfl, rfl,
          by simp only; omega, ?_, ?_⟩
        · intro j hj
          simp only
          rw [if_neg (by omega)]
        · intro j h1 h2
          simp only at h2 ⊢
          rw [if_pos ⟨by omega, h2⟩]
      · rw [if_neg hg]
        refine ⟨_, _, rfl, hx, by simp only; omega, by simp [basic_trie.set_base],
          rfl, rfl, rfl, le_refl _, fun j _ => rfl, ?_⟩
        intro j h1 h2
        simp only at h2
        omega
  · rw [if_neg hb]
    have hb2 : d.lhs.base s < 0 := by omega
    have := hs hb2
    exact ⟨_, d, rfl, by omega, this, by omega, rfl, rfl, rfl, le_refl _, fun _ _ => rfl,
      fun j h1 h2 => by omega⟩

theorem find_accept_entry_spec (d : double_trie) (i : Int) :
    ((d.find_accept_entry i).2.index i).index = (d.find_accept_entry i).1 ∧
    (∀ j, ((d.find_accept_entry i).2.index j).data = (d.index j).data) ∧
    (d.find_accept_entry i).2.lhs = d.lhs ∧ (d.find_accept_entry i).2.refer = d.refer ∧
    (d.find_accept_entry i).2.index_size = d.index_size := by
  unfold find_accept_entry
  by_cases h : (d.index i).index = 0
  · rw [if_pos h]
    simp only [set_index_index, if_true, true_and]
    refine ⟨?_, ?_, ?_, ?_⟩
    · intro j
      cases d.free_accept <;> simp only <;> split_ifs <;> simp
    · cases d.free_accept <;> simp only <;> split_ifs <;> rfl
    · cases d.free_accept <;> simp only <;> split_ifs <;> rfl
    · cases d.free_accept <;> simp only <;> split_ifs <;> rfl
  · rw [if_neg h]
    exact ⟨rfl, fun _ => rfl, rfl, rfl, rfl⟩

end double_trie

/-! ## The calls of `relocate` to the observer -/

namespace basic_trie

/-- What `find_base` prepares for the loop of `relocate`: on a well-formed
array, for an allocated state `P` and a list of symbols whose old cells are
all owned (or none of which is a child of `P`), the base found gives the
precondition of the loop. -/
theorem find_base_reloc_pre (a : basic_trie) (P : Int) (L : List Int) (e : extremum_type)
    (hwf : a.WF) (hP : a.allocated P)
    (hL1 : ∀ p ∈ L, 1 ≤ p ∧ p ≤ e.max) (hmin : 0 ≤ e.min ∧ e.min ≤ e.max)
    (hL3 : (∀ p ∈ L, a.check (a.base P + p) ≠ 0) ∨ ∀ p ∈ L, a.check (a.base P + p) ≠ P) :
    ∃ nbase b, a.find_base L e = .ok (nbase, b) ∧ Ext a b ∧ b.WF ∧
      (∀ x, b.check x = a.check x) ∧ b.base P = a.base P ∧ 1 ≤ nbase ∧
      (∀ p ∈ L, b.check (nbase + p) = 0 ∧ nbase + p < b.size) ∧
      RelocPre b P (a.base P) nbase L := by
  have hPlt := hwf.allocated_lt P hP
  obtain ⟨nbase, b, f1, f2, f3, f4, f5, f6, f7⟩ := find_base_spec a L e
    (fun p hp => ⟨by have := (hL1 p hp).1; omega, (hL1 p hp).2⟩) hmin
    (by have := hwf.size_gt; omega) hwf.cursor.2
  have hbwf : b.WF := f6.preserves_wf hwf (by rw [f7]; have := hwf.cursor.1; omega)
  have hchk : ∀ x, b.check x = a.check x := f6.check_of_wf hwf
  have hbaseP : b.base P = a.base P := f6.base_of_lt P hPlt.2
  have hfree : ∀ p ∈ L, b.check (nbase + p) = 0 ∧ nbase + p < b.size := by
    intro p hp
    have := f4 p hp
    have := hbwf.check_nonneg (nbase + p)
    have := (hL1 p hp).2
    exact ⟨by omega, by omega⟩
  have hn1 : 1 ≤ nbase := by have := hwf.cursor.1; omega
  refine ⟨nbase, b, f1, f6, hbwf, hchk, hbaseP, hn1, hfree, ?_, ?_, ?_, ?_⟩
  · intro c hc _; exact (hfree c hc).1
  · intro c hc c' hc' hk
    rcases hL3 with h3 | h3
    · have h4 := h3 c' hc'
      rw [← hchk] at h4
      intro h5
      rw [← h5, (hfree c hc).1] at h4
      exact h4 rfl
    · exact absurd (by rw [← hchk]; exact hk) (h3 c hc)
  · intro c hc hk
    constructor
    · intro h5
      rw [h5] at hk
      exact hbwf.noloop P (by rw [hk]; omega) hk
    · intro h5
      have h0 := (hfree c hc).1
      rw [h5, hchk] at h0
      rcases hP with h1 | h1
      · have := (hL1 c hc).1; omega
      · exact h1 h0
  · intro c _ hk
    have hk0 : b.check (a.base P + c) ≠ 0 := by rw [hk]; omega
    refine ⟨by have := hbwf.cell_ge _ hk0; omega, ?_⟩
    intro y hy
    have hy0 : b.check y ≠ 0 := by
      rw [hy]; have := hbwf.cell_ge _ hk0; omega
    have := hbwf.cell y hy0
    rw [hy] at this
    omega

end basic_trie

/-- The observer state after the loop of `relocate` is the observer run over
the calls of the loop. -/
theorem relocate_loop_calls {σ : Type} (cb : relocator σ) (s obase nbase : Int) :
    ∀ (L : List Int) (stand : Int) (a : basic_trie) (o : σ),
      observer_of (basic_trie.relocate_loop cb s obase nbase L stand a o) =
        replay cb obase nbase (basic_trie.relocate_calls s obase nbase L a) o := by
  intro L
  induction L with
  | nil => intro stand a o; rfl
  | cons c rest ih =>
    intro stand a o
    unfold basic_trie.relocate_loop basic_trie.relocate_calls
    by_cases hc : a.check (obase + c) ≠ s
    · rw [if_pos hc, if_pos hc]; exact ih stand a o
    · rw [if_neg hc, if_neg hc]
      unfold basic_trie.relocate_step replay
      cases hcb : cb (a.move_child obase nbase c) (obase + c) (nbase + c) o with
      | error err => rfl
      | ok o1 => exact ih _ _ _

/-- The observer state after `relocate` is the observer run over the calls of
its loop on the array that `find_base` returns. -/
theorem relocate_calls_eq {σ : Type} (cb : relocator σ) (a : basic_trie) (o : σ)
    (stand s : Int) (L : List Int) (e : extremum_type) (nbase : Int) (b : basic_trie)
    (hfb : a.find_base L e = .ok (nbase, b)) :
    observer_of (a.relocate cb o stand s L e) =
      replay cb (a.base s) nbase (basic_trie.relocate_calls s (a.base s) nbase L b) o := by
  rw [← relocate_loop_calls cb s (a.base s) nbase L stand b o]
  unfold basic_trie.relocate
  rw [hfb]
  simp only
  cases basic_trie.relocate_loop cb s (a.base s) nbase L stand b o with
  | error err => rfl
  | ok r => rfl

namespace basic_trie

/-- The calls of the loop of `relocate`: their symbols are the children among
the listed symbols, each once and in the order of the list, and at each call
the new cell holds the base of the old cell and the owner `P`, while the old
cell still holds its base and its owner. -/
theorem relocate_calls_spec (P obase nbase : Int) (hP : P ≠ 0) :
    ∀ (L : List Int) (b : basic_trie), RelocPre b P obase nbase L →
      ((relocate_calls P obase nbase L b).map Prod.snd).Sublist L ∧
      ((relocate_calls P obase nbase L b).map Prod.snd).Nodup ∧
      (∀ c, c ∈ (relocate_calls P obase nbase L b).map Prod.snd ↔
        c ∈ L ∧ b.check (obase + c) = P) ∧
      ∀ p ∈ relocate_calls P obase nbase L b,
        p.1.base (nbase + p.2) = b.base (obase + p.2) ∧ p.1.check (nbase + p.2) = P ∧
        p.1.base (obase + p.2) = b.base (obase + p.2) ∧ p.1.check (obase + p.2) = P := by
  intro L
  induction L with
  | nil =>
    intro b _
    simp [relocate_calls]
  | cons c rest ih =>
    intro b hpre
    unfold relocate_calls
    by_cases hc : b.check (obase + c) ≠ P
    · rw [if_pos hc]
      obtain ⟨i1, i2, i3, i4⟩ := ih b hpre.tail
      refine ⟨List.Sublist.cons _ i1, i2, fun c1 => ?_, i4⟩
      rw [i3]
      constructor
      · rintro ⟨h1, h2⟩; exact ⟨List.mem_cons_of_mem _ h1, h2⟩
      · rintro ⟨h1, h2⟩
        rcases List.mem_cons.1 h1 with h3 | h3
        · rw [h3] at h2; exact absurd h2 hc
        · exact ⟨h3, h2⟩
    · rw [if_neg hc]
      have hc : b.check (obase + c) = P := not_not.1 hc
      have hmem : c ∈ c :: rest := List.mem_cons_self _ _
      have hfree := hpre.free c hmem hc
      have hkids := hpre.kids c hmem hc
      have hnotP := hpre.notP c hmem hc
      have hnP : b.check (nbase + c) ≠ P := by rw [hfree]; exact fun h => hP h.symm
      have hne : obase + c ≠ nbase + c := by
        intro h; rw [h] at hc; exact hnP hc
      obtain ⟨m1, m2, m3, m4⟩ := move_child_spec b obase nbase c P hc hnP hnotP.1 hkids.1 hkids.2
      have hstep : relocate_step no_relocator obase nbase c 0 b () =
          .ok (if (0 : Int) = obase + c then nbase + c else 0,
            ((b.move_child obase nbase c).set_base (obase + c) 0).set_check (obase + c) 0,
            ()) := rfl
      obtain ⟨_, s2, _, s4, s5⟩ := relocate_step_spec no_relocator obase nbase c 0 b () _ P hc
        hnP hnotP.1 hkids.1 hkids.2 hstep
      simp only at s2 s4 s5
      have hpre1 := hpre.step hP hc s2 s4 s5
      obtain ⟨i1, i2, i3, i4⟩ := ih _ hpre1
      have back : ∀ c1 ∈ rest,
          ((((b.move_child obase nbase c).set_base (obase + c) 0).set_check (obase + c) 0).check
            (obase + c1) = P ↔ obase + c1 ≠ obase + c ∧ b.check (obase + c1) = P) := by
        intro c1 h1
        have : obase + c1 - obase ∈ rest := by
          have : obase + c1 - obase = c1 := by omega
          rw [this]; exact h1
        exact step_check_eq_P hP hpre hc s4 (obase + c1) this
      simp only [List.map_cons, List.mem_cons]
      refine ⟨List.Sublist.cons₂ _ i1, List.nodup_cons.2 ⟨?_, i2⟩, fun c1 => ?_, ?_⟩
      · intro h
        have := ((i3 c).1 h).2
        rw [s4] at this
        simp only [if_true] at this
        exact hP this.symm
      · rw [i3]
        constructor
        · rintro (h | ⟨h1, h2⟩)
          · rw [h]; exact ⟨Or.inl rfl, hc⟩
          · exact ⟨Or.inr h1, ((back c1 h1).1 h2).2⟩
        · rintro ⟨h1 | h1, h2⟩
          · exact Or.inl h1
          · by_cases h3 : c1 = c
            · exact Or.inl h3
            · exact Or.inr ⟨h1, (back c1 h1).2 ⟨by omega, h2⟩⟩
      · intro p hp
        rcases hp with hp | hp
        · rw [hp]
          simp only
          refine ⟨?_, ?_, ?_, ?_⟩
          · rw [m4]; simp
          · rw [m3]; simp
          · rw [m4, if_neg hne]
          · rw [m3, if_neg hne, hc, if_neg (fun h => hnotP.1 h.symm)]
        · obtain ⟨j1, j2, j3, j4⟩ := i4 p hp
          have hp2 : p.2 ∈ (relocate_calls P obase nbase rest
              (((b.move_child obase nbase c).set_base (obase + c) 0).set_check
                (obase + c) 0)).map Prod.snd := List.mem_map_of_mem _ hp
          obtain ⟨k1, k2⟩ := (i3 p.2).1 hp2
          obtain ⟨k3, k4⟩ := (back p.2 k1).1 k2
          have hap := hpre.apart c hmem p.2 (List.mem_cons_of_mem _ k1) hc
          have hb : (((b.move_child obase nbase c).set_base (obase + c) 0).set_check
              (obase + c) 0).base (obase + p.2) = b.base (obase + p.2) := by
            rw [s5, if_neg k3, if_neg (fun h => hap h.symm)]
          rw [hb] at j1 j3
          exact ⟨j1, j2, j3, j4⟩

end basic_trie

set_option maxRecDepth 100000 in
/-- The array `fork_array` is built from the empty array by three calls. -/
theorem fork_array_built : basic_trie.Built fork_array :=
  basic_trie.Built.step chain_array fork_array 3 2 5
    (basic_trie.Built.step
      (array_of (create_all [(1, 2)] (basic_trie.init 4096))) chain_array 3 1 4
      (basic_trie.Built.step (basic_trie.init 4096)
        (array_of (create_all [(1, 2)] (basic_trie.init 4096))) 1 2 3
        (basic_trie.Built.init 4096) (Or.inl rfl) (by decide) (by decide) (by rfl))
      (Or.inr (by decide)) (by decide) (by decide) (by rfl))
    (Or.inr (by decide)) (by decide) (by decide) (by rfl)

/-! ## The scans of `find_exist_target` and `find_base` -/

namespace basic_trie

/-- The symbols that the loop of `find_exist_target` collects from `ch` on
are in strictly ascending order. -/
theorem find_exist_target_loop_sorted (a : basic_trie) (s : Int) :
    ∀ (n : Nat) (ch : Int) (e : extremum_type),
      (a.find_exist_target_loop s n ch e).1.Pairwise (fun x y => x < y) := by
  intro n
  induction n with
  | zero => intro ch e; simp [find_exist_target_loop]
  | succ n ih =>
    intro ch e
    unfold find_exist_target_loop
    by_cases h1 : a.next s ch ≥ a.size
    · simp [h1]
    · simp only [h1, if_false]
      by_cases h2 : a.check_transition s (a.next s ch)
      · simp only [h2, if_true]
        refine List.pairwise_cons.2 ⟨?_, ih _ _⟩
        intro c hc
        have := (mem_find_exist_target_loop a s n (ch + 1) _ c).1 hc
        omega
      · simp only [h2, if_false]
        exact ih _ _

/-- The maximum that the loop of `find_exist_target` returns is the one it
was given or one of the symbols collected. -/
theorem find_exist_target_loop_max_mem (a : basic_trie) (s : Int) :
    ∀ (n : Nat) (ch : Int) (e : extremum_type),
      (a.find_exist_target_loop s n ch e).2.max = e.max ∨
        (a.find_exist_target_loop s n ch e).2.max ∈ (a.find_exist_target_loop s n ch e).1 := by
  intro n
  induction n with
  | zero => intro ch e; simp [find_exist_target_loop]
  | succ n ih =>
    intro ch e
    unfold find_exist_target_loop
    by_cases h1 : a.next s ch ≥ a.size
    · simp [h1]
    · simp only [h1, if_false]
      by_cases h2 : a.check_transition s (a.next s ch)
      · simp only [h2, if_true]
        rcases ih (ch + 1) ⟨if ch > e.max then ch else e.max, if ch < e.min then ch else e.min⟩
          with h | h
        · simp only at h
          by_cases h3 : ch > e.max
          · right
            rw [h, if_pos h3]
            exact List.mem_cons_self _ _
          · left
            rw [h, if_neg h3]
        · exact Or.inr (List.mem_cons_of_mem _ h)
      · simp only [h2, if_false]
        exact ih _ _

end basic_trie

namespace basic_trie

/-- The scan of `find_base` from a cursor inside the array of size `z` stops
at a candidate that is at most `z`, whatever fuel covers the candidates
tried. -/
theorem find_base_loop_inside (inputs : List Int) (e : extremum_type) (z : Int)
    (hin : ∀ p ∈ inputs, 0 ≤ p ∧ p ≤ 257)
    (hmin : 0 ≤ e.min ∧ e.min ≤ e.max ∧ e.max ≤ 257) (hz0 : 0 ≤ z) :
    ∀ (k : Nat) (a : basic_trie) (i : Int),
      z - i ≤ k → i < z → z ≤ a.size → (a.size = z ∨ z + 257 < a.size) →
      (∀ x, z ≤ x → x < a.size → a.check x = 0) →
      ∃ j a1, i < j ∧ j ≤ z ∧
        ∀ m : Nat, j - i ≤ m → find_base_loop inputs e m a i = .ok (j, a1) := by
  intro k
  induction k with
  | zero => intro a i h1 h2; omega
  | succ k ih =>
    intro a i hk hi hsz hroom hz
    -- the array after the growth test
    have key : ∃ a1 : basic_trie,
        (if i + 1 + e.max ≥ a.size then a.inflate e.max else a) = a1 ∧
        z ≤ a1.size ∧ (a1.size = z ∨ z + 257 < a1.size) ∧
        (i + 1 = z → z + 257 < a1.size) ∧
        (∀ x, z ≤ x → x < a1.size → a1.check x = 0) := by
      by_cases hg : i + 1 + e.max ≥ a.size
      · have hs : (a.inflate e.max).size = ((a.size * 2 + e.max) / 4096 + 1) * 4096 :=
          inflate_size a e.max
        have hbig : z + 257 < (a.inflate e.max).size := by
          rw [hs]; omega
        refine ⟨a.inflate e.max, by simp [hg], by omega, Or.inr hbig, fun _ => hbig, ?_⟩
        intro x hx1 hx2
        show (if a.size ≤ x ∧ x < _ then 0 else a.check x) = 0
        split_ifs with h3
        · rfl
        · have : x < a.size := by
            by_contra h4
            exact h3 ⟨by omega, hx2⟩
          exact hz x hx1 this
      · refine ⟨a, by simp [hg], hsz, hroom, ?_, hz⟩
        intro h1
        rcases hroom with h2 | h2
        · omega
        · exact h2
    obtain ⟨a1, ha1, hsz1, hroom1, hlast, hz1⟩ := key
    by_cases hfound : a1.check (i + 1 + e.min) ≤ 0 ∧ a1.check (i + 1 + e.max) ≤ 0
        ∧ ∀ p ∈ inputs, ¬ a1.check (i + 1 + p) > 0
    · refine ⟨i + 1, a1, by omega, by omega, ?_⟩
      intro m hm
      cases m with
      | zero => omega
      | succ m =>
        unfold find_base_loop
        simp only [ha1]
        rw [if_pos hfound]
    · have hsmall : i + 1 < z := by
        by_contra hge
        have heq : i + 1 = z := by omega
        have hbig := hlast heq
        apply hfound
        refine ⟨?_, ?_, ?_⟩
        · rw [hz1 _ (by omega) (by omega)]
        · rw [hz1 _ (by omega) (by omega)]
        · intro p hp
          have := hin p hp
          rw [hz1 _ (by omega) (by omega)]
          omega
      obtain ⟨j, a2, h1, h2, h3⟩ := ih a1 (i + 1) (by push_cast at hk; omega) hsmall hsz1
        hroom1 hz1
      refine ⟨j, a2, by omega, h2, ?_⟩
      intro m hm
      cases m with
      | zero => omega
      | succ m =>
        unfold find_base_loop
        simp only [ha1]
        rw [if_neg hfound]
        exact h3 m (by push_cast at hm; omega)

/-- The scan of `find_base` from a cursor at or beyond the last cell, when
the cells beyond the size read as zero: the first candidate is taken. -/
theorem find_base_loop_outside (inputs : List Int) (e : extremum_type)
    (hin : ∀ p ∈ inputs, 0 ≤ p) (hmin : 0 ≤ e.min ∧ e.min ≤ e.max)
    (a : basic_trie) (i : Int) (hi : a.size ≤ i + 1)
    (hz : ∀ x, a.size ≤ x → a.check x = 0) :
    ∃ a1, ∀ m : Nat, 1 ≤ m → find_base_loop inputs e m a i = .ok (i + 1, a1) := by
  have key : ∃ a1 : basic_trie,
      (if i + 1 + e.max ≥ a.size then a.inflate e.max else a) = a1 ∧
      (∀ x, a.size ≤ x → a1.check x = 0) := by
    by_cases hg : i + 1 + e.max ≥ a.size
    · refine ⟨a.inflate e.max, by simp [hg], ?_⟩
      intro x hx
      show (if a.size ≤ x ∧ x < _ then 0 else a.check x) = 0
      split_ifs
      · rfl
      · exact hz x hx
    · exact ⟨a, by simp [hg], hz⟩
  obtain ⟨a1, ha1, hz1⟩ := key
  refine ⟨a1, ?_⟩
  intro m hm
  cases m with
  | zero => omega
  | succ m =>
    unfold find_base_loop
    simp only [ha1]
    rw [if_pos]
    refine ⟨?_, ?_, ?_⟩
    · rw [hz1 _ (by omega)]
    · rw [hz1 _ (by omega)]
    · intro p hp
      have := hin p hp
      rw [hz1 _ (by omega)]
      omega

end basic_trie

/-! ## The index slots of the two-trie -/

theorem ite_eq_cases {α : Type} (c : Prop) [Decidable c] (x y z : α)
    (h : (if c then x else y) = z) : x = z ∨ y = z := by
  split_ifs at h
  · exact Or.inl h
  · exact Or.inr h

namespace basic_trie

theorem SlotInv.of_base_le {a a1 : basic_trie} {nxt : Int} {fr : List Int}
    (h : SlotInv a nxt fr) (hb : ∀ x, a1.base x < 0 → a1.base x = a.base x)
    (hl : 0 ≤ a1.last_base) : SlotInv a1 nxt fr := by
  refine ⟨?_, ?_, ?_, h.nodup, h.free_range, h.next_pos, hl⟩
  · intro x y hx hxy
    have e1 := hb x hx
    have e2 := hb y (by rw [← hxy]; exact hx)
    exact h.inj x y (by rw [← e1]; exact hx) (by rw [← e1, ← e2]; exact hxy)
  · intro x hx
    have e1 := hb x hx
    rw [e1]
    exact h.range x (by rw [← e1]; exact hx)
  · intro x hx
    have e1 := hb x hx
    rw [e1]
    exact h.not_free x (by rw [← e1]; exact hx)

theorem SlotInv.move {a a1 : basic_trie} {nxt : Int} {fr : List Int}
    (h : SlotInv a nxt fr) (o n : Int)
    (hb : ∀ x, a1.base x = if x = o then 0 else if x = n then a.base o else a.base x)
    (hl : 0 ≤ a1.last_base) : SlotInv a1 nxt fr := by
  -- every negative base of `a1` is a base of `a`, at the same cell or moved from `o` to `n`
  have key : ∀ x, a1.base x < 0 → x ≠ o ∧
      ((x = n ∧ a1.base x = a.base o) ∨ (x ≠ n ∧ a1.base x = a.base x)) := by
    intro x hx
    have e := hb x
    by_cases h1 : x = o
    · rw [e, if_pos h1] at hx; omega
    · by_cases h2 : x = n
      · rw [if_neg h1, if_pos h2] at e
        exact ⟨h1, Or.inl ⟨h2, e⟩⟩
      · rw [if_neg h1, if_neg h2] at e
        exact ⟨h1, Or.inr ⟨h2, e⟩⟩
  refine ⟨?_, ?_, ?_, h.nodup, h.free_range, h.next_pos, hl⟩
  · intro x y hx hxy
    have hy : a1.base y < 0 := by rw [← hxy]; exact hx
    obtain ⟨x1, x2⟩ := key x hx
    obtain ⟨y1, y2⟩ := key y hy
    rcases x2 with ⟨x3, x4⟩ | ⟨x3, x4⟩
    · rcases y2 with ⟨y3, y4⟩ | ⟨y3, y4⟩
      · rw [x3, y3]
      · exfalso
        have := h.inj o y (by rw [← x4]; exact hx) (by rw [← x4, ← y4]; exact hxy)
        exact y1 this.symm
    · rcases y2 with ⟨y3, y4⟩ | ⟨y3, y4⟩
      · exfalso
        have := h.inj x o (by rw [← x4]; exact hx) (by rw [← x4, ← y4]; exact hxy)
        exact x1 this
      · exact h.inj x y (by rw [← x4]; exact hx) (by rw [← x4, ← y4]; exact hxy)
  · intro x hx
    obtain ⟨_, x2⟩ := key x hx
    rcases x2 with ⟨_, x4⟩ | ⟨_, x4⟩
    · rw [x4]; exact h.range o (by rw [← x4]; exact hx)
    · rw [x4]; exact h.range x (by rw [← x4]; exact hx)
  · intro x hx
    obtain ⟨_, x2⟩ := key x hx
    rcases x2 with ⟨_, x4⟩ | ⟨_, x4⟩
    · rw [x4]; exact h.not_free o (by rw [← x4]; exact hx)
    · rw [x4]; exact h.not_free x (by rw [← x4]; exact hx)

theorem move_child_base (b : basic_trie) (obase nbase c : Int) :
    (∀ x, (b.move_child obase nbase c).base x =
      if x = nbase + c then b.base (obase + c) else b.base x) ∧
    (b.move_child obase nbase c).last_base = b.last_base := by
  unfold move_child
  simp only
  obtain ⟨f1, _, f3, _⟩ := reparent_foldl (obase + c) (nbase + c)
    (((b.set_base (nbase + c) (b.base (obase + c))).set_check (nbase + c)
      ((b.set_base (nbase + c) (b.base (obase + c))).check (obase + c))).find_exist_target
        (obase + c) ⟨0, 0⟩).1
    ((b.set_base (nbase + c) (b.base (obase + c))).set_check (nbase + c)
      ((b.set_base (nbase + c) (b.base (obase + c))).check (obase + c)))
  refine ⟨fun x => ?_, ?_⟩
  · rw [f1]; simp
  · rw [f3]; rfl

theorem relocate_loop_slots {σ : Type} (cb : relocator σ) (s obase nbase : Int)
    (nxt : Int) (fr : List Int) :
    ∀ (L : List Int) (stand : Int) (a : basic_trie) (o : σ) (r : Int × basic_trie × σ),
      SlotInv a nxt fr → relocate_loop cb s obase nbase L stand a o = .ok r →
      SlotInv r.2.1 nxt fr := by
  intro L
  induction L with
  | nil =>
    intro stand a o r hk h
    simp only [relocate_loop] at h
    cases h
    exact hk
  | cons c rest ih =>
    intro stand a o r hk h
    unfold relocate_loop at h
    by_cases hc : a.check (obase + c) ≠ s
    · rw [if_pos hc] at h
      exact ih _ _ _ _ hk h
    · rw [if_neg hc] at h
      unfold relocate_step at h
      cases hcb : cb (a.move_child obase nbase c) (obase + c) (nbase + c) o with
      | error err => rw [hcb] at h; cases h
      | ok o1 =>
        rw [hcb] at h
        simp only at h
        obtain ⟨m1, m2⟩ := move_child_base a obase nbase c
        refine ih _ _ _ _ (hk.move (obase + c) (nbase + c) ?_ ?_) h
        · intro x
          simp only [set_check_base, set_base_base, m1]
        · simp only [set_check_last_base, set_base_last_base, m2]
          exact hk.cursor

theorem find_base_loop_base (inputs : List Int) (e : extremum_type) :
    ∀ (n : Nat) (a : basic_trie) (i : Int) (r : Int × basic_trie),
      find_base_loop inputs e n a i = .ok r →
      i < r.1 ∧ (∀ x, r.2.base x < 0 → r.2.base x = a.base x) ∧
      r.2.last_base = a.last_base := by
  intro n
  induction n with
  | zero => intro a i r h; simp only [find_base_loop] at h; cases h
  | succ n ih =>
    intro a i r h
    unfold find_base_loop at h
    have key : ∀ x, (if i + 1 + e.max ≥ a.size then a.inflate e.max else a).base x < 0 →
        (if i + 1 + e.max ≥ a.size then a.inflate e.max else a).base x = a.base x := by
      intro x
      split_ifs
      · show (if a.size ≤ x ∧ x < _ then 0 else a.base x) < 0 →
          (if a.size ≤ x ∧ x < _ then 0 else a.base x) = a.base x
        split_ifs
        · intro h0; omega
        · intro _; rfl
      · intro _; rfl
    have klb : (if i + 1 + e.max ≥ a.size then a.inflate e.max else a).last_base
        = a.last_base := by
      split_ifs <;> rfl
    simp only at h
    generalize (if i + 1 + e.max ≥ a.size then a.inflate e.max else a) = a1 at h key klb
    split_ifs at h with h1
    · cases h; exact ⟨by show i < i + 1; omega, key, klb⟩
    · obtain ⟨i1, i2, i3⟩ := ih _ _ _ h
      refine ⟨by omega, fun x hx => ?_, by rw [i3, klb]⟩
      have e1 := i2 x hx
      rw [e1]
      exact key x (by rw [← e1]; exact hx)

theorem find_base_slots (a : basic_trie) (inputs : List Int) (e : extremum_type)
    (nxt : Int) (fr : List Int) (r : Int × basic_trie)
    (hk : SlotInv a nxt fr) (h : a.find_base inputs e = .ok r) :
    SlotInv r.2 nxt fr ∧ 1 ≤ r.1 := by
  unfold find_base at h
  cases hl : find_base_loop inputs e ((a.size - a.last_base).toNat + 1) a a.last_base with
  | error err => rw [hl] at h; cases h
  | ok p =>
    obtain ⟨j, a1⟩ := p
    rw [hl] at h
    simp only at h
    cases h
    obtain ⟨i1, i2, _⟩ := find_base_loop_base inputs e _ a a.last_base (j, a1) hl
    have := hk.cursor
    exact ⟨hk.of_base_le i2 (by show 0 ≤ j; omega), by show 1 ≤ j; omega⟩

theorem relocate_slots {σ : Type} (cb : relocator σ) (a : basic_trie) (o : σ)
    (stand s : Int) (inputs : List Int) (e : extremum_type) (nxt : Int) (fr : List Int)
    (r : Int × basic_trie × σ) (hk : SlotInv a nxt fr)
    (h : a.relocate cb o stand s inputs e = .ok r) : SlotInv r.2.1 nxt fr := by
  unfold relocate at h
  cases hfb : a.find_base inputs e with
  | error err => rw [hfb] at h; cases h
  | ok p =>
    obtain ⟨nbase, a1⟩ := p
    rw [hfb] at h
    simp only at h
    obtain ⟨k1, k2⟩ := find_base_slots a inputs e nxt fr (nbase, a1) hk hfb
    cases hloop : relocate_loop cb s (a.base s) nbase inputs stand a1 o with
    | error err => rw [hloop] at h; cases h
    | ok r1 =>
      rw [hloop] at h
      obtain ⟨st1, a2, o1⟩ := r1
      simp only at h
      cases h
      have k3 := relocate_loop_slots cb s (a.base s) nbase nxt fr inputs stand a1 o _ k1 hloop
      refine k3.of_base_le ?_ k3.cursor
      intro x hx
      simp only [set_base_base] at hx ⊢
      split_ifs at hx ⊢ with h1
      · simp only at k2; omega
      · rfl

theorem grow_to_slots (a : basic_trie) (t : Int) (nxt : Int) (fr : List Int)
    (hk : SlotInv a nxt fr) : SlotInv (a.grow_to t) nxt fr := by
  unfold grow_to
  split_ifs
  · refine hk.of_base_le ?_ hk.cursor
    intro x
    show (if a.size ≤ x ∧ x < _ then 0 else a.base x) < 0 →
      (if a.size ≤ x ∧ x < _ then 0 else a.base x) = a.base x
    split_ifs
    · intro h0; omega
    · intro _; rfl
  · exact hk

theorem set_check_slots (a : basic_trie) (t v : Int) (nxt : Int) (fr : List Int)
    (hk : SlotInv a nxt fr) : SlotInv (a.set_check t v) nxt fr :=
  hk.of_base_le (fun _ _ => rfl) hk.cursor

theorem create_transition_slots {σ : Type} (cb : relocator σ) (a : basic_trie) (o : σ)
    (s ch : Int) (nxt : Int) (fr : List Int) (r : Int × basic_trie × σ)
    (hk : SlotInv a nxt fr) (h : a.create_transition cb o s ch = .ok r) :
    SlotInv r.2.1 nxt fr := by
  unfold create_transition at h
  rw [create_transition_aux_def] at h
  have hg := grow_to_slots a (a.next s ch) nxt fr hk
  split_ifs at h with hA
  · cases h
    exact set_check_slots _ _ _ _ _ hg
  · cases hm : (a.grow_to (a.next s ch)).make_room cb o s ch
        ((a.grow_to (a.next s ch)).next s ch) with
    | error err => rw [hm] at h; cases h
    | ok r1 =>
      rw [hm] at h
      obtain ⟨s1, a1, o1⟩ := r1
      simp only at h
      cases h
      have k1 : SlotInv a1 nxt fr := by
        unfold make_room at hm
        rcases ite_eq_cases _ _ _ _ hm with h1 | h1
        · exact relocate_slots cb _ o _ _ _ _ nxt fr _ hg h1
        · exact relocate_slots cb _ o _ _ _ _ nxt fr _ hg h1
      exact set_check_slots _ _ _ _ _ (grow_to_slots a1 _ nxt fr k1)

theorem create_path_slots {σ : Type} (cb : relocator σ) (nxt : Int) (fr : List Int) :
    ∀ (cs : List Int) (s : Int) (a : basic_trie) (o : σ) (r : Int × basic_trie × σ),
      SlotInv a nxt fr → create_path cb cs s a o = .ok r → SlotInv r.2.1 nxt fr := by
  intro cs
  induction cs with
  | nil =>
    intro s a o r hk h
    simp only [create_path] at h
    cases h
    exact hk
  | cons c rest ih =>
    intro s a o r hk h
    unfold create_path at h
    cases hc : a.create_transition cb o s c with
    | error err => rw [hc] at h; cases h
    | ok r1 =>
      rw [hc] at h
      obtain ⟨t, a1, o1⟩ := r1
      simp only at h
      exact ih _ _ _ _ (create_transition_slots cb a o s c nxt fr (t, a1, o1) hk hc) h

end basic_trie

namespace basic_trie

/-- The state of an observer keeps every property that each call keeps. -/
theorem relocate_loop_obs {σ : Type} (cb : relocator σ) (Q : σ → Prop)
    (hQ : ∀ b x y o o1, Q o → cb b x y o = .ok o1 → Q o1) (s obase nbase : Int) :
    ∀ (L : List Int) (stand : Int) (a : basic_trie) (o : σ) (r : Int × basic_trie × σ),
      Q o → relocate_loop cb s obase nbase L stand a o = .ok r → Q r.2.2 := by
  intro L
  induction L with
  | nil =>
    intro stand a o r hq h
    simp only [relocate_loop] at h
    cases h
    exact hq
  | cons c rest ih =>
    intro stand a o r hq h
    unfold relocate_loop at h
    by_cases hc : a.check (obase + c) ≠ s
    · rw [if_pos hc] at h
      exact ih _ _ _ _ hq h
    · rw [if_neg hc] at h
      unfold relocate_step at h
      cases hcb : cb (a.move_child obase nbase c) (obase + c) (nbase + c) o with
      | error err => rw [hcb] at h; cases h
      | ok o1 =>
        rw [hcb] at h
        simp only at h
        exact ih _ _ _ _ (hQ _ _ _ _ _ hq hcb) h

theorem relocate_obs {σ : Type} (cb : relocator σ) (Q : σ → Prop)
    (hQ : ∀ b x y o o1, Q o → cb b x y o = .ok o1 → Q o1) (a : basic_trie) (o : σ)
    (stand s : Int) (inputs : List Int) (e : extremum_type) (r : Int × basic_trie × σ)
    (hq : Q o) (h : a.relocate cb o stand s inputs e = .ok r) : Q r.2.2 := by
  unfold relocate at h
  cases hfb : a.find_base inputs e with
  | error err => rw [hfb] at h; cases h
  | ok p =>
    obtain ⟨nbase, a1⟩ := p
    rw [hfb] at h
    simp only at h
    cases hloop : relocate_loop cb s (a.base s) nbase inputs stand a1 o with
    | error err => rw [hloop] at h; cases h
    | ok r1 =>
      rw [hloop] at h
      obtain ⟨st1, a2, o1⟩ := r1
      simp only at h
      cases h
      exact relocate_loop_obs cb Q hQ s (a.base s) nbase inputs stand a1 o (st1, a2, o1) hq hloop

theorem create_transition_obs {σ : Type} (cb : relocator σ) (Q : σ → Prop)
    (hQ : ∀ b x y o o1, Q o → cb b x y o = .ok o1 → Q o1) (a : basic_trie) (o : σ)
    (s ch : Int) (r : Int × basic_trie × σ)
    (hq : Q o) (h : a.create_transition cb o s ch = .ok r) : Q r.2.2 := by
  unfold create_transition at h
  rw [create_transition_aux_def] at h
  split_ifs at h with hA
  · cases h
    exact hq
  · cases hm : (a.grow_to (a.next s ch)).make_room cb o s ch
        ((a.grow_to (a.next s ch)).next s ch) with
    | error err => rw [hm] at h; cases h
    | ok r1 =>
      rw [hm] at h
      obtain ⟨s1, a1, o1⟩ := r1
      simp only at h
      cases h
      unfold make_room at hm
      rcases ite_eq_cases _ _ _ _ hm with h1 | h1
      · exact relocate_obs cb Q hQ _ o _ _ _ _ (s1, a1, o1) hq h1
      · exact relocate_obs cb Q hQ _ o _ _ _ _ (s1, a1, o1) hq h1

theorem create_path_obs {σ : Type} (cb : relocator σ) (Q : σ → Prop)
    (hQ : ∀ b x y o o1, Q o → cb b x y o = .ok o1 → Q o1) :
    ∀ (cs : List Int) (s : Int) (a : basic_trie) (o : σ) (r : Int × basic_trie × σ),
      Q o → create_path cb cs s a o = .ok r → Q r.2.2 := by
  intro cs
  induction cs with
  | nil =>
    intro s a o r hq h
    simp only [create_path] at h
    cases h
    exact hq
  | cons c rest ih =>
    intro s a o r hq h
    unfold create_path at h
    cases hc : a.create_transition cb o s c with
    | error err => rw [hc] at h; cases h
    | ok r1 =>
      rw [hc] at h
      obtain ⟨t, a1, o1⟩ := r1
      simp only at h
      exact ih _ _ _ _ (create_transition_obs cb Q hQ a o s c (t, a1, o1) hq hc) h

/-- A free slot taken from the counter. -/
theorem SlotInv.take_counter {a : basic_trie} {nxt : Int}
    (h : SlotInv a nxt []) (s : Int) :
    SlotInv (a.set_base s (-nxt)) (nxt + 1) [] ∧ ∀ x, a.base x ≠ -nxt := by
  have hn := h.next_pos
  have unused : ∀ x, a.base x ≠ -nxt := by
    intro x hx
    have := (h.range x (by omega)).2
    omega
  refine ⟨⟨?_, ?_, ?_, List.nodup_nil, ?_, by omega, h.cursor⟩, unused⟩
  · intro x y hx hxy
    simp only [set_base_base] at hx hxy
    by_cases h1 : x = s
    · by_cases h2 : y = s
      · rw [h1, h2]
      · rw [if_pos h1, if_neg h2] at hxy
        exact absurd hxy.symm (unused y)
    · rw [if_neg h1] at hx hxy
      by_cases h2 : y = s
      · rw [if_pos h2] at hxy
        exact absurd hxy (unused x)
      · rw [if_neg h2] at hxy
        exact h.inj x y hx hxy
  · intro x hx
    simp only [set_base_base] at hx ⊢
    by_cases h1 : x = s
    · rw [if_pos h1]; omega
    · rw [if_neg h1] at hx ⊢
      have := h.range x hx
      omega
  · intro x _
    exact List.not_mem_nil _
  · intro i hi
    exact absurd hi (List.not_mem_nil _)

/-- A free slot taken from the head of the free list. -/
theorem SlotInv.take_free {a : basic_trie} {nxt i : Int} {rest : List Int}
    (h : SlotInv a nxt (i :: rest)) (s : Int) :
    SlotInv (a.set_base s (-i)) nxt rest ∧ ∀ x, a.base x ≠ -i := by
  have hi := h.free_range i (List.mem_cons_self _ _)
  have unused : ∀ x, a.base x ≠ -i := by
    intro x hx
    apply h.not_free x (by omega)
    rw [hx, neg_neg]
    exact List.mem_cons_self _ _
  have hnd := List.nodup_cons.1 h.nodup
  refine ⟨⟨?_, ?_, ?_, hnd.2, fun j hj => h.free_range j (List.mem_cons_of_mem _ hj),
    h.next_pos, h.cursor⟩, unused⟩
  · intro x y hx hxy
    simp only [set_base_base] at hx hxy
    by_cases h1 : x = s
    · by_cases h2 : y = s
      · rw [h1, h2]
      · rw [if_pos h1, if_neg h2] at hxy
        exact absurd hxy.symm (unused y)
    · rw [if_neg h1] at hx hxy
      by_cases h2 : y = s
      · rw [if_pos h2] at hxy
        exact absurd hxy (unused x)
      · rw [if_neg h2] at hxy
        exact h.inj x y hx hxy
  · intro x hx
    simp only [set_base_base] at hx ⊢
    by_cases h1 : x = s
    · rw [if_pos h1]; omega
    · rw [if_neg h1] at hx ⊢
      exact h.range x hx
  · intro x hx
    simp only [set_base_base] at hx ⊢
    by_cases h1 : x = s
    · rw [if_pos h1, neg_neg]
      exact hnd.1
    · rw [if_neg h1] at hx ⊢
      exact fun hm => h.not_free x hx (List.mem_cons_of_mem _ hm)

/-- The slot of a separator given back to the free list. -/
theorem SlotInv.release {a : basic_trie} {nxt : Int} {fr : List Int}
    (h : SlotInv a nxt fr) (s : Int) (hs : a.base s < 0) :
    SlotInv (a.set_base s 0) nxt (fr ++ [-a.base s]) := by
  refine ⟨?_, ?_, ?_, ?_, ?_, h.next_pos, h.cursor⟩
  · intro x y hx hxy
    simp only [set_base_base] at hx hxy
    by_cases h1 : x = s
    · rw [if_pos h1] at hx; omega
    · rw [if_neg h1] at hx hxy
      by_cases h2 : y = s
      · rw [if_pos h2] at hxy; omega
      · rw [if_neg h2] at hxy
        exact h.inj x y hx hxy
  · intro x hx
    simp only [set_base_base] at hx ⊢
    by_cases h1 : x = s
    · rw [if_pos h1] at hx; omega
    · rw [if_neg h1] at hx ⊢
      exact h.range x hx
  · intro x hx
    simp only [set_base_base] at hx ⊢
    by_cases h1 : x = s
    · rw [if_pos h1] at hx; omega
    · rw [if_neg h1] at hx ⊢
      intro hm
      rcases List.mem_append.1 hm with h2 | h2
      · exact h.not_free x hx h2
      · have h3 : -a.base x = -a.base s := by simpa using h2
        exact h1 (h.inj x s hx (by omega))
  · refine List.Nodup.append h.nodup (List.nodup_singleton _) ?_
    intro z hz1 hz2
    have h3 : z = -a.base s := by simpa using hz2
    rw [h3] at hz1
    exact h.not_free s hs hz1
  · intro i hi
    rcases List.mem_append.1 hi with h2 | h2
    · exact h.free_range i h2
    · have h3 : i = -a.base s := by simpa using h2
      rw [h3]
      exact h.range s hs

end basic_trie

namespace double_trie

theorem same_slots.same_refl (d : double_trie) : same_slots d d := ⟨rfl, rfl, rfl⟩

theorem same_slots.same_trans {d d1 d2 : double_trie} (h1 : same_slots d d1)
    (h2 : same_slots d1 d2) : same_slots d d2 :=
  ⟨h2.1.trans h1.1, h2.2.1.trans h1.2.1, h2.2.2.trans h1.2.2⟩

theorem slots_ok.of_same {d d1 : double_trie} (h : d.slots_ok) (hs : same_slots d d1) :
    d1.slots_ok := by
  unfold slots_ok at h ⊢
  rw [hs.1, hs.2.1, hs.2.2]
  exact h

theorem free_accept_entry_same (d : double_trie) (s : Int) :
    same_slots d (d.free_accept_entry s) := by
  unfold free_accept_entry
  cases d.refer s with
  | none => exact same_slots.same_refl d
  | some rec =>
    simp only
    refine ⟨?_, ?_, ?_⟩ <;> simp only <;> split_ifs <;> rfl

theorem remove_accept_state_same (d d1 : double_trie) (s : Int)
    (h : d.remove_accept_state s = .ok d1) : same_slots d d1 := by
  unfold remove_accept_state at h
  split_ifs at h
  cases h
  have e : same_slots d { d with rhs := (d.rhs.set_base s 0).set_check s 0 } :=
    ⟨rfl, rfl, rfl⟩
  exact same_slots.same_trans e (free_accept_entry_same _ s)

theorem find_accept_entry_same (d : double_trie) (i : Int) :
    same_slots d (d.find_accept_entry i).2 := by
  unfold find_accept_entry
  split_ifs
  · cases d.free_accept <;> simp only [set_index_index] <;>
      refine ⟨?_, ?_, ?_⟩ <;> simp only <;> split_ifs <;> rfl
  · exact same_slots.same_refl d

theorem relocate_rear_same (a : basic_trie) (s t : Int) (d d1 : double_trie)
    (h : relocate_rear a s t d = .ok d1) : same_slots d d1 := by
  unfold relocate_rear at h
  cases hr : d.refer s with
  | some rec =>
    rw [hr] at h
    simp only at h
    cases h
    have e : same_slots d ((d.set_accept rec.accept_index t).set_refer t rec) :=
      ⟨rfl, rfl, rfl⟩
    exact same_slots.same_trans e (free_accept_entry_same _ s)
  | none =>
    rw [hr] at h
    simp only at h
    split_ifs at h <;> cases h
    · exact ⟨rfl, rfl, rfl⟩
    · exact same_slots.same_refl d

theorem relocate_front_same (a : basic_trie) (s t : Int) (d d1 : double_trie)
    (h : relocate_front a s t d = .ok d1) : same_slots d d1 := by
  unfold relocate_front at h
  by_cases h1 : a.base s < 0 ∧ (d.index (-a.base s)).index > 0
  · rw [if_pos h1] at h
    simp only at h
    cases hr : d.refer (d.accept (d.index (-a.base s)).index) with
    | none => rw [hr] at h; cases h; exact same_slots.same_refl d
    | some rec =>
      rw [hr] at h
      simp only at h
      by_cases h2 : ¬ a.base t < 0
      · rw [if_pos h2] at h; cases h
      · rw [if_neg h2] at h
        cases h
        exact ⟨rfl, rfl, rfl⟩
  · rw [if_neg h1] at h
    cases h
    exact same_slots.same_refl d

theorem find_index_entry_slots (d : double_trie) (s i : Int) (d1 : double_trie)
    (hk : d.slots_ok) (h : d.find_index_entry s = .ok (i, d1)) :
    d1.slots_ok ∧ (d.lhs.base s ≥ 0 →
      (∀ x, d.lhs.base x ≠ -i) ∧ d1.lhs.base s = -i ∧
      ∀ x, x ≠ s → d1.lhs.base x = d.lhs.base x) := by
  unfold find_index_entry at h
  unfold slots_ok at hk ⊢
  by_cases hb : d.lhs.base s ≥ 0
  · rw [if_pos hb] at h
    cases hfi : d.free_index with
    | nil =>
      rw [hfi] at hk
      obtain ⟨k1, k2⟩ := hk.take_counter s
      simp only [hfi] at h
      split_ifs at h <;> cases h <;>
        exact ⟨k1, fun _ => ⟨k2, by simp [basic_trie.set_base],
          fun x hx => by simp [basic_trie.set_base, hx]⟩⟩
    | cons j rest =>
      rw [hfi] at hk
      obtain ⟨k1, k2⟩ := hk.take_free s
      simp only [hfi] at h
      split_ifs at h <;> cases h <;>
        exact ⟨k1, fun _ => ⟨k2, by simp [basic_trie.set_base],
          fun x hx => by simp [basic_trie.set_base, hx]⟩⟩
  · rw [if_neg hb] at h
    cases h
    exact ⟨hk, fun h0 => absurd h0 hb⟩

theorem set_link_slots (d : double_trie) (s t i : Int) (d1 : double_trie)
    (hk : d.slots_ok) (h : d.set_link s t = .ok (i, d1)) : d1.slots_ok := by
  unfold set_link at h
  cases hf : d.find_index_entry s with
  | error err => rw [hf] at h; cases h
  | ok p =>
    obtain ⟨j, d0⟩ := p
    rw [hf] at h
    simp only at h
    have k0 := (find_index_entry_slots d s j d0 hk hf).1
    have e := find_accept_entry_same d0 j
    split_ifs at h with h1 h2 h2
    · cases h
      exact k0.of_same ⟨rfl, rfl, rfl⟩
    · cases h
      exact k0.of_same (same_slots.same_trans e ⟨rfl, rfl, rfl⟩)

theorem relink_all_slots (t : Int) :
    ∀ (l : List Int) (d d1 : double_trie), d.slots_ok → relink_all t l d = .ok d1 →
      d1.slots_ok := by
  intro l
  induction l with
  | nil =>
    intro d d1 hk h
    simp only [relink_all] at h
    cases h
    exact hk
  | cons f rest ih =>
    intro d d1 hk h
    unfold relink_all at h
    cases hs : d.set_link f t with
    | error err => rw [hs] at h; cases h
    | ok p =>
      obtain ⟨i, d0⟩ := p
      rw [hs] at h
      simp only at h
      exact ih d0 d1 (set_link_slots d f t i d0 hk hs) h

theorem rhs_create_transition_same (d : double_trie) (s ch t : Int) (d1 : double_trie)
    (h : d.rhs_create_transition s ch = .ok (t, d1)) : same_slots d d1 := by
  unfold rhs_create_transition at h
  cases hc : d.rhs.create_transition relocate_rear d s ch with
  | error err => rw [hc] at h; cases h
  | ok p =>
    obtain ⟨t1, a, d0⟩ := p
    rw [hc] at h
    simp only at h
    have := basic_trie.create_transition_obs relocate_rear (fun o => same_slots d o)
      (fun b x y o o1 hq ho => same_slots.same_trans hq (relocate_rear_same b x y o o1 ho))
      d.rhs d s ch (t1, a, d0) (same_slots.same_refl d) hc
    cases h
    exact same_slots.same_trans this ⟨rfl, rfl, rfl⟩

theorem lhs_create_transition_slots (d : double_trie) (s ch t : Int) (d1 : double_trie)
    (hk : d.slots_ok) (h : d.lhs_create_transition s ch = .ok (t, d1)) : d1.slots_ok := by
  unfold lhs_create_transition at h
  cases hc : d.lhs.create_transition relocate_front d s ch with
  | error err => rw [hc] at h; cases h
  | ok p =>
    obtain ⟨t1, a, d0⟩ := p
    rw [hc] at h
    simp only at h
    have e := basic_trie.create_transition_obs relocate_front (fun o => same_slots d o)
      (fun b x y o o1 hq ho => same_slots.same_trans hq (relocate_front_same b x y o o1 ho))
      d.lhs d s ch (t1, a, d0) (same_slots.same_refl d) hc
    have k := basic_trie.create_transition_slots relocate_front d.lhs d s ch
      d.next_index d.free_index (t1, a, d0) hk hc
    cases h
    unfold slots_ok
    show basic_trie.SlotInv a d0.next_index d0.free_index
    rw [e.2.1, e.2.2]
    exact k

theorem rhs_create_path_same :
    ∀ (bs : List Nat) (s : Int) (d : double_trie) (r : Int) (d1 : double_trie),
      rhs_create_path bs s d = .ok (r, d1) → same_slots d d1 := by
  intro bs
  induction bs with
  | nil =>
    intro s d r d1 h
    simp only [rhs_create_path] at h
    cases h
    exact same_slots.same_refl d
  | cons b rest ih =>
    intro s d r d1 h
    unfold rhs_create_path at h
    cases hc : d.rhs_create_transition s (char_in b) with
    | error err => rw [hc] at h; cases h
    | ok p =>
      obtain ⟨t, d0⟩ := p
      rw [hc] at h
      simp only at h
      exact same_slots.same_trans (rhs_create_transition_same d s _ t d0 hc) (ih t d0 r d1 h)

end double_trie

namespace double_trie

theorem ensure_refer_same (d : double_trie) (s : Int) :
    same_slots d (match d.refer s with
      | some _ => d
      | none => d.set_refer s ⟨0, []⟩) := by
  cases d.refer s with
  | none => exact ⟨rfl, rfl, rfl⟩
  | some rec => exact same_slots.same_refl d

theorem rhs_append_tail_slots (d : double_trie) (s : Int) (rest inputs : List Nat)
    (r : Int) (d1 : double_trie) (hk : d.slots_ok)
    (h : d.rhs_append_tail s rest inputs = .ok (r, d1)) : d1.slots_ok := by
  unfold rhs_append_tail at h
  simp only at h
  split at h
  · cases h
  · rename_i d3 heq
    have k3 : d3.slots_ok := by
      by_cases hod : d.outdegree s = 0
      · rw [if_pos hod] at heq
        cases hc : d.rhs_create_transition s kTerminator with
        | error err => rw [hc] at heq; cases heq
        | ok p =>
          obtain ⟨t, d0⟩ := p
          rw [hc] at heq
          simp only at heq
          have k0 : d0.slots_ok := hk.of_same (rhs_create_transition_same d s _ t d0 hc)
          split at heq
          · cases heq
          · rename_i d2 heq2
            cases heq
            have k2 := relink_all_slots t _ _ d2 (k0.of_same (ensure_refer_same d0 s)) heq2
            exact k2.of_same (free_accept_entry_same d2 s)
      · rw [if_neg hod] at heq
        cases heq
        exact hk
    by_cases hs1 : s = 1
    · rw [if_pos hs1] at h
      cases hc : d3.rhs_create_transition s kTerminator with
      | error err => rw [hc] at h; cases h
      | ok p =>
        obtain ⟨t, d4⟩ := p
        rw [hc] at h
        simp only at h
        exact (k3.of_same (rhs_create_transition_same d3 s _ t d4 hc)).of_same
          (rhs_create_path_same _ t d4 r d1 h)
    · rw [if_neg hs1] at h
      exact k3.of_same (rhs_create_path_same _ s d3 r d1 h)

theorem rhs_append_slots (d : double_trie) (inputs : List Nat)
    (r : Int) (d1 : double_trie) (hk : d.slots_ok)
    (h : d.rhs_append inputs = .ok (r, d1)) : d1.slots_ok := by
  unfold rhs_append at h
  by_cases h1 : d.rhs.check_transition 1 (d.rhs.next 1 kTerminator)
  · rw [if_pos h1] at h
    simp only at h
    by_cases h2 : (d.rhs.go_forward_reverse (d.rhs.next 1 kTerminator) inputs).2 = []
    · rw [if_pos h2] at h
      by_cases h3 : d.outdegree (d.rhs.go_forward_reverse (d.rhs.next 1 kTerminator) inputs).1 = 0
      · rw [if_pos h3] at h
        cases h
        exact hk
      · rw [if_neg h3] at h
        by_cases h4 : d.rhs.check_transition
            (d.rhs.go_forward_reverse (d.rhs.next 1 kTerminator) inputs).1
            (d.rhs.next (d.rhs.go_forward_reverse (d.rhs.next 1 kTerminator) inputs).1
              kTerminator)
        · rw [if_pos h4] at h
          cases h
          exact hk
        · rw [if_neg h4] at h
          exact hk.of_same (rhs_create_transition_same d _ _ r d1 h)
    · rw [if_neg h2] at h
      exact rhs_append_tail_slots d _ _ inputs r d1 hk h
  · rw [if_neg h1] at h
    exact rhs_append_tail_slots d 1 [] inputs r d1 hk h

theorem lhs_insert_slots (d : double_trie) (s : Int) (b : Nat) (rest : List Nat)
    (i : Int) (d1 : double_trie) (hk : d.slots_ok)
    (h : d.lhs_insert s b rest = .ok (i, d1)) : d1.slots_ok := by
  unfold lhs_insert at h
  cases hc : d.lhs_create_transition s (char_in b) with
  | error err => rw [hc] at h; cases h
  | ok p =>
    obtain ⟨t, d0⟩ := p
    rw [hc] at h
    simp only at h
    have k0 := lhs_create_transition_slots d s _ t d0 hk hc
    cases ha : d0.rhs_append rest with
    | error err => rw [ha] at h; cases h
    | ok q =>
      obtain ⟨r, d2⟩ := q
      rw [ha] at h
      simp only at h
      exact set_link_slots d2 t r i d1 (rhs_append_slots d0 rest r d2 k0 ha) h

theorem rhs_clean_one_slots (d : double_trie) (t : Int) (b : Bool) (d1 : double_trie)
    (hk : d.slots_ok) (h : d.rhs_clean_one t = .ok (b, d1)) : d1.slots_ok := by
  unfold rhs_clean_one at h
  split_ifs at h
  · cases hr : d.remove_accept_state t with
    | error err => rw [hr] at h; cases h
    | ok d0 =>
      rw [hr] at h
      simp only at h
      have e := remove_accept_state_same d d0 t hr
      cases h
      exact hk.of_same e
  · cases h
    exact hk

theorem rhs_clean_more_slots :
    ∀ (n : Nat) (d : double_trie) (t : Int) (d1 : double_trie), d.slots_ok →
      rhs_clean_more n d t = .ok d1 → d1.slots_ok := by
  intro n
  induction n with
  | zero => intro d t d1 _ h; simp only [rhs_clean_more] at h; cases h
  | succ n ih =>
    intro d t d1 hk h
    unfold rhs_clean_more at h
    by_cases h1 : ¬ t > 0
    · rw [if_pos h1] at h; cases h
    · rw [if_neg h1] at h
      by_cases h2 : d.outdegree t = 0 ∧ d.count_referer t = 0
      · rw [if_pos h2] at h
        cases hr : d.remove_accept_state t with
        | error err => rw [hr] at h; cases h
        | ok d0 =>
          rw [hr] at h
          simp only at h
          have k0 := hk.of_same (remove_accept_state_same d d0 t hr)
          by_cases h3 : d.rhs.prev t > 0
          · rw [if_pos h3] at h
            exact ih d0 _ d1 k0 h
          · rw [if_neg h3] at h
            cases h
            exact k0
      · rw [if_neg h2] at h
        by_cases h3 : d.outdegree t = 1
        · rw [if_pos h3] at h
          by_cases h4 : d.rhs.check_transition t (d.rhs.next t kTerminator)
          · rw [if_pos h4] at h
            split at h
            · cases h
            · rename_i d2 heq
              have k2 := relink_all_slots t _ _ d2
                (hk.of_same (ensure_refer_same d (d.rhs.next t kTerminator))) heq
              have e := remove_accept_state_same _ d1 _ h
              refine (k2.of_same ?_).of_same e
              exact same_slots.same_trans (ensure_refer_same d2 t) ⟨rfl, rfl, rfl⟩
          · rw [if_neg h4] at h
            cases h
            exact hk
        · rw [if_neg h3] at h
          cases h
          exact hk

end double_trie

namespace double_trie

theorem rhs_insert_def (d : double_trie) (s r : Int) (mtch : List Nat) (b : Nat)
    (rest : List Nat) (ch : Nat) (terminator : Bool) (value : Int) :
    rhs_insert d s r mtch b rest ch terminator value =
      rhs_insert_rest (d.rhs_insert_first s r) (d.link_state s)
        (d.index (-d.lhs.base s)).data s mtch b rest ch terminator value := rfl

theorem rhs_insert_first_slots (d : double_trie) (s r : Int) (hk : d.slots_ok)
    (hs : d.lhs.base s < 0) : (d.rhs_insert_first s r).slots_ok := by
  have k2 : slots_ok
      { (d.set_index_index (-d.lhs.base s) 0).set_index_data (-d.lhs.base s) 0 with
        free_index := ((d.set_index_index (-d.lhs.base s) 0).set_index_data
          (-d.lhs.base s) 0).free_index ++ [-d.lhs.base s]
        lhs := ((d.set_index_index (-d.lhs.base s) 0).set_index_data
          (-d.lhs.base s) 0).lhs.set_base s 0
        stand := r } := hk.release s hs
  unfold rhs_insert_first
  simp only
  split_ifs
  · exact (k2.of_same ⟨rfl, rfl, rfl⟩).of_same (free_accept_entry_same _ _)
  · exact k2.of_same ⟨rfl, rfl, rfl⟩
  · exact k2

theorem rhs_insert_rest_slots (d3 : double_trie) (u oval s : Int) (mtch : List Nat) (b : Nat)
    (rest : List Nat) (ch : Nat) (terminator : Bool) (value : Int) (d1 : double_trie)
    (hk : d3.slots_ok)
    (h : rhs_insert_rest d3 u oval s mtch b rest ch terminator value = .ok d1) :
    d1.slots_ok := by
  unfold rhs_insert_rest at h
  cases hp : basic_trie.create_path relocate_front (mtch.map char_in) s d3.lhs d3 with
  | error err => rw [hp] at h; cases h
  | ok p =>
    obtain ⟨s1, a1, d4⟩ := p
    rw [hp] at h
    simp only at h
    have e4 := basic_trie.create_path_obs relocate_front (fun o => same_slots d3 o)
      (fun b x y o o1 hq ho => same_slots.same_trans hq (relocate_front_same b x y o o1 ho))
      _ s d3.lhs d3 (s1, a1, d4) (same_slots.same_refl d3) hp
    have k4a := basic_trie.create_path_slots relocate_front d3.next_index d3.free_index
      _ s d3.lhs d3 (s1, a1, d4) hk hp
    have k4 : slots_ok { d4 with lhs := a1 } := by
      unfold slots_ok
      show basic_trie.SlotInv a1 d4.next_index d4.free_index
      rw [e4.2.1, e4.2.2]
      exact k4a
    cases h5 : lhs_create_transition { d4 with lhs := a1 } s1 (char_in b) with
    | error err => rw [h5] at h; cases h
    | ok p5 =>
      obtain ⟨t, d5⟩ := p5
      rw [h5] at h
      simp only at h
      have k5 := lhs_create_transition_slots _ s1 _ t d5 k4 h5
      cases h6 : d5.rhs_append rest with
      | error err => rw [h6] at h; cases h
      | ok p6 =>
        obtain ⟨ra, d6⟩ := p6
        rw [h6] at h
        simp only at h
        have k6 := rhs_append_slots d5 rest ra d6 k5 h6
        cases h7 : d6.set_link t ra with
        | error err => rw [h7] at h; cases h
        | ok p7 =>
          obtain ⟨i, d7⟩ := p7
          rw [h7] at h
          simp only at h
          have k7 := set_link_slots d6 t ra i d7 k6 h7
          cases h8 : (d7.set_index_data i value).lhs_create_transition s1
              (if terminator then kTerminator else char_in ch) with
          | error err => rw [h8] at h; cases h
          | ok p8 =>
            obtain ⟨t2, d8⟩ := p8
            rw [h8] at h
            simp only at h
            have k7a : (d7.set_index_data i value).slots_ok := k7.of_same ⟨rfl, rfl, rfl⟩
            have k8 := lhs_create_transition_slots _ s1 _ t2 d8 k7a h8
            split at h
            · cases h
            · rename_i r2 d9 heq
              have k9 : d9.slots_ok := by
                rcases ite_eq_cases _ _ _ _ heq with h9 | h9
                · exact k8.of_same (rhs_create_transition_same d8 _ _ r2 d9 h9)
                · cases h9
                  exact k8
              cases h10 : d9.set_link t2 r2 with
              | error err => rw [h10] at h; cases h
              | ok p10 =>
                obtain ⟨i2, d10⟩ := p10
                rw [h10] at h
                simp only at h
                have k10 := set_link_slots d9 t2 r2 i2 d10 k9 h10
                have k10a : (d10.set_index_data i2 oval).slots_ok :=
                  k10.of_same ⟨rfl, rfl, rfl⟩
                by_cases hu : u > 0
                · rw [if_pos hu] at h
                  cases h11 : (d10.set_index_data i2 oval).rhs_clean_one u with
                  | error err => rw [h11] at h; cases h
                  | ok p11 =>
                    obtain ⟨fl, d11⟩ := p11
                    have k11 := rhs_clean_one_slots _ u fl d11 k10a h11
                    rw [h11] at h
                    cases fl with
                    | true =>
                      simp only at h
                      cases h
                      exact k11
                    | false =>
                      simp only at h
                      exact rhs_clean_more_slots _ d11 u d1 k11 h
                · rw [if_neg hu] at h
                  cases h
                  exact k10a

theorem insert_slots (d : double_trie) (inputs : List Nat) (value : Int) (d1 : double_trie)
    (hk : d.slots_ok) (h : d.insert inputs value = .ok d1) : d1.slots_ok := by
  unfold insert at h
  simp only at h
  split at h
  · cases h
    exact hk
  · rename_i b rest hw
    by_cases hsep : ¬ d.check_separator (d.lhs.go_forward 1 inputs).1
    · rw [if_pos hsep] at h
      cases hl : d.lhs_insert (d.lhs.go_forward 1 inputs).1 b rest with
      | error err => rw [hl] at h; cases h
      | ok p =>
        obtain ⟨i, d0⟩ := p
        rw [hl] at h
        simp only at h
        have k0 := lhs_insert_slots d _ b rest i d0 hk hl
        cases h
        exact k0.of_same ⟨rfl, rfl, rfl⟩
    · rw [if_neg hsep] at h
      have hs : d.lhs.base (d.lhs.go_forward 1 inputs).1 < 0 := not_not.1 hsep
      have ke : slots_ok { d with exists_ := (insert_match d.rhs
          (if d.rhs.check_reverse_transition (d.link_state (d.lhs.go_forward 1 inputs).1)
              kTerminator
            then d.rhs.prev (d.link_state (d.lhs.go_forward 1 inputs).1)
            else d.link_state (d.lhs.go_forward 1 inputs).1) [] (b :: rest)).2.1 } :=
        hk.of_same ⟨rfl, rfl, rfl⟩
      split at h
      · cases h
        exact ke
      · rw [rhs_insert_def] at h
        exact rhs_insert_rest_slots _ _ _ _ _ _ _ _ _ _ d1
          (rhs_insert_first_slots _ _ _ ke hs) h

theorem init_slots : double_trie.init.slots_ok := by
  refine ⟨?_, ?_, ?_, List.nodup_nil, ?_, by decide, by decide⟩
  · intro x y hx
    have : double_trie.init.lhs.base x = 0 := by
      show (basic_trie.init 4096).base x = 0
      unfold basic_trie.init basic_trie.inflate basic_trie.resize_state
      simp
    omega
  · intro x hx
    have : double_trie.init.lhs.base x = 0 := by
      show (basic_trie.init 4096).base x = 0
      unfold basic_trie.init basic_trie.inflate basic_trie.resize_state
      simp
    omega
  · intro x _
    exact List.not_mem_nil _
  · intro i hi
    exact absurd hi (List.not_mem_nil _)

theorem Reachable.slots {d : double_trie} (h : Reachable d) : d.slots_ok := by
  induction h with
  | init => exact init_slots
  | step d d1 k v _ hins ih => exact insert_slots d k v d1 ih hins

end double_trie

set_option maxRecDepth 1000000 in
/-- The two-trie `first_key` is reachable by one insert. -/
theorem first_key_reachable : double_trie.Reachable first_key :=
  double_trie.Reachable.step double_trie.init first_key [97, 98] 1
    double_trie.Reachable.init (by rfl)

/-! ## Refer records without a referer -/

theorem set_insert_ne_nil (s : Int) (l : List Int) : set_insert s l ≠ [] := by
  intro h
  have : s ∈ set_insert s l := (mem_set_insert s s l).2 (Or.inl rfl)
  rw [h] at this
  exact absurd this (List.not_mem_nil _)

namespace double_trie

theorem dead_ok.of_refer_eq {d d1 : double_trie} (h : d.dead_ok) (e : d1.refer = d.refer) :
    d1.dead_ok := by
  intro r rec hr
  rw [e] at hr
  exact h r rec hr

/-- A record that is stored with a referer keeps the invariant, whatever the
record at that state was before. -/
theorem dead_ok.put_live {d0 : double_trie} (hk : d0.dead_ok) (d2 : double_trie)
    (t a s : Int) (L : List Int) (e : ∀ x, x ≠ t → d2.refer x = d0.refer x) :
    (d2.set_refer t ⟨a, set_insert s L⟩).dead_ok := by
  intro x rc hx hemp
  unfold set_refer at hx
  simp only at hx
  by_cases ex : x = t
  · rw [if_pos ex] at hx
    cases hx
    exact absurd hemp (set_insert_ne_nil s L)
  · rw [if_neg ex] at hx
    rw [e x ex] at hx
    exact hk x rc hx hemp

theorem free_accept_entry_dead (d : double_trie) (s : Int)
    (h : ∀ r rec, r ≠ s → d.refer r = some rec → rec.referer = [] → rec.accept_index = 0) :
    (d.free_accept_entry s).dead_ok := by
  intro r rec hr
  unfold free_accept_entry at hr
  cases hs : d.refer s with
  | none =>
    rw [hs] at hr
    simp only at hr
    by_cases e : r = s
    · rw [e, hs] at hr
      cases hr
    · exact h r rec e hr
  | some rc =>
    rw [hs] at hr
    simp only at hr
    by_cases e : r = s
    · rw [if_pos e] at hr
      cases hr
    · rw [if_neg e] at hr
      have hr2 : d.refer r = some rec := by
        split_ifs at hr <;> exact hr
      exact h r rec e hr2

theorem remove_accept_state_dead (d d1 : double_trie) (s : Int) (hk : d.dead_ok)
    (h : d.remove_accept_state s = .ok d1) : d1.dead_ok := by
  unfold remove_accept_state at h
  split_ifs at h
  cases h
  exact free_accept_entry_dead _ s (fun r rec _ hr => hk r rec hr)

theorem find_index_entry_refer (d : double_trie) (s i : Int) (d1 : double_trie)
    (h : d.find_index_entry s = .ok (i, d1)) : d1.refer = d.refer := by
  unfold find_index_entry at h
  by_cases hb : d.lhs.base s ≥ 0
  · rw [if_pos hb] at h
    cases hfi : d.free_index with
    | nil =>
      simp only [hfi] at h
      split_ifs at h <;> cases h <;> rfl
    | cons j rest =>
      simp only [hfi] at h
      split_ifs at h <;> cases h <;> rfl
  · rw [if_neg hb] at h
    cases h
    rfl

theorem find_accept_entry_refer (d : double_trie) (i : Int) :
    (d.find_accept_entry i).2.refer = d.refer := by
  unfold find_accept_entry
  split_ifs
  · cases d.free_accept <;> simp only [set_index_index] <;> split_ifs <;> rfl
  · rfl

theorem set_link_dead (d : double_trie) (s t i : Int) (d1 : double_trie)
    (hk : d.dead_ok) (h : d.set_link s t = .ok (i, d1)) : d1.dead_ok := by
  unfold set_link at h
  cases hf : d.find_index_entry s with
  | error err => rw [hf] at h; cases h
  | ok p =>
    obtain ⟨j, d0⟩ := p
    rw [hf] at h
    simp only at h
    have e0 := find_index_entry_refer d s j d0 hf
    have e1 := find_accept_entry_refer d0 j
    split_ifs at h with h1 h2 h2
    · cases h
      exact hk.put_live _ t _ s _ (fun x _ => congrFun e0 x)
    · have e2 : ∀ x, (d0.find_accept_entry j).2.refer x = d.refer x := fun x => by
        rw [e1, e0]
      cases h
      refine hk.put_live _ t _ s _ (fun x hx => ?_)
      simp only [set_refer, set_accept, if_neg hx]
      exact e2 x

theorem relink_all_dead (t : Int) :
    ∀ (l : List Int) (d d1 : double_trie), d.dead_ok → relink_all t l d = .ok d1 →
      d1.dead_ok := by
  intro l
  induction l with
  | nil =>
    intro d d1 hk h
    simp only [relink_all] at h
    cases h
    exact hk
  | cons f rest ih =>
    intro d d1 hk h
    unfold relink_all at h
    cases hs : d.set_link f t with
    | error err => rw [hs] at h; cases h
    | ok p =>
      obtain ⟨i, d0⟩ := p
      rw [hs] at h
      simp only at h
      exact ih d0 d1 (set_link_dead d f t i d0 hk hs) h

theorem relocate_rear_dead (a : basic_trie) (s t : Int) (d d1 : double_trie) (hk : d.dead_ok)
    (h : relocate_rear a s t d = .ok d1) : d1.dead_ok := by
  unfold relocate_rear at h
  cases hr : d.refer s with
  | some rec =>
    rw [hr] at h
    simp only at h
    cases h
    refine free_accept_entry_dead _ s (fun r rc _ hrc => ?_)
    have hrc2 : (if r = t then some rec else d.refer r) = some rc := hrc
    by_cases e : r = t
    · rw [if_pos e] at hrc2
      cases hrc2
      exact hk s rec hr
    · rw [if_neg e] at hrc2
      exact hk r rc hrc2
  | none =>
    rw [hr] at h
    simp only at h
    split_ifs at h <;> cases h
    · exact hk.of_refer_eq rfl
    · exact hk

theorem relocate_front_dead (a : basic_trie) (s t : Int) (d d1 : double_trie) (hk : d.dead_ok)
    (h : relocate_front a s t d = .ok d1) : d1.dead_ok := by
  unfold relocate_front at h
  by_cases h1 : a.base s < 0 ∧ (d.index (-a.base s)).index > 0
  · rw [if_pos h1] at h
    simp only at h
    cases hr : d.refer (d.accept (d.index (-a.base s)).index) with
    | none => rw [hr] at h; cases h; exact hk
    | some rec =>
      rw [hr] at h
      simp only at h
      by_cases h2 : ¬ a.base t < 0
      · rw [if_pos h2] at h; cases h
      · rw [if_neg h2] at h
        cases h
        exact hk.put_live d _ _ t _ (fun _ _ => rfl)
  · rw [if_neg h1] at h
    cases h
    exact hk

theorem rhs_create_transition_dead (d : double_trie) (s ch t : Int) (d1 : double_trie)
    (hk : d.dead_ok) (h : d.rhs_create_transition s ch = .ok (t, d1)) : d1.dead_ok := by
  unfold rhs_create_transition at h
  cases hc : d.rhs.create_transition relocate_rear d s ch with
  | error err => rw [hc] at h; cases h
  | ok p =>
    obtain ⟨t1, a, d0⟩ := p
    rw [hc] at h
    simp only at h
    have k := basic_trie.create_transition_obs relocate_rear dead_ok
      (fun b x y o o1 hq ho => relocate_rear_dead b x y o o1 hq ho)
      d.rhs d s ch (t1, a, d0) hk hc
    cases h
    exact dead_ok.of_refer_eq k rfl

theorem lhs_create_transition_dead (d : double_trie) (s ch t : Int) (d1 : double_trie)
    (hk : d.dead_ok) (h : d.lhs_create_transition s ch = .ok (t, d1)) : d1.dead_ok := by
  unfold lhs_create_transition at h
  cases hc : d.lhs.create_transition relocate_front d s ch with
  | error err => rw [hc] at h; cases h
  | ok p =>
    obtain ⟨t1, a, d0⟩ := p
    rw [hc] at h
    simp only at h
    have k := basic_trie.create_transition_obs relocate_front dead_ok
      (fun b x y o o1 hq ho => relocate_front_dead b x y o o1 hq ho)
      d.lhs d s ch (t1, a, d0) hk hc
    cases h
    exact dead_ok.of_refer_eq k rfl

theorem rhs_create_path_dead :
    ∀ (bs : List Nat) (s : Int) (d : double_trie) (r : Int) (d1 : double_trie),
      d.dead_ok → rhs_create_path bs s d = .ok (r, d1) → d1.dead_ok := by
  intro bs
  induction bs with
  | nil =>
    intro s d r d1 hk h
    simp only [rhs_create_path] at h
    cases h
    exact hk
  | cons b rest ih =>
    intro s d r d1 hk h
    unfold rhs_create_path at h
    cases hc : d.rhs_create_transition s (char_in b) with
    | error err => rw [hc] at h; cases h
    | ok p =>
      obtain ⟨t, d0⟩ := p
      rw [hc] at h
      simp only at h
      exact ih t d0 r d1 (rhs_create_transition_dead d s _ t d0 hk hc) h

theorem ensure_refer_dead (d : double_trie) (s : Int) (hk : d.dead_ok) :
    dead_ok (match d.refer s with
      | some _ => d
      | none => d.set_refer s ⟨0, []⟩) := by
  cases hs : d.refer s with
  | some rec => exact hk
  | none =>
    intro x rc hx _
    have hx2 : (if x = s then some (⟨0, []⟩ : refer_type) else d.refer x) = some rc := hx
    by_cases e : x = s
    · rw [if_pos e] at hx2
      cases hx2
      rfl
    · rw [if_neg e] at hx2
      exact hk x rc hx2 (by assumption)

end double_trie

namespace double_trie

theorem rhs_append_tail_dead (d : double_trie) (s : Int) (rest inputs : List Nat)
    (r : Int) (d1 : double_trie) (hk : d.dead_ok)
    (h : d.rhs_append_tail s rest inputs = .ok (r, d1)) : d1.dead_ok := by
  unfold rhs_append_tail at h
  simp only at h
  split at h
  · cases h
  · rename_i d3 heq
    have k3 : d3.dead_ok := by
      by_cases hod : d.outdegree s = 0
      · rw [if_pos hod] at heq
        cases hc : d.rhs_create_transition s kTerminator with
        | error err => rw [hc] at heq; cases heq
        | ok p =>
          obtain ⟨t, d0⟩ := p
          rw [hc] at heq
          simp only at heq
          have k0 : d0.dead_ok := rhs_create_transition_dead d s _ t d0 hk hc
          split at heq
          · cases heq
          · rename_i d2 heq2
            cases heq
            have k2 := relink_all_dead t _ _ d2 (ensure_refer_dead d0 s k0) heq2
            exact free_accept_entry_dead d2 s (fun x rc _ hx => k2 x rc hx)
      · rw [if_neg hod] at heq
        cases heq
        exact hk
    by_cases hs1 : s = 1
    · rw [if_pos hs1] at h
      cases hc : d3.rhs_create_transition s kTerminator with
      | error err => rw [hc] at h; cases h
      | ok p =>
        obtain ⟨t, d4⟩ := p
        rw [hc] at h
        simp only at h
        exact rhs_create_path_dead _ t d4 r d1 (rhs_create_transition_dead d3 s _ t d4 k3 hc) h
    · rw [if_neg hs1] at h
      exact rhs_create_path_dead _ s d3 r d1 k3 h

theorem rhs_append_dead (d : double_trie) (inputs : List Nat)
    (r : Int) (d1 : double_trie) (hk : d.dead_ok)
    (h : d.rhs_append inputs = .ok (r, d1)) : d1.dead_ok := by
  unfold rhs_append at h
  by_cases h1 : d.rhs.check_transition 1 (d.rhs.next 1 kTerminator)
  · rw [if_pos h1] at h
    simp only at h
    by_cases h2 : (d.rhs.go_forward_reverse (d.rhs.next 1 kTerminator) inputs).2 = []
    · rw [if_pos h2] at h
      by_cases h3 : d.outdegree (d.rhs.go_forward_reverse (d.rhs.next 1 kTerminator) inputs).1 = 0
      · rw [if_pos h3] at h
        cases h
        exact hk
      · rw [if_neg h3] at h
        by_cases h4 : d.rhs.check_transition
            (d.rhs.go_forward_reverse (d.rhs.next 1 kTerminator) inputs).1
            (d.rhs.next (d.rhs.go_forward_reverse (d.rhs.next 1 kTerminator) inputs).1
              kTerminator)
        · rw [if_pos h4] at h
          cases h
          exact hk
        · rw [if_neg h4] at h
          exact rhs_create_transition_dead d _ _ r d1 hk h
    · rw [if_neg h2] at h
      exact rhs_append_tail_dead d _ _ inputs r d1 hk h
  · rw [if_neg h1] at h
    exact rhs_append_tail_dead d 1 [] inputs r d1 hk h

theorem lhs_insert_dead (d : double_trie) (s : Int) (b : Nat) (rest : List Nat)
    (i : Int) (d1 : double_trie) (hk : d.dead_ok)
    (h : d.lhs_insert s b rest = .ok (i, d1)) : d1.dead_ok := by
  unfold lhs_insert at h
  cases hc : d.lhs_create_transition s (char_in b) with
  | error err => rw [hc] at h; cases h
  | ok p =>
    obtain ⟨t, d0⟩ := p
    rw [hc] at h
    simp only at h
    have k0 := lhs_create_transition_dead d s _ t d0 hk hc
    cases ha : d0.rhs_append rest with
    | error err => rw [ha] at h; cases h
    | ok q =>
      obtain ⟨r, d2⟩ := q
      rw [ha] at h
      simp only at h
      exact set_link_dead d2 t r i d1 (rhs_append_dead d0 rest r d2 k0 ha) h

theorem rhs_clean_one_dead (d : double_trie) (t : Int) (b : Bool) (d1 : double_trie)
    (hk : d.dead_ok) (h : d.rhs_clean_one t = .ok (b, d1)) : d1.dead_ok := by
  unfold rhs_clean_one at h
  split_ifs at h
  · cases hr : d.remove_accept_state t with
    | error err => rw [hr] at h; cases h
    | ok d0 =>
      rw [hr] at h
      simp only at h
      have e := remove_accept_state_dead d d0 t hk hr
      cases h
      exact e
  · cases h
    exact hk

theorem rhs_clean_more_dead :
    ∀ (n : Nat) (d : double_trie) (t : Int) (d1 : double_trie), d.dead_ok →
      rhs_clean_more n d t = .ok d1 → d1.dead_ok := by
  intro n
  induction n with
  | zero => intro d t d1 _ h; simp only [rhs_clean_more] at h; cases h
  | succ n ih =>
    intro d t d1 hk h
    unfold rhs_clean_more at h
    by_cases h1 : ¬ t > 0
    · rw [if_pos h1] at h; cases h
    · rw [if_neg h1] at h
      by_cases h2 : d.outdegree t = 0 ∧ d.count_referer t = 0
      · rw [if_pos h2] at h
        cases hr : d.remove_accept_state t with
        | error err => rw [hr] at h; cases h
        | ok d0 =>
          rw [hr] at h
          simp only at h
          have k0 := remove_accept_state_dead d d0 t hk hr
          by_cases h3 : d.rhs.prev t > 0
          · rw [if_pos h3] at h
            exact ih d0 _ d1 k0 h
          · rw [if_neg h3] at h
            cases h
            exact k0
      · rw [if_neg h2] at h
        by_cases h3 : d.outdegree t = 1
        · rw [if_pos h3] at h
          by_cases h4 : d.rhs.check_transition t (d.rhs.next t kTerminator)
          · rw [if_pos h4] at h
            split at h
            · cases h
            · rename_i d2 heq
              have k2 := relink_all_dead t _ _ d2
                (ensure_refer_dead d (d.rhs.next t kTerminator) hk) heq
              refine remove_accept_state_dead _ d1 _ ?_ h
              exact dead_ok.of_refer_eq (ensure_refer_dead d2 t k2) rfl
          · rw [if_neg h4] at h
            cases h
            exact hk
        · rw [if_neg h3] at h
          cases h
          exact hk

theorem rhs_insert_first_dead (d : double_trie) (s r : Int) (hk : d.dead_ok) :
    (d.rhs_insert_first s r).dead_ok := by
  unfold rhs_insert_first
  simp only
  split_ifs with hu hl
  · refine free_accept_entry_dead _ _ (fun x rc hx hrc => ?_)
    simp only [set_refer, set_index_index, set_index_data, if_neg hx] at hrc
    exact hk x rc hrc
  · intro x rc hrc hemp
    by_cases hx : x = d.link_state s
    · exfalso
      apply hl
      simp only [refer_at, set_refer, set_index_index, set_index_data, if_true]
      simp only [set_refer, set_index_index, set_index_data, hx, if_true] at hrc
      cases hrc
      simp only [refer_at, set_refer, set_index_index, set_index_data] at hemp
      rw [hemp]
      rfl
    · simp only [set_refer, set_index_index, set_index_data, if_neg hx] at hrc
      exact hk x rc hrc hemp
  · exact hk.of_refer_eq rfl

theorem rhs_insert_rest_dead (d3 : double_trie) (u oval s : Int) (mtch : List Nat) (b : Nat)
    (rest : List Nat) (ch : Nat) (terminator : Bool) (value : Int) (d1 : double_trie)
    (hk : d3.dead_ok)
    (h : rhs_insert_rest d3 u oval s mtch b rest ch terminator value = .ok d1) :
    d1.dead_ok := by
  unfold rhs_insert_rest at h
  cases hp : basic_trie.create_path relocate_front (mtch.map char_in) s d3.lhs d3 with
  | error err => rw [hp] at h; cases h
  | ok p =>
    obtain ⟨s1, a1, d4⟩ := p
    rw [hp] at h
    simp only at h
    have k4a := basic_trie.create_path_obs relocate_front dead_ok
      (fun b x y o o1 hq ho => relocate_front_dead b x y o o1 hq ho)
      _ s d3.lhs d3 (s1, a1, d4) hk hp
    have k4 : dead_ok { d4 with lhs := a1 } := dead_ok.of_refer_eq k4a rfl
    cases h5 : lhs_create_transition { d4 with lhs := a1 } s1 (char_in b) with
    | error err => rw [h5] at h; cases h
    | ok p5 =>
      obtain ⟨t, d5⟩ := p5
      rw [h5] at h
      simp only at h
      have k5 := lhs_create_transition_dead _ s1 _ t d5 k4 h5
      cases h6 : d5.rhs_append rest with
      | error err => rw [h6] at h; cases h
      | ok p6 =>
        obtain ⟨ra, d6⟩ := p6
        rw [h6] at h
        simp only at h
        have k6 := rhs_append_dead d5 rest ra d6 k5 h6
        cases h7 : d6.set_link t ra with
        | error err => rw [h7] at h; cases h
        | ok p7 =>
          obtain ⟨i, d7⟩ := p7
          rw [h7] at h
          simp only at h
          have k7 := set_link_dead d6 t ra i d7 k6 h7
          cases h8 : (d7.set_index_data i value).lhs_create_transition s1
              (if terminator then kTerminator else char_in ch) with
          | error err => rw [h8] at h; cases h
          | ok p8 =>
            obtain ⟨t2, d8⟩ := p8
            rw [h8] at h
            simp only at h
            have k7a : (d7.set_index_data i value).dead_ok := dead_ok.of_refer_eq k7 rfl
            have k8 := lhs_create_transition_dead _ s1 _ t2 d8 k7a h8
            split at h
            · cases h
            · rename_i r2 d9 heq
              have k9 : d9.dead_ok := by
                rcases ite_eq_cases _ _ _ _ heq with h9 | h9
                · exact rhs_create_transition_dead d8 _ _ r2 d9 k8 h9
                · cases h9
                  exact k8
              cases h10 : d9.set_link t2 r2 with
              | error err => rw [h10] at h; cases h
              | ok p10 =>
                obtain ⟨i2, d10⟩ := p10
                rw [h10] at h
                simp only at h
                have k10 := set_link_dead d9 t2 r2 i2 d10 k9 h10
                have k10a : (d10.set_index_data i2 oval).dead_ok :=
                  dead_ok.of_refer_eq k10 rfl
                by_cases hu : u > 0
                · rw [if_pos hu] at h
                  cases h11 : (d10.set_index_data i2 oval).rhs_clean_one u with
                  | error err => rw [h11] at h; cases h
                  | ok p11 =>
                    obtain ⟨fl, d11⟩ := p11
                    have k11 := rhs_clean_one_dead _ u fl d11 k10a h11
                    rw [h11] at h
                    cases fl with
                    | true =>
                      simp only at h
                      cases h
                      exact k11
                    | false =>
                      simp only at h
                      exact rhs_clean_more_dead _ d11 u d1 k11 h
                · rw [if_neg hu] at h
                  cases h
                  exact k10a

theorem insert_dead (d : double_trie) (inputs : List Nat) (value : Int) (d1 : double_trie)
    (hk : d.dead_ok) (h : d.insert inputs value = .ok d1) : d1.dead_ok := by
  unfold insert at h
  simp only at h
  split at h
  · cases h
    exact hk
  · rename_i b rest hw
    by_cases hsep : ¬ d.check_separator (d.lhs.go_forward 1 inputs).1
    · rw [if_pos hsep] at h
      cases hl : d.lhs_insert (d.lhs.go_forward 1 inputs).1 b rest with
      | error err => rw [hl] at h; cases h
      | ok p =>
        obtain ⟨i, d0⟩ := p
        rw [hl] at h
        simp only at h
        have k0 := lhs_insert_dead d _ b rest i d0 hk hl
        cases h
        exact dead_ok.of_refer_eq k0 rfl
    · rw [if_neg hsep] at h
      have ke : dead_ok { d with exists_ := (insert_match d.rhs
          (if d.rhs.check_reverse_transition (d.link_state (d.lhs.go_forward 1 inputs).1)
              kTerminator
            then d.rhs.prev (d.link_state (d.lhs.go_forward 1 inputs).1)
            else d.link_state (d.lhs.go_forward 1 inputs).1) [] (b :: rest)).2.1 } :=
        dead_ok.of_refer_eq hk rfl
      split at h
      · cases h
        exact ke
      · rw [rhs_insert_def] at h
        exact rhs_insert_rest_dead _ _ _ _ _ _ _ _ _ _ d1
          (rhs_insert_first_dead _ _ _ ke) h

theorem init_dead : double_trie.init.dead_ok := by
  intro r rec h
  cases h

/-- In every two-trie reachable by inserts a refer record without a referer
names the accept slot 0. -/
theorem Reachable.dead_records {d : double_trie} (h : Reachable d) : d.dead_ok := by
  induction h with
  | init => exact init_dead
  | step d d1 k v _ hins ih => exact insert_dead d k v d1 ih hins

end double_trie

/-! ## The claims -/

/-- C3: on a well-formed double-array, for an allocated state `s` and a symbol
`c` in 1..257, `create_transition(s, c)` returns a state `t` with
`0 < t < size`, `check(t) = s'` and `base(s') + c = t` in the resulting array,
where `s'` is `s` or the new position of `s` when `s` was moved with its
siblings; `check_transition(s', next(s', c))` holds, and every word that led
from the root to `s` now leads to `s'` and, followed by `c`, to `t`. -/
theorem create_transition_ensures_arc {σ : Type} (cb : relocator σ)
    (hcb : ∀ b x y o, ∃ o1, cb b x y o = .ok o1)
    (a : basic_trie) (o : σ) (s c : Int) (hwf : a.WF) (hs : s = 1 ∨ a.check s > 0)
    (hc1 : 1 ≤ c) (hc2 : c ≤ 257) :
    ∃ s1 t a1 o1, a.create_transition_aux cb o s c = .ok (s1, t, a1, o1) ∧
      a.create_transition cb o s c = .ok (t, a1, o1) ∧
      0 < t ∧ t < a1.size ∧ a1.check t = s1 ∧ a1.base s1 + c = t ∧
      (s1 = s ∨ (a.check s ≠ 0 ∧ a.check (a.base s + c) = a.check s
        ∧ s1 - a1.base (a.check s) = s - a.base (a.check s))) ∧
      a1.check_transition s1 (a1.next s1 c) ∧
      (∃ w, a.walk 1 w = some s) ∧
      ∀ w, a.walk 1 w = some s → a1.walk 1 w = some s1 ∧ a1.walk 1 (w ++ [c]) = some t := by
  have hsa : a.allocated s := by
    rcases hs with h1 | h1
    · exact Or.inl h1
    · exact Or.inr (by omega)
  obtain ⟨s1, t, a1, o1, e1, e2⟩ := a.create_transition_aux_spec cb hcb o s c hwf hsa ⟨hc1, hc2⟩
  obtain ⟨φ, p1, p2, p3, _⟩ := e2.old
  have hs1 : 0 < s1 := by
    obtain ⟨ws, hws⟩ := hwf.reach_alloc s hsa
    have := p3 ws s hws
    rw [p2] at this
    exact (e2.wf.allocated_lt s1 (basic_trie.walk_allocated a1 ws s1 this)).1
  refine ⟨s1, t, a1, o1, e1, basic_trie.create_transition_eq cb a o s c s1 t a1 o1 e1,
    e2.t_pos, e2.t_lt, e2.check_t, e2.next_t, e2.src, ?_, hwf.reach_alloc s hsa, ?_⟩
  · have hn : a1.next s1 c = t := e2.next_t
    rw [hn]
    exact ⟨hs1, e2.t_pos, e2.t_lt, e2.check_t⟩
  · intro w hw
    have := p3 w s hw
    rw [p2] at this
    exact ⟨this, e2.walk_t w hw⟩

/-- Witness for C3: the first arc created from the root of an empty array. -/
theorem create_transition_ensures_arc_witness :
    ∃ s1 t a1 o1,
      (basic_trie.init 4096).create_transition_aux no_relocator () 1 98 = .ok (s1, t, a1, o1) ∧
      (basic_trie.init 4096).create_transition no_relocator () 1 98 = .ok (t, a1, o1) ∧
      0 < t ∧ t < a1.size ∧ a1.check t = s1 ∧ a1.base s1 + 98 = t ∧
      (s1 = 1 ∨ ((basic_trie.init 4096).check 1 ≠ 0 ∧
        (basic_trie.init 4096).check ((basic_trie.init 4096).base 1 + 98)
          = (basic_trie.init 4096).check 1
        ∧ s1 - a1.base ((basic_trie.init 4096).check 1)
          = 1 - (basic_trie.init 4096).base ((basic_trie.init 4096).check 1))) ∧
      a1.check_transition s1 (a1.next s1 98) ∧
      (∃ w, (basic_trie.init 4096).walk 1 w = some 1) ∧
      ∀ w, (basic_trie.init 4096).walk 1 w = some 1 →
        a1.walk 1 w = some s1 ∧ a1.walk 1 (w ++ [98]) = some t :=
  create_transition_ensures_arc no_relocator basic_trie.no_relocator_total
    (basic_trie.init 4096) () 1 98 (basic_trie.init_wf 4096) (Or.inl rfl) (by decide) (by decide)

/-- C4 (as amended): on a well-formed double-array, for an allocated state `s`
and a symbol `c` in 1..257, after `create_transition(s, c)` the words that can
be walked from the root are exactly the words walkable before together with
the word leading to `s` followed by `c`; every state other than `s` reached by
a previously walkable word keeps its base when that base was `≤ 0`; and every
non-zero `check` names an allocated state, so none refers to a freed cell. -/
theorem create_transition_preserves_content {σ : Type} (cb : relocator σ)
    (hcb : ∀ b x y o, ∃ o1, cb b x y o = .ok o1)
    (a : basic_trie) (o : σ) (s c : Int) (hwf : a.WF) (hs : s = 1 ∨ a.check s > 0)
    (hc1 : 1 ≤ c) (hc2 : c ≤ 257) :
    ∃ t a1 o1, a.create_transition cb o s c = .ok (t, a1, o1) ∧
      (∃ ws, a.walk 1 ws = some s) ∧
      (∀ w, (a1.walk 1 w).isSome ↔
        ((a.walk 1 w).isSome ∨ ∃ ws, a.walk 1 ws = some s ∧ w = ws ++ [c])) ∧
      (∀ w x, a.walk 1 w = some x → x ≠ s → a.base x ≤ 0 →
        ∃ x1, a1.walk 1 w = some x1 ∧ a1.base x1 = a.base x) ∧
      (∀ y, a1.check y ≠ 0 → a1.check y = 1 ∨ a1.check (a1.check y) ≠ 0) := by
  have hsa : a.allocated s := by
    rcases hs with h1 | h1
    · exact Or.inl h1
    · exact Or.inr (by omega)
  obtain ⟨s1, t, a1, o1, e1, e2⟩ := a.create_transition_aux_spec cb hcb o s c hwf hsa ⟨hc1, hc2⟩
  obtain ⟨φ, p1, p2, p3, p4⟩ := e2.old
  refine ⟨t, a1, o1, basic_trie.create_transition_eq cb a o s c s1 t a1 o1 e1,
    hwf.reach_alloc s hsa, ?_, ?_, fun y hy => e2.wf.parent y hy⟩
  · intro w
    constructor
    · intro h
      obtain ⟨x, hx⟩ := Option.isSome_iff_exists.1 h
      rcases e2.new w x hx with ⟨x0, h1⟩ | ⟨_, ws, h2, h3⟩
      · exact Or.inl (by rw [h1]; rfl)
      · exact Or.inr ⟨ws, h3, h2⟩
    · rintro (h | ⟨ws, h1, h2⟩)
      · obtain ⟨x, hx⟩ := Option.isSome_iff_exists.1 h
        rw [p3 w x hx]; rfl
      · rw [h2, e2.walk_t ws h1]; rfl
  · intro w x hx hxs hb
    refine ⟨φ x, p3 w x hx, p4 x (basic_trie.walk_allocated a w x hx) hxs ?_⟩
    intro h
    by_cases h0 : a.check (a.base s + c) = 0
    · rw [h0] at h
      have := (hwf.allocated_lt x (basic_trie.walk_allocated a w x hx)).1
      omega
    · have := (hwf.cell _ h0).2.1
      rw [← h] at this
      omega

/-- Witness for C4 (as amended): the first arc created in an empty array. -/
theorem create_transition_preserves_content_witness :
    ∃ t a1 o1, (basic_trie.init 4096).create_transition no_relocator () 1 98 = .ok (t, a1, o1) ∧
      (∃ ws, (basic_trie.init 4096).walk 1 ws = some 1) ∧
      (∀ w, (a1.walk 1 w).isSome ↔
        (((basic_trie.init 4096).walk 1 w).isSome
          ∨ ∃ ws, (basic_trie.init 4096).walk 1 ws = some 1 ∧ w = ws ++ [98])) ∧
      (∀ w x, (basic_trie.init 4096).walk 1 w = some x → x ≠ 1 →
        (basic_trie.init 4096).base x ≤ 0 →
        ∃ x1, a1.walk 1 w = some x1 ∧ a1.base x1 = (basic_trie.init 4096).base x) ∧
      (∀ y, a1.check y ≠ 0 → a1.check y = 1 ∨ a1.check (a1.check y) ≠ 0) :=
  create_transition_preserves_content no_relocator basic_trie.no_relocator_total
    (basic_trie.init 4096) () 1 98 (basic_trie.init_wf 4096) (Or.inl rfl) (by decide) (by decide)

set_option maxRecDepth 100000 in
/-- Counterexample to C4 as stated: in the empty array the root is reached by
the empty word and has base `0`, and `create_transition(1, 98)` changes its
base to `1`. -/
theorem create_transition_changes_base_zero :
    (basic_trie.init 4096).WF ∧
      (basic_trie.init 4096).walk 1 [] = some 1 ∧ (basic_trie.init 4096).base 1 = 0 ∧
      base_after ((basic_trie.init 4096).create_transition no_relocator () 1 98) 1 = some 1 :=
  ⟨basic_trie.init_wf 4096, by decide⟩


/-- C5: in every array obtained from an empty double-array by
`create_transition` calls on allocated states with symbols in 1..257, each cell
`t` with `check(t) = s ≠ 0` satisfies `base(s) + c = t` for exactly one symbol
`c`, that `c` lies in 1..257, the arc from `s` to `t` exists and `s` is
allocated; and every such call returns. -/
theorem built_cell_invariant (a : basic_trie) (h : basic_trie.Built a) :
    (∀ t, a.check t ≠ 0 →
      (∃ c, a.base (a.check t) + c = t ∧ 1 ≤ c ∧ c ≤ 257
        ∧ ∀ c1, a.base (a.check t) + c1 = t → c1 = c) ∧
      a.check_transition (a.check t) t ∧ (a.check t = 1 ∨ a.check (a.check t) ≠ 0)) ∧
    (∀ s c, (s = 1 ∨ a.check s > 0) → 1 ≤ c → c ≤ 257 →
      ∃ t a1, a.create_transition no_relocator () s c = .ok (t, a1, ())) := by
  have hwf := h.well_formed
  constructor
  · intro t ht
    obtain ⟨c1, c2, c3, c4, c5⟩ := hwf.cell t ht
    refine ⟨⟨t - a.base (a.check t), by omega, c3, c4, fun c1 h1 => by omega⟩,
      ⟨c1, by omega, c5, rfl⟩, hwf.parent t ht⟩
  · intro s c hs hc1 hc2
    have hsa : a.allocated s := by
      rcases hs with h1 | h1
      · exact Or.inl h1
      · exact Or.inr (by omega)
    obtain ⟨s1, t, a1, o1, e1, _⟩ := a.create_transition_aux_spec no_relocator
      basic_trie.no_relocator_total () s c hwf hsa ⟨hc1, hc2⟩
    exact ⟨t, a1, basic_trie.create_transition_eq no_relocator a () s c s1 t a1 o1 e1⟩

set_option maxRecDepth 100000 in
/-- The array `one_arc` is built from the empty array by one call. -/
theorem one_arc_built : basic_trie.Built one_arc :=
  basic_trie.Built.step (basic_trie.init 4096) one_arc 1 98 99 (basic_trie.Built.init 4096)
    (Or.inl rfl) (by decide) (by decide) (by rfl)

set_option maxRecDepth 100000 in
/-- Witness for C5: the array with the single arc from the root on symbol 98,
whose cell 99 is owned by the root. -/
theorem built_cell_invariant_witness :
    basic_trie.Built one_arc ∧ one_arc.check 99 = 1 ∧
    ((∀ t, one_arc.check t ≠ 0 →
      (∃ c, one_arc.base (one_arc.check t) + c = t ∧ 1 ≤ c ∧ c ≤ 257
        ∧ ∀ c1, one_arc.base (one_arc.check t) + c1 = t → c1 = c) ∧
      one_arc.check_transition (one_arc.check t) t ∧
      (one_arc.check t = 1 ∨ one_arc.check (one_arc.check t) ≠ 0)) ∧
    (∀ s c, (s = 1 ∨ one_arc.check s > 0) → 1 ≤ c → c ≤ 257 →
      ∃ t a1, one_arc.create_transition no_relocator () s c = .ok (t, a1, ()))) :=
  ⟨one_arc_built, by decide, built_cell_invariant one_arc one_arc_built⟩

/-- C10 (as amended): `basic_trie::insert` raises its error exactly when the
value is below 1 or the input pointer is null; the test precedes every access
to the array, so nothing is changed when the error is raised.  On a well-formed
array every value `≥ 1`, given with a key free of the byte `0xFF`, is accepted
and stored: the call returns and a following `search` of the key yields it. -/
theorem insert_raises_iff {σ : Type} (cb : relocator σ)
    (hcb : ∀ b x y o, ∃ o1, cb b x y o = .ok o1) (a : basic_trie) (o : σ)
    (inputs : Option (List Nat)) (val : Int) :
    (a.insert cb o inputs val = .error .invalid ↔ (val < 1 ∨ inputs = none)) ∧
    (∀ bytes, inputs = some bytes → 1 ≤ val → a.WF → (∀ b ∈ bytes, b < 255) →
      ∃ a1 o1, a.insert cb o inputs val = .ok (a1, o1) ∧ a1.search bytes = val) := by
  refine ⟨basic_trie.insert_invalid_iff cb hcb a o inputs val, ?_⟩
  intro bytes hi hval hwf hb
  rw [hi]
  exact basic_trie.insert_stores cb hcb a o bytes val hwf hval hb

/-- Witness for C10 (as amended): the key `"a"` with value 1 in an empty
array without observer. -/
theorem insert_raises_iff_witness :
    (∀ (b : basic_trie) (x y : Int) (o : Unit), ∃ o1, no_relocator b x y o = .ok o1) ∧
    (((basic_trie.init 4096).insert no_relocator () (some [97]) 1 = .error .invalid ↔
        ((1 : Int) < 1 ∨ some [97] = (none : Option (List Nat)))) ∧
    (∀ bytes, some [97] = some bytes → (1 : Int) ≤ 1 → (basic_trie.init 4096).WF →
      (∀ b ∈ bytes, b < 255) →
      ∃ a1 o1, (basic_trie.init 4096).insert no_relocator () (some [97]) 1 = .ok (a1, o1) ∧
        a1.search bytes = 1)) :=
  ⟨basic_trie.no_relocator_total,
    insert_raises_iff no_relocator basic_trie.no_relocator_total (basic_trie.init 4096) ()
      (some [97]) 1⟩

/-- Counterexample to C10 as stated: the non-zero value `-1` is rejected. -/
theorem insert_rejects_negative :
    (basic_trie.init 4096).insert no_relocator () (some [97]) (-1) = .error .invalid := by
  rfl


set_option maxRecDepth 1000000 in
/-- C1 evaluated on the code: after `insert("ab", 1)` and `insert("a", 2)` on
the empty two-trie both calls have returned, `search("ab")` yields 1, and
`search("a")` yields 1 as well, the value of `"ab"`, not the value 2 that was
inserted for `"a"`: the second `insert` returns at `p >= inputs + length`
without storing anything. -/
theorem insert_drops_prefix_key :
    search_after (insert_all [([97, 98], 1), ([97], 2)] double_trie.init) [97, 98] = some 1 ∧
    search_after (insert_all [([97, 98], 1), ([97], 2)] double_trie.init) [97] = some 1 := by
  decide

set_option maxRecDepth 1000000 in
/-- C2 evaluated on the code: with `"ab"` the only stored key, `search("a")`
yields the value 1 of `"ab"` although `"a"` was never inserted: the front walk
consumes the input at the separator of `"ab"` and `trie::search` returns the
value of that separator without looking at the stored tail. -/
theorem search_hits_absent_key :
    search_after (insert_all [([97, 98], 1)] double_trie.init) [97] = some 1 := by
  decide

set_option maxRecDepth 1000000 in
/-- C6 evaluated on the code: after `insert("b", 1)` and `insert("bc", 2)` on
the empty two-trie the front state 3 is an allocated separator whose index
record names an accept slot, and the rear state held in that slot has
`check = 0`. -/
theorem insert_leaves_dangling_link :
    holds_after (insert_all [([98], 1), ([98, 99], 2)] double_trie.init)
      (fun d => dangling_link d 3) := by
  decide

set_option maxRecDepth 100000 in
/-- C7 evaluated on the code: after `basic_trie::insert("ab", 1)` on the empty
array `basic_trie::search("ab")` yields 1, and `basic_trie::search("abc")`, a
proper extension that was never inserted, yields 1 instead of 0. -/
theorem basic_search_hits_extension :
    basic_search_after (basic_insert_all [([97, 98], 1)] (basic_trie.init 4096)) [97, 98]
      = some 1 ∧
    basic_search_after (basic_insert_all [([97, 98], 1)] (basic_trie.init 4096)) [97, 98, 99]
      = some 1 := by
  decide

set_option maxRecDepth 1000000 in
/-- C8 evaluated on the code: after the inserts `"aaa"`:1, `"baa"`:2, `"abb"`:3
on the empty two-trie `search("aaa")` yields 1 and the front state 102, reached
by `"aa"`, is a separator with base -3 and no child at cell 104.  Its link is
the rear state 260, the terminator child of state 259, which is the terminator
child of the rear root; the rear root has no arc on `char_in('a')` (cell 100 is
free), so the tail stored for `"aaa"` is empty.  After a further
`insert("aaa", 100)` the front state 102 has the base 6 and the child 104, and
`search("aaa")` yields 100: the repeated insert of a stored key is not a
no-op. -/
theorem reinsert_changes_value :
    search_after (insert_all [([97, 97, 97], 1), ([98, 97, 97], 2), ([97, 98, 98], 3)]
      double_trie.init) [97, 97, 97] = some 1 ∧
    holds_after (insert_all [([97, 97, 97], 1), ([98, 97, 97], 2), ([97, 98, 98], 3)]
      double_trie.init)
      (fun d => d.lhs.base 102 = -3 ∧ d.lhs.check 104 = 0 ∧ d.link_state 102 = 260 ∧
        d.rhs.check 260 = 259 ∧ d.rhs.base 259 = 3 ∧ d.rhs.check 259 = 1 ∧
        d.rhs.base 1 = 2 ∧ d.rhs.check 100 = 0) ∧
    search_after (insert_all [([97, 97, 97], 1), ([98, 97, 97], 2), ([97, 98, 98], 3),
      ([97, 97, 97], 100)] double_trie.init) [97, 97, 97] = some 100 ∧
    holds_after (insert_all [([97, 97, 97], 1), ([98, 97, 97], 2), ([97, 98, 98], 3),
      ([97, 97, 97], 100)] double_trie.init)
      (fun d => d.lhs.base 102 = 6 ∧ d.lhs.check 104 = 102) := by
  decide

set_option maxRecDepth 1000000 in
/-- C9 evaluated on the code: `insert("a", 0)` on the empty two-trie returns
without error and stores the value, so that `search("a")` yields 0. -/
theorem insert_accepts_zero :
    search_after (insert_all [([97], 0)] double_trie.init) [97] = some 0 := by
  decide

/-- C11: `check_transition(s, t)` is true exactly when `s > 0`, `0 < t < size`
and `check(t) = s`; evaluated with every read of the array asserted it never
fails and gives the same answer, so `check(t)` is read only for `t` inside the
array; and from a positive state the arc of the data model on `c` to `t`
exists exactly when `t = next(s, c)` and `check_transition(s, t)`. -/
theorem check_transition_exact (a : basic_trie) (s t : Int) :
    (a.check_transition s t ↔ s > 0 ∧ 0 < t ∧ t < a.size ∧ a.check t = s) ∧
    guarded.check_transition a s t = .ok (decide (a.check_transition s t)) ∧
    (∀ c, 0 < s → (arc a s c t ↔ t = a.base s + c ∧ a.check_transition s t)) := by
  refine ⟨Iff.rfl, guarded.check_transition_ok a s t, fun c hs => ?_⟩
  unfold arc basic_trie.check_transition basic_trie.next
  constructor
  · rintro ⟨h1, h2, h3, h4⟩
    exact ⟨h1, hs, h3, h2.2, h4⟩
  · rintro ⟨h1, _, h3, h4, h5⟩
    exact ⟨h1, ⟨by omega, h4⟩, h3, h5⟩

/-- Witness for C11: the arc from the root on symbol 98 in the array that one
`create_transition` call has built. -/
theorem check_transition_exact_witness :
    (0 : Int) < 1 ∧
    ((one_arc.check_transition 1 99 ↔ (1 : Int) > 0 ∧ (0 : Int) < 99 ∧ 99 < one_arc.size
        ∧ one_arc.check 99 = 1) ∧
    guarded.check_transition one_arc 1 99 = .ok (decide (one_arc.check_transition 1 99)) ∧
    (∀ c, (0 : Int) < 1 → (arc one_arc 1 c 99 ↔ 99 = one_arc.base 1 + c ∧
      one_arc.check_transition 1 99))) :=
  ⟨by decide, check_transition_exact one_arc 1 99⟩

/-- C12: `go_forward` of `trie_impl.h` is the greedy walk.  On a key `w`
followed by the terminator it returns a state `s1` and a mismatch `m`.  When
`m` is null, the arcs labelled `w[0], …, w[n-1], T` exist consecutively from
`s` and end in `s1`.  When `m` is the position `j`, then `j ≤ n`, the arcs
labelled `w[0..j-1]` exist consecutively from `s` and end in `s1`, no arc
leaves `s1` on the symbol at position `j`, and the result is the same
whatever stands in the array after position `j`. -/
theorem go_forward_greedy (a : basic_trie) (s : Int) (w : List Int)
    (hw : ∀ c ∈ w, c ≠ kTerminator) :
    ∃ s1 m, trie_impl.go_forward a s (w ++ [kTerminator]) 0 = .ok (s1, m) ∧
      (m = none → a.walk s (w ++ [kTerminator]) = some s1) ∧
      (∀ j, m = some j → j ≤ w.length ∧ a.walk s (w.take j) = some s1 ∧
        ∃ c, (w ++ [kTerminator]).get? j = some c ∧
          ¬ a.check_transition s1 (a.next s1 c) ∧
          ∀ v, trie_impl.go_forward a s ((w ++ [kTerminator]).take j ++ c :: v) 0
            = .ok (s1, some j)) := by
  refine ⟨(greedy a s (w ++ [kTerminator]) 0).1, (greedy a s (w ++ [kTerminator]) 0).2,
    trie_impl.go_forward_eq_greedy a w s 0 hw, ?_, ?_⟩
  · intro hm
    exact (trie_impl.greedy_none_iff a _ s 0 _).1 (Prod.ext rfl hm)
  · intro j hj
    obtain ⟨_, h2, h3, c, h4, h5⟩ :=
      (trie_impl.greedy_some_iff a _ s 0 _ j).1 (Prod.ext rfl hj)
    simp only [Nat.sub_zero, List.length_append, List.length_singleton] at h2 h3 h4
    have hjn : j ≤ w.length := by omega
    have htake : (w ++ [kTerminator]).take j = w.take j := by
      rw [List.take_append_of_le_length hjn]
    rw [htake] at h3
    refine ⟨hjn, h3, c, h4, h5, fun v => ?_⟩
    rw [htake]
    have := trie_impl.go_forward_stops a (w.take j) s 0 _ c v
      (fun x hx => hw x (List.mem_of_mem_take hx)) h3 h5
    rw [this]
    simp [List.length_take, hjn]

/-- Witness for C12: the key `"a"` on the empty array, where the walk stops
at position 0 in the root. -/
theorem go_forward_greedy_witness :
    (∀ c ∈ [(98 : Int)], c ≠ kTerminator) ∧
    ∃ s1 m, trie_impl.go_forward (basic_trie.init 4096) 1 ([98] ++ [kTerminator]) 0
        = .ok (s1, m) ∧
      (m = none → (basic_trie.init 4096).walk 1 ([98] ++ [kTerminator]) = some s1) ∧
      (∀ j, m = some j → j ≤ [(98 : Int)].length ∧
        (basic_trie.init 4096).walk 1 ([(98 : Int)].take j) = some s1 ∧
        ∃ c, ([98] ++ [kTerminator]).get? j = some c ∧
          ¬ (basic_trie.init 4096).check_transition s1 ((basic_trie.init 4096).next s1 c) ∧
          ∀ v, trie_impl.go_forward (basic_trie.init 4096) 1
            (([98] ++ [kTerminator]).take j ++ c :: v) 0 = .ok (s1, some j)) :=
  ⟨by decide, go_forward_greedy (basic_trie.init 4096) 1 [98] (by decide)⟩

set_option maxRecDepth 100000 in
/-- C13 evaluated on the code: in a rear trie where state 258 has the arcs on
98 to state 100 and on 99 to state 101, `go_backward(100, [99, T])` moves from
state 100 to state 258 on the symbol 99, although the arc into state 100 is
labelled 98 (`check_reverse_transition(100, 99)` is false), and reports no
mismatch with the root as result; the path labelled `T, 99` from the root
leads to state 101, not to state 100. -/
theorem go_backward_accepts_sibling :
    trie_impl.go_backward rear_fork 100 [99, 257] 0 = .ok (1, none) ∧
    ¬ rear_fork.check_reverse_transition 100 99 ∧
    rear_fork.walk 1 [257, 99] = some 101 ∧
    rear_fork.walk 1 [257, 98] = some 100 := by
  refine ⟨by rfl, by decide, by decide, by decide⟩

/-- C14: `go_forward_reverse` of `trie_impl.h` is the greedy forward walk on
the reversed key.  On a key `w` of `n` symbols followed by the terminator it
returns the state that the greedy walk from `s` over `T, w[n-1], …, w[0]`
returns; the walk stopping before its `k`-th symbol is reported as a mismatch
at position `n - k` of the array; and no mismatch is reported exactly when all
`n + 1` arcs exist. -/
theorem go_forward_reverse_greedy (a : basic_trie) (s : Int) (w : List Int)
    (hw : ∀ c ∈ w, c ≠ kTerminator) :
    trie_impl.go_forward_reverse a s (w ++ [kTerminator]) =
      .ok ((greedy a s (kTerminator :: w.reverse) 0).1,
        (greedy a s (kTerminator :: w.reverse) 0).2.map (fun k => w.length - k)) ∧
    (∀ s1, trie_impl.go_forward_reverse a s (w ++ [kTerminator]) = .ok (s1, none) ↔
      a.walk s (kTerminator :: w.reverse) = some s1) := by
  have key : trie_impl.go_forward_reverse a s (w ++ [kTerminator]) =
      .ok ((greedy a s (kTerminator :: w.reverse) 0).1,
        (greedy a s (kTerminator :: w.reverse) 0).2.map (fun k => w.length - k)) := by
    unfold trie_impl.go_forward_reverse
    rw [trie_impl.seek_terminator_spec w [] 0 hw]
    simp only [Nat.zero_add]
    rw [trie_impl.go_forward_reverse_loop_spec a _ w.length s 0 (by simp)]
    have e : (w ++ [kTerminator]).take (w.length + 1) = w ++ [kTerminator] := by
      apply List.take_of_length_le
      simp
    rw [e]
    simp
  refine ⟨key, fun s1 => ?_⟩
  rw [key, ← trie_impl.greedy_none_iff a _ s 0 s1]
  constructor
  · intro h
    simp only [Except.ok.injEq, Prod.mk.injEq, Option.map_eq_none'] at h
    exact Prod.ext h.1 h.2
  · intro h
    rw [h]
    rfl

/-- Witness for C14: the key `"a"` on the empty array. -/
theorem go_forward_reverse_greedy_witness :
    (∀ c ∈ [(98 : Int)], c ≠ kTerminator) ∧
    (trie_impl.go_forward_reverse (basic_trie.init 4096) 1 ([98] ++ [kTerminator]) =
      .ok ((greedy (basic_trie.init 4096) 1 (kTerminator :: [(98 : Int)].reverse) 0).1,
        (greedy (basic_trie.init 4096) 1 (kTerminator :: [(98 : Int)].reverse) 0).2.map
          (fun k => [(98 : Int)].length - k)) ∧
    (∀ s1, trie_impl.go_forward_reverse (basic_trie.init 4096) 1 ([98] ++ [kTerminator])
        = .ok (s1, none) ↔
      (basic_trie.init 4096).walk 1 (kTerminator :: [(98 : Int)].reverse) = some s1)) :=
  ⟨by decide, go_forward_reverse_greedy (basic_trie.init 4096) 1 [98] (by decide)⟩

/-- C15 (I2): in every array obtained from an empty double-array by
`create_transition` calls the root has `check(1) = 0`; a further call on an
allocated state with a symbol in 1..257 returns a target other than state 1,
leaves `check(1) = 0`, and none of the relocation events that it reports has
state 1 as its old or its new position (the observer that records the events
sees the same array as a trie without observer); and the base that `find_base`
chooses, in the array as it stands or after a growth step, puts no child on
state 1. -/
theorem root_is_fixed (a : basic_trie) (h : basic_trie.Built a) :
    a.check 1 = 0 ∧
    (∀ s c, (s = 1 ∨ a.check s > 0) → 1 ≤ c → c ≤ 257 →
      ∃ t a1 evs, a.create_transition record [] s c = .ok (t, a1, evs) ∧
        a.create_transition no_relocator () s c = .ok (t, a1, ()) ∧
        t ≠ 1 ∧ a1.check 1 = 0 ∧ ∀ ev ∈ evs, ev.1 ≠ 1 ∧ ev.2 ≠ 1) ∧
    (∀ t inputs e, (∀ p ∈ inputs, 1 ≤ p ∧ p ≤ e.max) → 0 ≤ e.min ∧ e.min ≤ e.max →
      ∃ j a1, (a.grow_to t).find_base inputs e = .ok (j, a1) ∧ ∀ p ∈ inputs, j + p ≠ 1) := by
  have hwf := h.well_formed
  refine ⟨hwf.root, ?_, ?_⟩
  · intro s c hs hc1 hc2
    have hsa : a.allocated s := by
      rcases hs with h1 | h1
      · exact Or.inl h1
      · exact Or.inr (by omega)
    obtain ⟨s1, t, a1, evs, e1, spec⟩ := a.create_transition_aux_spec record
      basic_trie.record_total [] s c hwf hsa ⟨hc1, hc2⟩
    have e2 := basic_trie.create_transition_aux_indep record a [] s c _ e1
    simp only at e2
    refine ⟨t, a1, evs, basic_trie.create_transition_eq record a [] s c s1 t a1 evs e1,
      basic_trie.create_transition_eq no_relocator a () s c s1 t a1 () e2, ?_, spec.wf.root,
      basic_trie.create_transition_aux_record a s c hwf hsa ⟨hc1, hc2⟩ _ e1⟩
    intro ht
    obtain ⟨φ, _, p2, p3, _⟩ := spec.old
    obtain ⟨ws, hws⟩ := hwf.reach_alloc s hsa
    have hw1 := p3 ws s hws
    rw [p2] at hw1
    have hs1 := spec.wf.allocated_lt s1 (basic_trie.walk_allocated a1 ws s1 hw1)
    have hchk := spec.check_t
    rw [ht, spec.wf.root] at hchk
    omega
  · intro t inputs e hin hmin
    obtain ⟨g1, g2, g3⟩ := basic_trie.grow_to_spec a t (by have := hwf.size_gt; omega)
    have hle := g1.size_le
    have hcur := hwf.cursor
    obtain ⟨j, a1, f1, f2, _⟩ := basic_trie.find_base_spec (a.grow_to t) inputs e
      (fun p hp => ⟨by have := (hin p hp).1; omega, (hin p hp).2⟩) hmin
      (by have := hwf.size_gt; omega) (by rw [g2]; omega)
    refine ⟨j, a1, f1, fun p hp => ?_⟩
    have := (hin p hp).1
    rw [g2] at f2
    omega

/-- Witness for C15: the array with the single arc from the root on symbol
98. -/
theorem root_is_fixed_witness :
    basic_trie.Built one_arc ∧
    (one_arc.check 1 = 0 ∧
    (∀ s c, (s = 1 ∨ one_arc.check s > 0) → 1 ≤ c → c ≤ 257 →
      ∃ t a1 evs, one_arc.create_transition record [] s c = .ok (t, a1, evs) ∧
        one_arc.create_transition no_relocator () s c = .ok (t, a1, ()) ∧
        t ≠ 1 ∧ a1.check 1 = 0 ∧ ∀ ev ∈ evs, ev.1 ≠ 1 ∧ ev.2 ≠ 1) ∧
    (∀ t inputs e, (∀ p ∈ inputs, 1 ≤ p ∧ p ≤ e.max) → 0 ≤ e.min ∧ e.min ≤ e.max →
      ∃ j a1, (one_arc.grow_to t).find_base inputs e = .ok (j, a1) ∧
        ∀ p ∈ inputs, j + p ≠ 1)) :=
  ⟨one_arc_built, root_is_fixed one_arc one_arc_built⟩

/-- C16: `find_base` returns a usable base and advances the cursor.  For an
array whose cursor lies inside it, children symbols in 1..257 that are at most
`extremum.max`, and `0 ≤ extremum.min ≤ extremum.max`, the call returns a base
`b` above the old cursor with `check(b + c) ≤ 0` for every child symbol `c` and
`b + extremum.max` inside the array after the growth; the cursor afterwards is
`b`; and every cell that existed before keeps its base and check. -/
theorem find_base_usable (a : basic_trie) (inputs : List Int) (e : extremum_type)
    (hlb : 0 ≤ a.last_base ∧ a.last_base < a.size)
    (hin : ∀ c ∈ inputs, 1 ≤ c ∧ c ≤ 257 ∧ c ≤ e.max)
    (hmin : 0 ≤ e.min ∧ e.min ≤ e.max) :
    ∃ b a1, a.find_base inputs e = .ok (b, a1) ∧ a.last_base < b ∧
      (∀ c ∈ inputs, a1.check (b + c) ≤ 0) ∧ b + e.max < a1.size ∧
      a1.last_base = b ∧ a.size ≤ a1.size ∧
      ∀ i, i < a.size → a1.base i = a.base i ∧ a1.check i = a.check i := by
  obtain ⟨b, a1, f1, f2, f3, f4, _, f6, f7⟩ := basic_trie.find_base_spec a inputs e
    (fun p hp => ⟨by have := (hin p hp).1; omega, (hin p hp).2.2⟩) hmin (by omega) hlb.2
  refine ⟨b, a1, f1, f2, f4, f3, f7, f6.size_le, fun i hi => ?_⟩
  rw [f6.base_eq, f6.check_eq]
  have : ¬ (a.size ≤ i ∧ i < a1.size) := by omega
  simp only [this, if_false, and_self]

/-- Witness for C16: one child on symbol 98 in the empty array. -/
theorem find_base_usable_witness :
    (0 ≤ (basic_trie.init 4096).last_base ∧
      (basic_trie.init 4096).last_base < (basic_trie.init 4096).size) ∧
    (∀ c ∈ [(98 : Int)], 1 ≤ c ∧ c ≤ 257 ∧ c ≤ (⟨98, 98⟩ : extremum_type).max) ∧
    (0 ≤ (⟨98, 98⟩ : extremum_type).min ∧
      (⟨98, 98⟩ : extremum_type).min ≤ (⟨98, 98⟩ : extremum_type).max) ∧
    ∃ b a1, (basic_trie.init 4096).find_base [98] ⟨98, 98⟩ = .ok (b, a1) ∧
      (basic_trie.init 4096).last_base < b ∧
      (∀ c ∈ [(98 : Int)], a1.check (b + c) ≤ 0) ∧
      b + (⟨98, 98⟩ : extremum_type).max < a1.size ∧
      a1.last_base = b ∧ (basic_trie.init 4096).size ≤ a1.size ∧
      ∀ i, i < (basic_trie.init 4096).size →
        a1.base i = (basic_trie.init 4096).base i ∧
        a1.check i = (basic_trie.init 4096).check i :=
  ⟨by decide, by decide, by decide,
    find_base_usable (basic_trie.init 4096) [98] ⟨98, 98⟩ (by decide) (by decide) (by decide)⟩

set_option maxRecDepth 100000 in
/-- C17 evaluated on the code: in the array built by `create_transition(1, 2)`
and `create_transition(3, 1)` the call `create_transition(1, 3)` finds cell 4
owned by state 3 and relocates the child of state 3.  `find_exist_target`
leaves `extremum.min` at 0, the cursor stands at 3, and `find_base` returns 5
although the candidate 4 has its only child cell `4 + 1` free: the candidate
is skipped because `check(4 + 0) > 0`. -/
theorem find_base_skips_candidate :
    chain_array.last_base = 3 ∧
    (chain_array.find_exist_target 3 ⟨0, 0⟩).1 = [1] ∧
    (chain_array.find_exist_target 3 ⟨0, 0⟩).2.max = 1 ∧
    (chain_array.find_exist_target 3 ⟨0, 0⟩).2.min = 0 ∧
    chain_array.check (4 + 1) ≤ 0 ∧ chain_array.check (4 + 0) > 0 ∧
    base_and_size (chain_array.find_base [1] ⟨1, 0⟩) = some (5, 8192) ∧
    base_after (chain_array.create_transition no_relocator () 1 3) 3 = some 5 := by
  decide

/-- C18: all cell accesses stay in bounds.  For a well-formed double-array, an
allocated state `s` with `base(s) ≥ 0`, a symbol `c` in 1..257 and an observer
that returns, `create_transition(s, c)` evaluated with the test
`0 ≤ i < size` before every read and write of `base` and `check` (in
`find_exist_target`, `find_base` and `relocate` as well, for the size current
at that moment) passes every test: it returns what the evaluation without the
tests returns, and the target lies inside the final array. -/
theorem create_transition_in_bounds {σ : Type} (cb : relocator σ)
    (hcb : ∀ b x y o, ∃ o1, cb b x y o = .ok o1)
    (a : basic_trie) (o : σ) (s c : Int) (hwf : a.WF) (hs : a.allocated s)
    (hb : 0 ≤ a.base s) (hc : 1 ≤ c ∧ c ≤ 257) :
    guarded.create_transition cb a o s c = a.create_transition cb o s c ∧
    ∃ t a1 o1, guarded.create_transition cb a o s c = .ok (t, a1, o1) ∧
      0 < t ∧ t < a1.size := by
  have key : guarded.create_transition cb a o s c = a.create_transition cb o s c := by
    unfold guarded.create_transition basic_trie.create_transition
    rw [guarded.create_transition_aux_ok cb hcb a o s c hwf hs hb hc]
    try rfl
  obtain ⟨s1, t, a1, o1, e1, spec⟩ :=
    basic_trie.create_transition_aux_spec cb hcb a o s c hwf hs hc
  refine ⟨key, t, a1, o1, ?_, spec.t_pos, spec.t_lt⟩
  rw [key]
  exact basic_trie.create_transition_eq cb a o s c s1 t a1 o1 e1

/-- Witness for C18: the first arc of an empty array, without observer. -/
theorem create_transition_in_bounds_witness :
    (∀ (b : basic_trie) (x y : Int) (o : Unit), ∃ o1, no_relocator b x y o = .ok o1) ∧
    (basic_trie.init 4096).WF ∧ (basic_trie.init 4096).allocated 1 ∧
    0 ≤ (basic_trie.init 4096).base 1 ∧ ((1 : Int) ≤ 98 ∧ (98 : Int) ≤ 257) ∧
    (guarded.create_transition no_relocator (basic_trie.init 4096) () 1 98
        = (basic_trie.init 4096).create_transition no_relocator () 1 98 ∧
    ∃ t a1 o1, guarded.create_transition no_relocator (basic_trie.init 4096) () 1 98
        = .ok (t, a1, o1) ∧ 0 < t ∧ t < a1.size) :=
  ⟨basic_trie.no_relocator_total, basic_trie.init_wf 4096, Or.inl rfl, by decide, by decide,
    create_transition_in_bounds no_relocator basic_trie.no_relocator_total
      (basic_trie.init 4096) () 1 98 (basic_trie.init_wf 4096) (Or.inl rfl) (by decide)
      (by decide)⟩

/-- C19: growth policy.  For a size `≥ 0` and `n ≥ 0` with `size*2 + n` below
`2^31 - 4096` the `int32_t` computation of `resize_state(n)` sets the size to
`((size*2 + n) / 4096 + 1) * 4096`, a multiple of 4096 that exceeds both the
old size plus `n` and twice the old size; every cell below the old size keeps
its base and check, every cell from the old size up to the new one has base 0
and check 0; and the array is the one that the unbounded model of
`resize_state` yields. -/
theorem resize_state_growth (a : basic_trie) (n : Int) (h0 : 0 ≤ a.size) (hn : 0 ≤ n)
    (hlt : a.size * 2 + n < 2147483648 - 4096) :
    (a.resize_state_int32 n).size = ((a.size * 2 + n) / 4096 + 1) * 4096 ∧
    (a.resize_state_int32 n).size % 4096 = 0 ∧
    a.size + n < (a.resize_state_int32 n).size ∧
    2 * a.size < (a.resize_state_int32 n).size ∧
    (∀ i, i < a.size → (a.resize_state_int32 n).base i = a.base i ∧
      (a.resize_state_int32 n).check i = a.check i) ∧
    (∀ i, a.size ≤ i → i < (a.resize_state_int32 n).size →
      (a.resize_state_int32 n).base i = 0 ∧ (a.resize_state_int32 n).check i = 0) ∧
    a.resize_state_int32 n = a.resize_state n := by
  have hs : (a.resize_state_int32 n).size = ((a.size * 2 + n) / 4096 + 1) * 4096 :=
    resize_state_nsize_eq a.size n h0 hn hlt
  have hs2 : resize_state_nsize a.size n = ((a.size * 2 + n) / 4096 + 1) * 4096 := hs
  refine ⟨hs, by rw [hs]; omega, by rw [hs]; omega, by rw [hs]; omega, ?_, ?_, ?_⟩
  · intro i hi
    have : ¬ (a.size ≤ i ∧ i < resize_state_nsize a.size n) := by omega
    simp only [basic_trie.resize_state_int32, this, if_false, and_self]
  · intro i h1 h2
    have : a.size ≤ i ∧ i < resize_state_nsize a.size n := ⟨h1, h2⟩
    simp only [basic_trie.resize_state_int32, this, and_self, if_true]
  · simp only [basic_trie.resize_state_int32, basic_trie.resize_state, hs2]

/-- Witness for C19: the array of 8192 cells grown by 257. -/
theorem resize_state_growth_witness :
    (0 : Int) ≤ (basic_trie.init 4096).size ∧ (0 : Int) ≤ 257 ∧
    (basic_trie.init 4096).size * 2 + 257 < 2147483648 - 4096 ∧
    (((basic_trie.init 4096).resize_state_int32 257).size
      = (((basic_trie.init 4096).size * 2 + 257) / 4096 + 1) * 4096 ∧
    ((basic_trie.init 4096).resize_state_int32 257).size % 4096 = 0 ∧
    (basic_trie.init 4096).size + 257 < ((basic_trie.init 4096).resize_state_int32 257).size ∧
    2 * (basic_trie.init 4096).size < ((basic_trie.init 4096).resize_state_int32 257).size ∧
    (∀ i, i < (basic_trie.init 4096).size →
      ((basic_trie.init 4096).resize_state_int32 257).base i = (basic_trie.init 4096).base i ∧
      ((basic_trie.init 4096).resize_state_int32 257).check i
        = (basic_trie.init 4096).check i) ∧
    (∀ i, (basic_trie.init 4096).size ≤ i →
      i < ((basic_trie.init 4096).resize_state_int32 257).size →
      ((basic_trie.init 4096).resize_state_int32 257).base i = 0 ∧
      ((basic_trie.init 4096).resize_state_int32 257).check i = 0) ∧
    (basic_trie.init 4096).resize_state_int32 257 = (basic_trie.init 4096).resize_state 257) :=
  ⟨by decide, by decide, by decide,
    resize_state_growth (basic_trie.init 4096) 257 (by decide) (by decide) (by decide)⟩

/-- C20 on the code: `char_in` is `b + 1` for every byte below `0xFF`, and the
symbol then lies in 1..255; the byte `0xFF` is mapped to the symbol 0, not to
256.  The result is the same when the byte is passed as a signed `char`. -/
theorem char_in_byte :
    (∀ b : Nat, b < 255 → char_in b = b + 1 ∧ 1 ≤ char_in b ∧ char_in b ≤ 255) ∧
    char_in 255 = 0 ∧
    (∀ b : Nat, b < 256 →
      char_in_signed (if b < 128 then (b : Int) else (b : Int) - 256) = char_in b) := by
  refine ⟨fun b hb => ?_, by decide, fun b hb => ?_⟩
  · unfold char_in
    omega
  · unfold char_in char_in_signed
    split_ifs <;> omega

/-- C21: key round trip.  For every byte string `bs`, of any length, assigned
to any key: the call returns, `length()` is `|bs|`, `data()[i]` is
`char_in(bs[i])` for every `i < |bs|`, `data()[|bs|]` is the terminator 257,
and `c_str()` returns with the bytes of `bs` in the cells `0..|bs|-1` of its
buffer and the NUL byte in cell `|bs|`, leaving the symbols untouched; and
`char_out(char_in(b)) = b` for every byte `b`.  No buffer is accessed beyond
its capacity. -/
theorem key_round_trip (k : key_type) (bs : List Nat) (hb : ∀ b ∈ bs, b < 256) :
    (∃ k1, k.assign bs = .ok k1 ∧ k1.length = bs.length ∧
      (∀ i b, bs.get? i = some b → k1.data i = .ok (char_in b)) ∧
      k1.data bs.length = .ok 257 ∧
      ∃ k2, k1.c_str = .ok (bs.length, k2) ∧
        (∀ i b, bs.get? i = some b → k2.cstr_ i = b) ∧ k2.cstr_ bs.length = 0 ∧
        bs.length < k2.cstr_capacity_ ∧ k2.data_ = k1.data_ ∧ k2.length = k1.length) ∧
    ∀ b, b < 256 → char_out (char_in b) = b := by
  refine ⟨?_, key_type.char_out_char_in⟩
  obtain ⟨k1, h1, h2, h3, _, _, h6, h7⟩ := key_type.assign_symbols_spec k (bs.map char_in)
  simp only [List.length_map] at h2 h3 h7
  have hget : ∀ i b, bs.get? i = some b → (bs.map char_in).get? i = some (char_in b) := by
    intro i b hi
    rw [List.get?_eq_getElem?, List.getElem?_map, ← List.get?_eq_getElem?, hi]; rfl
  have hlt : ∀ i b, bs.get? i = some b → i < bs.length := by
    intro i b hi
    by_contra hge
    rw [List.get?_eq_none.2 (by omega)] at hi
    cases hi
  obtain ⟨k2, g1, g2, g3, _, g5, g6, g7⟩ := key_type.c_str_spec k1 (bs.map char_in)
    (by
      intro c hc
      obtain ⟨b, _, hb2⟩ := List.mem_map.1 hc
      rw [← hb2]; exact key_type.char_in_ne_terminator b)
    (by simp only [List.length_map]; omega) h6 (by simp only [List.length_map]; exact h7)
  simp only [List.length_map] at g1 g5 g7
  refine ⟨k1, by rw [key_type.assign_eq]; exact h1, h2, ?_, ?_, k2, g1, ?_, g7, g5, g2, g3⟩
  · intro i b hi
    have := hlt i b hi
    simp only [key_type.data]
    rw [if_pos (by omega), h6 i _ (hget i b hi)]
  · simp only [key_type.data]
    rw [if_pos (by omega), h7]
    rfl
  · intro i b hi
    rw [g6 i _ (hget i b hi)]
    have hmem : b ∈ bs := List.get?_mem hi
    exact key_type.char_out_char_in b (hb b hmem)

/-- Witness for C21: the bytes `a`, `0xFF`, `NUL` assigned to an empty key. -/
theorem key_round_trip_witness :
    (∀ b ∈ [97, 255, 0], b < 256) ∧
    ((∃ k1, key_type.empty.assign [97, 255, 0] = .ok k1 ∧ k1.length = [97, 255, 0].length ∧
      (∀ i b, [97, 255, 0].get? i = some b → k1.data i = .ok (char_in b)) ∧
      k1.data [97, 255, 0].length = .ok 257 ∧
      ∃ k2, k1.c_str = .ok ([97, 255, 0].length, k2) ∧
        (∀ i b, [97, 255, 0].get? i = some b → k2.cstr_ i = b) ∧
        k2.cstr_ [97, 255, 0].length = 0 ∧
        [97, 255, 0].length < k2.cstr_capacity_ ∧ k2.data_ = k1.data_ ∧
        k2.length = k1.length) ∧
    ∀ b, b < 256 → char_out (char_in b) = b) :=
  ⟨by decide, key_round_trip key_type.empty [97, 255, 0] (by decide)⟩

/-- C22 on the code: for a key assigned from any symbol sequence and any symbol
`ch`, `push(ch)` returns with length `|k| + 1`, the symbols of `k` followed by
`ch` and the terminator at `data()[length()]`; the following `pop()` leaves the
key equal to `k` again (length, symbols, terminator), but the value it returns
is the terminator 257 read at `data_[length_]`, not the removed symbol `ch`. -/
theorem pop_returns_terminator (k0 : key_type) (syms : List Int) (ch : Int) :
    ∃ k kp kq, k0.assign_symbols syms = .ok k ∧ k.push ch = .ok kp ∧
      kp.length = syms.length + 1 ∧ (∀ j c, syms.get? j = some c → kp.data j = .ok c) ∧
      kp.data syms.length = .ok ch ∧ kp.data kp.length = .ok kTerminator ∧
      kp.pop = .ok (kTerminator, kq) ∧
      kq.length = syms.length ∧ (∀ j c, syms.get? j = some c → kq.data j = .ok c) ∧
      kq.data kq.length = .ok kTerminator := by
  obtain ⟨k, h1, h2, h3, _, _, h6, h7⟩ := key_type.assign_symbols_spec k0 syms
  have hlt : ∀ j c, syms.get? j = some c → j < syms.length := by
    intro j c hj
    by_contra hge
    rw [List.get?_eq_none.2 (by omega)] at hj
    cases hj
  have hn1 : ¬ (k.length_ + 1 ≥ k.data_capacity_) := by omega
  have hn2 : k.length_ < k.data_capacity_ := by omega
  have hn3 : k.length_ + 1 < k.data_capacity_ := by omega
  have hpush : k.push ch = .ok
      { k with
        data_ := fun j => if j = k.length_ + 1 then kTerminator
          else if j = k.length_ then ch else k.data_ j
        length_ := k.length_ + 1 } := by
    simp only [key_type.push, hn1, if_false, key_type.set_data, hn2, if_true, hn3]
  have hpop : key_type.pop
      { k with
        data_ := fun j => if j = k.length_ + 1 then kTerminator
          else if j = k.length_ then ch else k.data_ j
        length_ := k.length_ + 1 } = .ok (kTerminator,
      { k with
        data_ := fun j => if j = k.length_ then kTerminator
          else if j = k.length_ + 1 then kTerminator
          else if j = k.length_ then ch else k.data_ j
        length_ := k.length_ }) := by
    simp only [key_type.pop, key_type.data, hn3, if_true, key_type.set_data,
      Nat.add_one_ne_zero, if_false, Nat.add_sub_cancel, hn2]
  refine ⟨k, _, _, h1, hpush, by simp only [key_type.length]; omega, ?_, ?_, ?_, hpop,
    by simp only [key_type.length]; omega, ?_, ?_⟩
  · intro j c hj
    have := hlt j c hj
    simp only [key_type.data]
    rw [if_pos (by omega), if_neg (by omega), if_neg (by omega), h6 j c hj]
  · simp only [key_type.data]
    rw [if_pos (by omega), if_neg (by omega), if_pos h2.symm]
  · simp only [key_type.data, key_type.length, hn3, if_true]
  · intro j c hj
    have := hlt j c hj
    simp only [key_type.data]
    rw [if_pos (by omega), if_neg (by omega), if_neg (by omega), if_neg (by omega), h6 j c hj]
  · simp only [key_type.data, key_type.length, hn2, if_true]

set_option maxRecDepth 100000 in
/-- C23 on the code: `compact_header()` returns the size `max_state()` and does
not touch `header()`; but after `basic_trie::insert("a", 1)` on the empty array
`max_state()` is 259, the index of the leaf that holds the value, so the
compacted size 259 leaves out cell 259 with `check = 99` and `base = 1`: the
arc from 99 to 259 exists in the array and not in the array cut to the
compacted size, and `search("a")` yields 1 before the cut and 0 after it. -/
theorem compact_header_cuts_used_cell :
    (∀ a : basic_trie, a.compact_header = a.max_state ∧ a.header = a.size) ∧
    one_key.compact_header = 259 ∧ one_key.header = 8192 ∧
    one_key.check 259 = 99 ∧ one_key.base 259 = 1 ∧
    one_key.check_transition 99 259 ∧
    ¬ (truncate one_key one_key.compact_header).check_transition 99 259 ∧
    one_key.search [97] = 1 ∧ (truncate one_key one_key.compact_header).search [97] = 0 := by
  refine ⟨fun a => ⟨rfl, rfl⟩, by decide, by decide, by decide, by decide, by decide,
    by decide, by decide, by decide⟩

/-- C24 (as amended): `relocate` moves the listed children.  On a well-formed
array, for an allocated state `s` with old base `obase`, a list `L` of symbols
in `1..e.max` whose old cells `obase + c` are all owned (or none of which is a
child of `s`), and an observer that does not fail, `relocate(stand, s, L, e)`
returns; with `nbase` the base chosen by `find_base` and `b` the array as
`find_base` leaves it: `base(s) = nbase`; for every `c` in `L` with
`check(obase + c) = s` beforehand, cell `nbase + c` holds the former base of
cell `obase + c` and check `s`, and cell `obase + c` has base 0 and check 0;
for every `c` in `L` with `check(obase + c) ≠ s` beforehand, cell `nbase + c`
stays free with its base, and cell `obase + c` keeps its base (unless it is
`s` itself) and keeps its check unless its owner is one of the moved children,
in which case the check becomes the new cell of that owner; and the returned
stand is `stand - obase + nbase` if `stand` was a moved cell, `stand`
otherwise. -/
theorem relocate_moves_listed_children {σ : Type} (cb : relocator σ)
    (hcb : ∀ b x y o, ∃ o1, cb b x y o = .ok o1)
    (a : basic_trie) (o : σ) (stand s : Int) (L : List Int) (e : extremum_type)
    (hwf : a.WF) (hs : a.allocated s)
    (hL1 : ∀ p ∈ L, 1 ≤ p ∧ p ≤ e.max) (hmin : 0 ≤ e.min ∧ e.min ≤ e.max)
    (hL3 : (∀ p ∈ L, a.check (a.base s + p) ≠ 0) ∨ ∀ p ∈ L, a.check (a.base s + p) ≠ s) :
    ∃ nbase b stand1 a2 o1, a.find_base L e = .ok (nbase, b) ∧ basic_trie.Ext a b ∧
      a.relocate cb o stand s L e = .ok (stand1, a2, o1) ∧
      a2.base s = nbase ∧
      (∀ c ∈ L, a.check (a.base s + c) = s →
        a2.base (nbase + c) = a.base (a.base s + c) ∧ a2.check (nbase + c) = s ∧
        a2.base (a.base s + c) = 0 ∧ a2.check (a.base s + c) = 0) ∧
      (∀ c ∈ L, a.check (a.base s + c) ≠ s →
        a2.base (nbase + c) = b.base (nbase + c) ∧ a2.check (nbase + c) = 0 ∧
        b.check (nbase + c) = 0 ∧
        (a.base s + c ≠ s → a2.base (a.base s + c) = b.base (a.base s + c)) ∧
        a2.check (a.base s + c) =
          if a.check (a.check (a.base s + c)) = s ∧ (a.check (a.base s + c) - a.base s) ∈ L
          then a.check (a.base s + c) - a.base s + nbase else a.check (a.base s + c)) ∧
      stand1 = if a.check stand = s ∧ (stand - a.base s) ∈ L then stand - a.base s + nbase
        else stand := by
  obtain ⟨nbase, b, f1, hext, hbwf, hchk, hbaseP, hn1, hfree, hpre⟩ :=
    basic_trie.find_base_reloc_pre a s L e hwf hs hL1 hmin hL3
  have hs0 := (hwf.allocated_lt s hs).1
  obtain ⟨r1, hr1⟩ := basic_trie.relocate_loop_total cb hcb s (a.base s) nbase L stand b o
  obtain ⟨st, a1, o1⟩ := r1
  obtain ⟨l1, _, _, l4, l5⟩ := basic_trie.relocate_loop_spec cb s (a.base s) nbase (by omega)
    L stand b o (st, a1, o1) hpre hr1
  simp only at l1 l4 l5
  have hmv : ∀ z, b.is_moved s (a.base s) L z ↔ (a.check z = s ∧ (z - a.base s) ∈ L) := by
    intro z; unfold basic_trie.is_moved; rw [hchk]
  simp only [hmv] at l1 l4 l5
  have hrel : a.relocate cb o stand s L e = .ok (st, a1.set_base s nbase, o1) := by
    unfold basic_trie.relocate
    rw [f1]
    simp only [hr1]
  -- the cell `nbase + c` of a listed symbol is not `s`
  have newS : ∀ c ∈ L, nbase + c ≠ s := by
    intro c hc h5
    have h0 := (hfree c hc).1
    rw [h5, hchk] at h0
    rcases hs with h1 | h1
    · have := (hL1 c hc).1; omega
    · exact h1 h0
  -- the old cell of a listed symbol is not the new cell of a moved child
  have oldNew : ∀ c ∈ L, ¬ (a.check (a.base s + c - nbase + a.base s) = s ∧
      (a.base s + c - nbase + a.base s - a.base s) ∈ L) := by
    rintro c hc ⟨h1, h2⟩
    have := hpre.apart _ h2 c hc (by
      rw [hchk]
      have e1 : a.base s + (a.base s + c - nbase + a.base s - a.base s)
          = a.base s + c - nbase + a.base s := by omega
      rw [e1]; exact h1)
    omega
  have e1 : ∀ c : Int, nbase + c - nbase + a.base s = a.base s + c := fun c => by omega
  have e2 : ∀ c : Int, a.base s + c - a.base s = c := fun c => by omega
  refine ⟨nbase, b, st, a1.set_base s nbase, o1, f1, hext, hrel, by simp, ?_, ?_, l1⟩
  · intro c hc hk
    have hk0 : a.check (a.base s + c) ≠ 0 := by rw [hk]; omega
    have hlt := (hwf.cell _ hk0).2.2.2.2
    have hoS : a.base s + c ≠ s := by
      intro h; rw [h] at hk; exact hwf.noloop s (by rw [hk]; omega) hk
    have hm : a.check (a.base s + c) = s ∧ (a.base s + c - a.base s) ∈ L :=
      ⟨hk, by rw [e2]; exact hc⟩
    refine ⟨?_, ?_, ?_, ?_⟩
    · rw [basic_trie.set_base_base, if_neg (newS c hc), l5, e1, if_pos hm]
      exact hext.base_of_lt _ hlt
    · rw [basic_trie.set_base_check, l4, e1, if_pos hm]
    · rw [basic_trie.set_base_base, if_neg hoS, l5, if_neg (oldNew c hc), if_pos hm]
    · rw [basic_trie.set_base_check, l4, if_neg (oldNew c hc), if_pos hm]
  · intro c hc hk
    have hm : ¬ (a.check (a.base s + c) = s ∧ (a.base s + c - a.base s) ∈ L) :=
      fun h => hk h.1
    have hf := (hfree c hc).1
    have hf2 : a.check (nbase + c) = 0 := by rw [← hchk]; exact hf
    have hn : ¬ (a.check (nbase + c) = s ∧ (nbase + c - a.base s) ∈ L) := by
      rw [hf2]; exact fun h => by omega
    have h0 : ¬ (a.check 0 = s ∧ (0 - a.base s) ∈ L) := by
      rw [hwf.check_zero]; exact fun h => by omega
    refine ⟨?_, ?_, hf, ?_, ?_⟩
    · rw [basic_trie.set_base_base, if_neg (newS c hc), l5, e1, if_neg hm, if_neg hn]
    · rw [basic_trie.set_base_check, l4, e1, if_neg hm, if_neg hn, hf, if_neg h0]
    · intro hoS
      rw [basic_trie.set_base_base, if_neg hoS, l5, if_neg (oldNew c hc), if_neg hm]
    · rw [basic_trie.set_base_check, l4, if_neg (oldNew c hc), if_neg hm, hchk]

set_option maxRecDepth 100000 in
/-- Witness for C24: the root of `fork_array` is moved with the list
`[2, 3]`, as `create_transition(1, 3)` does. -/
theorem relocate_moves_listed_children_witness :
    (∀ (b : basic_trie) (x y : Int) (o : Unit), ∃ o1, no_relocator b x y o = .ok o1) ∧
    fork_array.WF ∧ fork_array.allocated 1 ∧
    (∀ p ∈ [(2 : Int), 3], 1 ≤ p ∧ p ≤ (⟨3, 3⟩ : extremum_type).max) ∧
    (0 ≤ (⟨3, 3⟩ : extremum_type).min ∧
      (⟨3, 3⟩ : extremum_type).min ≤ (⟨3, 3⟩ : extremum_type).max) ∧
    ((∀ p ∈ [(2 : Int), 3], fork_array.check (fork_array.base 1 + p) ≠ 0) ∨
      ∀ p ∈ [(2 : Int), 3], fork_array.check (fork_array.base 1 + p) ≠ 1) ∧
    ∃ nbase b stand1 a2 o1, fork_array.find_base [2, 3] ⟨3, 3⟩ = .ok (nbase, b) ∧
      basic_trie.Ext fork_array b ∧
      fork_array.relocate no_relocator () 1 1 [2, 3] ⟨3, 3⟩ = .ok (stand1, a2, o1) ∧
      a2.base 1 = nbase ∧
      (∀ c ∈ [(2 : Int), 3], fork_array.check (fork_array.base 1 + c) = 1 →
        a2.base (nbase + c) = fork_array.base (fork_array.base 1 + c) ∧
        a2.check (nbase + c) = 1 ∧
        a2.base (fork_array.base 1 + c) = 0 ∧ a2.check (fork_array.base 1 + c) = 0) ∧
      (∀ c ∈ [(2 : Int), 3], fork_array.check (fork_array.base 1 + c) ≠ 1 →
        a2.base (nbase + c) = b.base (nbase + c) ∧ a2.check (nbase + c) = 0 ∧
        b.check (nbase + c) = 0 ∧
        (fork_array.base 1 + c ≠ 1 →
          a2.base (fork_array.base 1 + c) = b.base (fork_array.base 1 + c)) ∧
        a2.check (fork_array.base 1 + c) =
          if fork_array.check (fork_array.check (fork_array.base 1 + c)) = 1 ∧
            (fork_array.check (fork_array.base 1 + c) - fork_array.base 1) ∈ [(2 : Int), 3]
          then fork_array.check (fork_array.base 1 + c) - fork_array.base 1 + nbase
          else fork_array.check (fork_array.base 1 + c)) ∧
      stand1 = if fork_array.check 1 = 1 ∧ (1 - fork_array.base 1) ∈ [(2 : Int), 3]
        then 1 - fork_array.base 1 + nbase else 1 :=
  ⟨basic_trie.no_relocator_total, fork_array_built.well_formed, Or.inl rfl, by decide,
    by decide, Or.inl (by decide),
    relocate_moves_listed_children no_relocator basic_trie.no_relocator_total fork_array ()
      1 1 [2, 3] ⟨3, 3⟩ fork_array_built.well_formed (Or.inl rfl) (by decide) (by decide)
      (Or.inl (by decide))⟩

set_option maxRecDepth 100000 in
/-- Counterexample to C24 as stated: in the well-formed array `fork_array` the
root has base 1 and the single child 2 (cell 3), and cell `1 + 3 = 4` is owned
by state 3, not by the root.  `create_transition(1, 3)` relocates the root
with the list `[2, 3]`: the cell 4 of the symbol 3, which is not moved, does
not stay untouched, its check changes from 3 to 6, the new cell of its
owner. -/
theorem relocate_reparents_listed_cell :
    basic_trie.Built fork_array ∧
    fork_array.base 1 = 1 ∧ (fork_array.find_exist_target 1 ⟨0, 0⟩).1 = [2] ∧
    fork_array.check (1 + 2) = 1 ∧ fork_array.check (1 + 3) = 3 ∧
    base_and_size (fork_array.find_base [2, 3] ⟨3, 3⟩) = some (4, 8192) ∧
    check_after (fork_array.relocate no_relocator () 1 1 [2, 3] ⟨3, 3⟩) (1 + 3) = some 6 ∧
    check_after (fork_array.relocate no_relocator () 1 1 [2, 3] ⟨3, 3⟩) (4 + 2) = some 1 ∧
    check_after (fork_array.create_transition no_relocator () 1 3) (1 + 3) = some 6 :=
  ⟨fork_array_built, by decide⟩

/-- C25: `relocate` reports every move to the observer.  On a well-formed
array, for an allocated state `s` with old base `obase` and a list `L` of
symbols in `1..e.max` whose old cells are all owned (or none of which is a
child of `s`), with `nbase` the base chosen by `find_base`: the state of any
observer `cb` after `relocate` is the result of the calls
`cb(obase + c, nbase + c)` made in order for the symbols of a list that is a
sublist of `L` without repetition and holds exactly the `c` of `L` with
`check(obase + c) = s`; and in the array that each call sees, the new cell
holds the base of the old cell and check `s`, and the old cell still holds its
base and its check. -/
theorem relocate_reports_moves {σ : Type} (cb : relocator σ)
    (a : basic_trie) (o : σ) (stand s : Int) (L : List Int) (e : extremum_type)
    (hwf : a.WF) (hs : a.allocated s)
    (hL1 : ∀ p ∈ L, 1 ≤ p ∧ p ≤ e.max) (hmin : 0 ≤ e.min ∧ e.min ≤ e.max)
    (hL3 : (∀ p ∈ L, a.check (a.base s + p) ≠ 0) ∨ ∀ p ∈ L, a.check (a.base s + p) ≠ s) :
    ∃ nbase b, a.find_base L e = .ok (nbase, b) ∧
      observer_of (a.relocate cb o stand s L e) =
        replay cb (a.base s) nbase (basic_trie.relocate_calls s (a.base s) nbase L b) o ∧
      ((basic_trie.relocate_calls s (a.base s) nbase L b).map Prod.snd).Sublist L ∧
      ((basic_trie.relocate_calls s (a.base s) nbase L b).map Prod.snd).Nodup ∧
      (∀ c, c ∈ (basic_trie.relocate_calls s (a.base s) nbase L b).map Prod.snd ↔
        c ∈ L ∧ a.check (a.base s + c) = s) ∧
      ∀ p ∈ basic_trie.relocate_calls s (a.base s) nbase L b,
        p.1.base (nbase + p.2) = a.base (a.base s + p.2) ∧ p.1.check (nbase + p.2) = s ∧
        p.1.base (a.base s + p.2) = a.base (a.base s + p.2) ∧
        p.1.check (a.base s + p.2) = s := by
  obtain ⟨nbase, b, f1, hext, hbwf, hchk, hbaseP, hn1, hfree, hpre⟩ :=
    basic_trie.find_base_reloc_pre a s L e hwf hs hL1 hmin hL3
  have hs0 := (hwf.allocated_lt s hs).1
  obtain ⟨i1, i2, i3, i4⟩ :=
    basic_trie.relocate_calls_spec s (a.base s) nbase (by omega) L b hpre
  refine ⟨nbase, b, f1, relocate_calls_eq cb a o stand s L e nbase b f1, i1, i2, ?_, ?_⟩
  · intro c
    rw [i3, hchk]
  · intro p hp
    obtain ⟨j1, j2, j3, j4⟩ := i4 p hp
    have hp2 : p.2 ∈ (basic_trie.relocate_calls s (a.base s) nbase L b).map Prod.snd :=
      List.mem_map_of_mem _ hp
    have hk := ((i3 p.2).1 hp2).2
    rw [hchk] at hk
    have hk0 : a.check (a.base s + p.2) ≠ 0 := by rw [hk]; omega
    have hlt := (hwf.cell _ hk0).2.2.2.2
    rw [hext.base_of_lt _ hlt] at j1 j3
    exact ⟨j1, j2, j3, j4⟩

set_option maxRecDepth 100000 in
/-- Witness for C25: the root of `fork_array` is moved with the list `[2, 3]`
under the observer that records the events. -/
theorem relocate_reports_moves_witness :
    fork_array.WF ∧ fork_array.allocated 1 ∧
    (∀ p ∈ [(2 : Int), 3], 1 ≤ p ∧ p ≤ (⟨3, 3⟩ : extremum_type).max) ∧
    (0 ≤ (⟨3, 3⟩ : extremum_type).min ∧
      (⟨3, 3⟩ : extremum_type).min ≤ (⟨3, 3⟩ : extremum_type).max) ∧
    ((∀ p ∈ [(2 : Int), 3], fork_array.check (fork_array.base 1 + p) ≠ 0) ∨
      ∀ p ∈ [(2 : Int), 3], fork_array.check (fork_array.base 1 + p) ≠ 1) ∧
    ∃ nbase b, fork_array.find_base [2, 3] ⟨3, 3⟩ = .ok (nbase, b) ∧
      observer_of (fork_array.relocate record [] 1 1 [2, 3] ⟨3, 3⟩) =
        replay record (fork_array.base 1) nbase
          (basic_trie.relocate_calls 1 (fork_array.base 1) nbase [2, 3] b) [] ∧
      ((basic_trie.relocate_calls 1 (fork_array.base 1) nbase [2, 3] b).map
        Prod.snd).Sublist [2, 3] ∧
      ((basic_trie.relocate_calls 1 (fork_array.base 1) nbase [2, 3] b).map Prod.snd).Nodup ∧
      (∀ c, c ∈ (basic_trie.relocate_calls 1 (fork_array.base 1) nbase [2, 3] b).map Prod.snd ↔
        c ∈ [(2 : Int), 3] ∧ fork_array.check (fork_array.base 1 + c) = 1) ∧
      ∀ p ∈ basic_trie.relocate_calls 1 (fork_array.base 1) nbase [2, 3] b,
        p.1.base (nbase + p.2) = fork_array.base (fork_array.base 1 + p.2) ∧
        p.1.check (nbase + p.2) = 1 ∧
        p.1.base (fork_array.base 1 + p.2) = fork_array.base (fork_array.base 1 + p.2) ∧
        p.1.check (fork_array.base 1 + p.2) = 1 :=
  ⟨fork_array_built.well_formed, Or.inl rfl, by decide, by decide, Or.inl (by decide),
    relocate_reports_moves record fork_array [] 1 1 [2, 3] ⟨3, 3⟩
      fork_array_built.well_formed (Or.inl rfl) (by decide) (by decide) (Or.inl (by decide))⟩

/-- C26: claiming a free cell touches nothing else.  For every array, every
state `s` with `base(s) > 0` and every symbol `c` (in 1..257 or not) such that
`t = base(s) + c` is inside the array and `check(t) ≤ 0`, `create_transition(s, c)` returns `t`
and the array `a` with `check(t)` set to `s`: every base, every other check,
the size, the cursor `last_base` and `max_state` are unchanged, and the
observer is not called (its state is returned as it was, whatever the
observer). -/
theorem claim_free_cell {σ : Type} (cb : relocator σ) (a : basic_trie) (o : σ) (s c : Int)
    (hb : a.base s > 0) (ht : a.base s + c < a.size)
    (hf : a.check (a.base s + c) ≤ 0) :
    a.create_transition cb o s c = .ok (a.base s + c, a.set_check (a.base s + c) s, o) ∧
    (a.set_check (a.base s + c) s).check (a.base s + c) = s ∧
    (∀ x, x ≠ a.base s + c → (a.set_check (a.base s + c) s).check x = a.check x) ∧
    (∀ x, (a.set_check (a.base s + c) s).base x = a.base x) ∧
    (a.set_check (a.base s + c) s).size = a.size ∧
    (a.set_check (a.base s + c) s).last_base = a.last_base ∧
    (a.set_check (a.base s + c) s).max_state = a.max_state := by
  have hg : a.grow_to (a.next s c) = a := basic_trie.grow_to_of_lt a _ ht
  refine ⟨?_, by simp, fun x hx => by simp [hx], fun x => rfl, rfl, rfl, rfl⟩
  unfold basic_trie.create_transition
  rw [basic_trie.create_transition_aux_def, hg]
  have hA : a.base s > 0 ∧ a.check (a.next s c) ≤ 0 := ⟨hb, hf⟩
  rw [if_pos hA]
  rfl

set_option maxRecDepth 100000 in
/-- Witness for C26: the second arc from the root of the array that holds the
arc on 98, with the observer that records the events. -/
theorem claim_free_cell_witness :
    one_arc.base 1 > 0 ∧
    one_arc.base 1 + 99 < one_arc.size ∧ one_arc.check (one_arc.base 1 + 99) ≤ 0 ∧
    (one_arc.create_transition record [] 1 99
      = .ok (one_arc.base 1 + 99, one_arc.set_check (one_arc.base 1 + 99) 1, []) ∧
    (one_arc.set_check (one_arc.base 1 + 99) 1).check (one_arc.base 1 + 99) = 1 ∧
    (∀ x, x ≠ one_arc.base 1 + 99 →
      (one_arc.set_check (one_arc.base 1 + 99) 1).check x = one_arc.check x) ∧
    (∀ x, (one_arc.set_check (one_arc.base 1 + 99) 1).base x = one_arc.base x) ∧
    (one_arc.set_check (one_arc.base 1 + 99) 1).size = one_arc.size ∧
    (one_arc.set_check (one_arc.base 1 + 99) 1).last_base = one_arc.last_base ∧
    (one_arc.set_check (one_arc.base 1 + 99) 1).max_state = one_arc.max_state) :=
  ⟨by decide, by decide, by decide,
    claim_free_cell record one_arc [] 1 99 (by decide) (by decide) (by decide)⟩

/-- C27: `set_link` establishes the link.  In a two-trie whose counter
`next_index` and free index slots are at least 1, for a rear state `t` whose
refer record, when it has referers, names an accept slot that holds `t`, and a
front state `s` that is fresh (`base(s) ≥ 0`) or a separator with its slot
inside the index table: `i = set_link(s, t)` returns, `base(s) = -i` with
`i ≥ 1` inside the index table, `link_state(s) = t`, `s` is a referer of `t`,
`accept[refer[t].accept_index].accept = t`, and `index[i].data` is unchanged
(it is 0 when the table was grown to hold `i`). -/
theorem set_link_establishes (d : double_trie) (s t : Int)
    (hs : d.lhs.base s < 0 → -d.lhs.base s < d.index_size)
    (hnext : 1 ≤ d.next_index) (hfree : ∀ x ∈ d.free_index, 1 ≤ x)
    (hcons : ∀ rec, d.refer t = some rec → rec.referer ≠ [] → d.accept rec.accept_index = t) :
    ∃ i d1, d.set_link s t = .ok (i, d1) ∧ d1.lhs.base s = -i ∧ 1 ≤ i ∧ i < d1.index_size ∧
      d1.link_state s = t ∧
      (∃ rec, d1.refer t = some rec ∧ s ∈ rec.referer ∧ d1.accept rec.accept_index = t) ∧
      (i < d.index_size → (d1.index i).data = (d.index i).data) ∧
      (d.index_size ≤ i → (d1.index i).data = 0) := by
  obtain ⟨i, d1, f1, f2, f3, f4, f5, f6, _, f8, f9, f10⟩ :=
    double_trie.find_index_entry_spec d s hs hnext hfree
  unfold double_trie.set_link
  rw [f1]
  simp only
  have hdata : (i < d.index_size → (d1.index i).data = (d.index i).data) ∧
      (d.index_size ≤ i → (d1.index i).data = 0) :=
    ⟨fun h => by rw [f9 i h], fun h => by rw [f10 i h f3]⟩
  by_cases hbr : (d.refer t).isSome = true ∧ (d.refer_at t).referer.length ≠ 0
  · rw [if_pos hbr]
    obtain ⟨rec, hrec⟩ := Option.isSome_iff_exists.1 hbr.1
    have hat : d.refer_at t = rec := by simp only [double_trie.refer_at, hrec]
    have hat1 : d1.refer_at t = rec := by simp only [double_trie.refer_at, f6, hrec]
    have hne : rec.referer ≠ [] := by
      intro h
      apply hbr.2
      rw [hat, h]; rfl
    have hacc := hcons rec hrec hne
    have hb : (d1.set_index_index i (d1.refer_at t).accept_index).lhs.base s < 0 := by
      show d1.lhs.base s < 0
      omega
    rw [if_neg (by simp only [not_not]; exact hb)]
    have hat2 : (d1.set_index_index i (d1.refer_at t).accept_index).refer_at t = rec := by
      simp only [double_trie.refer_at, double_trie.set_index_index, f6, hrec]
    refine ⟨i, _, rfl, ?_, f2, f3, ?_, ?_, ?_, ?_⟩
    · show d1.lhs.base s = -i
      exact f4
    · simp only [double_trie.link_state, double_trie.set_refer, double_trie.set_index_index,
        f4, neg_neg, if_true, hat1, f5, hacc]
    · refine ⟨_, by unfold double_trie.set_refer; exact if_pos rfl, ?_, ?_⟩
      · simp only [hat2]
        rw [mem_set_insert]; exact Or.inl rfl
      · simp only [double_trie.set_refer, double_trie.set_index_index, f5,
          double_trie.refer_at, f6, hrec]
        exact hacc
    · intro h
      simp only [double_trie.set_refer, double_trie.set_index_index, if_true]
      exact hdata.1 h
    · intro h
      simp only [double_trie.set_refer, double_trie.set_index_index, if_true]
      exact hdata.2 h
  · rw [if_neg hbr]
    obtain ⟨g1, g2, g3, g4, _⟩ := double_trie.find_accept_entry_spec d1 i
    generalize hr : d1.find_accept_entry i = r at g1 g2 g3 g4
    try simp only
    have hb : ((r.2.set_accept r.1 t).set_refer t ⟨r.1, (r.2.refer_at t).referer⟩).lhs.base s
        < 0 := by
      show r.2.lhs.base s < 0
      rw [g3]; omega
    rw [if_neg (by simp only [not_not]; exact hb)]
    refine ⟨i, _, rfl, ?_, f2, ?_, ?_, ?_, ?_, ?_⟩
    · show r.2.lhs.base s = -i
      rw [g3]; exact f4
    · show i < r.2.index_size
      obtain ⟨_, _, _, _, g5⟩ := double_trie.find_accept_entry_spec d1 i
      rw [hr] at g5
      rw [g5]; exact f3
    · simp only [double_trie.link_state, double_trie.set_refer, double_trie.set_accept,
        g3, f4, neg_neg, g1, if_true]
    · refine ⟨_, by unfold double_trie.set_refer; exact if_pos rfl, ?_, ?_⟩
      · rw [mem_set_insert]; exact Or.inl rfl
      · simp [double_trie.refer_at, double_trie.set_refer, double_trie.set_accept]
    · intro h
      simp only [double_trie.set_refer, double_trie.set_accept]
      rw [g2]; exact hdata.1 h
    · intro h
      simp only [double_trie.set_refer, double_trie.set_accept]
      rw [g2]; exact hdata.2 h

/-- Witness for C27: the fresh front state 3 is linked to the rear state 5 in
the empty two-trie. -/
theorem set_link_establishes_witness :
    (double_trie.init.lhs.base 3 < 0 → -double_trie.init.lhs.base 3 < double_trie.init.index_size) ∧
    1 ≤ double_trie.init.next_index ∧ (∀ x ∈ double_trie.init.free_index, 1 ≤ x) ∧
    (∀ rec, double_trie.init.refer 5 = some rec → rec.referer ≠ [] →
      double_trie.init.accept rec.accept_index = 5) ∧
    ∃ i d1, double_trie.init.set_link 3 5 = .ok (i, d1) ∧ d1.lhs.base 3 = -i ∧ 1 ≤ i ∧
      i < d1.index_size ∧ d1.link_state 3 = 5 ∧
      (∃ rec, d1.refer 5 = some rec ∧ 3 ∈ rec.referer ∧ d1.accept rec.accept_index = 5) ∧
      (i < double_trie.init.index_size → (d1.index i).data = (double_trie.init.index i).data) ∧
      (double_trie.init.index_size ≤ i → (d1.index i).data = 0) :=
  ⟨by decide, by decide, by decide, (fun rec h => by cases h),
    set_link_establishes double_trie.init 3 5 (by decide) (by decide) (by decide)
      (fun rec h => by cases h)⟩

/-- C28: `relocate_rear` keeps every link pointing at the moved rear state.  In a
two-trie in which every refer record without a referer names the accept slot 0
(as it does in every two-trie reachable by inserts), for a rear state `old`
that has the refer record `rec` with the accept index `a`,
`relocate_rear(old, new)` with `new ≠ old` returns; afterwards
`accept[a].accept = new`, `refer[new]` is the former `refer[old]`, `refer` has
no record for `old`, and `link_state(f) = new` for every front state `f` whose
index record names the slot `a`.  This holds whether or not the referer set is
empty: the free accept list is unchanged, so the slot is not handed out.  No
other accept slot, no other refer record, not the index table and not the
front array changes. -/
theorem relocate_rear_keeps_links (a : basic_trie) (d : double_trie) (old new : Int)
    (rec : refer_type) (hne : old ≠ new) (hrec : d.refer old = some rec)
    (hk : d.dead_ok) :
    ∃ d1, double_trie.relocate_rear a old new d = .ok d1 ∧
      d1.accept rec.accept_index = new ∧
      d1.refer new = some rec ∧ d1.refer old = none ∧
      (∀ f, (d.index (-d.lhs.base f)).index = rec.accept_index → d1.link_state f = new) ∧
      d1.free_accept = d.free_accept ∧
      (∀ j, j ≠ rec.accept_index → d1.accept j = d.accept j) ∧
      (∀ r, r ≠ old → r ≠ new → d1.refer r = d.refer r) ∧
      d1.index = d.index ∧ d1.lhs = d.lhs := by
  have hne2 : ¬ new = old := fun h => hne h.symm
  have hrun : double_trie.relocate_rear a old new d =
      .ok (double_trie.free_accept_entry
        ((d.set_accept rec.accept_index new).set_refer new rec) old) := by
    unfold double_trie.relocate_rear
    rw [hrec]
  have hr2 : ((d.set_accept rec.accept_index new).set_refer new rec).refer old = some rec := by
    simp only [double_trie.set_refer, double_trie.set_accept]
    rw [if_neg hne]
    exact hrec
  have hfree : ¬ (old > 0 ∧ rec.referer.length = 0 ∧
      rec.accept_index < ((d.set_accept rec.accept_index new).set_refer new rec).accept_size
      ∧ rec.accept_index > 0) := by
    rintro ⟨_, h2, _, h4⟩
    have := hk old rec hrec (List.length_eq_zero.1 h2)
    omega
  refine ⟨_, hrun, ?_⟩
  unfold double_trie.free_accept_entry
  rw [hr2]
  simp only [double_trie.count_referer, hr2]
  rw [if_neg hfree]
  refine ⟨by simp [double_trie.set_refer, double_trie.set_accept],
    by simp [double_trie.set_refer, double_trie.set_accept, hne2], by simp,
    fun f hf => ?_, rfl,
    fun j hj => by simp [double_trie.set_refer, double_trie.set_accept, hj],
    fun r h1 h2 => by simp [double_trie.set_refer, double_trie.set_accept, h1, h2],
    rfl, rfl⟩
  simp only [double_trie.link_state, double_trie.set_refer, double_trie.set_accept, hf,
    if_true]

set_option maxRecDepth 100000 in
/-- Witness for C28: in the two-trie after the insert `"ab"`:1 the rear state 102
has the accept slot 1 and the front state 99 as referer; it moves to state
300. -/
theorem relocate_rear_keeps_links_witness :
    (102 : Int) ≠ 300 ∧ first_key.refer 102 = some ⟨1, [99]⟩ ∧ first_key.dead_ok ∧
    ∃ d1, double_trie.relocate_rear first_key.rhs 102 300 first_key = .ok d1 ∧
      d1.accept (⟨1, [99]⟩ : refer_type).accept_index = 300 ∧
      d1.refer 300 = some ⟨1, [99]⟩ ∧ d1.refer 102 = none ∧
      (∀ f, (first_key.index (-first_key.lhs.base f)).index
          = (⟨1, [99]⟩ : refer_type).accept_index → d1.link_state f = 300) ∧
      d1.free_accept = first_key.free_accept ∧
      (∀ j, j ≠ (⟨1, [99]⟩ : refer_type).accept_index → d1.accept j = first_key.accept j) ∧
      (∀ r, r ≠ 102 → r ≠ 300 → d1.refer r = first_key.refer r) ∧
      d1.index = first_key.index ∧ d1.lhs = first_key.lhs :=
  ⟨by decide, by rfl, double_trie.Reachable.dead_records first_key_reachable,
    relocate_rear_keeps_links first_key.rhs first_key 102 300 ⟨1, [99]⟩ (by decide) (by rfl)
      (double_trie.Reachable.dead_records first_key_reachable)⟩

set_option maxRecDepth 1000000 in
/-- C29 on the code: after the inserts `"ab"`:1, `"cb"`:2, `"ac"`:3 the saved
rear position `stand_` is the rear state 102, which has a refer record;
`relocate_rear(102, 300)` in this two-trie leaves `stand_` at 102.  In the
empty two-trie, where state 0 has no refer record, `relocate_rear(0, 300)`
moves `stand_` from 0 to 300. -/
theorem relocate_rear_leaves_stand :
    three_keys.stand = 102 ∧ (three_keys.refer 102).isSome = true ∧
    (observed (double_trie.relocate_rear three_keys.rhs 102 300 three_keys)).map
      (fun d => d.stand) = some 102 ∧
    double_trie.init.stand = 0 ∧ (double_trie.init.refer 0).isSome = false ∧
    (observed (double_trie.relocate_rear double_trie.init.rhs 0 300 double_trie.init)).map
      (fun d => d.stand) = some 300 := by
  decide

/-- C30: `relocate_front` moves the back-pointer and nothing else.  With the new
cell a separator whenever the old one is (`relocate` has copied the base when
it calls) and an accept index that is not negative:
`relocate_front(old, new)` returns; it changes at most the refer map; when
`old` is a separator whose index record has a non-zero accept index and
`r = link_state(old)` has a refer record, the record of `r` keeps its
`accept_index`, its referer set is the former set with `old` removed and `new`
added, and every other refer record is unchanged; in every other case the
two-trie is unchanged. -/
theorem relocate_front_frame (d : double_trie) (old new : Int)
    (hnew : d.lhs.base old < 0 → d.lhs.base new < 0)
    (hidx : 0 ≤ (d.index (-d.lhs.base old)).index) :
    ∃ d1, double_trie.relocate_front d.lhs old new d = .ok d1 ∧
      d1 = { d with refer := d1.refer } ∧
      (∀ rec, d.check_separator old → (d.index (-d.lhs.base old)).index ≠ 0 →
        d.refer (d.link_state old) = some rec →
        (∃ rec1, d1.refer (d.link_state old) = some rec1 ∧
          rec1.accept_index = rec.accept_index ∧
          ∀ x, x ∈ rec1.referer ↔ x = new ∨ (x ∈ rec.referer ∧ x ≠ old)) ∧
        ∀ r, r ≠ d.link_state old → d1.refer r = d.refer r) ∧
      (¬ (d.check_separator old ∧ (d.index (-d.lhs.base old)).index ≠ 0 ∧
          (d.refer (d.link_state old)).isSome) → d1 = d) := by
  refine ⟨_, double_trie.relocate_front_spec d old new hnew, ?_, ?_, ?_⟩
  · split_ifs
    · split <;> rfl
    · rfl
  · intro rec h1 h2 h3
    have hc : d.lhs.base old < 0 ∧ (d.index (-d.lhs.base old)).index > 0 :=
      ⟨h1, by omega⟩
    rw [if_pos hc, h3]
    simp only [double_trie.set_refer, if_true]
    refine ⟨⟨_, rfl, rfl, fun x => ?_⟩, fun r hr => by rw [if_neg hr]⟩
    simp only
    rw [mem_set_insert, mem_set_erase]
  · intro h
    by_cases hc : d.lhs.base old < 0 ∧ (d.index (-d.lhs.base old)).index > 0
    · rw [if_pos hc]
      cases h3 : d.refer (d.link_state old) with
      | none => rfl
      | some rec =>
        exfalso
        apply h
        exact ⟨hc.1, by omega, by rw [h3]; rfl⟩
    · rw [if_neg hc]

set_option maxRecDepth 1000000 in
/-- Witness for C30: in the two-trie holding `"ab"`, `"cb"` and `"ac"` the front
separator 101 moves to the place of the separator 103. -/
theorem relocate_front_frame_witness :
    (three_keys.lhs.base 101 < 0 → three_keys.lhs.base 103 < 0) ∧
    0 ≤ (three_keys.index (-three_keys.lhs.base 101)).index ∧
    ∃ d1, double_trie.relocate_front three_keys.lhs 101 103 three_keys = .ok d1 ∧
      d1 = { three_keys with refer := d1.refer } ∧
      (∀ rec, three_keys.check_separator 101 →
        (three_keys.index (-three_keys.lhs.base 101)).index ≠ 0 →
        three_keys.refer (three_keys.link_state 101) = some rec →
        (∃ rec1, d1.refer (three_keys.link_state 101) = some rec1 ∧
          rec1.accept_index = rec.accept_index ∧
          ∀ x, x ∈ rec1.referer ↔ x = 103 ∨ (x ∈ rec.referer ∧ x ≠ 101)) ∧
        ∀ r, r ≠ three_keys.link_state 101 → d1.refer r = three_keys.refer r) ∧
      (¬ (three_keys.check_separator 101 ∧
          (three_keys.index (-three_keys.lhs.base 101)).index ≠ 0 ∧
          (three_keys.refer (three_keys.link_state 101)).isSome) → d1 = three_keys) :=
  ⟨by decide, by decide, relocate_front_frame three_keys 101 103 (by decide) (by decide)⟩

set_option maxRecDepth 1000000 in
/-- C31 on the code: in the two-trie that holds `"da"` and `"ex\xFF"` (both
found by `search`) the rear trie has the path root, terminator, `char_in(0xFF)`
from state 1 over 259 to 3.  `rhs_append("\x60\xFF")` returns the state 101,
which is allocated with the parent 3 and the arc from 3 on `char_in(0x60)`, but
afterwards the arc on `char_in(0xFF) = 0` into state 3 is gone: the path root,
terminator, `char_in(0xFF)`, `char_in(0x60)` does not exist, neither to the
returned state nor to its parent. -/
theorem rhs_append_loses_zero_arc :
    double_trie.Reachable zero_arc_trie ∧
    zero_arc_trie.search [100, 97] = 1 ∧ zero_arc_trie.search [101, 120, 255] = 2 ∧
    zero_arc_trie.rhs.walk 1 (kTerminator :: ([255].map char_in).reverse) = some 3 ∧
    (appended (zero_arc_trie.rhs_append [96, 255])).map (fun p =>
      (p.1, p.2.check p.1, decide (p.2.check_reverse_transition p.1 (char_in 96)),
        decide (p.2.check_reverse_transition (p.2.prev p.1) (char_in 255)),
        p.2.walk 1 [kTerminator],
        p.2.walk 1 (kTerminator :: ([255].map char_in).reverse),
        p.2.walk 1 (kTerminator :: ([96, 255].map char_in).reverse)))
      = some (101, 3, true, false, some 259, none, none) := by
  refine ⟨?_, by decide, by decide, by decide, by rfl⟩
  exact double_trie.Reachable.step
    (match double_trie.init.insert [100, 97] 1 with
      | .ok d => d
      | .error _ => double_trie.init) zero_arc_trie [101, 120, 255] 2
    (double_trie.Reachable.step double_trie.init _ [100, 97] 1 double_trie.Reachable.init
      (by rfl)) (by rfl)

set_option maxRecDepth 100000 in
/-- C32 on the code: for every array and state `s`, `find_exist_target(s)`
entered with the extremum `{0, 0}` collects, in strictly ascending order,
exactly the symbols `c` in 1..257 for which the arc from `s` on `c` exists, and
when there is at least one, `extremum.max` is the largest of them; but
`extremum.min` is 0 afterwards, which is none of the symbols, so it is not the
smallest of them.  In the array with the single arc from the root on symbol 98
the result is the list `[98]` with `max = 98` and `min = 0`. -/
theorem find_exist_target_min_stays_zero :
    (∀ (a : basic_trie) (s : Int),
      (a.find_exist_target s ⟨0, 0⟩).1.Pairwise (fun x y => x < y) ∧
      (∀ c, c ∈ (a.find_exist_target s ⟨0, 0⟩).1 ↔
        1 ≤ c ∧ c ≤ 257 ∧ a.check_transition s (a.next s c)) ∧
      ((a.find_exist_target s ⟨0, 0⟩).1 ≠ [] →
        (a.find_exist_target s ⟨0, 0⟩).2.max ∈ (a.find_exist_target s ⟨0, 0⟩).1 ∧
        ∀ c ∈ (a.find_exist_target s ⟨0, 0⟩).1, c ≤ (a.find_exist_target s ⟨0, 0⟩).2.max) ∧
      (a.find_exist_target s ⟨0, 0⟩).2.min = 0 ∧
      (a.find_exist_target s ⟨0, 0⟩).2.min ∉ (a.find_exist_target s ⟨0, 0⟩).1) ∧
    (one_arc.find_exist_target 1 ⟨0, 0⟩).1 = [98] ∧
    (one_arc.find_exist_target 1 ⟨0, 0⟩).2.max = 98 ∧
    (one_arc.find_exist_target 1 ⟨0, 0⟩).2.min = 0 := by
  refine ⟨fun a s => ?_, by decide, by decide, by decide⟩
  obtain ⟨f1, f2, f3⟩ := basic_trie.find_exist_target_facts a s
  refine ⟨basic_trie.find_exist_target_loop_sorted a s 257 1 ⟨0, 0⟩,
    basic_trie.mem_find_exist_target a s ⟨0, 0⟩, fun hne => ⟨?_, fun c hc => (f1 c hc).2.1⟩,
    f3, ?_⟩
  · rcases basic_trie.find_exist_target_loop_max_mem a s 257 1 ⟨0, 0⟩ with h | h
    · exfalso
      obtain ⟨c, hc⟩ := List.exists_mem_of_ne_nil _ hne
      have h1 := f1 c hc
      have h2 : (a.find_exist_target s ⟨0, 0⟩).2.max = 0 := h
      omega
    · exact h
  · rw [f3]
    intro h0
    have := (f1 0 h0).1
    omega

/-- C33: `find_base` terminates.  For every array, every cursor
`last_base ≥ 0` (when the cursor is not inside the array, the cells beyond the
size are taken to read as zero), every list of symbols in 1..257 and
`0 ≤ extremum.min ≤ extremum.max ≤ 257`, `find_base` returns a base `b` with
`last_base < b ≤ max(last_base + 1, size)`; the scan tries the `b - last_base`
candidates `last_base + 1, …, b` and stops: with any fuel that covers them the
loop returns the same base and array. -/
theorem find_base_terminates (a : basic_trie) (inputs : List Int) (e : extremum_type)
    (hlb : 0 ≤ a.last_base)
    (hin : ∀ c ∈ inputs, 1 ≤ c ∧ c ≤ 257)
    (hmin : 0 ≤ e.min ∧ e.min ≤ e.max ∧ e.max ≤ 257)
    (hz : a.size ≤ a.last_base → ∀ x, a.size ≤ x → a.check x = 0) :
    ∃ b a0, a.find_base inputs e = .ok (b, { a0 with last_base := b }) ∧
      a.last_base < b ∧ b ≤ max (a.last_base + 1) a.size ∧
      ∀ n : Nat, b - a.last_base ≤ n →
        basic_trie.find_base_loop inputs e n a a.last_base = .ok (b, a0) := by
  by_cases hc : a.last_base < a.size
  · obtain ⟨j, a1, h1, h2, h3⟩ := basic_trie.find_base_loop_inside inputs e a.size
      (fun p hp => ⟨by have := (hin p hp).1; omega, (hin p hp).2⟩) hmin (by omega)
      (a.size - a.last_base).toNat a a.last_base (by omega) hc (le_refl _) (Or.inl rfl)
      (fun x h4 h5 => by omega)
    refine ⟨j, a1, ?_, h1, by omega, h3⟩
    unfold basic_trie.find_base
    rw [h3 _ (by omega)]
  · obtain ⟨a1, h1⟩ := basic_trie.find_base_loop_outside inputs e
      (fun p hp => by have := (hin p hp).1; omega) ⟨hmin.1, hmin.2.1⟩ a a.last_base (by omega)
      (hz (by omega))
    refine ⟨a.last_base + 1, a1, ?_, by omega, by omega, fun n hn => h1 n (by omega)⟩
    unfold basic_trie.find_base
    rw [h1 _ (by omega)]

set_option maxRecDepth 100000 in
/-- Witness for C33: the children 98 and 99 in the array that holds the arc
from the root on 98, whose cursor is inside the array. -/
theorem find_base_terminates_witness :
    0 ≤ one_arc.last_base ∧ (∀ c ∈ [(98 : Int), 99], 1 ≤ c ∧ c ≤ 257) ∧
    (0 ≤ (⟨99, 98⟩ : extremum_type).min ∧
      (⟨99, 98⟩ : extremum_type).min ≤ (⟨99, 98⟩ : extremum_type).max ∧
      (⟨99, 98⟩ : extremum_type).max ≤ 257) ∧
    (one_arc.size ≤ one_arc.last_base → ∀ x, one_arc.size ≤ x → one_arc.check x = 0) ∧
    ∃ b a0, one_arc.find_base [98, 99] ⟨99, 98⟩ = .ok (b, { a0 with last_base := b }) ∧
      one_arc.last_base < b ∧ b ≤ max (one_arc.last_base + 1) one_arc.size ∧
      ∀ n : Nat, b - one_arc.last_base ≤ n →
        basic_trie.find_base_loop [98, 99] ⟨99, 98⟩ n one_arc one_arc.last_base = .ok (b, a0) :=
  ⟨by decide, by decide, by decide, fun h => absurd h (by decide),
    find_base_terminates one_arc [98, 99] ⟨99, 98⟩ (by decide) (by decide) (by decide)
      (fun h => absurd h (by decide))⟩

/-- C34: index slots are never shared.  In every two-trie state reachable
from the empty two-trie by inserts, two cells of the front array (allocated or
not) with the same negative base are the same cell, every slot named by a
negative base is at least 1 and below `next_index`, and no such slot is in the
`free_index` list; and `find_index_entry` on a state with `base ≥ 0` returns,
with a slot that no cell named before and that only this state names
afterwards. -/
theorem index_slots_not_shared (d : double_trie) (h : double_trie.Reachable d) :
    (∀ s1 s2, d.lhs.base s1 < 0 → d.lhs.base s1 = d.lhs.base s2 → s1 = s2) ∧
    (∀ s, d.lhs.base s < 0 → 1 ≤ -d.lhs.base s ∧ -d.lhs.base s < d.next_index) ∧
    (∀ s, d.lhs.base s < 0 → -d.lhs.base s ∉ d.free_index) ∧
    (∀ s, d.lhs.base s ≥ 0 → ∃ i d1, d.find_index_entry s = .ok (i, d1) ∧
      (∀ x, d.lhs.base x ≠ -i) ∧ d1.lhs.base s = -i ∧
      ∀ x, x ≠ s → d1.lhs.base x = d.lhs.base x ∧ d1.lhs.base x ≠ -i) := by
  have hk := h.slots
  refine ⟨hk.inj, hk.range, hk.not_free, fun s hs => ?_⟩
  obtain ⟨i, d1, f1, _⟩ := double_trie.find_index_entry_spec d s (fun h0 => by omega)
    hk.next_pos (fun x hx => (hk.free_range x hx).1)
  obtain ⟨_, g⟩ := double_trie.find_index_entry_slots d s i d1 hk f1
  obtain ⟨g1, g2, g3⟩ := g hs
  exact ⟨i, d1, f1, g1, g2, fun x hx => ⟨g3 x hx, by rw [g3 x hx]; exact g1 x⟩⟩

/-- Witness for C34: the two-trie after the insert `"ab"`:1. -/
theorem index_slots_not_shared_witness :
    double_trie.Reachable first_key ∧
    ((∀ s1 s2, first_key.lhs.base s1 < 0 → first_key.lhs.base s1 = first_key.lhs.base s2 →
      s1 = s2) ∧
    (∀ s, first_key.lhs.base s < 0 →
      1 ≤ -first_key.lhs.base s ∧ -first_key.lhs.base s < first_key.next_index) ∧
    (∀ s, first_key.lhs.base s < 0 → -first_key.lhs.base s ∉ first_key.free_index) ∧
    (∀ s, first_key.lhs.base s ≥ 0 → ∃ i d1, first_key.find_index_entry s = .ok (i, d1) ∧
      (∀ x, first_key.lhs.base x ≠ -i) ∧ d1.lhs.base s = -i ∧
      ∀ x, x ≠ s → d1.lhs.base x = first_key.lhs.base x ∧ d1.lhs.base x ≠ -i)) :=
  ⟨first_key_reachable, index_slots_not_shared first_key first_key_reachable⟩

set_option maxRecDepth 1000000 in
/-- C35 on the code: after the inserts `"ab"`:1 and `"aabb"`:2 into the empty
two-trie the accept slot 0 holds 0 and the rear state 102 has no refer record;
after the further insert `"aaba"`:3 the accept slot 0 holds the rear state
102, and state 102 has a refer record whose `accept_index` is 0 (with no
referer), so `accept[index].accept` is 102, not 0, for an index record with
`index = 0`.  Slot 0 is not in the free list. -/
theorem clean_more_writes_accept_zero :
    (observed (insert_all [([97, 98], 1), ([97, 97, 98, 98], 2)] double_trie.init)).map
      (fun d => (d.accept 0, (d.refer 102).isSome)) = some (0, false) ∧
    (observed (insert_all [([97, 98], 1), ([97, 97, 98, 98], 2), ([97, 97, 98, 97], 3)]
      double_trie.init)).map
      (fun d => (d.accept 0, (d.refer 102).map (fun r => (r.accept_index, r.referer)),
        d.free_accept)) = some (102, some (0, []), [1]) := by
  decide

end libtrie
